import Mathlib

/-!
# Netpbm rasters: codecs and pixel transforms

A shallow embedding of the Go package `Netpbm` (`main.go`; `pbm.go` and `pgm.go` repeat the
bitmap and greymap parts of `main.go` verbatim).

Conventions of the embedding:

* a Go `string` or `[]byte` is a `List Nat` of byte values (`0 .. 255`);
* a Go `int` is an `Int` and its arithmetic is taken in ℤ, which is what the code computes as
  long as no operation leaves 64 bits; `PPM.DrawLine64` is `DrawLine` with every operation
  wrapped to 64 bits (`wrap64`); a `uint8` is a `Nat` with an explicit `% 256` wherever the Go
  arithmetic can wrap;
* a file is the list of its bytes: `Save` returns the bytes it writes, `ReadPBM`, `ReadPGM`
  and `ReadPPM` take the bytes of the file they open, so the I/O error returns of the Go
  functions do not arise;
* a function that can hit a Go run-time panic (index or slice out of range, `make` with a
  negative length) returns an `Option`, and `none` is the panic;
* the standard library is modelled from its documented behaviour: `bufio.Scanner` with its
  default buffer of 64 KiB, `fmt.Sscanf`, `strings.Fields`, `strings.TrimSpace` and
  `strconv.ParseUint` on bytes; white space is the Unicode white space of `unicode.IsSpace`,
  found by its UTF-8 encodings (`spaceRunes`);
* the loop `for { ... }` of `DrawLine` has no bound of its own: it is run for a number of
  passes given as `fuel`, and ends in a `Run` that tells a `break` from a panic and from
  the passes being used up;
* a `float64` is an `F64`, a significand of 53 bits and an exponent, and every operation
  rounds to nearest, ties to even, as IEEE 754 prescribes;
* running out of memory is not modelled.
-/

namespace Netpbm

/-! ## Text helpers of the Go standard library -/

/-- The decimal digits `'0' .. '9'`. -/
def isDigit (c : Nat) : Bool :=
  decide (48 ≤ c) && decide (c ≤ 57)

/-- The UTF-8 encodings of the runes that `unicode.IsSpace` accepts, which are also the runes
of the table `space` of `fmt`: the six ASCII ones, U+0085, U+00A0, U+1680, U+2000 .. U+200A,
U+2028, U+2029, U+202F, U+205F and U+3000. Each encoding starts with a byte that is no
continuation byte and goes on with continuation bytes only, so none of them begins or ends
another one, and none can start inside the encoding of another rune. -/
def spaceRunes : List (List Nat) :=
  [[9], [10], [11], [12], [13], [32], [194, 133], [194, 160], [225, 154, 128],
    [226, 128, 128], [226, 128, 129], [226, 128, 130], [226, 128, 131], [226, 128, 132],
    [226, 128, 133], [226, 128, 134], [226, 128, 135], [226, 128, 136], [226, 128, 137],
    [226, 128, 138], [226, 128, 168], [226, 128, 169], [226, 128, 175], [226, 129, 159],
    [227, 128, 128]]

/-- Number of bytes of the white-space rune that `s` begins with, and `0` when `s` begins with
no white space (bytes that are not valid UTF-8 decode to U+FFFD, which is none). -/
def spaceWidth (s : List Nat) : Nat :=
  match spaceRunes.find? (fun r => r.isPrefixOf s) with
  | some r => r.length
  | none => 0

/-- Number of bytes of the white-space rune that a string ends with (`utf8.DecodeLastRune`),
read off the reversed string `r`; `0` when it ends with no white space. -/
def spaceWidthLast (r : List Nat) : Nat :=
  match spaceRunes.find? (fun e => e.reverse.isPrefixOf r) with
  | some e => e.length
  | none => 0

/-- Drops runes from the head of a string for as long as `width` finds one there; `skip`
counts the bytes of the rune being dropped that are still to go. -/
def dropRunes (width : List Nat → Nat) : Nat → List Nat → List Nat
  | _, [] => []
  | skip + 1, _ :: rest => dropRunes width skip rest
  | 0, c :: rest =>
    if width (c :: rest) = 0 then c :: rest
    else dropRunes width (width (c :: rest) - 1) rest

/-- Go `strings.TrimSpace`: the string without its leading and trailing white space. -/
def TrimSpace (s : List Nat) : List Nat :=
  (dropRunes spaceWidthLast 0 (dropRunes spaceWidth 0 s).reverse).reverse

/-- Go `strings.HasPrefix(text, "#")`. -/
def startsWithHash (text : List Nat) : Bool :=
  text.head? == some 35

/-- Worker of `Fields`: `cur` is the field being collected, `skip` counts the bytes of the
current white-space rune that are still to go. -/
def fieldsAux : Nat → List Nat → List Nat → List (List Nat)
  | _, [], cur => if cur = [] then [] else [cur]
  | skip + 1, _ :: rest, cur => fieldsAux skip rest cur
  | 0, c :: rest, cur =>
    if spaceWidth (c :: rest) = 0 then fieldsAux 0 rest (cur ++ [c])
    else if cur = [] then fieldsAux (spaceWidth (c :: rest) - 1) rest []
    else cur :: fieldsAux (spaceWidth (c :: rest) - 1) rest []

/-- Go `strings.Fields`: the maximal runs of runes that are not white space. -/
def Fields (s : List Nat) : List (List Nat) :=
  fieldsAux 0 s []

/-- Worker of `formatNat`: peels the decimal digits off `n`, least significant first. -/
def formatNatAux : Nat → Nat → List Nat → List Nat
  | 0, _, acc => acc
  | fuel + 1, n, acc =>
    if n / 10 = 0 then (48 + n % 10) :: acc
    else formatNatAux fuel (n / 10) ((48 + n % 10) :: acc)

/-- The decimal text of a natural number (`strconv.Itoa`, `%d`), without leading zeros. -/
def formatNat (n : Nat) : List Nat :=
  formatNatAux (n + 1) n []

/-- The verb `%d` of `fmt` applied to an `int`. -/
def formatInt (n : Int) : List Nat :=
  if n < 0 then 45 :: formatNat n.natAbs else formatNat n.toNat

/-- The value of a string of decimal digits. -/
def parseDec (ds : List Nat) : Nat :=
  ds.foldl (fun acc c => acc * 10 + (c - 48)) 0

/-- Loop of `strconv.ParseUint(s, 10, 8)` with its error dropped: a byte that is not a digit
gives `0` (syntax error), a value above `255` gives `255` (range error) as soon as it is
reached. -/
def parseUint8Loop : List Nat → Nat → Nat
  | [], n => n
  | c :: rest, n =>
    if isDigit c then
      (if n * 10 + (c - 48) > 255 then 255 else parseUint8Loop rest (n * 10 + (c - 48)))
    else 0

/-- The call `num, _ := strconv.ParseUint(s, 10, 8)`; the empty string is a syntax error. -/
def ParseUint8 (s : List Nat) : Nat :=
  parseUint8Loop s 0

/-- The verb `%d` of `fmt.Sscanf` for an `int` operand: skip white space, accept one sign, read
a non-empty run of digits, and fail when the value does not fit 64 bits. Returns the value and
the input that is left, or `none` when the scan fails (the operand is then not stored). -/
def scanInt (input : List Nat) : Option (Int × List Nat) :=
  let s := dropRunes spaceWidth 0 input
  let negative : Bool := s.head? == some 45
  let t := if s.head? = some 45 ∨ s.head? = some 43 then s.tail else s
  let ds := t.takeWhile isDigit
  if ds = [] then none
  else
    let v : Int := if negative then -(parseDec ds : Int) else (parseDec ds : Int)
    if -(2 : Int) ^ 63 ≤ v ∧ v < (2 : Int) ^ 63 then some (v, t.dropWhile isDigit)
    else none

/-- The verb `%d` of `fmt.Sscanf` for a `uint8` operand: no sign, and the value must be below
`256`. -/
def scanUint8 (input : List Nat) : Option (Nat × List Nat) :=
  let s := dropRunes spaceWidth 0 input
  let ds := s.takeWhile isDigit
  if ds = [] then none
  else if parseDec ds < 256 then some (parseDec ds, s.dropWhile isDigit)
  else none

/-- The call `fmt.Sscanf(text, "%d %d", &w, &h)` with its results dropped: each operand is
stored when its scan succeeds, and the scan stops at the first failure. The blank of the
format asks for white space or the end of the input. -/
def sscanfDims (text : List Nat) (w h : Int) : Int × Int :=
  match scanInt text with
  | none => (w, h)
  | some (w', rest) =>
    if spaceWidth rest = 0 then (w', h)
    else
      match scanInt rest with
      | none => (w', h)
      | some (h', _) => (w', h')

/-- The call `fmt.Sscanf(text, "%d", &max)` for a `uint8`, with its results dropped. -/
def sscanfMax (text : List Nat) (max : Nat) : Nat :=
  match scanUint8 text with
  | none => max
  | some (m, _) => m

/-! ## `bufio.Scanner` with the default line splitter -/

/-- Go `bufio.MaxScanTokenSize`: the size the scanner's buffer may grow to. -/
def MaxScanTokenSize : Nat := 64 * 1024

/-- The helper `dropCR` of `bufio.ScanLines`: one trailing `\r` is dropped. -/
def dropCR (l : List Nat) : List Nat :=
  if l.getLast? = some 13 then l.dropLast else l

/-- Worker of `scanLines`: `cur` holds the bytes of the line read so far. -/
def scanLinesAux : List Nat → List Nat → List (List Nat)
  | [], cur =>
    if cur = [] then []
    else if cur.length < MaxScanTokenSize then [dropCR cur] else []
  | c :: rest, cur =>
    if c = 10 then
      (if cur.length < MaxScanTokenSize then dropCR cur :: scanLinesAux rest [] else [])
    else scanLinesAux rest (cur ++ [c])

/-- The texts that the loop `for scanner.Scan() { text := scanner.Text() ... }` sees for a
scanner made by `bufio.NewScanner`: the lines of the input without their `\n` (and without a
`\r` before it), a last line without `\n` when it is not empty. A line of `MaxScanTokenSize`
bytes or more does not fit the buffer: `Scan` then returns `false` (the error `ErrTooLong`
stays in `scanner.Err()`, which the readers never look at), so the lines end there. -/
def scanLines (input : List Nat) : List (List Nat) :=
  scanLinesAux input []

/-! ## Loops -/

/-- The loop `for i := 0; i < n; i++ { s = body i s }`, stopped by a panic of the body. -/
def forRange {σ : Type} (n : Nat) (body : Nat → σ → Option σ) (s : σ) : Option σ :=
  (List.range n).foldlM (fun acc i => body i acc) s

/-- What one pass of a reader's loop body over a scanned line does. -/
inductive Step (σ : Type) where
  /-- the body ended or hit `continue` -/
  | next (s : σ)
  /-- the body hit `break` -/
  | stop (s : σ)
  /-- the body panicked -/
  | panic

/-- The loop `for scanner.Scan() { ... }` over the scanned lines. -/
def runLines {σ : Type} (body : σ → List Nat → Step σ) : σ → List (List Nat) → Option σ
  | s, [] => some s
  | s, text :: rest =>
    match body s text with
    | .next s' => runLines body s' rest
    | .stop s' => some s'
    | .panic => none

/-- The passes of a reader's loop over the lines `lines` when every pass ends normally or hits
`continue`: the state after the last of them, and `none` as soon as a pass hits `break` or
panics. -/
def passLines {σ : Type} (body : σ → List Nat → Step σ) : σ → List (List Nat) → Option σ
  | s, [] => some s
  | s, text :: rest =>
    match body s text with
    | .next s' => passLines body s' rest
    | .stop _ => none
    | .panic => none

/-- The assignment `data[y][x] = v` on a slice of slices. -/
def setAt {α : Type} (data : List (List α)) (y x : Nat) (v : α) : Option (List (List α)) :=
  match data[y]? with
  | none => none
  | some row => if x < row.length then some (data.set y (row.set x v)) else none

/-- The cell in row `r` and column `c` of a grid, `data[r][c]`; `none` is the index panic. -/
def cell {α : Type} (data : List (List α)) (r c : Nat) : Option α :=
  match data[r]? with
  | none => none
  | some row => row[c]?

/-- The output pattern shared by the ASCII writers: every element is written, followed by
`sep` unless its index is `len(xs) - 1`. -/
def writeSeparatedFrom {α : Type} (sep : List Nat) (item : α → List Nat) (len : Nat) :
    Nat → List α → List Nat
  | _, [] => []
  | i, x :: rest =>
    item x ++ (if (i : Int) = (len : Int) - 1 then [] else sep) ++
      writeSeparatedFrom sep item len (i + 1) rest

/-- The loop `for i, x := range xs { write(item x); if i != len(xs)-1 { write(sep) } }`. -/
def writeSeparated {α : Type} (sep : List Nat) (item : α → List Nat) (xs : List α) : List Nat :=
  writeSeparatedFrom sep item xs.length 0 xs

/-! ## Bitmaps -/

/-- The magic number `"P1"`. -/
def magicP1 : List Nat := [80, 49]
/-- The magic number `"P2"`. -/
def magicP2 : List Nat := [80, 50]
/-- The magic number `"P3"`. -/
def magicP3 : List Nat := [80, 51]
/-- The magic number `"P4"`. -/
def magicP4 : List Nat := [80, 52]
/-- The magic number `"P5"`. -/
def magicP5 : List Nat := [80, 53]
/-- The magic number `"P6"`. -/
def magicP6 : List Nat := [80, 54]

/-- Go `type PBM struct`. -/
structure PBM where
  data : List (List Bool)
  width : Int
  height : Int
  magicNumber : List Nat
  deriving DecidableEq

/-- The data invariant of a bitmap: `height` rows of `width` pixels each, `width` not negative. -/
def PBM.WellFormed (pbm : PBM) : Prop :=
  (pbm.data.length : Int) = pbm.height ∧ 0 ≤ pbm.width ∧
    ∀ row ∈ pbm.data, (row.length : Int) = pbm.width

instance (pbm : PBM) : Decidable pbm.WellFormed := by
  unfold PBM.WellFormed; infer_instance

/-- The inner loop of the `P4` branch of `PBM.Save`:
`for i := 0; i < 8 && x+i < width; i++ { if row[x+i] { byteValue |= 1 << (7-i) } }`.
The bound `x+i < width` only grows false, so it is tested per `i`. -/
def packByte (row : List Bool) (width : Int) (x : Nat) : Option Nat :=
  forRange 8 (fun i byteValue =>
    if ((x + i : Nat) : Int) < width then
      (match row[x + i]? with
       | none => none
       | some pixel => some (if pixel then byteValue ||| (1 <<< (7 - i)) else byteValue))
    else some byteValue) 0

/-- The loop `for x := 0; x < width; x += 8 { ... file.Write([]byte{byteValue}) }` over one
row: the bytes written for the row. -/
def packRow (width : Int) (row : List Bool) : Option (List Nat) :=
  (List.range ((width + 7) / 8).toNat).mapM (fun k => packByte row width (8 * k))

/-- The token `PBM.Save` writes for one pixel in the `P1` branch: `"1"` or `"0"`. -/
def bitText (pixel : Bool) : List Nat :=
  if pixel then [49] else [48]

/-- The two header lines `PBM.Save` writes. -/
def PBM.header (pbm : PBM) : List Nat :=
  pbm.magicNumber ++ [10] ++ (formatInt pbm.width ++ [32] ++ formatInt pbm.height ++ [10])

/-- The pixel bytes `PBM.Save` writes after the header. -/
def PBM.payload (pbm : PBM) : Option (List Nat) :=
  if pbm.magicNumber = magicP1 then
    some (writeSeparated [10] (writeSeparated [32] bitText) pbm.data)
  else if pbm.magicNumber = magicP4 then
    (pbm.data.mapM (packRow pbm.width)).map List.flatten
  else some []

/-- Go `(*PBM).Save`: the bytes of the file it writes. -/
def PBM.Save (pbm : PBM) : Option (List Nat) :=
  pbm.payload.map (fun body => pbm.header ++ body)

/-- The loop `for i := 0; i < width; i++ { data[line][i] = (test[i] == "1") }`. -/
def PBM.readRowP1 (width : Int) (line : Nat) (test : List (List Nat))
    (data : List (List Bool)) : Option (List (List Bool)) :=
  forRange width.toNat (fun i d =>
    match test[i]? with
    | none => none
    | some tok => setAt d line i (decide (tok = [49]))) data

/-- The pixel loops of the `P4` branch of `ReadPBM`; the state is `data` and `byteIndex`. -/
def PBM.unpackP4 (width height : Int) (allPixelData : List Nat) (data : List (List Bool)) :
    Option (List (List Bool) × Nat) :=
  forRange height.toNat (fun y st =>
    (forRange width.toNat (fun x st' =>
      let byteIndex := if x % 8 = 0 ∧ x ≠ 0 then st'.2 + 1 else st'.2
      match allPixelData[byteIndex]? with
      | none => none
      | some b =>
        (setAt st'.1 y x (decide ((b >>> (7 - x % 8)) &&& 1 ≠ 0))).map
          (fun d => (d, byteIndex))) st).map
      (fun st' => (st'.1, st'.2 + 1))) (data, 0)

/-- The body of the loop of `ReadPBM` for one scanned line; the state is the bitmap under
construction and the counter `line`. `fileContent` is what `os.ReadFile` returns. -/
def PBM.readLine (fileContent : List Nat) (st : PBM × Nat) (text : List Nat) :
    Step (PBM × Nat) :=
  let pbm := st.1
  let line := st.2
  if text = [] ∨ startsWithHash text = true then .next st
  else if pbm.magicNumber = [] then
    .next ({ pbm with magicNumber := TrimSpace text }, line)
  else if pbm.width = 0 then
    let wh := sscanfDims text pbm.width pbm.height
    if wh.2 < 0 ∨ (0 < wh.2 ∧ wh.1 < 0) then .panic
    else
      .next ({ pbm with
                width := wh.1, height := wh.2,
                data := List.replicate wh.2.toNat (List.replicate wh.1.toNat false) }, line)
  else if pbm.magicNumber = magicP1 then
    match PBM.readRowP1 pbm.width line (Fields text) pbm.data with
    | none => .panic
    | some d => .next ({ pbm with data := d }, line + 1)
  else if pbm.magicNumber = magicP4 then
    let expectedBytesPerRow := (pbm.width + 7).tdiv 8
    let totalExpectedBytes := expectedBytesPerRow * pbm.height
    if totalExpectedBytes < 0 ∨ (fileContent.length : Int) < totalExpectedBytes then .panic
    else
      let allPixelData := fileContent.drop (fileContent.length - totalExpectedBytes.toNat)
      match PBM.unpackP4 pbm.width pbm.height allPixelData pbm.data with
      | none => .panic
      | some r => .stop ({ pbm with data := r.1 }, line)
  else .next st

/-- Go `ReadPBM`, on the bytes of the file. -/
def ReadPBM (fileContent : List Nat) : Option PBM :=
  (runLines (PBM.readLine fileContent)
    ({ data := [], width := 0, height := 0, magicNumber := [] }, 0)
    (scanLines fileContent)).map Prod.fst

/-- The loop `cursor := n - 1; for i := 0; i < n/2; i++ { xs[i], xs[cursor] = xs[cursor], xs[i];
cursor-- }` shared by `Flip` (on a row, `n` the width) and `Flop` (on the rows, `n` the
height). `n/2` is Go's truncating division. -/
def swapLoop {α : Type} (n : Int) (xs : List α) : Option (List α) :=
  forRange (n.tdiv 2).toNat (fun i ys =>
    let cursor := (n - 1 - (i : Int)).toNat
    match ys[i]?, ys[cursor]? with
    | some a, some b => some ((ys.set i b).set cursor a)
    | _, _ => none) xs

/-- The loops of `Rotate90CW`: `rotatedData[i][j] = data[height-1-j][i]` for `i < width` and
`j < height`, written into a fresh grid of `width` rows of `height` cells. `make` panics on a
negative length. -/
def rotateGrid {α : Type} (width height : Int) (data : List (List α)) :
    Option (List (List α)) :=
  if width < 0 ∨ (0 < width ∧ height < 0) then none
  else
    (List.range width.toNat).mapM (fun (i : Nat) =>
      (List.range height.toNat).mapM (fun (j : Nat) =>
        match data[(height - 1 - (j : Int)).toNat]? with
        | none => none
        | some row => row[i]?))

/-- Go `(*PBM).Invert`. -/
def PBM.Invert (pbm : PBM) : PBM :=
  { pbm with data := pbm.data.map (fun row => row.map (fun pixel => !pixel)) }

/-- Go `(*PBM).Flip`. -/
def PBM.Flip (pbm : PBM) : Option PBM :=
  (pbm.data.mapM (swapLoop pbm.width)).map (fun d => { pbm with data := d })

/-- Go `(*PBM).Flop`. -/
def PBM.Flop (pbm : PBM) : Option PBM :=
  (swapLoop pbm.height pbm.data).map (fun d => { pbm with data := d })

/-! ## Greymaps -/

/-- Subtraction of two `uint8` values, wrapping around. -/
def subU8 (a b : Nat) : Nat :=
  (a + 256 - b) % 256

/-- Go `type PGM struct`. -/
structure PGM where
  data : List (List Nat)
  width : Int
  height : Int
  magicNumber : List Nat
  max : Nat
  deriving DecidableEq

/-- The data invariant of a greymap: `height` rows of `width` samples each, `width` not
negative. -/
def PGM.WellFormed (pgm : PGM) : Prop :=
  (pgm.data.length : Int) = pgm.height ∧ 0 ≤ pgm.width ∧
    ∀ row ∈ pgm.data, (row.length : Int) = pgm.width

/-- The fields typed `uint8` hold bytes. -/
def PGM.IsU8 (pgm : PGM) : Prop :=
  pgm.max < 256 ∧ ∀ row ∈ pgm.data, ∀ v ∈ row, v < 256

instance (pgm : PGM) : Decidable pgm.WellFormed := by
  unfold PGM.WellFormed; infer_instance

instance (pgm : PGM) : Decidable pgm.IsU8 := by
  unfold PGM.IsU8; infer_instance

/-- The three header lines `PGM.Save` writes. -/
def PGM.header (pgm : PGM) : List Nat :=
  pgm.magicNumber ++ [10] ++ (formatInt pgm.width ++ [32] ++ formatInt pgm.height ++ [10]) ++
    (formatNat pgm.max ++ [10])

/-- The pixel bytes `PGM.Save` writes after the header. -/
def PGM.payload (pgm : PGM) : List Nat :=
  if pgm.magicNumber = magicP2 then
    writeSeparated [10] (writeSeparated [32] (fun pixel : Nat => formatNat pixel)) pgm.data
  else if pgm.magicNumber = magicP5 then
    (pgm.data.map (fun row => (row.map (fun pixel => [pixel])).flatten)).flatten
  else []

/-- Go `(*PGM).Save`: the bytes of the file it writes. -/
def PGM.Save (pgm : PGM) : List Nat :=
  pgm.header ++ pgm.payload

/-- The loop `for i := 0; i < width; i++ { num, _ := strconv.ParseUint(val[i], 10, 8);
data[line][i] = uint8(num) }`. -/
def PGM.readRowP2 (width : Int) (line : Nat) (val : List (List Nat))
    (data : List (List Nat)) : Option (List (List Nat)) :=
  forRange width.toNat (fun i d =>
    match val[i]? with
    | none => none
    | some tok => setAt d line i (ParseUint8 tok)) data

/-- The pixel loops of the `P5` branch of `ReadPGM`; the state is `data` and `pixelIndex`. -/
def PGM.unpackP5 (width height : Int) (pixelData : List Nat) (data : List (List Nat)) :
    Option (List (List Nat) × Nat) :=
  forRange height.toNat (fun y st =>
    forRange width.toNat (fun x st' =>
      match pixelData[st'.2]? with
      | none => none
      | some b => (setAt st'.1 y x b).map (fun d => (d, st'.2 + 1))) st) (data, 0)

/-- The body of the loop of `ReadPGM` for one scanned line; the state is the greymap under
construction and the counter `line`. `fileContent` is what `os.ReadFile` returns. -/
def PGM.readLine (fileContent : List Nat) (st : PGM × Nat) (text : List Nat) :
    Step (PGM × Nat) :=
  let pgm := st.1
  let line := st.2
  if startsWithHash text = true then .next st
  else if pgm.magicNumber = [] then
    .next ({ pgm with magicNumber := TrimSpace text }, line)
  else if pgm.width = 0 then
    let wh := sscanfDims text pgm.width pgm.height
    if wh.2 < 0 ∨ (0 < wh.2 ∧ wh.1 < 0) then .panic
    else
      .next ({ pgm with
                width := wh.1, height := wh.2,
                data := List.replicate wh.2.toNat (List.replicate wh.1.toNat 0) }, line)
  else if pgm.max = 0 then
    .next ({ pgm with max := sscanfMax text pgm.max }, line)
  else if pgm.magicNumber = magicP2 then
    match PGM.readRowP2 pgm.width line (Fields text) pgm.data with
    | none => .panic
    | some d => .next ({ pgm with data := d }, line + 1)
  else if pgm.magicNumber = magicP5 then
    let total := pgm.width * pgm.height
    if total < 0 ∨ (fileContent.length : Int) < total then .panic
    else
      let pixelData := fileContent.drop (fileContent.length - total.toNat)
      match PGM.unpackP5 pgm.width pgm.height pixelData pgm.data with
      | none => .panic
      | some r => .stop ({ pgm with data := r.1 }, line)
  else .next st

/-- Go `ReadPGM`, on the bytes of the file. -/
def ReadPGM (fileContent : List Nat) : Option PGM :=
  (runLines (PGM.readLine fileContent)
    ({ data := [], width := 0, height := 0, magicNumber := [], max := 0 }, 0)
    (scanLines fileContent)).map Prod.fst

/-- Go `(*PGM).At`. -/
def PGM.At (pgm : PGM) (x y : Nat) : Option Nat :=
  cell pgm.data y x

/-- Go `(*PGM).Invert`: `data[y][x] = max - data[y][x]` in `uint8`. -/
def PGM.Invert (pgm : PGM) : PGM :=
  { pgm with data := pgm.data.map (fun row => row.map (fun v => subU8 pgm.max v)) }

/-- Go `(*PGM).Flip`. -/
def PGM.Flip (pgm : PGM) : Option PGM :=
  (pgm.data.mapM (swapLoop pgm.width)).map (fun d => { pgm with data := d })

/-- Go `(*PGM).Flop`. -/
def PGM.Flop (pgm : PGM) : Option PGM :=
  (swapLoop pgm.height pgm.data).map (fun d => { pgm with data := d })

/-- Go `(*PGM).Rotate90CW`. -/
def PGM.Rotate90CW (pgm : PGM) : Option PGM :=
  (rotateGrid pgm.width pgm.height pgm.data).map
    (fun d => { pgm with width := pgm.height, height := pgm.width, data := d })

/-! ## Pixmaps -/

/-- Go `type Pixel struct`. -/
structure Pixel where
  R : Nat
  G : Nat
  B : Nat
  deriving DecidableEq

/-- Go `type PPM struct`. -/
structure PPM where
  data : List (List Pixel)
  width : Int
  height : Int
  magicNumber : List Nat
  max : Nat
  deriving DecidableEq

/-- The data invariant of a pixmap: `height` rows of `width` pixels each, `width` not negative. -/
def PPM.WellFormed (ppm : PPM) : Prop :=
  (ppm.data.length : Int) = ppm.height ∧ 0 ≤ ppm.width ∧
    ∀ row ∈ ppm.data, (row.length : Int) = ppm.width

/-- The fields typed `uint8` hold bytes. -/
def PPM.IsU8 (ppm : PPM) : Prop :=
  ppm.max < 256 ∧ ∀ row ∈ ppm.data, ∀ p ∈ row, p.R < 256 ∧ p.G < 256 ∧ p.B < 256

instance (ppm : PPM) : Decidable ppm.WellFormed := by
  unfold PPM.WellFormed; infer_instance

instance (ppm : PPM) : Decidable ppm.IsU8 := by
  unfold PPM.IsU8; infer_instance

/-- The three header lines `PPM.Save` writes. -/
def PPM.header (ppm : PPM) : List Nat :=
  ppm.magicNumber ++ [10] ++ (formatInt ppm.width ++ [32] ++ formatInt ppm.height ++ [10]) ++
    (formatNat ppm.max ++ [10])

/-- The text `"%d %d %d"` of one pixel. -/
def Pixel.text (p : Pixel) : List Nat :=
  formatNat p.R ++ [32] ++ formatNat p.G ++ [32] ++ formatNat p.B

/-- The pixel bytes `PPM.Save` writes after the header. -/
def PPM.payload (ppm : PPM) : List Nat :=
  if ppm.magicNumber = magicP3 then
    writeSeparated [10] (writeSeparated [32] Pixel.text) ppm.data
  else if ppm.magicNumber = magicP6 then
    (ppm.data.map (fun row => (row.map (fun p => [p.R, p.G, p.B])).flatten)).flatten
  else []

/-- Go `(*PPM).Save`: the bytes of the file it writes. -/
def PPM.Save (ppm : PPM) : List Nat :=
  ppm.header ++ ppm.payload

/-- The loop over `i < width` of the `P3` branch of `ReadPPM`, which reads the fields
`val[i*3]`, `val[i*3+1]` and `val[i*3+2]`. -/
def PPM.readRowP3 (width : Int) (line : Nat) (val : List (List Nat))
    (data : List (List Pixel)) : Option (List (List Pixel)) :=
  forRange width.toNat (fun i d =>
    match val[i * 3]?, val[i * 3 + 1]?, val[i * 3 + 2]? with
    | some r, some g, some b =>
      setAt d line i { R := ParseUint8 r, G := ParseUint8 g, B := ParseUint8 b }
    | _, _, _ => none) data

/-- The pixel loops of the `P6` branch of `ReadPPM`; the state is `data` and `pixelIndex`. -/
def PPM.unpackP6 (width height : Int) (pixelData : List Nat) (data : List (List Pixel)) :
    Option (List (List Pixel) × Nat) :=
  forRange height.toNat (fun y st =>
    forRange width.toNat (fun x st' =>
      match pixelData[st'.2]?, pixelData[st'.2 + 1]?, pixelData[st'.2 + 2]? with
      | some r, some g, some b =>
        (setAt st'.1 y x { R := r, G := g, B := b }).map (fun d => (d, st'.2 + 3))
      | _, _, _ => none) st) (data, 0)

/-- The body of the loop of `ReadPPM` for one scanned line; the state is the pixmap under
construction and the counter `line`. `fileContent` is what `os.ReadFile` returns. -/
def PPM.readLine (fileContent : List Nat) (st : PPM × Nat) (text : List Nat) :
    Step (PPM × Nat) :=
  let ppm := st.1
  let line := st.2
  if startsWithHash text = true then .next st
  else if ppm.magicNumber = [] then
    .next ({ ppm with magicNumber := TrimSpace text }, line)
  else if ppm.width = 0 then
    let wh := sscanfDims text ppm.width ppm.height
    if wh.2 < 0 ∨ (0 < wh.2 ∧ wh.1 < 0) then .panic
    else
      .next ({ ppm with
                width := wh.1, height := wh.2,
                data := List.replicate wh.2.toNat
                  (List.replicate wh.1.toNat { R := 0, G := 0, B := 0 }) }, line)
  else if ppm.max = 0 then
    .next ({ ppm with max := sscanfMax text ppm.max }, line)
  else if ppm.magicNumber = magicP3 then
    match PPM.readRowP3 ppm.width line (Fields text) ppm.data with
    | none => .panic
    | some d => .next ({ ppm with data := d }, line + 1)
  else if ppm.magicNumber = magicP6 then
    let total := ppm.width * ppm.height * 3
    if total < 0 ∨ (fileContent.length : Int) < total then .panic
    else
      let pixelData := fileContent.drop (fileContent.length - total.toNat)
      match PPM.unpackP6 ppm.width ppm.height pixelData ppm.data with
      | none => .panic
      | some r => .stop ({ ppm with data := r.1 }, line)
  else .next st

/-- Go `ReadPPM`, on the bytes of the file. -/
def ReadPPM (fileContent : List Nat) : Option PPM :=
  (runLines (PPM.readLine fileContent)
    ({ data := [], width := 0, height := 0, magicNumber := [], max := 0 }, 0)
    (scanLines fileContent)).map Prod.fst

/-- Go `(*PPM).At`. -/
def PPM.At (ppm : PPM) (x y : Nat) : Option Pixel :=
  cell ppm.data y x

/-- Go `(*PPM).Invert`: every channel `c` becomes `255 - c`. -/
def PPM.Invert (ppm : PPM) : PPM :=
  { ppm with
    data := ppm.data.map (fun row =>
      row.map (fun p => { R := subU8 255 p.R, G := subU8 255 p.G, B := subU8 255 p.B })) }

/-- Go `(*PPM).Flip`. -/
def PPM.Flip (ppm : PPM) : Option PPM :=
  (ppm.data.mapM (swapLoop ppm.width)).map (fun d => { ppm with data := d })

/-- Go `(*PPM).Flop`. -/
def PPM.Flop (ppm : PPM) : Option PPM :=
  (swapLoop ppm.height ppm.data).map (fun d => { ppm with data := d })

/-- Go `(*PPM).Rotate90CW`. -/
def PPM.Rotate90CW (ppm : PPM) : Option PPM :=
  (rotateGrid ppm.width ppm.height ppm.data).map
    (fun d => { ppm with width := ppm.height, height := ppm.width, data := d })

/-! ## Sample rasters -/

/-- A 2 x 2 greymap with four different samples. -/
def sampleGrey : PGM :=
  { data := [[1, 2], [3, 4]], width := 2, height := 2, magicNumber := magicP2, max := 255 }

/-- A 3 x 2 greymap (three columns, two rows). -/
def sampleGreyWide : PGM :=
  { data := [[1, 2, 3], [4, 5, 6]], width := 3, height := 2, magicNumber := magicP5, max := 9 }

/-- A 2 x 2 pixmap. -/
def samplePix : PPM :=
  { data := [[⟨1, 2, 3⟩, ⟨4, 5, 6⟩], [⟨10, 20, 30⟩, ⟨40, 50, 255⟩]],
    width := 2, height := 2, magicNumber := magicP3, max := 255 }

/-- A 3 x 1 bitmap. -/
def sampleBits : PBM :=
  { data := [[true, false, false]], width := 3, height := 1, magicNumber := magicP1 }

/-- The byte whose bit `7 - i` is `b i`, for `i` from 0 to 7: what the inner loop of the `P4`
branch of `PBM.Save` builds from the eight pixels `b`. -/
def bitsByte (b : Nat → Bool) : Nat :=
  (List.range 8).foldl (fun acc i => if b i then acc ||| (1 <<< (7 - i)) else acc) 0

/-- The row of the packing example: ten pixels. -/
def samplePackedRow : PBM :=
  { data := [[true, false, true, true, false, false, false, false, false, true]],
    width := 10, height := 1, magicNumber := magicP4 }

/-- The decimal values of one row in the order the ASCII pixmap layout lists them: the R, G
and B value of each pixel in turn. -/
def PPM.rowValues (row : List Pixel) : List (List Nat) :=
  row.flatMap (fun p => [formatNat p.R, formatNat p.G, formatNat p.B])

/-- The text of every row in the ASCII pixmap layout: its values joined by single blanks. -/
def PPM.asciiRows (ppm : PPM) : List (List Nat) :=
  ppm.data.map (fun row => List.intercalate [32] (PPM.rowValues row))

/-- The file of the ASCII pixmap layout: the lines `P3`, `width height` and `max`, each ended
by a newline, then the rows joined by single newlines. -/
def PPM.asciiLayout (ppm : PPM) : List Nat :=
  magicP3 ++ [10] ++ (formatInt ppm.width ++ [32] ++ formatInt ppm.height ++ [10]) ++
    (formatNat ppm.max ++ [10]) ++ List.intercalate [10] ppm.asciiRows

/-- A bitmap of one row of 32769 set pixels: its `P1` row has 65537 bytes. -/
def wideBits : PBM :=
  { data := [List.replicate 32769 true], width := 32769, height := 1, magicNumber := magicP1 }

/-- A greymap of one row of 16385 samples 255: its `P2` row has 65539 bytes. -/
def wideGrey : PGM :=
  { data := [List.replicate 16385 255], width := 16385, height := 1, magicNumber := magicP2,
    max := 255 }

/-- A 1 x 1 binary greymap whose only sample is 35, the byte `#`. -/
def hashGrey : PGM :=
  { data := [[35]], width := 1, height := 1, magicNumber := magicP5, max := 255 }

/-- An 8 x 1 binary bitmap whose row packs to the byte `0x23`, that is `#`. -/
def hashBits : PBM :=
  { data := [[false, false, true, false, false, false, true, true]], width := 8, height := 1,
    magicNumber := magicP4 }

/-- An 8 x 1 binary bitmap whose row packs to the byte `0x0A`, a newline. -/
def newlineBits : PBM :=
  { data := [[false, false, false, false, true, false, true, false]], width := 8, height := 1,
    magicNumber := magicP4 }

/-- A 1 x 1 binary pixmap whose red channel is 35, the byte `#`. -/
def hashPix : PPM :=
  { data := [[⟨35, 0, 0⟩]], width := 1, height := 1, magicNumber := magicP6, max := 255 }

/-! ## Conversions between the kinds -/

/-- Go `(*PGM).ToPBM`. The bitmap gets `height` rows (`make`); the row of every row `y` of the
greymap is replaced by a fresh row of `width` pixels, of which the first `len(row)` are set to
`grayValue < max/2`. The index panics when the greymap has more than `height` rows or a row
has more than `width` samples, `make` panics on a negative length. -/
def PGM.ToPBM (pgm : PGM) : Option PBM :=
  if pgm.height < 0 ∨ pgm.height < (pgm.data.length : Int) then none
  else
    (pgm.data.mapM (fun row =>
      if pgm.width < 0 ∨ pgm.width < (row.length : Int) then none
      else some (row.map (fun grayValue => decide (grayValue < pgm.max / 2)) ++
        List.replicate (pgm.width.toNat - row.length) false))).map
      (fun rows =>
        { magicNumber := magicP1, height := pgm.height, width := pgm.width,
          data := rows ++ List.replicate (pgm.height.toNat - pgm.data.length) [] })

/-- The integer mean `uint8((int(r)+int(g)+int(b))/3)` of the three channels of a pixel. -/
def Pixel.mean (p : Pixel) : Nat :=
  ((p.R + p.G + p.B) / 3) % 256

/-- Go `(*PPM).ToPBM`: the rows are built with `append`, one pixel per pixel. -/
def PPM.ToPBM (ppm : PPM) : PBM :=
  { magicNumber := magicP1, height := ppm.height, width := ppm.width,
    data := ppm.data.map (fun row => row.map (fun p => decide (p.mean < ppm.max / 2))) }

/-- Go `(*PPM).ToPGM`: the rows are built with `append`, one sample per pixel. -/
def PPM.ToPGM (ppm : PPM) : PGM :=
  { magicNumber := magicP2, height := ppm.height, width := ppm.width, max := ppm.max,
    data := ppm.data.map (fun row => row.map Pixel.mean) }

/-! ## Lines -/

/-- Go `type Point struct`. -/
structure Point where
  X : Int
  Y : Int
  deriving DecidableEq

/-- Go `abs`, in ℤ. -/
def abs (x : Int) : Int :=
  if x < 0 then -x else x

/-- Go `sign`. -/
def sign (x : Int) : Int :=
  if x > 0 then 1 else if x < 0 then -1 else 0

/-- Go `isWithinBounds`. -/
def isWithinBounds (x y width height : Int) : Bool :=
  decide (x ≥ 0) && decide (x < width) && decide (y ≥ 0) && decide (y < height)

/-- The assignment `data[y][x] = v` with `int` indices: a negative index panics too. -/
def setAtInt {α : Type} (data : List (List α)) (y x : Int) (v : α) : Option (List (List α)) :=
  if y < 0 ∨ x < 0 then none else setAt data y.toNat x.toNat v

/-- How a loop without a bound of its own ends in the model. -/
inductive Run (α : Type) where
  /-- the loop reached its `break` with this state -/
  | done (a : α)
  /-- a run-time panic -/
  | panic
  /-- the passes allowed to the model were used up before the loop ended -/
  | outOfFuel
  deriving DecidableEq

/-- The loop `for { ... }` of `DrawLine`, run for at most `fuel` passes, with the arithmetic of
`int` taken in ℤ (overflow aside). The state is the grid, the moving point `p1` and `err`. -/
def drawLineLoop (width height : Int) (p2 : Point) (deltaX deltaY sx sy : Int) (color : Pixel) :
    Nat → List (List Pixel) → Point → Int → Run (List (List Pixel))
  | 0, _, _, _ => .outOfFuel
  | fuel + 1, data, p1, err =>
    match (if isWithinBounds p1.X p1.Y width height = true
        then setAtInt data p1.Y p1.X color else some data) with
    | none => .panic
    | some data' =>
      if p1.X = p2.X ∧ p1.Y = p2.Y then .done data'
      else
        let e2 := 2 * err
        let err1 := if e2 > -deltaY then err - deltaY else err
        let x1 := if e2 > -deltaY then p1.X + sx else p1.X
        let err2 := if e2 < deltaX then err1 + deltaX else err1
        let y1 := if e2 < deltaX then p1.Y + sy else p1.Y
        drawLineLoop width height p2 deltaX deltaY sx sy color fuel data' ⟨x1, y1⟩ err2

/-- Go `(*PPM).DrawLine`, with its loop run for at most `fuel` passes and the arithmetic of
`int` taken in ℤ (overflow aside; `PPM.DrawLine64` below wraps to 64 bits). -/
def PPM.DrawLine (fuel : Nat) (ppm : PPM) (p1 p2 : Point) (color : Pixel) : Run PPM :=
  let deltaX := abs (p2.X - p1.X)
  let deltaY := abs (p2.Y - p1.Y)
  let sx := sign (p2.X - p1.X)
  let sy := sign (p2.Y - p1.Y)
  let err := deltaX - deltaY
  match drawLineLoop ppm.width ppm.height p2 deltaX deltaY sx sy color fuel ppm.data p1 err with
  | .done d => .done { ppm with data := d }
  | .panic => .panic
  | .outOfFuel => .outOfFuel

/-- The value that two's-complement arithmetic on 64 bits gives for the integer `x`: an
`int` operation of Go that leaves `-2^63 .. 2^63 - 1` wraps around silently. -/
def wrap64 (x : Int) : Int :=
  (x + 2 ^ 63) % 2 ^ 64 - 2 ^ 63

/-- Go `abs` on a 64-bit `int`: the negation wraps. -/
def abs64 (x : Int) : Int :=
  if x < 0 then wrap64 (-x) else x

/-- The loop `for { ... }` of `DrawLine` with every `int` operation on 64 bits, run for at most
`fuel` passes. -/
def drawLineLoop64 (width height : Int) (p2 : Point) (deltaX deltaY sx sy : Int)
    (color : Pixel) : Nat → List (List Pixel) → Point → Int → Run (List (List Pixel))
  | 0, _, _, _ => .outOfFuel
  | fuel + 1, data, p1, err =>
    match (if isWithinBounds p1.X p1.Y width height = true
        then setAtInt data p1.Y p1.X color else some data) with
    | none => .panic
    | some data' =>
      if p1.X = p2.X ∧ p1.Y = p2.Y then .done data'
      else
        let e2 := wrap64 (2 * err)
        let err1 := if e2 > wrap64 (-deltaY) then wrap64 (err - deltaY) else err
        let x1 := if e2 > wrap64 (-deltaY) then wrap64 (p1.X + sx) else p1.X
        let err2 := if e2 < deltaX then wrap64 (err1 + deltaX) else err1
        let y1 := if e2 < deltaX then wrap64 (p1.Y + sy) else p1.Y
        drawLineLoop64 width height p2 deltaX deltaY sx sy color fuel data' ⟨x1, y1⟩ err2

/-- Go `(*PPM).DrawLine` with every `int` operation on 64 bits, its loop run for at most `fuel`
passes. The coordinates of `p1` and `p2` are `int`s, values in `-2^63 .. 2^63 - 1`. -/
def PPM.DrawLine64 (fuel : Nat) (ppm : PPM) (p1 p2 : Point) (color : Pixel) : Run PPM :=
  let deltaX := abs64 (wrap64 (p2.X - p1.X))
  let deltaY := abs64 (wrap64 (p2.Y - p1.Y))
  let sx := sign (wrap64 (p2.X - p1.X))
  let sy := sign (wrap64 (p2.Y - p1.Y))
  let err := wrap64 (deltaX - deltaY)
  match drawLineLoop64 ppm.width ppm.height p2 deltaX deltaY sx sy color fuel ppm.data p1
      err with
  | .done d => .done { ppm with data := d }
  | .panic => .panic
  | .outOfFuel => .outOfFuel

/-! ## `float64` -/

/-- A finite `float64` value `m * 2 ^ e`. Infinities, NaN, the sign of zero and the limits of
the exponent are not modelled: the values this package computes before it converts them back
to `int` are quotients and products of `int`s, far from overflow and underflow. -/
structure F64 where
  m : Int
  e : Int
  deriving DecidableEq

/-- Worker of `floorLog2`. -/
def floorLog2Aux : Nat → Nat → Nat
  | 0, _ => 0
  | fuel + 1, n => if n < 2 then 0 else floorLog2Aux fuel (n / 2) + 1

/-- The position of the leading bit of `n`: the largest `k` with `2 ^ k ≤ n`, for `n > 0`. -/
def floorLog2 (n : Nat) : Nat :=
  floorLog2Aux n n

/-- Rounding to `float64` (IEEE 754 binary64, round to nearest, ties to even) of the rational
`n / d`: the result has a significand of 53 bits. A zero denominator (a division by zero,
which gives an infinity or NaN in Go) gives 0 here: the theorems use quotients with a divisor
that is not zero only. -/
def roundF64 (n : Int) (d : Nat) : F64 :=
  if n = 0 ∨ d = 0 then ⟨0, 0⟩
  else
    let a := n.natAbs
    let s : Int := (floorLog2 a : Int) - (floorLog2 d : Int)
    let fl : Int := if d * 2 ^ s.toNat ≤ a * 2 ^ (-s).toNat then s else s - 1
    let e : Int := fl - 52
    let num := a * 2 ^ (-e).toNat
    let den := d * 2 ^ e.toNat
    let q := num / den
    let r := num % den
    let q' := if 2 * r < den then q else if den < 2 * r then q + 1
      else if q % 2 = 0 then q else q + 1
    ⟨(if n < 0 then -(q' : Int) else (q' : Int)), e⟩

/-- The conversion `float64(n)` of an `int`. -/
def F64.ofInt (n : Int) : F64 :=
  roundF64 n 1

/-- The `float64` quotient `a / b`. -/
def F64.div (a b : F64) : F64 :=
  if a.e ≥ b.e then
    roundF64 (a.m * 2 ^ (a.e - b.e).toNat * (if b.m < 0 then -1 else 1)) b.m.natAbs
  else
    roundF64 (a.m * (if b.m < 0 then -1 else 1)) (b.m.natAbs * 2 ^ (b.e - a.e).toNat)

/-- The `float64` product `a * b`. -/
def F64.mul (a b : F64) : F64 :=
  if a.e + b.e ≥ 0 then roundF64 (a.m * b.m * 2 ^ (a.e + b.e).toNat) 1
  else roundF64 (a.m * b.m) (2 ^ (-(a.e + b.e)).toNat)

/-- The conversion `int(f)` of a `float64`: the fraction is dropped (rounding toward zero). -/
def F64.toInt (a : F64) : Int :=
  if a.e ≥ 0 then a.m * 2 ^ a.e.toNat else a.m.tdiv (2 ^ (-a.e).toNat)

/-! ## Filled polygons -/

/-- Go `boundingBoxY`. -/
def boundingBoxY (points : List Point) : Int × Int :=
  match points with
  | [] => (0, 0)
  | p0 :: _ =>
    points.foldl (fun mm p =>
      let minY := if p.Y < mm.1 then p.Y else mm.1
      let maxY := if p.Y > mm.2 then p.Y else mm.2
      (minY, maxY)) (p0.Y, p0.Y)

/-- The expression `int(float64(y-y1)*(float64(xj-xi)/float64(y2-y1))) + xi` of
`findIntersections`. -/
def interceptX (y y1 y2 xi xj : Int) : Int :=
  F64.toInt (F64.mul (F64.ofInt (y - y1)) (F64.div (F64.ofInt (xj - xi)) (F64.ofInt (y2 - y1))))
    + xi

/-- Go `findIntersections`: one crossing for every edge `i`, `(i+1) % len` of the vertex cycle
with `y1 <= y < y2` or `y2 <= y < y1`, in the order of the edges. -/
def findIntersections (points : List Point) (y : Int) : List Int :=
  (List.range points.length).filterMap (fun (i : Nat) =>
    match points[i]?, points[(i + 1) % points.length]? with
    | some pi, some pj =>
      if (pi.Y ≤ y ∧ y < pj.Y) ∨ (pj.Y ≤ y ∧ y < pi.Y) then
        some (interceptX y pi.Y pj.Y pi.X pj.X)
      else none
    | _, _ => none)

/-- The loop `for x := x1; x <= x2; x++ { ppm.data[y][x] = color }`. -/
def fillSpan (y x1 x2 : Int) (color : Pixel) (data : List (List Pixel)) :
    Option (List (List Pixel)) :=
  forRange (x2 - x1 + 1).toNat (fun k d => setAtInt d y (x1 + (k : Int)) color) data

/-- The loop `for i := 0; i < len(intersections); i += 2 { x1 := intersections[i];
x2 := intersections[i+1]; ... }` over the sorted crossings of one scan line. -/
def fillPairs (y : Int) (intersections : List Int) (color : Pixel) (data : List (List Pixel)) :
    Option (List (List Pixel)) :=
  forRange ((intersections.length + 1) / 2) (fun k d =>
    match intersections[2 * k]?, intersections[2 * k + 1]? with
    | some x1, some x2 => fillSpan y x1 x2 color d
    | _, _ => none) data

/-- Go `(*PPM).DrawFilledPolygon`. `sort.Sort` on `int`s is the ascending sort. -/
def PPM.DrawFilledPolygon (ppm : PPM) (points : List Point) (color : Pixel) : Option PPM :=
  if points.length < 3 then some ppm
  else
    let mm := boundingBoxY points
    (forRange (mm.2 - mm.1 + 1).toNat (fun k d =>
      fillPairs (mm.1 + (k : Int))
        ((findIntersections points (mm.1 + (k : Int))).insertionSort (fun a b => a ≤ b))
        color d) ppm.data).map (fun d => { ppm with data := d })

/-! ## Resampling -/

/-- Go `clamp`. -/
def clamp (value min max : Int) : Int :=
  if value < min then min else if value > max then max else value

/-- Go `(*PPM).getNearestNeighbor`. -/
def PPM.getNearestNeighbor (ppm : PPM) (x y : Int) : Option Pixel :=
  let x' := clamp x 0 (ppm.width - 1)
  let y' := clamp y 0 (ppm.height - 1)
  if y' < 0 ∨ x' < 0 then none else cell ppm.data y'.toNat x'.toNat

/-- Go `(*PPM).KNearestNeighbors`: the fresh grid of `newHeight` rows of `newWidth` pixels is
filled cell by cell. `make` panics on a negative length. -/
def PPM.KNearestNeighbors (ppm : PPM) (newWidth newHeight : Int) : Option PPM :=
  let scaleX := F64.div (F64.ofInt ppm.width) (F64.ofInt newWidth)
  let scaleY := F64.div (F64.ofInt ppm.height) (F64.ofInt newHeight)
  if newHeight < 0 ∨ (0 < newHeight ∧ newWidth < 0) then none
  else
    ((List.range newHeight.toNat).mapM (fun (y : Nat) =>
      (List.range newWidth.toNat).mapM (fun (x : Nat) =>
        let originalX := F64.toInt (F64.mul (F64.ofInt (x : Int)) scaleX)
        let originalY := F64.toInt (F64.mul (F64.ofInt (y : Int)) scaleY)
        ppm.getNearestNeighbor originalX originalY))).map
      (fun d => { ppm with width := newWidth, height := newHeight, data := d })

/-- Go `(*PBM).At`. -/
def PBM.At (pbm : PBM) (x y : Nat) : Option Bool :=
  cell pbm.data y x

/-- A 1 x 1 pixmap with `max = 100` and a black pixel. -/
def darkPix : PPM :=
  { data := [[⟨0, 0, 0⟩]], width := 1, height := 1, magicNumber := magicP6, max := 100 }

/-- Every cell of a grid satisfies `P`. -/
def AllCells {α : Type} (P : α → Prop) (data : List (List α)) : Prop :=
  ∀ row ∈ data, ∀ v ∈ row, P v

/-- The bytes of the file `P2`, `1 1`, `5`, `9`: a sample above the declared `max`. -/
def overMaxP2 : List Nat := [80, 50, 10, 49, 32, 49, 10, 53, 10, 57]

/-- The bytes of a `P5` file with header `1 1`, `5` and the pixel byte 200. -/
def overMaxP5 : List Nat := [80, 53, 10, 49, 32, 49, 10, 53, 10, 200]

/-- The bytes of the file `P3`, `1 1`, `5`, `9 300 0`. -/
def overMaxP3 : List Nat :=
  [80, 51, 10, 49, 32, 49, 10, 53, 10, 57, 32, 51, 48, 48, 32, 48]

/-- The bytes of the file `P9`, `2 2`, `1 0`, `0 1`: a header whose magic number is none of
`P1` .. `P6`. -/
def unknownMagic : List Nat := [80, 57, 10, 50, 32, 50, 10, 49, 32, 48, 10, 48, 32, 49]

/-- A grid of `h` rows of `w` cells. -/
def Shape {α : Type} (w h : Nat) (data : List (List α)) : Prop :=
  data.length = h ∧ ∀ row ∈ data, row.length = w

/-- The vertex list `[(0,0), (3,0), (3,3), (0,3)]`. -/
def square : List Point := [⟨0, 0⟩, ⟨3, 0⟩, ⟨3, 3⟩, ⟨0, 3⟩]

/-- A pixmap of `w` x `h` black pixels. -/
def blankCanvas (w h : Nat) : PPM :=
  ⟨List.replicate h (List.replicate w ⟨0, 0, 0⟩), w, h, magicP3, 255⟩

/-- The header `Save` writes for a bitmap: the magic number and the dimensions, each on a line
of its own. -/
def dimsHeader (m : List Nat) (w h : Nat) : List Nat :=
  m ++ [10] ++ (formatInt (w : Int) ++ [32] ++ formatInt (h : Int) ++ [10])

/-- The header `Save` writes for a greymap or pixmap: the magic number, the dimensions and
`max`, each on a line of its own. -/
def maxHeader (m : List Nat) (w h mx : Nat) : List Nat :=
  m ++ [10] ++ (formatInt (w : Int) ++ [32] ++ formatInt (h : Int) ++ [10])
    ++ (formatNat mx ++ [10])

/-- The bytes of a `P4` file with the header `8 2` and the single pixel byte `A`, where two
are expected. -/
def truncatedP4 : List Nat := [80, 52, 10, 56, 32, 50, 10, 65]

/-- The bytes of a `P5` file with the header `2 2`, `255` and the three pixel bytes `abc`,
where four are expected. -/
def truncatedP5 : List Nat := [80, 53, 10, 50, 32, 50, 10, 50, 53, 53, 10, 97, 98, 99]

/-- The bytes of a `P6` file with the header `1 1`, `255` and the two pixel bytes `ab`, where
three are expected. -/
def truncatedP6 : List Nat := [80, 54, 10, 49, 32, 49, 10, 50, 53, 53, 10, 97, 98]

/-! ## Rescaling the depth -/

/-- The `uint8` expression `prevvalue * uint8(5) / pgm.max`: the product wraps around modulo
256 before the division, and a division by zero is a run-time panic. -/
def rescaleU8 (prevvalue max : Nat) : Option Nat :=
  if max = 0 then none else some ((prevvalue * 5 % 256) / max)

/-- Go `(*PGM).SetMaxValue`: the loops visit every sample of every row in order. -/
def PGM.SetMaxValue (pgm : PGM) (maxValue : Nat) : Option PGM :=
  (pgm.data.mapM (fun (row : List Nat) =>
    row.mapM (fun (prevvalue : Nat) => rescaleU8 prevvalue pgm.max))).map
    (fun d => { pgm with data := d, max := maxValue })

/-- A 1 x 3 greymap with `max = 255` and the samples 51, 52 and 255. -/
def brightGrey : PGM :=
  ⟨[[51, 52, 255]], 3, 1, magicP2, 255⟩

/-- The conversion `uint8(f)` of a `float64`: the fraction is dropped. For a value outside
`0 .. 255` Go leaves the result to the implementation; the model takes the low 8 bits of the
truncated value, as the amd64 compiler does, and the theorems use values in range only. -/
def F64.toUint8 (a : F64) : Nat :=
  (F64.toInt a % 256).toNat

/-- The expression `uint8(float64(c) * float64(maxValue) / float64(ppm.max))` of
`(*PPM).SetMaxValue`. -/
def rescaleF64 (c maxValue max : Nat) : Nat :=
  F64.toUint8
    (F64.div (F64.mul (F64.ofInt (c : Int)) (F64.ofInt (maxValue : Int))) (F64.ofInt (max : Int)))

/-- Go `(*PPM).SetMaxValue`. -/
def PPM.SetMaxValue (ppm : PPM) (maxValue : Nat) : PPM :=
  { ppm with
    data := ppm.data.map (fun row => row.map (fun pixel =>
      { R := rescaleF64 pixel.R maxValue ppm.max, G := rescaleF64 pixel.G maxValue ppm.max,
        B := rescaleF64 pixel.B maxValue ppm.max }))
    max := maxValue }

/-- The bytes of the lines `ls`, each ended by a newline. -/
def joinLines (ls : List (List Nat)) : List Nat :=
  (ls.map (fun l => l ++ [10])).flatten

/-- A comment line of 64 KiB: `#` followed by 65535 spaces. -/
def longComment : List Nat := 35 :: List.replicate 65535 32

/-- The bytes of the file `P1`, `1 1`, `1`. -/
def tinyP1 : List Nat := [80, 49, 10, 49, 32, 49, 10, 49]

/-- The bytes of a `P5` file with the header `4 2`, `255` and the single pixel byte `a`,
where eight are expected. -/
def shortP5 : List Nat := [80, 53, 10, 52, 32, 50, 10, 50, 53, 53, 10, 97]

/-- The file `shortP5` with the comment line `#c` between the dimensions and `max`. -/
def shortP5Commented : List Nat :=
  [80, 53, 10, 52, 32, 50, 10, 35, 99, 10, 50, 53, 53, 10, 97]

/-! # Lemmas and theorems -/

/-! ## Loops -/

theorem forRange_zero {σ : Type} (body : Nat → σ → Option σ) (s : σ) :
    forRange 0 body s = some s := by
  simp [forRange]

theorem forRange_succ {σ : Type} (n : Nat) (body : Nat → σ → Option σ) (s : σ) :
    forRange (n + 1) body s = (forRange n body s).bind (body n) := by
  simp [forRange, List.range_succ, List.foldlM_append]

/-- Loop invariant rule for `forRange`: an invariant that holds at the start and is kept by
every pass of a body that does not panic holds at the end, and the loop does not panic. -/
theorem forRange_inv {σ : Type} (P : Nat → σ → Prop) (n : Nat) (body : Nat → σ → Option σ)
    (s : σ) (h0 : P 0 s)
    (hstep : ∀ i t, i < n → P i t → ∃ t', body i t = some t' ∧ P (i + 1) t') :
    ∃ t, forRange n body s = some t ∧ P n t := by
  induction n with
  | zero => exact ⟨s, forRange_zero body s, h0⟩
  | succ k ih =>
    obtain ⟨t, ht, hP⟩ := ih (fun i t hi hp => hstep i t (by omega) hp)
    obtain ⟨t', ht', hP'⟩ := hstep k t (by omega) hP
    exact ⟨t', by rw [forRange_succ, ht]; exact ht', hP'⟩

theorem mapM_range_some {β : Type} (n : Nat) (f : Nat → Option β)
    (h : ∀ i, i < n → ∃ b, f i = some b) :
    ∃ l, (List.range n).mapM f = some l ∧ l.length = n ∧ ∀ i, i < n → l[i]? = f i := by
  induction n with
  | zero => exact ⟨[], rfl, rfl, fun i hi => by omega⟩
  | succ k ih =>
    obtain ⟨l, hl, hlen, hget⟩ := ih (fun i hi => h i (by omega))
    obtain ⟨b, hb⟩ := h k (by omega)
    refine ⟨l ++ [b], ?_, by simp [hlen], fun i hi => ?_⟩
    · have h1 : List.mapM f [k] = some [b] := by
        rw [List.mapM_cons, hb]; rfl
      rw [List.range_succ, List.mapM_append, hl, h1]
      rfl
    · by_cases c : i < k
      · rw [List.getElem?_append_left (by omega), hget i c]
      · have : i = k := by omega
        subst this
        rw [List.getElem?_append_right (by omega), hb]
        simp [hlen]

theorem mapM_map_some {α β : Type} (f : α → Option β) (g : α → β) (l : List α)
    (h : ∀ a ∈ l, f a = some (g a)) : l.mapM f = some (l.map g) := by
  induction l with
  | nil => rfl
  | cons a t ih =>
    rw [List.mapM_cons, h a (by simp), ih (fun b hb => h b (by simp [hb]))]
    rfl

theorem tdiv_two_toNat (n : Nat) : ((n : Int).tdiv 2).toNat = n / 2 := by
  rw [Int.tdiv_eq_ediv (by omega) (by omega)]
  omega

/-! ## Mirrors and rotation on grids -/

theorem swapLoop_eq_reverse {α : Type} (xs : List α) :
    swapLoop (xs.length : Int) xs = some xs.reverse := by
  have key : ∃ t, swapLoop (xs.length : Int) xs = some t ∧ (t.length = xs.length ∧
      ∀ i, i < xs.length →
        t[i]? = if i < xs.length / 2 ∨ xs.length - xs.length / 2 ≤ i
          then xs[xs.length - 1 - i]? else xs[i]?) := by
    unfold swapLoop
    rw [tdiv_two_toNat]
    refine forRange_inv
      (fun k (ys : List α) => ys.length = xs.length ∧
        ∀ i, i < xs.length →
          ys[i]? = if i < k ∨ xs.length - k ≤ i then xs[xs.length - 1 - i]? else xs[i]?)
      (xs.length / 2) _ xs ?_ ?_
    · refine ⟨rfl, fun i hi => ?_⟩
      have : ¬ (i < 0 ∨ xs.length - 0 ≤ i) := by omega
      rw [if_neg this]
    · intro k ys hk ⟨hlen, hget⟩
      have hc : ((xs.length : Int) - 1 - (k : Int)).toNat = xs.length - 1 - k := by omega
      simp only [hc]
      have hk1 : k < ys.length := by omega
      have hk2 : xs.length - 1 - k < ys.length := by omega
      rw [List.getElem?_eq_getElem hk1, List.getElem?_eq_getElem hk2]
      refine ⟨_, rfl, by simp [hlen], fun i hi => ?_⟩
      have e1 : xs[k]? = some ys[k] := by
        have := hget k (by omega)
        rw [if_neg (by omega), List.getElem?_eq_getElem hk1] at this
        exact this.symm
      have e2 : xs[xs.length - 1 - k]? = some ys[xs.length - 1 - k] := by
        have := hget (xs.length - 1 - k) (by omega)
        rw [if_neg (by omega), List.getElem?_eq_getElem hk2] at this
        exact this.symm
      rw [List.getElem?_set, List.getElem?_set]
      by_cases c1 : xs.length - 1 - k = i
      · subst c1
        simp only [if_true]
        rw [if_pos (by simp; omega), if_pos (by omega)]
        have e3 : xs.length - 1 - (xs.length - 1 - k) = k := by omega
        rw [e3, e1]
      · rw [if_neg c1]
        by_cases c2 : k = i
        · subst c2
          rw [if_pos rfl, if_pos (by omega), if_pos (by omega), e2]
        · rw [if_neg c2, hget i hi]
          by_cases c3 : i < k ∨ xs.length - k ≤ i
          · rw [if_pos c3, if_pos (by omega)]
          · rw [if_neg c3, if_neg (by omega)]
  obtain ⟨t, ht, hlen, hget⟩ := key
  rw [ht]
  congr 1
  apply List.ext_getElem?
  intro i
  by_cases hi : i < xs.length
  · rw [hget i hi, List.getElem?_reverse hi]
    split
    · rfl
    · have : xs.length - 1 - i = i := by omega
      rw [this]
  · rw [List.getElem?_eq_none (by omega), List.getElem?_eq_none (by simp; omega)]

/-- `Flip` on a grid whose rows all have `width` cells reverses every row. -/
theorem flipGrid_eq {α : Type} (width : Int) (data : List (List α))
    (h : ∀ row ∈ data, (row.length : Int) = width) :
    data.mapM (swapLoop width) = some (data.map List.reverse) := by
  apply mapM_map_some
  intro row hrow
  rw [← h row hrow]
  exact swapLoop_eq_reverse row

/-- `Flip` twice on a well-formed grid gives the grid back. -/
theorem flipGrid_twice {α : Type} (width : Int) (data : List (List α))
    (h : ∀ row ∈ data, (row.length : Int) = width) :
    (data.mapM (swapLoop width)).bind (fun d => d.mapM (swapLoop width)) = some data := by
  rw [flipGrid_eq width data h]
  simp only [Option.some_bind]
  rw [flipGrid_eq width _ (by
    intro row hrow
    obtain ⟨r, hr, rfl⟩ := List.mem_map.1 hrow
    simpa using h r hr)]
  simp [List.map_map]

/-- `Flop` twice on a grid of `height` rows gives the grid back. -/
theorem flopGrid_twice {α : Type} (height : Int) (data : List α)
    (h : (data.length : Int) = height) :
    (swapLoop height data).bind (swapLoop height) = some data := by
  rw [← h, swapLoop_eq_reverse]
  simp only [Option.some_bind]
  have := swapLoop_eq_reverse data.reverse
  rw [List.length_reverse] at this
  rw [this, List.reverse_reverse]

theorem rotateGrid_spec {α : Type} (w h : Nat) (d : List (List α))
    (hlen : d.length = h) (hrow : ∀ row ∈ d, row.length = w) :
    ∃ g, rotateGrid (w : Int) (h : Int) d = some g ∧ g.length = w ∧
      (∀ row ∈ g, row.length = h) ∧
      ∀ i j, i < w → j < h → cell g i j = cell d (h - 1 - j) i := by
  have hcell : ∀ i j, i < w → j < h → ∃ b, cell d (h - 1 - j) i = some b := by
    intro i j hi hj
    have h1 : h - 1 - j < d.length := by omega
    have h2 : i < (d[h - 1 - j]).length := by
      rw [hrow _ (List.getElem_mem h1)]; exact hi
    exact ⟨(d[h - 1 - j])[i], by
      simp [cell, List.getElem?_eq_getElem h1, List.getElem?_eq_getElem h2]⟩
  have hinner : ∀ i, i < w → ∃ row, (List.range h).mapM (fun (j : Nat) =>
        match d[((h : Int) - 1 - (j : Int)).toNat]? with
        | none => none
        | some row => row[i]?) = some row ∧ row.length = h ∧
        ∀ j, j < h → row[j]? = cell d (h - 1 - j) i := by
    intro i hi
    obtain ⟨l, hl, hl1, hl2⟩ := mapM_range_some h (fun (j : Nat) =>
        match d[((h : Int) - 1 - (j : Int)).toNat]? with
        | none => none
        | some row => row[i]?) (fun j hj => by
          have e : ((h : Int) - 1 - (j : Int)).toNat = h - 1 - j := by omega
          obtain ⟨b, hb⟩ := hcell i j hi hj
          exact ⟨b, by simpa [cell, e] using hb⟩)
    refine ⟨l, hl, hl1, fun j hj => ?_⟩
    rw [hl2 j hj]
    have e : ((h : Int) - 1 - (j : Int)).toNat = h - 1 - j := by omega
    simp only [cell, e]
  obtain ⟨g, hg, hg1, hg2⟩ := mapM_range_some w (fun (i : Nat) =>
      (List.range h).mapM (fun (j : Nat) =>
        match d[((h : Int) - 1 - (j : Int)).toNat]? with
        | none => none
        | some row => row[i]?)) (fun i hi => by
          obtain ⟨row, hr, _⟩ := hinner i hi
          exact ⟨row, hr⟩)
  refine ⟨g, ?_, hg1, ?_, ?_⟩
  · unfold rotateGrid
    rw [if_neg (by omega)]
    simpa using hg
  · intro row hrow'
    obtain ⟨i, hi, rfl⟩ := List.getElem_of_mem hrow'
    obtain ⟨row', hr1, hr2, _⟩ := hinner i (by omega)
    have := hg2 i (by omega)
    rw [List.getElem?_eq_getElem hi, hr1] at this
    rw [Option.some.inj this]; exact hr2
  · intro i j hi hj
    obtain ⟨row', hr1, hr2, hr3⟩ := hinner i hi
    have := hg2 i hi
    rw [hr1] at this
    simp only [cell]
    rw [this]
    exact hr3 j hj

theorem grid_ext {α : Type} (h w : Nat) (d d' : List (List α))
    (h1 : d.length = h) (h2 : ∀ row ∈ d, row.length = w)
    (h1' : d'.length = h) (h2' : ∀ row ∈ d', row.length = w)
    (hc : ∀ r c, r < h → c < w → cell d r c = cell d' r c) : d = d' := by
  apply List.ext_getElem (by omega)
  intro r hr hr'
  have l1 := h2 _ (List.getElem_mem hr)
  have l2 := h2' _ (List.getElem_mem hr')
  apply List.ext_getElem (by omega)
  intro c hc1 hc2
  have := hc r c (by omega) (by omega)
  simp only [cell, List.getElem?_eq_getElem hr, List.getElem?_eq_getElem hr',
    List.getElem?_eq_getElem hc1, List.getElem?_eq_getElem hc2] at this
  exact Option.some.inj this

/-- Four quarter turns of a well-formed grid give the grid back. -/
theorem rotateGrid_four {α : Type} (w h : Nat) (d : List (List α))
    (hlen : d.length = h) (hrow : ∀ row ∈ d, row.length = w) :
    ∃ g1 g2 g3, rotateGrid (w : Int) (h : Int) d = some g1 ∧
      rotateGrid (h : Int) (w : Int) g1 = some g2 ∧
      rotateGrid (w : Int) (h : Int) g2 = some g3 ∧
      rotateGrid (h : Int) (w : Int) g3 = some d := by
  obtain ⟨g1, e1, l1, r1, c1⟩ := rotateGrid_spec w h d hlen hrow
  obtain ⟨g2, e2, l2, r2, c2⟩ := rotateGrid_spec h w g1 l1 r1
  obtain ⟨g3, e3, l3, r3, c3⟩ := rotateGrid_spec w h g2 l2 r2
  obtain ⟨g4, e4, l4, r4, c4⟩ := rotateGrid_spec h w g3 l3 r3
  refine ⟨g1, g2, g3, e1, e2, e3, ?_⟩
  rw [e4]
  congr 1
  apply grid_ext h w g4 d l4 r4 hlen hrow
  intro r c hr hc
  rw [c4 r c hr hc, c3 (w - 1 - c) r (by omega) hr, c2 (h - 1 - r) (w - 1 - c) (by omega) (by omega),
    c1 (w - 1 - (w - 1 - c)) (h - 1 - r) (by omega) (by omega)]
  congr 1 <;> omega

/-! ## Claims on the transforms -/

theorem subU8_subU8 (m v : Nat) (hm : m < 256) (hv : v < 256) : subU8 m (subU8 m v) = v := by
  unfold subU8
  omega

theorem grid_map_map_self {α : Type} (f : α → α) (data : List (List α))
    (h : ∀ row ∈ data, ∀ v ∈ row, f (f v) = v) :
    (data.map (fun row => row.map f)).map (fun row => row.map f) = data := by
  rw [List.map_map]
  conv_rhs => rw [← List.map_id data]
  apply List.map_congr_left
  intro row hrow
  simp only [Function.comp, List.map_map, id]
  conv_rhs => rw [← List.map_id row]
  apply List.map_congr_left
  intro v hv
  exact h row hrow v hv

/-- C7: `Invert` is an involution on bitmaps, on greymaps (whatever `max` and the `uint8`
samples are) and on pixmaps: applying it twice gives back every pixel, and the dimensions, the
magic number and `max` with them. -/
theorem invert_involution :
    (∀ pbm : PBM, pbm.Invert.Invert = pbm) ∧
    (∀ pgm : PGM, pgm.IsU8 → pgm.Invert.Invert = pgm) ∧
    (∀ ppm : PPM, ppm.IsU8 → ppm.Invert.Invert = ppm) := by
  refine ⟨fun pbm => ?_, fun pgm h => ?_, fun ppm h => ?_⟩
  · cases pbm with
    | mk data width height magicNumber =>
      simp only [PBM.Invert, PBM.mk.injEq, and_true]
      exact grid_map_map_self (fun pixel => !pixel) data (fun _ _ v _ => by simp)
  · cases pgm with
    | mk data width height magicNumber max =>
      obtain ⟨hm, hd⟩ := h
      simp only [PGM.Invert, PGM.mk.injEq, and_true]
      exact grid_map_map_self (fun v => subU8 max v) data
        (fun row hrow v hv => subU8_subU8 max v hm (hd row hrow v hv))
  · cases ppm with
    | mk data width height magicNumber max =>
      obtain ⟨hm, hd⟩ := h
      simp only [PPM.Invert, PPM.mk.injEq, and_true]
      refine grid_map_map_self
        (fun p => { R := subU8 255 p.R, G := subU8 255 p.G, B := subU8 255 p.B }) data
        (fun row hrow p hp => ?_)
      obtain ⟨h1, h2, h3⟩ := hd row hrow p hp
      cases p with
      | mk R G B =>
        simp only [Pixel.mk.injEq]
        exact ⟨subU8_subU8 255 R (by omega) h1, subU8_subU8 255 G (by omega) h2,
          subU8_subU8 255 B (by omega) h3⟩

/-- Witness of C7 on a greymap with `max = 9` and on a pixmap. -/
theorem invert_involution_witness :
    sampleGreyWide.IsU8 ∧ sampleGreyWide.Invert.Invert = sampleGreyWide ∧
    samplePix.IsU8 ∧ samplePix.Invert.Invert = samplePix :=
  ⟨by decide, invert_involution.2.1 sampleGreyWide (by decide),
    by decide, invert_involution.2.2 samplePix (by decide)⟩

/-- C8: `Flip` and `Flop` are involutions on well-formed bitmaps, greymaps and pixmaps: neither
panics, and applying either one twice gives the raster back (grid, dimensions and the other
fields), whatever the parity of the width and the height, empty rasters included. -/
theorem flip_flop_involution :
    (∀ pbm : PBM, pbm.WellFormed →
      pbm.Flip.bind PBM.Flip = some pbm ∧ pbm.Flop.bind PBM.Flop = some pbm) ∧
    (∀ pgm : PGM, pgm.WellFormed →
      pgm.Flip.bind PGM.Flip = some pgm ∧ pgm.Flop.bind PGM.Flop = some pgm) ∧
    (∀ ppm : PPM, ppm.WellFormed →
      ppm.Flip.bind PPM.Flip = some ppm ∧ ppm.Flop.bind PPM.Flop = some ppm) := by
  refine ⟨fun pbm h => ⟨?_, ?_⟩, fun pgm h => ⟨?_, ?_⟩, fun ppm h => ⟨?_, ?_⟩⟩
  · have := flipGrid_twice pbm.width pbm.data h.2.2
    rw [Option.bind_eq_some] at this
    obtain ⟨d, hd1, hd2⟩ := this
    unfold PBM.Flip
    rw [hd1]
    simp only [Option.map_some', Option.some_bind]
    rw [hd2]
    rfl
  · have := flopGrid_twice pbm.height pbm.data h.1
    rw [Option.bind_eq_some] at this
    obtain ⟨d, hd1, hd2⟩ := this
    unfold PBM.Flop
    rw [hd1]
    simp only [Option.map_some', Option.some_bind]
    rw [hd2]
    rfl
  · have := flipGrid_twice pgm.width pgm.data h.2.2
    rw [Option.bind_eq_some] at this
    obtain ⟨d, hd1, hd2⟩ := this
    unfold PGM.Flip
    rw [hd1]
    simp only [Option.map_some', Option.some_bind]
    rw [hd2]
    rfl
  · have := flopGrid_twice pgm.height pgm.data h.1
    rw [Option.bind_eq_some] at this
    obtain ⟨d, hd1, hd2⟩ := this
    unfold PGM.Flop
    rw [hd1]
    simp only [Option.map_some', Option.some_bind]
    rw [hd2]
    rfl
  · have := flipGrid_twice ppm.width ppm.data h.2.2
    rw [Option.bind_eq_some] at this
    obtain ⟨d, hd1, hd2⟩ := this
    unfold PPM.Flip
    rw [hd1]
    simp only [Option.map_some', Option.some_bind]
    rw [hd2]
    rfl
  · have := flopGrid_twice ppm.height ppm.data h.1
    rw [Option.bind_eq_some] at this
    obtain ⟨d, hd1, hd2⟩ := this
    unfold PPM.Flop
    rw [hd1]
    simp only [Option.map_some', Option.some_bind]
    rw [hd2]
    rfl

/-- Witness of C8 on a bitmap of odd width, a greymap of three columns and a pixmap. -/
theorem flip_flop_involution_witness :
    (sampleBits.WellFormed ∧
      sampleBits.Flip = some { sampleBits with data := [[false, false, true]] } ∧
      sampleBits.Flip.bind PBM.Flip = some sampleBits ∧
      sampleBits.Flop.bind PBM.Flop = some sampleBits) ∧
    (sampleGreyWide.WellFormed ∧
      sampleGreyWide.Flop = some { sampleGreyWide with data := [[4, 5, 6], [1, 2, 3]] } ∧
      sampleGreyWide.Flip.bind PGM.Flip = some sampleGreyWide ∧
      sampleGreyWide.Flop.bind PGM.Flop = some sampleGreyWide) ∧
    (samplePix.WellFormed ∧
      samplePix.Flip.bind PPM.Flip = some samplePix ∧
      samplePix.Flop.bind PPM.Flop = some samplePix) :=
  ⟨⟨by decide, by decide, flip_flop_involution.1 sampleBits (by decide)⟩,
    ⟨by decide, by decide, flip_flop_involution.2.1 sampleGreyWide (by decide)⟩,
    ⟨by decide, flip_flop_involution.2.2 samplePix (by decide)⟩⟩

/-- C9: four applications of `Rotate90CW` to a well-formed greymap or pixmap, square or not,
empty or not, do not panic and give the raster back: the original width, height and grid (and
magic number and `max`). -/
theorem rotate_fourfold :
    (∀ pgm : PGM, pgm.WellFormed →
      ((pgm.Rotate90CW.bind PGM.Rotate90CW).bind PGM.Rotate90CW).bind PGM.Rotate90CW
        = some pgm) ∧
    (∀ ppm : PPM, ppm.WellFormed →
      ((ppm.Rotate90CW.bind PPM.Rotate90CW).bind PPM.Rotate90CW).bind PPM.Rotate90CW
        = some ppm) := by
  refine ⟨fun pgm h => ?_, fun ppm h => ?_⟩
  · cases pgm with
    | mk data width height magicNumber max =>
      obtain ⟨h1, h0, h2⟩ := h
      simp only at h1 h0 h2
      subst h1
      obtain ⟨g1, g2, g3, e1, e2, e3, e4⟩ := rotateGrid_four width.toNat data.length data rfl
        (fun row hr => by have := h2 row hr; omega)
      rw [Int.toNat_of_nonneg h0] at e1 e2 e3 e4
      simp only [PGM.Rotate90CW, e1, e2, e3, e4, Option.map_some', Option.some_bind]
  · cases ppm with
    | mk data width height magicNumber max =>
      obtain ⟨h1, h0, h2⟩ := h
      simp only at h1 h0 h2
      subst h1
      obtain ⟨g1, g2, g3, e1, e2, e3, e4⟩ := rotateGrid_four width.toNat data.length data rfl
        (fun row hr => by have := h2 row hr; omega)
      rw [Int.toNat_of_nonneg h0] at e1 e2 e3 e4
      simp only [PPM.Rotate90CW, e1, e2, e3, e4, Option.map_some', Option.some_bind]

/-- Witness of C9 on a greymap of three columns and two rows and on a pixmap. -/
theorem rotate_fourfold_witness :
    (sampleGreyWide.WellFormed ∧
      sampleGreyWide.Rotate90CW =
        some { sampleGreyWide with data := [[4, 1], [5, 2], [6, 3]], width := 2, height := 3 } ∧
      ((sampleGreyWide.Rotate90CW.bind PGM.Rotate90CW).bind PGM.Rotate90CW).bind
        PGM.Rotate90CW = some sampleGreyWide) ∧
    (samplePix.WellFormed ∧
      ((samplePix.Rotate90CW.bind PPM.Rotate90CW).bind PPM.Rotate90CW).bind
        PPM.Rotate90CW = some samplePix) :=
  ⟨⟨by decide, by decide, rotate_fourfold.1 sampleGreyWide (by decide)⟩,
    ⟨by decide, rotate_fourfold.2 samplePix (by decide)⟩⟩

/-- The quarter turn on a well-formed grid of a raster: what `Rotate90CW` stores. -/
theorem rotate_mapping_grid {α : Type} (width height : Int) (data : List (List α))
    (h1 : (data.length : Int) = height) (h0 : 0 ≤ width)
    (h2 : ∀ row ∈ data, (row.length : Int) = width) :
    ∃ g, rotateGrid width height data = some g ∧ (g.length : Int) = width ∧
      (∀ row ∈ g, (row.length : Int) = height) ∧
      ∀ i j : Nat, (i : Int) < width → (j : Int) < height →
        cell g i j = cell data (height - 1 - (j : Int)).toNat i := by
  subst h1
  obtain ⟨g, e, l, r, c⟩ := rotateGrid_spec width.toNat data.length data rfl
    (fun row hr => by have := h2 row hr; omega)
  rw [Int.toNat_of_nonneg h0] at e
  refine ⟨g, e, by omega, fun row hr => by rw [r row hr], fun i j hi hj => ?_⟩
  rw [c i j (by omega) (by omega)]
  congr 1
  omega

/-- C10 (amended): on a well-formed greymap or pixmap `Rotate90CW` does not panic, the result
is well-formed with the stored width and height swapped, and the pixel in output row `i` and
column `j`, that is `At(j, i)`, for `i` below the input width and `j` below the input height,
is the input pixel in row `height-1-j` and column `i`, that is the input's
`At(i, height-1-j)`. -/
theorem rotate_mapping :
    (∀ pgm : PGM, pgm.WellFormed →
      ∃ r, pgm.Rotate90CW = some r ∧ r.width = pgm.height ∧ r.height = pgm.width ∧
        r.WellFormed ∧
        ∀ i j : Nat, (i : Int) < pgm.width → (j : Int) < pgm.height →
          r.At j i = pgm.At i (pgm.height - 1 - (j : Int)).toNat) ∧
    (∀ ppm : PPM, ppm.WellFormed →
      ∃ r, ppm.Rotate90CW = some r ∧ r.width = ppm.height ∧ r.height = ppm.width ∧
        r.WellFormed ∧
        ∀ i j : Nat, (i : Int) < ppm.width → (j : Int) < ppm.height →
          r.At j i = ppm.At i (ppm.height - 1 - (j : Int)).toNat) := by
  refine ⟨fun pgm h => ?_, fun ppm h => ?_⟩
  · obtain ⟨g, e, l, r, c⟩ := rotate_mapping_grid pgm.width pgm.height pgm.data h.1 h.2.1 h.2.2
    refine ⟨{ pgm with width := pgm.height, height := pgm.width, data := g },
      by rw [PGM.Rotate90CW, e]; rfl, rfl, rfl, ⟨l, ?_, r⟩, fun i j hi hj => c i j hi hj⟩
    have := h.1
    show 0 ≤ pgm.height
    omega
  · obtain ⟨g, e, l, r, c⟩ := rotate_mapping_grid ppm.width ppm.height ppm.data h.1 h.2.1 h.2.2
    refine ⟨{ ppm with width := ppm.height, height := ppm.width, data := g },
      by rw [PPM.Rotate90CW, e]; rfl, rfl, rfl, ⟨l, ?_, r⟩, fun i j hi hj => c i j hi hj⟩
    have := h.1
    show 0 ≤ ppm.height
    omega

/-- Witness of C10 (amended) on a greymap of three columns and two rows and on a pixmap. -/
theorem rotate_mapping_witness :
    (sampleGreyWide.WellFormed ∧
      ∃ r, sampleGreyWide.Rotate90CW = some r ∧ r.width = 2 ∧ r.height = 3 ∧ r.WellFormed ∧
        ∀ i j : Nat, (i : Int) < 3 → (j : Int) < 2 →
          r.At j i = sampleGreyWide.At i ((2 : Int) - 1 - (j : Int)).toNat) ∧
    (samplePix.WellFormed ∧
      ∃ r, samplePix.Rotate90CW = some r ∧ r.width = 2 ∧ r.height = 2 ∧ r.WellFormed ∧
        ∀ i j : Nat, (i : Int) < 2 → (j : Int) < 2 →
          r.At j i = samplePix.At i ((2 : Int) - 1 - (j : Int)).toNat) :=
  ⟨⟨by decide, rotate_mapping.1 sampleGreyWide (by decide)⟩,
    ⟨by decide, rotate_mapping.2 samplePix (by decide)⟩⟩

/-- C10 as stated fails: in the quarter turn of the 2 x 2 greymap with rows `[1, 2]` and
`[3, 4]` the pixel `At(1, 0)` (column 1, row 0) is `1`, while the input's `At(1, 2-1-0)` is
`4`. -/
theorem rotate_mapping_counterexample :
    sampleGrey.WellFormed ∧
    sampleGrey.Rotate90CW = some { sampleGrey with data := [[3, 1], [4, 2]] } ∧
    PGM.At { sampleGrey with data := [[3, 1], [4, 2]] } 1 0 = some 1 ∧
    sampleGrey.At 1 (2 - 1 - 0) = some 4 ∧
    PGM.At { sampleGrey with data := [[3, 1], [4, 2]] } 1 0 ≠ sampleGrey.At 1 (2 - 1 - 0) := by
  decide

/-! ## Binary bitmap packing -/

theorem foldlM_some {σ β : Type} (f : σ → β → Option σ) (g : σ → β → σ) (l : List β) (s : σ)
    (h : ∀ acc i, f acc i = some (g acc i)) : l.foldlM f s = some (l.foldl g s) := by
  induction l generalizing s with
  | nil => rfl
  | cons a t ih => rw [List.foldlM_cons, h, List.foldl_cons]; exact ih (g s a)

theorem packByte_eq (row : List Bool) (width : Int) (x : Nat)
    (hw : (row.length : Int) = width) :
    packByte row width x = some (bitsByte (fun i => row.getD (x + i) false)) := by
  unfold packByte forRange bitsByte
  apply foldlM_some
  intro acc i
  by_cases c : x + i < row.length
  · have h1 : ((x + i : Nat) : Int) < width := by omega
    simp only [h1, if_true, List.getD_eq_getElem?_getD, List.getElem?_eq_getElem c,
      Option.getD_some]
  · have h1 : ¬ ((x + i : Nat) : Int) < width := by omega
    simp only [h1, if_false, List.getD_eq_getElem?_getD,
      List.getElem?_eq_none (by omega : row.length ≤ x + i), Option.getD_none]
    rfl

theorem bitsByte_congr (b b' : Nat → Bool) (h : ∀ i, i < 8 → b i = b' i) :
    bitsByte b = bitsByte b' := by
  have h8 : List.range 8 = [0, 1, 2, 3, 4, 5, 6, 7] := rfl
  simp only [bitsByte, h8, List.foldl_cons, List.foldl_nil, h 0 (by omega), h 1 (by omega),
    h 2 (by omega), h 3 (by omega), h 4 (by omega), h 5 (by omega), h 6 (by omega),
    h 7 (by omega)]

theorem bitsByte_table : ∀ b0 b1 b2 b3 b4 b5 b6 b7 : Bool, ∀ i : Fin 8,
    (bitsByte (fun j => [b0, b1, b2, b3, b4, b5, b6, b7].getD j false)).testBit (7 - i.val)
        = [b0, b1, b2, b3, b4, b5, b6, b7].getD i.val false ∧
      bitsByte (fun j => [b0, b1, b2, b3, b4, b5, b6, b7].getD j false) < 256 := by
  decide

theorem bitsByte_eq_table (b : Nat → Bool) :
    bitsByte b =
      bitsByte (fun j => [b 0, b 1, b 2, b 3, b 4, b 5, b 6, b 7].getD j false) := by
  apply bitsByte_congr
  intro i hi
  have hi' : i = 0 ∨ i = 1 ∨ i = 2 ∨ i = 3 ∨ i = 4 ∨ i = 5 ∨ i = 6 ∨ i = 7 := by omega
  rcases hi' with h | h | h | h | h | h | h | h <;> subst h <;> rfl

theorem bitsByte_testBit (b : Nat → Bool) (i : Nat) (hi : i < 8) :
    (bitsByte b).testBit (7 - i) = b i := by
  rw [bitsByte_eq_table b]
  have := (bitsByte_table (b 0) (b 1) (b 2) (b 3) (b 4) (b 5) (b 6) (b 7) ⟨i, hi⟩).1
  rw [this]
  have hi' : i = 0 ∨ i = 1 ∨ i = 2 ∨ i = 3 ∨ i = 4 ∨ i = 5 ∨ i = 6 ∨ i = 7 := by omega
  rcases hi' with h | h | h | h | h | h | h | h <;> subst h <;> rfl

theorem bitsByte_lt (b : Nat → Bool) : bitsByte b < 256 := by
  rw [bitsByte_eq_table b]
  exact (bitsByte_table (b 0) (b 1) (b 2) (b 3) (b 4) (b 5) (b 6) (b 7) ⟨0, by omega⟩).2

theorem packRow_eq (row : List Bool) (width : Int) (hw : (row.length : Int) = width) :
    packRow width row = some ((List.range ((width + 7) / 8).toNat).map
      (fun k => bitsByte (fun i => row.getD (8 * k + i) false))) := by
  unfold packRow
  exact mapM_map_some _ _ _ (fun k _ => packByte_eq row width (8 * k) hw)

theorem length_flatten_const {α : Type} (L : List (List α)) (n : Nat)
    (h : ∀ l ∈ L, l.length = n) : L.flatten.length = L.length * n := by
  induction L with
  | nil => simp
  | cons a t ih =>
    rw [List.flatten_cons, List.length_append, h a (by simp),
      ih (fun l hl => h l (by simp [hl])), List.length_cons]
    ring

/-- C5: for a well-formed bitmap with tag `P4`, `Save` does not panic and writes, after the
header, one group of bytes per row, in row order; the group of a row has `ceil(width/8)` bytes,
bit `7 - (x mod 8)` of its byte `x / 8` is pixel `x` of the row, and the bits of the last byte
that stand for positions at or beyond `width` are `0`; so the payload has
`height * ceil(width/8)` bytes. The row `1 0 1 1 0 0 0 0 0 1` of width 10 is written as the two
bytes `0xB0 0x40`. -/
theorem save_P4_packing :
    (∀ pbm : PBM, pbm.WellFormed → pbm.magicNumber = magicP4 →
      ∃ rows : List (List Nat),
        pbm.Save = some (pbm.header ++ rows.flatten) ∧
        rows.length = pbm.data.length ∧
        (∀ (y : Nat) (row : List Bool) (bytes : List Nat),
          pbm.data[y]? = some row → rows[y]? = some bytes →
            (bytes.length : Int) = (pbm.width + 7) / 8 ∧
            (∀ v ∈ bytes, v < 256) ∧
            (∀ x : Nat, (x : Int) < pbm.width →
              row[x]? = some ((bytes.getD (x / 8) 0).testBit (7 - x % 8))) ∧
            (∀ x : Nat, pbm.width ≤ (x : Int) → x < 8 * bytes.length →
              (bytes.getD (x / 8) 0).testBit (7 - x % 8) = false)) ∧
        (rows.flatten.length : Int) = pbm.height * ((pbm.width + 7) / 8)) ∧
    samplePackedRow.Save = some (samplePackedRow.header ++ [0xB0, 0x40]) := by
  refine ⟨fun pbm hwf hm => ?_, by decide⟩
  obtain ⟨h1, h0, h2⟩ := hwf
  have hrows : pbm.data.mapM (packRow pbm.width) = some (pbm.data.map (fun row =>
      (List.range ((pbm.width + 7) / 8).toNat).map
        (fun k => bitsByte (fun i => row.getD (8 * k + i) false)))) :=
    mapM_map_some _ _ _ (fun row hrow => packRow_eq row pbm.width (h2 row hrow))
  refine ⟨pbm.data.map (fun row =>
      (List.range ((pbm.width + 7) / 8).toNat).map
        (fun k => bitsByte (fun i => row.getD (8 * k + i) false))), ?_,
    by rw [List.length_map], ?_, ?_⟩
  · unfold PBM.Save PBM.payload
    rw [if_neg (by rw [hm]; decide), if_pos hm, hrows]
    rfl
  · intro y row bytes hy hb
    rw [List.getElem?_map, hy] at hb
    simp only [Option.map_some', Option.some.injEq] at hb
    subst hb
    have hrow : (row.length : Int) = pbm.width := h2 row (List.getElem?_mem hy)
    have hn : (((pbm.width + 7) / 8).toNat : Int) = (pbm.width + 7) / 8 := by omega
    refine ⟨by rw [List.length_map, List.length_range, hn], ?_, ?_, ?_⟩
    · intro v hv
      obtain ⟨k, _, rfl⟩ := List.mem_map.1 hv
      exact bitsByte_lt _
    · intro x hx
      have hk : x / 8 < ((pbm.width + 7) / 8).toNat := by omega
      rw [List.getD_eq_getElem?_getD, List.getElem?_map, List.getElem?_range hk]
      simp only [Option.map_some', Option.getD_some]
      rw [bitsByte_testBit _ (x % 8) (Nat.mod_lt _ (by omega))]
      have hx' : x < row.length := by omega
      rw [List.getD_eq_getElem?_getD, Nat.div_add_mod, List.getElem?_eq_getElem hx']
      rfl
    · intro x hx hx8
      rw [List.length_map, List.length_range] at hx8
      have hk : x / 8 < ((pbm.width + 7) / 8).toNat := by omega
      rw [List.getD_eq_getElem?_getD, List.getElem?_map, List.getElem?_range hk]
      simp only [Option.map_some', Option.getD_some]
      rw [bitsByte_testBit _ (x % 8) (Nat.mod_lt _ (by omega))]
      rw [List.getD_eq_getElem?_getD, Nat.div_add_mod,
        List.getElem?_eq_none (by omega : row.length ≤ x)]
      rfl
  · have hn : (((pbm.width + 7) / 8).toNat : Int) = (pbm.width + 7) / 8 := by omega
    rw [length_flatten_const _ ((pbm.width + 7) / 8).toNat (by
      intro l hl
      obtain ⟨row, _, rfl⟩ := List.mem_map.1 hl
      rw [List.length_map, List.length_range]), List.length_map]
    push_cast
    rw [hn, h1]

/-- Witness of C5 on the row of ten pixels of the packing example. -/
theorem save_P4_packing_witness :
    samplePackedRow.WellFormed ∧ samplePackedRow.magicNumber = magicP4 ∧
    ∃ rows : List (List Nat),
      samplePackedRow.Save = some (samplePackedRow.header ++ rows.flatten) ∧
      rows.length = samplePackedRow.data.length ∧
      (∀ (y : Nat) (row : List Bool) (bytes : List Nat),
        samplePackedRow.data[y]? = some row → rows[y]? = some bytes →
          (bytes.length : Int) = (samplePackedRow.width + 7) / 8 ∧
          (∀ v ∈ bytes, v < 256) ∧
          (∀ x : Nat, (x : Int) < samplePackedRow.width →
            row[x]? = some ((bytes.getD (x / 8) 0).testBit (7 - x % 8))) ∧
          (∀ x : Nat, samplePackedRow.width ≤ (x : Int) → x < 8 * bytes.length →
            (bytes.getD (x / 8) 0).testBit (7 - x % 8) = false)) ∧
      (rows.flatten.length : Int) = samplePackedRow.height * ((samplePackedRow.width + 7) / 8) :=
  ⟨by decide, rfl, save_P4_packing.1 samplePackedRow (by decide) rfl⟩

/-! ## Decimal text -/

theorem formatNatAux_append (fuel n : Nat) (acc : List Nat) :
    formatNatAux fuel n acc = formatNatAux fuel n [] ++ acc := by
  induction fuel generalizing n acc with
  | zero => rfl
  | succ f ih =>
    simp only [formatNatAux]
    split
    · rfl
    · rw [ih (n / 10) ((48 + n % 10) :: acc), ih (n / 10) [48 + n % 10]]
      simp

theorem formatNatAux_fuel (fuel n : Nat) (h : n < fuel) :
    formatNatAux fuel n [] = formatNatAux (n + 1) n [] := by
  induction fuel using Nat.strong_induction_on generalizing n with
  | _ fuel ih =>
    cases fuel with
    | zero => omega
    | succ f =>
      simp only [formatNatAux]
      split
      · rfl
      · rename_i hne
        have h10 : n / 10 < n := by omega
        rw [formatNatAux_append f, formatNatAux_append n,
          ih f (by omega) (n / 10) (by omega), ih n h (n / 10) h10]

theorem formatNat_lt_ten (n : Nat) (h : n < 10) : formatNat n = [48 + n] := by
  unfold formatNat
  simp only [formatNatAux]
  rw [if_pos (by omega), Nat.mod_eq_of_lt h]

theorem formatNat_ge_ten (n : Nat) (h : 10 ≤ n) :
    formatNat n = formatNat (n / 10) ++ [48 + n % 10] := by
  have e : formatNatAux (n + 1) n [] = formatNatAux n (n / 10) [48 + n % 10] := by
    simp only [formatNatAux]
    rw [if_neg (by omega)]
  unfold formatNat
  rw [e, formatNatAux_append, formatNatAux_fuel n (n / 10) (by omega)]

theorem formatNat_digits (n : Nat) : ∀ c ∈ formatNat n, isDigit c = true := by
  induction n using Nat.strong_induction_on with
  | _ n ih =>
    intro c hc
    by_cases h : n < 10
    · rw [formatNat_lt_ten n h] at hc
      simp only [List.mem_singleton] at hc
      subst hc
      simp [isDigit]; omega
    · rw [formatNat_ge_ten n (by omega)] at hc
      rcases List.mem_append.1 hc with hc | hc
      · exact ih (n / 10) (by omega) c hc
      · simp only [List.mem_singleton] at hc
        subst hc
        simp [isDigit]; omega

theorem formatNat_ne_nil (n : Nat) : formatNat n ≠ [] := by
  by_cases h : n < 10
  · rw [formatNat_lt_ten n h]; simp
  · rw [formatNat_ge_ten n (by omega)]; simp

theorem parseDec_append_singleton (ds : List Nat) (c : Nat) :
    parseDec (ds ++ [c]) = parseDec ds * 10 + (c - 48) := by
  simp [parseDec, List.foldl_append]

theorem parseDec_formatNat (n : Nat) : parseDec (formatNat n) = n := by
  induction n using Nat.strong_induction_on with
  | _ n ih =>
    by_cases h : n < 10
    · rw [formatNat_lt_ten n h]
      simp [parseDec]
    · rw [formatNat_ge_ten n (by omega), parseDec_append_singleton, ih (n / 10) (by omega)]
      omega

theorem formatNat_length_le (k n : Nat) (hk : 0 < k) (h : n < 10 ^ k) :
    (formatNat n).length ≤ k := by
  induction k generalizing n with
  | zero => omega
  | succ k ih =>
    by_cases h10 : n < 10
    · rw [formatNat_lt_ten n h10]; simp
    · rw [formatNat_ge_ten n (by omega), List.length_append]
      have hk' : 0 < k := by
        rcases Nat.eq_zero_or_pos k with h0 | h0
        · subst h0; simp at h; omega
        · exact h0
      have : n / 10 < 10 ^ k := by
        rw [Nat.div_lt_iff_lt_mul (by omega)]
        rw [pow_succ] at h
        exact h
      have := ih (n / 10) hk' this
      simp
      omega

theorem formatInt_of_nat (n : Nat) : formatInt (n : Int) = formatNat n := by
  unfold formatInt
  rw [if_neg (by omega)]
  simp

/-! ## The separated-output loop -/

theorem writeSeparatedFrom_eq {α : Type} (sep : List Nat) (item : α → List Nat) (len i : Nat)
    (xs : List α) (h : i + xs.length = len) :
    writeSeparatedFrom sep item len i xs = List.intercalate sep (xs.map item) := by
  induction xs generalizing i with
  | nil => rfl
  | cons x rest ih =>
    simp only [writeSeparatedFrom]
    rw [ih (i + 1) (by simp at h; omega)]
    cases rest with
    | nil =>
      rw [if_pos (by simp at h; omega)]
      simp [List.intercalate]
    | cons y t =>
      rw [if_neg (by simp at h; omega)]
      simp [List.intercalate, List.intersperse]

theorem writeSeparated_eq {α : Type} (sep : List Nat) (item : α → List Nat) (xs : List α) :
    writeSeparated sep item xs = List.intercalate sep (xs.map item) :=
  writeSeparatedFrom_eq sep item xs.length 0 xs (by omega)

/-! ## ASCII pixmap layout -/

theorem intercalate_cons_cons {α : Type} (sep x y : List α) (t : List (List α)) :
    List.intercalate sep (x :: y :: t) = x ++ sep ++ List.intercalate sep (y :: t) := by
  simp [List.intercalate, List.intersperse]

theorem intercalate_singleton {α : Type} (sep x : List α) :
    List.intercalate sep [x] = x := by
  simp [List.intercalate, List.intersperse]

theorem mem_intercalate {α : Type} (sep : List α) (xs : List (List α)) (c : α)
    (h : c ∈ List.intercalate sep xs) : c ∈ sep ∨ ∃ x ∈ xs, c ∈ x := by
  induction xs with
  | nil => simp [List.intercalate] at h
  | cons x t ih =>
    cases t with
    | nil =>
      rw [intercalate_singleton] at h
      exact Or.inr ⟨x, by simp, h⟩
    | cons y t' =>
      rw [intercalate_cons_cons] at h
      rcases List.mem_append.1 h with h | h
      · rcases List.mem_append.1 h with h | h
        · exact Or.inr ⟨x, by simp, h⟩
        · exact Or.inl h
      · rcases ih h with h | ⟨z, hz, hc⟩
        · exact Or.inl h
        · exact Or.inr ⟨z, List.mem_cons_of_mem _ hz, hc⟩

/-- A joined text ends with its last piece. -/
theorem intercalate_suffix {α : Type} (sep : List α) (xs : List (List α)) (last : List α)
    (h : xs.getLast? = some last) : last <:+ List.intercalate sep xs := by
  induction xs with
  | nil => simp at h
  | cons x t ih =>
    cases t with
    | nil =>
      simp at h
      subst h
      rw [intercalate_singleton]
    | cons y t' =>
      rw [intercalate_cons_cons]
      have h' : (y :: t').getLast? = some last := by
        rw [List.getLast?_cons_cons] at h; exact h
      exact List.IsSuffix.trans (ih h') (List.suffix_append _ _)

theorem rowText_eq (row : List Pixel) :
    writeSeparated [32] Pixel.text row = List.intercalate [32] (PPM.rowValues row) := by
  rw [writeSeparated_eq]
  induction row with
  | nil => rfl
  | cons p t ih =>
    cases t with
    | nil =>
      simp [PPM.rowValues, Pixel.text, List.intercalate, List.intersperse]
    | cons q t' =>
      rw [List.map_cons, List.map_cons, intercalate_cons_cons, ← List.map_cons, ih]
      simp [PPM.rowValues, Pixel.text, List.intercalate, List.intersperse]

theorem formatInt_chars (n : Int) : ∀ c ∈ formatInt n, c = 45 ∨ isDigit c = true := by
  intro c hc
  unfold formatInt at hc
  split at hc
  · rcases List.mem_cons.1 hc with h | h
    · exact Or.inl h
    · exact Or.inr (formatNat_digits _ c h)
  · exact Or.inr (formatNat_digits _ c hc)

theorem formatNat_getLast (n : Nat) : ∃ c, (formatNat n).getLast? = some c ∧ isDigit c = true := by
  by_cases h : n < 10
  · rw [formatNat_lt_ten n h]
    exact ⟨48 + n, rfl, by simp [isDigit]; omega⟩
  · rw [formatNat_ge_ten n (by omega)]
    exact ⟨48 + n % 10, by simp, by simp [isDigit]; omega⟩

theorem formatInt_getLast (n : Int) : ∃ c, (formatInt n).getLast? = some c ∧ isDigit c = true := by
  unfold formatInt
  split
  · obtain ⟨c, hc, hd⟩ := formatNat_getLast n.natAbs
    refine ⟨c, ?_, hd⟩
    cases hf : formatNat n.natAbs with
    | nil => exact absurd hf (formatNat_ne_nil _)
    | cons a t => rw [List.getLast?_cons_cons, ← hf, hc]
  · exact formatNat_getLast _

theorem getLast?_of_suffix {α : Type} (l s : List α) (c : α) (h : s <:+ l)
    (hc : s.getLast? = some c) : l.getLast? = some c := by
  obtain ⟨pre, rfl⟩ := h
  cases s with
  | nil => simp at hc
  | cons a t =>
    rw [List.getLast?_append_of_ne_nil _ (by simp)]
    exact hc

/-- C6: for a pixmap with tag `P3` (its grid need not even be well-formed), the bytes `Save`
writes are the lines `P3`, `width height` and `max`, each ended by a newline, followed by the
rows joined by single newlines, where a row is the decimal R, G and B values of its pixels, in
order, joined by single blanks. No line holds a newline or ends with a blank, the file ends
with the text of the last row, and when that row has a pixel the last byte of the file is a
digit, not a newline. -/
theorem save_P3_layout (ppm : PPM) (hm : ppm.magicNumber = magicP3) :
    ppm.Save = ppm.asciiLayout ∧
    (∀ line ∈ [magicP3, formatInt ppm.width ++ [32] ++ formatInt ppm.height,
        formatNat ppm.max] ++ ppm.asciiRows, 10 ∉ line ∧ line.getLast? ≠ some 32) ∧
    (∀ lastRow, ppm.data.getLast? = some lastRow →
      List.intercalate [32] (PPM.rowValues lastRow) <:+ ppm.Save ∧
      (lastRow ≠ [] → ∃ c, ppm.Save.getLast? = some c ∧ isDigit c = true)) := by
  have hrows : ∀ row : List Pixel, ∀ v ∈ PPM.rowValues row,
      (∀ c ∈ v, isDigit c = true) ∧ ∃ c, v.getLast? = some c ∧ isDigit c = true := by
    intro row v hv
    simp only [PPM.rowValues, List.mem_flatMap, List.mem_cons, List.mem_singleton,
      List.not_mem_nil, or_false] at hv
    obtain ⟨p, _, h | h | h⟩ := hv <;> subst h <;>
      exact ⟨formatNat_digits _, formatNat_getLast _⟩
  have hline : ∀ row : List Pixel,
      10 ∉ List.intercalate [32] (PPM.rowValues row) ∧
      (List.intercalate [32] (PPM.rowValues row)).getLast? ≠ some 32 ∧
      (row ≠ [] → ∃ c, (List.intercalate [32] (PPM.rowValues row)).getLast? = some c ∧
        isDigit c = true) := by
    intro row
    have hlast : ∀ v, (PPM.rowValues row).getLast? = some v →
        ∃ c, (List.intercalate [32] (PPM.rowValues row)).getLast? = some c ∧
          isDigit c = true := by
      intro v hv
      obtain ⟨_, c, hc, hd⟩ := hrows row v (List.mem_of_getLast?_eq_some hv)
      exact ⟨c, getLast?_of_suffix _ _ c (intercalate_suffix [32] _ v hv) hc, hd⟩
    refine ⟨?_, ?_, ?_⟩
    · intro h
      rcases mem_intercalate _ _ _ h with h | ⟨v, hv, hc⟩
      · simp at h
      · have := (hrows row v hv).1 10 hc
        simp [isDigit] at this
    · cases hv : (PPM.rowValues row).getLast? with
      | none =>
        rw [List.getLast?_eq_none_iff] at hv
        rw [hv]
        simp [List.intercalate]
      | some v =>
        obtain ⟨c, hc, hd⟩ := hlast v hv
        rw [hc]
        intro h
        simp only [Option.some.injEq] at h
        subst h
        simp [isDigit] at hd
    · intro hne
      cases row with
      | nil => exact absurd rfl hne
      | cons p t =>
        cases hv : (PPM.rowValues (p :: t)).getLast? with
        | none =>
          rw [List.getLast?_eq_none_iff] at hv
          simp [PPM.rowValues] at hv
        | some v => exact hlast v hv
  have hsave : ppm.Save = ppm.asciiLayout := by
    unfold PPM.Save PPM.header PPM.payload PPM.asciiLayout PPM.asciiRows
    rw [if_pos hm, hm, writeSeparated_eq]
    congr 2
    apply List.map_congr_left
    intro row _
    exact rowText_eq row
  refine ⟨hsave, ?_, ?_⟩
  · intro line hl
    simp only [List.cons_append, List.nil_append, List.mem_cons] at hl
    rcases hl with h | h | h | h
    · subst h; decide
    · subst h
      refine ⟨?_, ?_⟩
      · intro h10
        simp only [List.mem_append, List.mem_singleton] at h10
        rcases h10 with (h10 | h10) | h10
        · rcases formatInt_chars _ _ h10 with h | h
          · omega
          · simp [isDigit] at h
        · omega
        · rcases formatInt_chars _ _ h10 with h | h
          · omega
          · simp [isDigit] at h
      · obtain ⟨c, hc, hd⟩ := formatInt_getLast ppm.height
        rw [getLast?_of_suffix _ _ c (List.suffix_append _ _) hc]
        intro h
        simp only [Option.some.injEq] at h
        subst h
        simp [isDigit] at hd
    · subst h
      refine ⟨?_, ?_⟩
      · intro h10
        have := formatNat_digits _ _ h10
        simp [isDigit] at this
      · obtain ⟨c, hc, hd⟩ := formatNat_getLast ppm.max
        rw [hc]
        intro h
        simp only [Option.some.injEq] at h
        subst h
        simp [isDigit] at hd
    · simp only [PPM.asciiRows, List.mem_map] at h
      obtain ⟨row, _, rfl⟩ := h
      exact ⟨(hline row).1, (hline row).2.1⟩
  · intro lastRow hlast
    have hsuf : List.intercalate [32] (PPM.rowValues lastRow) <:+ ppm.Save := by
      rw [hsave]
      unfold PPM.asciiLayout
      refine List.IsSuffix.trans (intercalate_suffix [10] _ _ ?_) (List.suffix_append _ _)
      simp only [PPM.asciiRows, List.getLast?_map, hlast, Option.map_some']
    refine ⟨hsuf, fun hne => ?_⟩
    obtain ⟨c, hc, hd⟩ := (hline lastRow).2.2 hne
    exact ⟨c, getLast?_of_suffix _ _ c hsuf hc, hd⟩

/-- Witness of C6 on a 2 x 2 pixmap: the bytes are those of the five lines `P3`, `2 2`, `255`,
`1 2 3 4 5 6` and `10 20 30 40 50 255`, the last one without a newline. -/
theorem save_P3_layout_witness :
    samplePix.magicNumber = magicP3 ∧
    samplePix.Save = [80, 51, 10, 50, 32, 50, 10, 50, 53, 53, 10,
      49, 32, 50, 32, 51, 32, 52, 32, 53, 32, 54, 10,
      49, 48, 32, 50, 48, 32, 51, 48, 32, 52, 48, 32, 53, 48, 32, 50, 53, 53] ∧
    samplePix.Save = samplePix.asciiLayout :=
  ⟨rfl, by decide, (save_P3_layout samplePix rfl).1⟩

/-! ## Lines and fields -/

theorem dropCR_of_getLast (l : List Nat) (h : l.getLast? ≠ some 13) : dropCR l = l := by
  unfold dropCR
  rw [if_neg h]

theorem scanLinesAux_line (l rest cur : List Nat) (h : 10 ∉ l) :
    scanLinesAux (l ++ 10 :: rest) cur =
      if (cur ++ l).length < MaxScanTokenSize then dropCR (cur ++ l) :: scanLinesAux rest []
      else [] := by
  induction l generalizing cur with
  | nil => simp [scanLinesAux]
  | cons c t ih =>
    have hc : c ≠ 10 := fun e => h (by simp [e])
    have ht : 10 ∉ t := fun e => h (by simp [e])
    rw [List.cons_append, scanLinesAux, if_neg hc, ih _ ht]
    simp

theorem scanLinesAux_last (l cur : List Nat) (h : 10 ∉ l) :
    scanLinesAux l cur =
      if cur ++ l = [] then []
      else if (cur ++ l).length < MaxScanTokenSize then [dropCR (cur ++ l)] else [] := by
  induction l generalizing cur with
  | nil => simp [scanLinesAux]
  | cons c t ih =>
    have hc : c ≠ 10 := fun e => h (by simp [e])
    have ht : 10 ∉ t := fun e => h (by simp [e])
    rw [scanLinesAux, if_neg hc, ih _ ht]
    simp

/-- A first line that fits the buffer is scanned off. -/
theorem scanLines_line (l rest : List Nat) (h : 10 ∉ l) (hlen : l.length < MaxScanTokenSize)
    (hcr : l.getLast? ≠ some 13) :
    scanLines (l ++ 10 :: rest) = l :: scanLines rest := by
  unfold scanLines
  rw [scanLinesAux_line l rest [] h]
  simp only [List.nil_append]
  rw [if_pos hlen, dropCR_of_getLast l hcr]

/-- A last line without newline that does not fit the buffer is not scanned at all. -/
theorem scanLines_too_long (l : List Nat) (h : 10 ∉ l) (hlen : MaxScanTokenSize ≤ l.length) :
    scanLines l = [] := by
  unfold scanLines
  rw [scanLinesAux_last l [] h]
  simp only [List.nil_append]
  split
  · rfl
  · rw [if_neg (by omega)]

/-- An input of newlines only is scanned into empty lines. -/
theorem scanLines_newlines (input : List Nat) (h : ∀ c ∈ input, c = 10) :
    ∀ t ∈ scanLines input, t = [] := by
  unfold scanLines
  induction input with
  | nil => simp [scanLinesAux]
  | cons c rest ih =>
    have hc : c = 10 := h c (by simp)
    subst hc
    intro t ht
    rw [scanLinesAux, if_pos rfl] at ht
    simp only [List.length_nil] at ht
    rw [if_pos (by decide)] at ht
    rcases List.mem_cons.1 ht with e | e
    · rw [e]; rfl
    · exact ih (fun c hc => h c (by simp [hc])) t e

/-- Lines that hold no newline, are not empty, fit the buffer and do not end with a carriage
return are scanned back from their join. -/
theorem scanLines_intercalate (lines : List (List Nat))
    (h : ∀ l ∈ lines, 10 ∉ l ∧ l ≠ [] ∧ l.length < MaxScanTokenSize ∧ l.getLast? ≠ some 13) :
    scanLines (List.intercalate [10] lines) = lines := by
  induction lines with
  | nil => rfl
  | cons l t ih =>
    obtain ⟨h1, h2, h3, h4⟩ := h l (by simp)
    cases t with
    | nil =>
      rw [intercalate_singleton]
      unfold scanLines
      rw [scanLinesAux_last l [] h1]
      simp only [List.nil_append]
      rw [if_neg h2, if_pos h3, dropCR_of_getLast l h4]
    | cons l' t' =>
      rw [intercalate_cons_cons, List.append_assoc, List.singleton_append,
        scanLines_line l _ h1 h3 h4, ih (fun x hx => h x (by simp [hx]))]

/-- No white-space rune begins with a decimal digit. -/
theorem spaceWidth_of_digit (c : Nat) (rest : List Nat) (h : isDigit c = true) :
    spaceWidth (c :: rest) = 0 := by
  simp only [isDigit, Bool.and_eq_true, decide_eq_true_eq] at h
  have e : ∀ k : Nat, k < 48 ∨ 57 < k → (k == c) = false := by
    intro k hk
    simp only [beq_eq_false_iff_ne, ne_eq]
    omega
  simp only [spaceWidth, spaceRunes, List.find?, List.isPrefixOf, e 9 (by omega),
    e 10 (by omega), e 11 (by omega), e 12 (by omega), e 13 (by omega), e 32 (by omega),
    e 194 (by omega), e 225 (by omega), e 226 (by omega), e 227 (by omega), Bool.false_and]

theorem spaceWidth_blank (rest : List Nat) : spaceWidth (32 :: rest) = 1 := by
  simp [spaceWidth, spaceRunes, List.find?, List.isPrefixOf]

theorem dropRunes_of_digit (c : Nat) (rest : List Nat) (h : isDigit c = true) :
    dropRunes spaceWidth 0 (c :: rest) = c :: rest := by
  rw [dropRunes, if_pos (spaceWidth_of_digit c rest h)]

theorem dropRunes_blank (s : List Nat) :
    dropRunes spaceWidth 0 (32 :: s) = dropRunes spaceWidth 0 s := by
  rw [dropRunes, if_neg (by rw [spaceWidth_blank]; decide), spaceWidth_blank]

theorem fieldsAux_token (tok rest cur : List Nat) (h : ∀ c ∈ tok, isDigit c = true)
    (hne : cur ++ tok ≠ []) :
    fieldsAux 0 (tok ++ 32 :: rest) cur = (cur ++ tok) :: fieldsAux 0 rest [] := by
  induction tok generalizing cur with
  | nil =>
    simp only [List.nil_append, List.append_nil] at hne ⊢
    rw [fieldsAux, if_neg (by rw [spaceWidth_blank]; decide), if_neg hne, spaceWidth_blank]
  | cons c t ih =>
    rw [List.cons_append, fieldsAux, if_pos (spaceWidth_of_digit c _ (h c (by simp))),
      ih (cur ++ [c]) (fun x hx => h x (by simp [hx])) (by simp)]
    simp

theorem fieldsAux_last (tok cur : List Nat) (h : ∀ c ∈ tok, isDigit c = true)
    (hne : cur ++ tok ≠ []) :
    fieldsAux 0 tok cur = [cur ++ tok] := by
  induction tok generalizing cur with
  | nil =>
    simp only [List.append_nil] at hne ⊢
    rw [fieldsAux, if_neg hne]
  | cons c t ih =>
    rw [fieldsAux, if_pos (spaceWidth_of_digit c _ (h c (by simp))),
      ih (cur ++ [c]) (fun x hx => h x (by simp [hx])) (by simp)]
    simp

/-- Tokens that are not empty and hold decimal digits only are the fields of their join by
single blanks. -/
theorem Fields_intercalate (toks : List (List Nat))
    (h : ∀ t ∈ toks, t ≠ [] ∧ ∀ c ∈ t, isDigit c = true) :
    Fields (List.intercalate [32] toks) = toks := by
  induction toks with
  | nil => rfl
  | cons t rest ih =>
    obtain ⟨h1, h2⟩ := h t (by simp)
    cases rest with
    | nil =>
      rw [intercalate_singleton]
      unfold Fields
      rw [fieldsAux_last t [] h2 (by simpa using h1)]
      rfl
    | cons t' rest' =>
      have := ih (fun x hx => h x (by simp [hx]))
      unfold Fields at this ⊢
      rw [intercalate_cons_cons, List.append_assoc, List.singleton_append,
        fieldsAux_token t _ [] h2 (by simpa using h1), this]
      rfl

/-! ## Scanning numbers -/

theorem takeWhile_digits_append (ds rest : List Nat) (h : ∀ c ∈ ds, isDigit c = true)
    (hr : ∀ c, rest.head? = some c → isDigit c = false) :
    (ds ++ rest).takeWhile isDigit = ds ∧ (ds ++ rest).dropWhile isDigit = rest := by
  rw [List.takeWhile_append_of_pos h, List.dropWhile_append_of_pos h]
  cases rest with
  | nil => exact ⟨by simp, rfl⟩
  | cons c t =>
    have := hr c rfl
    rw [List.takeWhile_cons_of_neg (by simp [this]), List.dropWhile_cons_of_neg (by simp [this])]
    exact ⟨by simp, rfl⟩

theorem formatNat_head (n : Nat) : ∃ d t, formatNat n = d :: t ∧ isDigit d = true := by
  cases h : formatNat n with
  | nil => exact absurd h (formatNat_ne_nil n)
  | cons d t => exact ⟨d, t, rfl, formatNat_digits n d (by rw [h]; simp)⟩

/-- The verb `%d` reads back a decimal text that a byte other than a digit, or nothing,
follows. -/
theorem scanInt_formatNat (n : Nat) (rest : List Nat) (hn : (n : Int) < 2 ^ 63)
    (hr : ∀ c, rest.head? = some c → isDigit c = false) :
    scanInt (formatNat n ++ rest) = some ((n : Int), rest) := by
  obtain ⟨d, t, hf, hd⟩ := formatNat_head n
  have hd' : 48 ≤ d ∧ d ≤ 57 := by
    simpa [isDigit] using hd
  have h0 : dropRunes spaceWidth 0 (formatNat n ++ rest) = formatNat n ++ rest := by
    rw [hf, List.cons_append, dropRunes_of_digit d _ hd]
  have hhead : (formatNat n ++ rest).head? = some d := by rw [hf]; rfl
  obtain ⟨t1, t2⟩ := takeWhile_digits_append (formatNat n) rest (formatNat_digits n) hr
  have hne : ¬ (d = 45 ∨ d = 43) := by omega
  have hb : ((some d == some 45) = false) := by
    simp only [beq_eq_false_iff_ne, ne_eq, Option.some.injEq]
    omega
  have hrange : -(2 : Int) ^ 63 ≤ (n : Int) ∧ (n : Int) < 2 ^ 63 := by
    constructor <;> omega
  unfold scanInt
  simp only [h0, hhead, Option.some.injEq, hne, if_false, hb, Bool.false_eq_true, t1, t2,
    parseDec_formatNat, formatNat_ne_nil n, hrange, and_self, if_true]

/-- The verb `%d` reads back a decimal text below 256 into a `uint8`. -/
theorem scanUint8_formatNat (n : Nat) (hn : n < 256) :
    scanUint8 (formatNat n) = some (n, []) := by
  obtain ⟨d, t, hf, hd⟩ := formatNat_head n
  have h0 : dropRunes spaceWidth 0 (formatNat n) = formatNat n := by
    rw [hf, dropRunes_of_digit d _ hd]
  have := takeWhile_digits_append (formatNat n) [] (formatNat_digits n) (by simp)
  rw [List.append_nil] at this
  unfold scanUint8
  simp only [h0]
  rw [this.1, this.2, if_neg (formatNat_ne_nil n), parseDec_formatNat, if_pos hn]

theorem sscanfMax_formatNat (n m : Nat) (hn : n < 256) : sscanfMax (formatNat n) m = n := by
  unfold sscanfMax
  rw [scanUint8_formatNat n hn]

/-- The dimensions line that `Save` writes is read back by `Sscanf`. -/
theorem sscanfDims_format (w h : Nat) (w0 h0 : Int) (hw : (w : Int) < 2 ^ 63)
    (hh : (h : Int) < 2 ^ 63) :
    sscanfDims (formatInt (w : Int) ++ [32] ++ formatInt (h : Int)) w0 h0
      = ((w : Int), (h : Int)) := by
  rw [formatInt_of_nat, formatInt_of_nat, List.append_assoc]
  unfold sscanfDims
  rw [scanInt_formatNat w _ hw (by simp [isDigit])]
  simp only [List.singleton_append]
  rw [if_neg (by rw [spaceWidth_blank]; decide)]
  have h1 : scanInt (32 :: formatNat h) = scanInt (formatNat h ++ []) := by
    unfold scanInt
    rw [dropRunes_blank, List.append_nil]
  rw [h1, scanInt_formatNat h [] hh (by simp)]

/-! ## Reading a row of tokens -/

theorem set_take_drop {α : Type} (row old : List α) (i : Nat) (v : α)
    (hv : row[i]? = some v) (hi : i < old.length) :
    (row.take i ++ old.drop i).set i v = row.take (i + 1) ++ old.drop (i + 1) := by
  have hir : i < row.length := by
    by_contra hc
    rw [List.getElem?_eq_none (by omega)] at hv
    exact absurd hv (by simp)
  apply List.ext_getElem?
  intro k
  rw [List.getElem?_set]
  by_cases hk : i = k
  · subst hk
    rw [if_pos rfl, if_pos (by simp; omega),
      List.getElem?_append_left (by simp; omega), List.getElem?_take_of_lt (by omega), hv]
  · rw [if_neg hk]
    by_cases hlt : k < i
    · rw [List.getElem?_append_left (by simp; omega),
        List.getElem?_append_left (by simp; omega), List.getElem?_take_of_lt hlt,
        List.getElem?_take_of_lt (by omega)]
    · rw [List.getElem?_append_right (by simp; omega),
        List.getElem?_append_right (by simp; omega)]
      simp only [List.length_take, List.getElem?_drop]
      congr 1
      omega

/-- A loop that assigns `data[line][i] = row[i]` for every `i` below the width replaces the
row `line` of `data` by `row`, and does not panic when that row exists with that width. -/
theorem forRange_fill {α : Type} (w line : Nat) (data : List (List α)) (old row : List α)
    (body : Nat → List (List α) → Option (List (List α)))
    (hold : data[line]? = some old) (ho : old.length = w) (hr : row.length = w)
    (hb : ∀ i d v, i < w → row[i]? = some v → body i d = setAt d line i v) :
    forRange w body data = some (data.set line row) := by
  have hline : line < data.length := by
    by_contra hc
    rw [List.getElem?_eq_none (by omega)] at hold
    exact absurd hold (by simp)
  obtain ⟨t, ht, hP⟩ := forRange_inv
    (fun i (d : List (List α)) => d = data.set line (row.take i ++ old.drop i)) w body data
    (by
      simp only [List.take_zero, List.nil_append, List.drop_zero]
      apply List.ext_getElem?
      intro k
      rw [List.getElem?_set]
      split
      · rename_i hk
        subst hk
        exact hold
      · rfl)
    (by
      intro i d hi hd
      have hri : i < row.length := by omega
      refine ⟨data.set line (row.take (i + 1) ++ old.drop (i + 1)), ?_, rfl⟩
      rw [hb i d row[i] hi (List.getElem?_eq_getElem hri), hd]
      unfold setAt
      rw [List.getElem?_set, if_pos rfl, if_pos hline]
      simp only
      rw [if_pos (by simp; omega), List.set_set,
        set_take_drop row old i row[i] (List.getElem?_eq_getElem hri) (by omega)])
  rw [ht, hP, List.take_of_length_le (by omega), List.drop_of_length_le (by omega),
    List.append_nil]

theorem bitText_decide (b : Bool) : decide (bitText b = [49]) = b := by
  cases b <;> rfl

theorem bitText_props (b : Bool) :
    bitText b ≠ [] ∧ (∀ c ∈ bitText b, isDigit c = true) ∧ 10 ∉ bitText b ∧
      (bitText b).length = 1 ∧ (bitText b).head? ≠ some 35 ∧ (bitText b).getLast? ≠ some 13 := by
  cases b <;> decide

theorem readRowP1_eq (w line : Nat) (data : List (List Bool)) (old row : List Bool)
    (hold : data[line]? = some old) (ho : old.length = w) (hr : row.length = w) :
    PBM.readRowP1 (w : Int) line (row.map bitText) data = some (data.set line row) := by
  unfold PBM.readRowP1
  rw [Int.toNat_ofNat]
  apply forRange_fill w line data old row _ hold ho hr
  intro i d v hi hv
  simp only [List.getElem?_map, hv, Option.map_some', bitText_decide]

/-! ## Lines of decimal tokens -/

theorem intercalate_ne_nil (toks : List (List Nat)) (hne : toks ≠ [])
    (h : ∀ t ∈ toks, t ≠ []) : List.intercalate [32] toks ≠ [] := by
  cases toks with
  | nil => exact absurd rfl hne
  | cons t rest =>
    have ht := h t (by simp)
    cases rest with
    | nil => rw [intercalate_singleton]; exact ht
    | cons t' rest' => rw [intercalate_cons_cons]; simp [ht]

theorem intercalate_head (toks : List (List Nat)) (c : Nat)
    (hc : (List.intercalate [32] toks).head? = some c) (h : ∀ t ∈ toks, t ≠ []) :
    ∃ t ∈ toks, t.head? = some c := by
  cases toks with
  | nil => simp [List.intercalate] at hc
  | cons t rest =>
    have ht := h t (by simp)
    refine ⟨t, by simp, ?_⟩
    cases t with
    | nil => exact absurd rfl ht
    | cons a u =>
      cases rest with
      | nil => rw [intercalate_singleton] at hc; exact hc
      | cons t' rest' => rw [intercalate_cons_cons] at hc; exact hc

/-- A join by single blanks is no longer than `k + 1` bytes per token, less one, when no
token is longer than `k`. -/
theorem intercalate_length_le (toks : List (List Nat)) (k : Nat) (hne : toks ≠ [])
    (h : ∀ t ∈ toks, t.length ≤ k) :
    (List.intercalate [32] toks).length + 1 ≤ toks.length * (k + 1) := by
  induction toks with
  | nil => exact absurd rfl hne
  | cons t rest ih =>
    have ht := h t (by simp)
    cases rest with
    | nil => rw [intercalate_singleton]; simp; omega
    | cons t' rest' =>
      have := ih (by simp) (fun x hx => h x (by simp [hx]))
      rw [intercalate_cons_cons]
      simp only [List.length_append, List.length_cons, List.length_nil] at this ⊢
      have e : (rest'.length + 1 + 1) * (k + 1) = (rest'.length + 1) * (k + 1) + (k + 1) := by
        ring
      rw [e]
      generalize (rest'.length + 1) * (k + 1) = X at this ⊢
      omega

/-- A join by single blanks is at least `k + 1` bytes per token long, less one, when every
token has `k` bytes or more. -/
theorem intercalate_length_ge (toks : List (List Nat)) (k : Nat) (hne : toks ≠ [])
    (h : ∀ t ∈ toks, k ≤ t.length) :
    toks.length * (k + 1) ≤ (List.intercalate [32] toks).length + 1 := by
  induction toks with
  | nil => exact absurd rfl hne
  | cons t rest ih =>
    have ht := h t (by simp)
    cases rest with
    | nil => rw [intercalate_singleton]; simp; omega
    | cons t' rest' =>
      have := ih (by simp) (fun x hx => h x (by simp [hx]))
      rw [intercalate_cons_cons]
      simp only [List.length_append, List.length_cons, List.length_nil] at this ⊢
      have e : (rest'.length + 1 + 1) * (k + 1) = (rest'.length + 1) * (k + 1) + (k + 1) := by
        ring
      rw [e]
      generalize (rest'.length + 1) * (k + 1) = X at this ⊢
      omega

/-- What the readers need to know of a line of decimal tokens joined by single blanks: it is
not empty, is not a comment, holds no newline, does not end with a carriage return, and its
fields are the tokens. -/
theorem digitLine_props (toks : List (List Nat)) (hne : toks ≠ [])
    (h : ∀ t ∈ toks, t ≠ [] ∧ ∀ c ∈ t, isDigit c = true) :
    List.intercalate [32] toks ≠ [] ∧
    startsWithHash (List.intercalate [32] toks) = false ∧
    10 ∉ List.intercalate [32] toks ∧
    (List.intercalate [32] toks).getLast? ≠ some 13 ∧
    Fields (List.intercalate [32] toks) = toks := by
  refine ⟨intercalate_ne_nil toks hne (fun t ht => (h t ht).1), ?_, ?_, ?_, ?_⟩
  · cases hh : (List.intercalate [32] toks).head? with
    | none => simp [startsWithHash, hh]
    | some c =>
      obtain ⟨t, ht, hc⟩ := intercalate_head toks c hh (fun t ht => (h t ht).1)
      have hd := (h t ht).2 c (List.mem_of_mem_head? hc)
      simp only [startsWithHash, hh, beq_eq_false_iff_ne, ne_eq, Option.some.injEq]
      intro e
      subst e
      simp [isDigit] at hd
  · intro hmem
    rcases mem_intercalate _ _ _ hmem with h1 | ⟨t, ht, hc⟩
    · simp at h1
    · have := (h t ht).2 10 hc
      simp [isDigit] at this
  · cases hl : toks.getLast? with
    | none => rw [List.getLast?_eq_none_iff] at hl; exact absurd hl hne
    | some t =>
      have ht := List.mem_of_getLast?_eq_some hl
      cases hc : t.getLast? with
      | none => rw [List.getLast?_eq_none_iff] at hc; exact absurd hc (h t ht).1
      | some c =>
        rw [getLast?_of_suffix _ _ c (intercalate_suffix [32] toks t hl) hc]
        have hd := (h t ht).2 c (List.mem_of_getLast?_eq_some hc)
        intro e
        simp only [Option.some.injEq] at e
        subst e
        simp [isDigit] at hd
  · exact Fields_intercalate toks h

theorem bitText_digits (b : Bool) : bitText b ≠ [] ∧ ∀ c ∈ bitText b, isDigit c = true := by
  cases b <;> decide

/-! ## The header lines -/

theorem runLines_next {σ : Type} (body : σ → List Nat → Step σ) (s s' : σ) (text : List Nat)
    (rest : List (List Nat)) (h : body s text = .next s') :
    runLines body s (text :: rest) = runLines body s' rest := by
  simp only [runLines, h]

theorem runLines_stop {σ : Type} (body : σ → List Nat → Step σ) (s s' : σ) (text : List Nat)
    (rest : List (List Nat)) (h : body s text = .stop s') :
    runLines body s (text :: rest) = some s' := by
  simp only [runLines, h]


/-- The dimensions line of `Save`, as a line of two decimal tokens. -/
theorem dimsLine_props (w h : Nat) (hw : (w : Int) < 2 ^ 63) (hh : (h : Int) < 2 ^ 63) :
    formatInt (w : Int) ++ [32] ++ formatInt (h : Int) ≠ [] ∧
    startsWithHash (formatInt (w : Int) ++ [32] ++ formatInt (h : Int)) = false ∧
    10 ∉ formatInt (w : Int) ++ [32] ++ formatInt (h : Int) ∧
    (formatInt (w : Int) ++ [32] ++ formatInt (h : Int)).getLast? ≠ some 13 ∧
    (formatInt (w : Int) ++ [32] ++ formatInt (h : Int)).length < MaxScanTokenSize := by
  have e : formatInt (w : Int) ++ [32] ++ formatInt (h : Int)
      = List.intercalate [32] [formatNat w, formatNat h] := by
    rw [formatInt_of_nat, formatInt_of_nat, intercalate_cons_cons, intercalate_singleton]
  have hp := digitLine_props [formatNat w, formatNat h] (by simp) (by
    intro t ht
    simp only [List.mem_cons, List.mem_singleton, List.not_mem_nil, or_false] at ht
    rcases ht with rfl | rfl <;> exact ⟨formatNat_ne_nil _, formatNat_digits _⟩)
  rw [e]
  refine ⟨hp.1, hp.2.1, hp.2.2.1, hp.2.2.2.1, ?_⟩
  have h19 : ∀ n : Nat, (n : Int) < 2 ^ 63 → (formatNat n).length ≤ 19 := by
    intro n hn
    apply formatNat_length_le 19 n (by omega)
    have : (n : Int) < 10 ^ 19 := lt_trans hn (by norm_num)
    exact_mod_cast this
  have := intercalate_length_le [formatNat w, formatNat h] 19 (by simp) (by
    intro t ht
    simp only [List.mem_cons, List.mem_singleton, List.not_mem_nil, or_false] at ht
    rcases ht with rfl | rfl
    · exact h19 w hw
    · exact h19 h hh)
  simp only [List.length_cons, List.length_nil] at this
  unfold MaxScanTokenSize
  omega

/-- The lines that the scanner yields for a file that starts with a magic line and a
dimensions line. -/
theorem scanLines_header2 (m payload : List Nat) (w h : Nat)
    (hm : 10 ∉ m ∧ m.length < MaxScanTokenSize ∧ m.getLast? ≠ some 13)
    (hw : (w : Int) < 2 ^ 63) (hh : (h : Int) < 2 ^ 63) :
    scanLines (m ++ [10] ++ (formatInt (w : Int) ++ [32] ++ formatInt (h : Int) ++ [10])
        ++ payload)
      = m :: (formatInt (w : Int) ++ [32] ++ formatInt (h : Int)) :: scanLines payload := by
  obtain ⟨_, _, d3, d4, d5⟩ := dimsLine_props w h hw hh
  have e : m ++ [10] ++ (formatInt (w : Int) ++ [32] ++ formatInt (h : Int) ++ [10]) ++ payload
      = m ++ 10 :: ((formatInt (w : Int) ++ [32] ++ formatInt (h : Int)) ++ 10 :: payload) := by
    simp
  rw [e, scanLines_line m _ hm.1 hm.2.1 hm.2.2, scanLines_line _ payload d3 d5 d4]

/-- The state of `ReadPBM` after the two header lines that `Save` writes. -/
theorem ReadPBM_header (m payload : List Nat) (w h : Nat)
    (hm : 10 ∉ m ∧ m.length < MaxScanTokenSize ∧ m.getLast? ≠ some 13)
    (hm' : m ≠ [] ∧ startsWithHash m = false ∧ TrimSpace m = m)
    (hw : (w : Int) < 2 ^ 63) (hh : (h : Int) < 2 ^ 63) :
    ReadPBM (m ++ [10] ++ (formatInt (w : Int) ++ [32] ++ formatInt (h : Int) ++ [10])
        ++ payload)
      = (runLines
          (PBM.readLine (m ++ [10] ++
            (formatInt (w : Int) ++ [32] ++ formatInt (h : Int) ++ [10]) ++ payload))
          ({ data := List.replicate h (List.replicate w false), width := (w : Int),
             height := (h : Int), magicNumber := m }, 0)
          (scanLines payload)).map Prod.fst := by
  obtain ⟨d1, d2, _, _, _⟩ := dimsLine_props w h hw hh
  unfold ReadPBM
  rw [scanLines_header2 m payload w h hm hw hh]
  have s1 : ∀ fc, PBM.readLine fc
      ({ data := [], width := 0, height := 0, magicNumber := [] }, 0) m
      = .next ({ data := [], width := 0, height := 0, magicNumber := m }, 0) := by
    intro fc
    simp only [PBM.readLine, hm'.1, hm'.2.1, hm'.2.2, Bool.false_eq_true, or_self, if_false,
      if_true]
  have s2 : ∀ fc, PBM.readLine fc
      ({ data := [], width := 0, height := 0, magicNumber := m }, 0)
      (formatInt (w : Int) ++ [32] ++ formatInt (h : Int))
      = .next ({ data := List.replicate h (List.replicate w false), width := (w : Int),
                 height := (h : Int), magicNumber := m }, 0) := by
    intro fc
    have hnp : ¬ ((h : Int) < 0 ∨ 0 < (h : Int) ∧ (w : Int) < 0) := by omega
    simp only [PBM.readLine, d1, d2, hm'.1, Bool.false_eq_true, or_self, if_false, if_true,
      sscanfDims_format w h 0 0 hw hh, Int.toNat_ofNat, hnp]
  rw [runLines_next _ _ _ _ _ (s1 _), runLines_next _ _ _ _ _ (s2 _)]

/-- Lines that are all empty leave the state of `ReadPBM` as it is. -/
theorem PBM_runLines_empty (fc : List Nat) (s : PBM × Nat) (lines : List (List Nat))
    (h : ∀ t ∈ lines, t = []) : runLines (PBM.readLine fc) s lines = some s := by
  induction lines with
  | nil => rfl
  | cons t rest ih =>
    have ht : t = [] := h t (by simp)
    subst ht
    have : PBM.readLine fc s [] = .next s := by
      simp only [PBM.readLine, true_or, if_true]
    rw [runLines_next _ _ _ _ _ this]
    exact ih (fun x hx => h x (by simp [hx]))

/-- The `P1` rows that `Save` writes are read back one by one into the grid. -/
theorem PBM_runLines_rows (fc : List Nat) (w : Nat) (hw : 0 < w) (h : Int)
    (rest done : List (List Bool)) (hrest : ∀ row ∈ rest, row.length = w) :
    runLines (PBM.readLine fc)
      ({ data := done ++ List.replicate rest.length (List.replicate w false),
         width := (w : Int), height := h, magicNumber := magicP1 }, done.length)
      (rest.map (fun row => List.intercalate [32] (row.map bitText)))
    = some ({ data := done ++ rest, width := (w : Int), height := h,
              magicNumber := magicP1 }, done.length + rest.length) := by
  induction rest generalizing done with
  | nil => simp [runLines]
  | cons row t ih =>
    have hr : row.length = w := hrest row (by simp)
    obtain ⟨p1, p2, _, _, p5⟩ := digitLine_props (row.map bitText)
      (by intro e; rw [List.map_eq_nil_iff] at e; rw [e] at hr; simp at hr; omega)
      (by
        intro tk htk
        obtain ⟨b, _, rfl⟩ := List.mem_map.1 htk
        exact bitText_digits b)
    have step : PBM.readLine fc
        ({ data := done ++ List.replicate (row :: t).length (List.replicate w false),
           width := (w : Int), height := h, magicNumber := magicP1 }, done.length)
        (List.intercalate [32] (row.map bitText))
        = .next ({ data := (done ++ [row]) ++ List.replicate t.length (List.replicate w false),
                   width := (w : Int), height := h, magicNumber := magicP1 },
                 (done ++ [row]).length) := by
      have hm1 : magicP1 ≠ [] := by decide
      have hw0 : (w : Int) ≠ 0 := by omega
      have hrow := readRowP1_eq w done.length
        (done ++ List.replicate (row :: t).length (List.replicate w false))
        (List.replicate w false) row
        (by rw [List.getElem?_append_right (le_refl _)]; simp [List.replicate_succ])
        (by simp) hr
      simp only [PBM.readLine, p1, p2, hm1, hw0, Bool.false_eq_true, or_self, if_false,
        if_true, p5, hrow]
      simp [List.replicate_succ]
    rw [List.map_cons, runLines_next _ _ _ _ _ step,
      ih (done ++ [row]) (fun x hx => hrest x (by simp [hx]))]
    simp
    omega

/-! ## Round trip of ASCII bitmaps -/

theorem magicP1_props :
    (10 ∉ magicP1 ∧ magicP1.length < MaxScanTokenSize ∧ magicP1.getLast? ≠ some 13) ∧
    (magicP1 ≠ [] ∧ startsWithHash magicP1 = false ∧ TrimSpace magicP1 = magicP1) := by
  decide

theorem PBM_save_P1 (pbm : PBM) (hm : pbm.magicNumber = magicP1) :
    pbm.Save = some (pbm.header ++
      List.intercalate [10] (pbm.data.map (fun row => List.intercalate [32] (row.map bitText))))
    := by
  have e : writeSeparated [32] bitText = fun row => List.intercalate [32] (row.map bitText) :=
    funext (writeSeparated_eq _ _)
  unfold PBM.Save PBM.payload
  rw [if_pos hm, writeSeparated_eq, e]
  rfl

/-- C1 (amended): for a well-formed bitmap with tag `P1` whose width is at most 32768 (a row
is then written as a line of at most 65535 bytes, which fits the buffer of `bufio.Scanner`)
and whose height is a Go `int`, `ReadPBM` applied to the bytes `Save` writes does not panic and
gives the bitmap back: the same magic number, width, height and grid. Widths and heights of 0
are included. -/
theorem roundtrip_P1 (pbm : PBM) (hwf : pbm.WellFormed) (hm : pbm.magicNumber = magicP1)
    (hh : pbm.height < 2 ^ 63) (hw : 2 * pbm.width ≤ 65536) :
    pbm.Save.bind ReadPBM = some pbm := by
  cases pbm with
  | mk data width height magicNumber =>
    obtain ⟨h1, h0, h2⟩ := hwf
    simp only at h1 h0 h2 hm hh hw
    subst hm
    subst h1
    obtain ⟨w, rfl⟩ : ∃ w : Nat, width = (w : Int) := ⟨width.toNat, by omega⟩
    have hrows : ∀ row ∈ data, row.length = w := fun row hr => by
      have := h2 row hr; omega
    rw [PBM_save_P1 _ rfl, Option.some_bind]
    unfold PBM.header
    simp only
    rw [ReadPBM_header magicP1 _ w data.length magicP1_props.1 magicP1_props.2 (by omega) hh]
    rcases Nat.eq_zero_or_pos w with hw0 | hwpos
    · subst hw0
      have hnil : ∀ row ∈ data, row = [] := fun row hr =>
        List.length_eq_zero.1 (hrows row hr)
      have hdata : data = List.replicate data.length [] :=
        List.eq_replicate_iff.2 ⟨rfl, hnil⟩
      rw [PBM_runLines_empty _ _ _ (scanLines_newlines _ (by
        intro c hc
        rcases mem_intercalate _ _ _ hc with hc | ⟨x, hx, hcx⟩
        · simpa using hc
        · obtain ⟨row, hr, rfl⟩ := List.mem_map.1 hx
          rw [hnil row hr] at hcx
          simp [List.intercalate] at hcx))]
      simp only [Option.map_some', List.replicate_zero]
      rw [← hdata]
    · have hline : ∀ l ∈ data.map (fun row => List.intercalate [32] (row.map bitText)),
          10 ∉ l ∧ l ≠ [] ∧ l.length < MaxScanTokenSize ∧ l.getLast? ≠ some 13 := by
        intro l hl
        obtain ⟨row, hr, rfl⟩ := List.mem_map.1 hl
        have hne : row.map bitText ≠ [] := by
          intro e
          rw [List.map_eq_nil_iff] at e
          have := hrows row hr
          rw [e] at this
          simp at this
          omega
        obtain ⟨p1, _, p3, p4, _⟩ := digitLine_props (row.map bitText) hne (by
          intro tk htk
          obtain ⟨b, _, rfl⟩ := List.mem_map.1 htk
          exact bitText_digits b)
        refine ⟨p3, p1, ?_, p4⟩
        have := intercalate_length_le (row.map bitText) 1 hne (by
          intro tk htk
          obtain ⟨b, _, rfl⟩ := List.mem_map.1 htk
          cases b <;> decide)
        rw [List.length_map, hrows row hr] at this
        unfold MaxScanTokenSize
        omega
      rw [scanLines_intercalate _ hline]
      have := PBM_runLines_rows
        (magicP1 ++ [10] ++ (formatInt (w : Int) ++ [32] ++ formatInt (data.length : Int) ++ [10])
          ++ List.intercalate [10]
            (data.map (fun row => List.intercalate [32] (row.map bitText))))
        w hwpos (data.length : Int) data [] hrows
      simp only [List.nil_append, List.length_nil, Nat.zero_add] at this
      rw [this]
      rfl

/-- Witness of C1 (amended) on a 3 x 1 bitmap. -/
theorem roundtrip_P1_witness :
    sampleBits.WellFormed ∧ sampleBits.magicNumber = magicP1 ∧
    sampleBits.Save = some [80, 49, 10, 51, 32, 49, 10, 49, 32, 48, 32, 48] ∧
    sampleBits.Save.bind ReadPBM = some sampleBits :=
  ⟨by decide, rfl, by decide, roundtrip_P1 sampleBits (by decide) rfl (by decide) (by decide)⟩

/-- C1 as stated fails on wide bitmaps: the `P1` row of the one-row bitmap of 32769 set pixels
is a line of 65537 bytes, the scanner of `ReadPBM` stops before it, and the bitmap read back
has all its pixels clear. -/
theorem roundtrip_P1_counterexample :
    wideBits.WellFormed ∧ wideBits.magicNumber = magicP1 ∧
    wideBits.Save.bind ReadPBM
      = some { wideBits with data := [List.replicate 32769 false] } ∧
    wideBits.Save.bind ReadPBM ≠ some wideBits := by
  have hsave := PBM_save_P1 wideBits rfl
  have hne : (List.replicate 32769 true).map bitText ≠ [] := by
    intro e
    have := congrArg List.length e
    rw [List.length_map, List.length_replicate] at this
    exact absurd this (by decide)
  obtain ⟨_, _, p3, _, _⟩ := digitLine_props ((List.replicate 32769 true).map bitText) hne (by
    intro tk htk
    obtain ⟨b, _, rfl⟩ := List.mem_map.1 htk
    exact bitText_digits b)
  have hlen := intercalate_length_ge ((List.replicate 32769 true).map bitText) 1 hne (by
    intro tk htk
    obtain ⟨b, _, rfl⟩ := List.mem_map.1 htk
    cases b <;> decide)
  rw [List.length_map, List.length_replicate] at hlen
  have hread : wideBits.Save.bind ReadPBM
      = some { wideBits with data := [List.replicate 32769 false] } := by
    rw [hsave, Option.some_bind]
    have hd : wideBits.data = [List.replicate 32769 true] := rfl
    have hhdr : wideBits.header
        = magicP1 ++ [10] ++ (formatInt ((32769 : Nat) : Int) ++ [32] ++
            formatInt ((1 : Nat) : Int) ++ [10]) := rfl
    rw [hd, hhdr, List.map_cons, List.map_nil, intercalate_singleton,
      ReadPBM_header magicP1 _ 32769 1 magicP1_props.1 magicP1_props.2 (by norm_num)
        (by norm_num),
      scanLines_too_long _ p3 (by unfold MaxScanTokenSize; omega)]
    rfl
  refine ⟨⟨rfl, by decide, ?_⟩, rfl, hread, ?_⟩
  · intro row hr
    have : row = List.replicate 32769 true := List.mem_singleton.1 hr
    rw [this, List.length_replicate]
    rfl
  · rw [hread]
    intro e
    have e' := congrArg (fun o : Option PBM => o.map (fun p => p.data)) e
    simp only [Option.map_some', Option.some.injEq] at e'
    have e'' : List.replicate 32769 false = List.replicate 32769 true :=
      List.head_eq_of_cons_eq e'
    have hmem : true ∈ List.replicate 32769 true := by
      rw [List.mem_replicate]; exact ⟨by decide, rfl⟩
    rw [← e'', List.mem_replicate] at hmem
    exact absurd hmem.2 (by decide)

/-! ## Round trip of ASCII greymaps -/

theorem foldl_dec_ge (ds : List Nat) (n : Nat) :
    n ≤ ds.foldl (fun acc c => acc * 10 + (c - 48)) n := by
  induction ds generalizing n with
  | nil => exact le_refl _
  | cons c t ih =>
    rw [List.foldl_cons]
    exact le_trans (by omega) (ih _)

theorem parseUint8Loop_eq (ds : List Nat) (n : Nat) (hd : ∀ c ∈ ds, isDigit c = true)
    (hv : ds.foldl (fun acc c => acc * 10 + (c - 48)) n ≤ 255) :
    parseUint8Loop ds n = ds.foldl (fun acc c => acc * 10 + (c - 48)) n := by
  induction ds generalizing n with
  | nil => rfl
  | cons c t ih =>
    rw [List.foldl_cons] at hv ⊢
    have h1 := foldl_dec_ge t (n * 10 + (c - 48))
    rw [parseUint8Loop, if_pos (hd c (by simp)), if_neg (by omega)]
    exact ih _ (fun x hx => hd x (by simp [hx])) hv

/-- `strconv.ParseUint` reads back the decimal text of a byte. -/
theorem ParseUint8_formatNat (v : Nat) (hv : v < 256) : ParseUint8 (formatNat v) = v := by
  have h := parseDec_formatNat v
  unfold parseDec at h
  unfold ParseUint8
  rw [parseUint8Loop_eq _ 0 (formatNat_digits v) (by rw [h]; omega), h]

theorem readRowP2_eq (w line : Nat) (data : List (List Nat)) (old row : List Nat)
    (hold : data[line]? = some old) (ho : old.length = w) (hr : row.length = w)
    (hv : ∀ v ∈ row, v < 256) :
    PGM.readRowP2 (w : Int) line (row.map formatNat) data = some (data.set line row) := by
  unfold PGM.readRowP2
  rw [Int.toNat_ofNat]
  apply forRange_fill w line data old row _ hold ho hr
  intro i d v hi hvi
  simp only [List.getElem?_map, hvi, Option.map_some',
    ParseUint8_formatNat v (hv v (List.getElem?_mem hvi))]

/-- The `max` line of `Save`, as a line with one decimal token. -/
theorem maxLine_props (m : Nat) (hm : m < 256) :
    formatNat m ≠ [] ∧ startsWithHash (formatNat m) = false ∧ 10 ∉ formatNat m ∧
    (formatNat m).getLast? ≠ some 13 ∧ (formatNat m).length < MaxScanTokenSize := by
  have hp := digitLine_props [formatNat m] (by simp) (by
    intro t ht
    simp only [List.mem_singleton] at ht
    subst ht
    exact ⟨formatNat_ne_nil _, formatNat_digits _⟩)
  rw [intercalate_singleton] at hp
  refine ⟨hp.1, hp.2.1, hp.2.2.1, hp.2.2.2.1, ?_⟩
  have := formatNat_length_le 3 m (by omega) (by omega)
  unfold MaxScanTokenSize
  omega

/-- The lines that the scanner yields for a file that starts with a magic line, a dimensions
line and a `max` line. -/
theorem scanLines_header3 (m payload : List Nat) (w h mx : Nat)
    (hm : 10 ∉ m ∧ m.length < MaxScanTokenSize ∧ m.getLast? ≠ some 13)
    (hw : (w : Int) < 2 ^ 63) (hh : (h : Int) < 2 ^ 63) (hmx : mx < 256) :
    scanLines (m ++ [10] ++ (formatInt (w : Int) ++ [32] ++ formatInt (h : Int) ++ [10])
        ++ (formatNat mx ++ [10]) ++ payload)
      = m :: (formatInt (w : Int) ++ [32] ++ formatInt (h : Int)) :: formatNat mx ::
          scanLines payload := by
  obtain ⟨_, _, x3, x4, x5⟩ := maxLine_props mx hmx
  have e : m ++ [10] ++ (formatInt (w : Int) ++ [32] ++ formatInt (h : Int) ++ [10])
        ++ (formatNat mx ++ [10]) ++ payload
      = m ++ [10] ++ (formatInt (w : Int) ++ [32] ++ formatInt (h : Int) ++ [10])
        ++ (formatNat mx ++ 10 :: payload) := by
    simp
  rw [e, scanLines_header2 m _ w h hm hw hh, scanLines_line _ payload x3 x5 x4]

/-- The state of `ReadPGM` after the three header lines that `Save` writes, for a width and
a `max` that are not 0. -/
theorem ReadPGM_header (m payload : List Nat) (w h mx : Nat)
    (hm : 10 ∉ m ∧ m.length < MaxScanTokenSize ∧ m.getLast? ≠ some 13)
    (hm' : m ≠ [] ∧ startsWithHash m = false ∧ TrimSpace m = m)
    (hw : (w : Int) < 2 ^ 63) (hh : (h : Int) < 2 ^ 63) (hmx : mx < 256) (hw0 : 0 < w) :
    ReadPGM (m ++ [10] ++ (formatInt (w : Int) ++ [32] ++ formatInt (h : Int) ++ [10])
        ++ (formatNat mx ++ [10]) ++ payload)
      = (runLines
          (PGM.readLine (m ++ [10] ++
            (formatInt (w : Int) ++ [32] ++ formatInt (h : Int) ++ [10])
            ++ (formatNat mx ++ [10]) ++ payload))
          ({ data := List.replicate h (List.replicate w 0), width := (w : Int),
             height := (h : Int), magicNumber := m, max := mx }, 0)
          (scanLines payload)).map Prod.fst := by
  obtain ⟨d1, d2, _, _, _⟩ := dimsLine_props w h hw hh
  obtain ⟨_, x2, _, _, _⟩ := maxLine_props mx hmx
  unfold ReadPGM
  rw [scanLines_header3 m payload w h mx hm hw hh hmx]
  have s1 : ∀ fc, PGM.readLine fc
      ({ data := [], width := 0, height := 0, magicNumber := [], max := 0 }, 0) m
      = .next ({ data := [], width := 0, height := 0, magicNumber := m, max := 0 }, 0) := by
    intro fc
    simp only [PGM.readLine, hm'.2.1, hm'.2.2, Bool.false_eq_true, if_false, if_true]
  have s2 : ∀ fc, PGM.readLine fc
      ({ data := [], width := 0, height := 0, magicNumber := m, max := 0 }, 0)
      (formatInt (w : Int) ++ [32] ++ formatInt (h : Int))
      = .next ({ data := List.replicate h (List.replicate w 0), width := (w : Int),
                 height := (h : Int), magicNumber := m, max := 0 }, 0) := by
    intro fc
    have hnp : ¬ ((h : Int) < 0 ∨ 0 < (h : Int) ∧ (w : Int) < 0) := by omega
    simp only [PGM.readLine, d2, hm'.1, Bool.false_eq_true, if_false, if_true,
      sscanfDims_format w h 0 0 hw hh, Int.toNat_ofNat, hnp]
  have s3 : ∀ fc, PGM.readLine fc
      ({ data := List.replicate h (List.replicate w 0), width := (w : Int),
         height := (h : Int), magicNumber := m, max := 0 }, 0) (formatNat mx)
      = .next ({ data := List.replicate h (List.replicate w 0), width := (w : Int),
                 height := (h : Int), magicNumber := m, max := mx }, 0) := by
    intro fc
    have hwz : (w : Int) ≠ 0 := by omega
    simp only [PGM.readLine, x2, hm'.1, hwz, Bool.false_eq_true, if_false, if_true,
      sscanfMax_formatNat mx 0 hmx]
  rw [runLines_next _ _ _ _ _ (s1 _), runLines_next _ _ _ _ _ (s2 _),
    runLines_next _ _ _ _ _ (s3 _)]

/-- The `P2` rows that `Save` writes are read back one by one into the grid. -/
theorem PGM_runLines_rows (fc : List Nat) (w : Nat) (hw : 0 < w) (h : Int) (mx : Nat)
    (hmx : 0 < mx) (rest done : List (List Nat)) (hrest : ∀ row ∈ rest, row.length = w)
    (hv : ∀ row ∈ rest, ∀ v ∈ row, v < 256) :
    runLines (PGM.readLine fc)
      ({ data := done ++ List.replicate rest.length (List.replicate w 0),
         width := (w : Int), height := h, magicNumber := magicP2, max := mx }, done.length)
      (rest.map (fun row => List.intercalate [32] (row.map formatNat)))
    = some ({ data := done ++ rest, width := (w : Int), height := h,
              magicNumber := magicP2, max := mx }, done.length + rest.length) := by
  induction rest generalizing done with
  | nil => simp [runLines]
  | cons row t ih =>
    have hr : row.length = w := hrest row (by simp)
    obtain ⟨_, p2, _, _, p5⟩ := digitLine_props (row.map formatNat)
      (by intro e; rw [List.map_eq_nil_iff] at e; rw [e] at hr; simp at hr; omega)
      (by
        intro tk htk
        obtain ⟨b, _, rfl⟩ := List.mem_map.1 htk
        exact ⟨formatNat_ne_nil _, formatNat_digits _⟩)
    have step : PGM.readLine fc
        ({ data := done ++ List.replicate (row :: t).length (List.replicate w 0),
           width := (w : Int), height := h, magicNumber := magicP2, max := mx }, done.length)
        (List.intercalate [32] (row.map formatNat))
        = .next ({ data := (done ++ [row]) ++ List.replicate t.length (List.replicate w 0),
                   width := (w : Int), height := h, magicNumber := magicP2, max := mx },
                 (done ++ [row]).length) := by
      have hm1 : magicP2 ≠ [] := by decide
      have hw0 : (w : Int) ≠ 0 := by omega
      have hmx0 : mx ≠ 0 := by omega
      have hrow := readRowP2_eq w done.length
        (done ++ List.replicate (row :: t).length (List.replicate w 0))
        (List.replicate w 0) row
        (by rw [List.getElem?_append_right (le_refl _)]; simp [List.replicate_succ])
        (by simp) hr (hv row (by simp))
      simp only [PGM.readLine, p2, hm1, hw0, hmx0, Bool.false_eq_true, if_false,
        if_true, p5, hrow]
      simp [List.replicate_succ]
    rw [List.map_cons, runLines_next _ _ _ _ _ step,
      ih (done ++ [row]) (fun x hx => hrest x (by simp [hx]))
        (fun x hx => hv x (by simp [hx]))]
    simp
    omega

theorem magicP2_props :
    (10 ∉ magicP2 ∧ magicP2.length < MaxScanTokenSize ∧ magicP2.getLast? ≠ some 13) ∧
    (magicP2 ≠ [] ∧ startsWithHash magicP2 = false ∧ TrimSpace magicP2 = magicP2) := by
  decide

theorem PGM_save_P2 (pgm : PGM) (hm : pgm.magicNumber = magicP2) :
    pgm.Save = pgm.header ++
      List.intercalate [10] (pgm.data.map (fun row => List.intercalate [32] (row.map formatNat)))
    := by
  have e : writeSeparated [32] (fun pixel : Nat => formatNat pixel)
      = fun row => List.intercalate [32] (row.map formatNat) :=
    funext (writeSeparated_eq _ _)
  unfold PGM.Save PGM.payload
  rw [if_pos hm, writeSeparated_eq, e]

/-- C3 (amended): for a well-formed greymap with tag `P2`, width at least 1, `max` between 1
and 255, every sample at most `max` and dimensions that are Go `int`s, whose rows are each
written as a line shorter than 65536 bytes (the buffer of `bufio.Scanner`; so it is whenever
the width is at most 16384), `ReadPGM` applied to the bytes `Save` writes does not panic and
gives the greymap back: the same magic number, width, height, `max` and samples. -/
theorem roundtrip_P2 (pgm : PGM) (hwf : pgm.WellFormed) (hm : pgm.magicNumber = magicP2)
    (hw1 : 1 ≤ pgm.width) (hmax1 : 1 ≤ pgm.max) (hmax : pgm.max < 256)
    (hs : ∀ row ∈ pgm.data, ∀ v ∈ row, v ≤ pgm.max) (hwi : pgm.width < 2 ^ 63)
    (hh : pgm.height < 2 ^ 63)
    (hfit : 4 * pgm.width ≤ 65536 ∨ ∀ row ∈ pgm.data,
      (List.intercalate [32] (row.map formatNat)).length < MaxScanTokenSize) :
    ReadPGM pgm.Save = some pgm := by
  cases pgm with
  | mk data width height magicNumber max =>
    obtain ⟨h1, h0, h2⟩ := hwf
    simp only at h1 h0 h2 hm hh hw1 hmax1 hmax hs hfit hwi
    subst hm
    subst h1
    obtain ⟨w, rfl⟩ : ∃ w : Nat, width = (w : Int) := ⟨width.toNat, by omega⟩
    have hwpos : 0 < w := by omega
    have hrows : ∀ row ∈ data, row.length = w := fun row hr => by
      have := h2 row hr; omega
    have hv : ∀ row ∈ data, ∀ v ∈ row, v < 256 := fun row hr v hv' => by
      have := hs row hr v hv'; omega
    have hne : ∀ row ∈ data, row.map formatNat ≠ [] := by
      intro row hr e
      rw [List.map_eq_nil_iff] at e
      have := hrows row hr
      rw [e] at this
      simp at this
      omega
    have hfit' : ∀ row ∈ data,
        (List.intercalate [32] (row.map formatNat)).length < MaxScanTokenSize := by
      rcases hfit with hfit | hfit
      · intro row hr
        have := intercalate_length_le (row.map formatNat) 3 (hne row hr) (by
          intro tk htk
          obtain ⟨v, hv', rfl⟩ := List.mem_map.1 htk
          exact formatNat_length_le 3 v (by omega) (by have := hv row hr v hv'; omega))
        rw [List.length_map, hrows row hr] at this
        unfold MaxScanTokenSize
        omega
      · exact hfit
    rw [PGM_save_P2 _ rfl]
    unfold PGM.header
    simp only
    rw [ReadPGM_header magicP2 _ w data.length max magicP2_props.1 magicP2_props.2 (by omega)
      hh hmax hwpos]
    have hline : ∀ l ∈ data.map (fun row => List.intercalate [32] (row.map formatNat)),
        10 ∉ l ∧ l ≠ [] ∧ l.length < MaxScanTokenSize ∧ l.getLast? ≠ some 13 := by
      intro l hl
      obtain ⟨row, hr, rfl⟩ := List.mem_map.1 hl
      obtain ⟨p1, _, p3, p4, _⟩ := digitLine_props (row.map formatNat) (hne row hr) (by
        intro tk htk
        obtain ⟨b, _, rfl⟩ := List.mem_map.1 htk
        exact ⟨formatNat_ne_nil _, formatNat_digits _⟩)
      exact ⟨p3, p1, hfit' row hr, p4⟩
    rw [scanLines_intercalate _ hline]
    have := PGM_runLines_rows
      (magicP2 ++ [10] ++ (formatInt (w : Int) ++ [32] ++ formatInt (data.length : Int) ++ [10])
        ++ (formatNat max ++ [10]) ++ List.intercalate [10]
          (data.map (fun row => List.intercalate [32] (row.map formatNat))))
      w hwpos (data.length : Int) max (by omega) data [] hrows hv
    simp only [List.nil_append, List.length_nil, Nat.zero_add] at this
    rw [this]
    rfl

/-- Witness of C3 (amended) on a greymap of three columns and two rows. -/
theorem roundtrip_P2_witness :
    { sampleGreyWide with magicNumber := magicP2 }.WellFormed ∧
    PGM.Save { sampleGreyWide with magicNumber := magicP2 }
      = [80, 50, 10, 51, 32, 50, 10, 57, 10, 49, 32, 50, 32, 51, 10, 52, 32, 53, 32, 54] ∧
    ReadPGM (PGM.Save { sampleGreyWide with magicNumber := magicP2 })
      = some { sampleGreyWide with magicNumber := magicP2 } :=
  ⟨by decide, by decide,
    roundtrip_P2 { sampleGreyWide with magicNumber := magicP2 } (by decide) rfl (by decide)
      (by decide) (by decide) (by decide) (by decide) (by decide) (Or.inl (by decide))⟩

/-- C3 as stated fails on wide greymaps: the `P2` row of the one-row greymap of 16385 samples
255 is a line of 65539 bytes, the scanner of `ReadPGM` stops before it, and the greymap read
back has all its samples 0. -/
theorem roundtrip_P2_counterexample :
    wideGrey.WellFormed ∧ wideGrey.magicNumber = magicP2 ∧ 1 ≤ wideGrey.width ∧
    1 ≤ wideGrey.height ∧ 1 ≤ wideGrey.max ∧
    (∀ row ∈ wideGrey.data, ∀ v ∈ row, v ≤ wideGrey.max) ∧
    ReadPGM wideGrey.Save = some { wideGrey with data := [List.replicate 16385 0] } ∧
    ReadPGM wideGrey.Save ≠ some wideGrey := by
  have hsave := PGM_save_P2 wideGrey rfl
  have hne : (List.replicate 16385 255).map formatNat ≠ [] := by
    intro e
    have := congrArg List.length e
    rw [List.length_map, List.length_replicate] at this
    exact absurd this (by decide)
  obtain ⟨_, _, p3, _, _⟩ := digitLine_props ((List.replicate 16385 255).map formatNat) hne (by
    intro tk htk
    obtain ⟨b, _, rfl⟩ := List.mem_map.1 htk
    exact ⟨formatNat_ne_nil _, formatNat_digits _⟩)
  have hlen := intercalate_length_ge ((List.replicate 16385 255).map formatNat) 3 hne (by
    intro tk htk
    obtain ⟨v, hv, rfl⟩ := List.mem_map.1 htk
    rw [(List.mem_replicate.1 hv).2]
    decide)
  rw [List.length_map, List.length_replicate] at hlen
  have hread : ReadPGM wideGrey.Save
      = some { wideGrey with data := [List.replicate 16385 0] } := by
    rw [hsave]
    have hd : wideGrey.data = [List.replicate 16385 255] := rfl
    have hhdr : wideGrey.header
        = magicP2 ++ [10] ++ (formatInt ((16385 : Nat) : Int) ++ [32] ++
            formatInt ((1 : Nat) : Int) ++ [10]) ++ (formatNat 255 ++ [10]) := rfl
    rw [hd, hhdr, List.map_cons, List.map_nil, intercalate_singleton,
      ReadPGM_header magicP2 _ 16385 1 255 magicP2_props.1 magicP2_props.2 (by norm_num)
        (by norm_num) (by norm_num) (by norm_num),
      scanLines_too_long _ p3 (by unfold MaxScanTokenSize; omega)]
    rfl
  refine ⟨⟨rfl, by decide, ?_⟩, rfl, by decide, by decide, by decide, ?_, hread, ?_⟩
  · intro row hr
    have : row = List.replicate 16385 255 := List.mem_singleton.1 hr
    rw [this, List.length_replicate]
    rfl
  · intro row hr v hv
    have : row = List.replicate 16385 255 := List.mem_singleton.1 hr
    rw [this] at hv
    rw [(List.mem_replicate.1 hv).2]
    exact le_refl _
  · rw [hread]
    intro e
    have e' := congrArg (fun o : Option PGM => o.map (fun p => p.data)) e
    simp only [Option.map_some', Option.some.injEq] at e'
    have e'' : List.replicate 16385 0 = List.replicate 16385 255 :=
      List.head_eq_of_cons_eq e'
    have hmem : 255 ∈ List.replicate 16385 255 := by
      rw [List.mem_replicate]; exact ⟨by decide, rfl⟩
    rw [← e'', List.mem_replicate] at hmem
    exact absurd hmem.2 (by decide)

/-! ## Empty greymaps and pixmaps -/

theorem magic_props (m : List Nat)
    (hm : m = magicP1 ∨ m = magicP2 ∨ m = magicP3 ∨ m = magicP4 ∨ m = magicP5 ∨ m = magicP6) :
    (10 ∉ m ∧ m.length < MaxScanTokenSize ∧ m.getLast? ≠ some 13) ∧
    (m ≠ [] ∧ startsWithHash m = false ∧ TrimSpace m = m) := by
  rcases hm with h | h | h | h | h | h <;> subst h <;> decide

/-- A line with one decimal number, read as a dimensions line, sets the width only. -/
theorem sscanfDims_single (n : Nat) (w0 h0 : Int) (hn : (n : Int) < 2 ^ 63) :
    sscanfDims (formatNat n) w0 h0 = ((n : Int), h0) := by
  have := scanInt_formatNat n [] hn (by simp)
  rw [List.append_nil] at this
  unfold sscanfDims
  rw [this]
  rfl

/-- The state of `ReadPPM` after the magic line and the dimensions line that `Save` writes. -/
theorem PPM_header_steps (fc m : List Nat) (w h : Nat) (rest : List (List Nat))
    (hm' : m ≠ [] ∧ startsWithHash m = false ∧ TrimSpace m = m)
    (hw : (w : Int) < 2 ^ 63) (hh : (h : Int) < 2 ^ 63) :
    runLines (PPM.readLine fc)
      ({ data := [], width := 0, height := 0, magicNumber := [], max := 0 }, 0)
      (m :: (formatInt (w : Int) ++ [32] ++ formatInt (h : Int)) :: rest)
    = runLines (PPM.readLine fc)
        ({ data := List.replicate h (List.replicate w { R := 0, G := 0, B := 0 }),
           width := (w : Int), height := (h : Int), magicNumber := m, max := 0 }, 0) rest := by
  obtain ⟨d1, d2, _, _, _⟩ := dimsLine_props w h hw hh
  have s1 : PPM.readLine fc
      ({ data := [], width := 0, height := 0, magicNumber := [], max := 0 }, 0) m
      = .next ({ data := [], width := 0, height := 0, magicNumber := m, max := 0 }, 0) := by
    simp only [PPM.readLine, hm'.2.1, hm'.2.2, Bool.false_eq_true, if_false, if_true]
  have s2 : PPM.readLine fc
      ({ data := [], width := 0, height := 0, magicNumber := m, max := 0 }, 0)
      (formatInt (w : Int) ++ [32] ++ formatInt (h : Int))
      = .next ({ data := List.replicate h (List.replicate w { R := 0, G := 0, B := 0 }),
                 width := (w : Int), height := (h : Int), magicNumber := m, max := 0 }, 0) := by
    have hnp : ¬ ((h : Int) < 0 ∨ 0 < (h : Int) ∧ (w : Int) < 0) := by omega
    simp only [PPM.readLine, d2, hm'.1, Bool.false_eq_true, if_false, if_true,
      sscanfDims_format w h 0 0 hw hh, Int.toNat_ofNat, hnp]
  rw [runLines_next _ _ _ _ _ s1, runLines_next _ _ _ _ _ s2]

/-- The state of `ReadPGM` after the magic line and the dimensions line that `Save` writes. -/
theorem PGM_header_steps (fc m : List Nat) (w h : Nat) (rest : List (List Nat))
    (hm' : m ≠ [] ∧ startsWithHash m = false ∧ TrimSpace m = m)
    (hw : (w : Int) < 2 ^ 63) (hh : (h : Int) < 2 ^ 63) :
    runLines (PGM.readLine fc)
      ({ data := [], width := 0, height := 0, magicNumber := [], max := 0 }, 0)
      (m :: (formatInt (w : Int) ++ [32] ++ formatInt (h : Int)) :: rest)
    = runLines (PGM.readLine fc)
        ({ data := List.replicate h (List.replicate w 0),
           width := (w : Int), height := (h : Int), magicNumber := m, max := 0 }, 0) rest := by
  obtain ⟨d1, d2, _, _, _⟩ := dimsLine_props w h hw hh
  have s1 : PGM.readLine fc
      ({ data := [], width := 0, height := 0, magicNumber := [], max := 0 }, 0) m
      = .next ({ data := [], width := 0, height := 0, magicNumber := m, max := 0 }, 0) := by
    simp only [PGM.readLine, hm'.2.1, hm'.2.2, Bool.false_eq_true, if_false, if_true]
  have s2 : PGM.readLine fc
      ({ data := [], width := 0, height := 0, magicNumber := m, max := 0 }, 0)
      (formatInt (w : Int) ++ [32] ++ formatInt (h : Int))
      = .next ({ data := List.replicate h (List.replicate w 0),
                 width := (w : Int), height := (h : Int), magicNumber := m, max := 0 }, 0) := by
    have hnp : ¬ ((h : Int) < 0 ∨ 0 < (h : Int) ∧ (w : Int) < 0) := by omega
    simp only [PGM.readLine, d2, hm'.1, Bool.false_eq_true, if_false, if_true,
      sscanfDims_format w h 0 0 hw hh, Int.toNat_ofNat, hnp]
  rw [runLines_next _ _ _ _ _ s1, runLines_next _ _ _ _ _ s2]

/-- C4 fails on the code for every `max` from 1 to 255: the file `Save` writes for the empty
0 x 0 greymap (tag `P2` or `P5`) or pixmap (tag `P3` or `P6`) is read back with the stored
width equal to `max` and the stored `max` equal to 0, because the reader still waits for a
width that is not 0 when it reaches the `max` line. -/
theorem empty_roundtrip_reads_max_as_width (mx : Nat) (h1 : 1 ≤ mx) (h2 : mx < 256) :
    (∀ m, m = magicP2 ∨ m = magicP5 →
      ReadPGM (PGM.Save { data := [], width := 0, height := 0, magicNumber := m, max := mx })
        = some { data := [], width := (mx : Int), height := 0, magicNumber := m, max := 0 }) ∧
    (∀ m, m = magicP3 ∨ m = magicP6 →
      ReadPPM (PPM.Save { data := [], width := 0, height := 0, magicNumber := m, max := mx })
        = some { data := [], width := (mx : Int), height := 0, magicNumber := m, max := 0 }) := by
  obtain ⟨_, x2, _, _, _⟩ := maxLine_props mx h2
  constructor
  · intro m hm
    have hp := magic_props m (by rcases hm with h | h <;> simp [h])
    have hsave : PGM.Save { data := [], width := 0, height := 0, magicNumber := m, max := mx }
        = m ++ [10] ++ (formatInt ((0 : Nat) : Int) ++ [32] ++ formatInt ((0 : Nat) : Int) ++ [10])
          ++ (formatNat mx ++ [10]) ++ [] := by
      rcases hm with h | h <;> subst h <;> simp [PGM.Save, PGM.header, PGM.payload, magicP2,
        magicP5, writeSeparated, writeSeparatedFrom]
    rw [hsave]
    unfold ReadPGM
    rw [scanLines_header3 m [] 0 0 mx hp.1 (by norm_num) (by norm_num) h2,
      PGM_header_steps _ m 0 0 _ hp.2 (by norm_num) (by norm_num)]
    have s3 : ∀ fc, PGM.readLine fc
        ({ data := List.replicate 0 (List.replicate 0 0), width := ((0 : Nat) : Int),
           height := ((0 : Nat) : Int), magicNumber := m, max := 0 }, 0) (formatNat mx)
        = .next ({ data := [], width := (mx : Int), height := 0, magicNumber := m,
                   max := 0 }, 0) := by
      intro fc
      have hnp : ¬ ((0 : Int) < 0 ∨ (0 : Int) < 0 ∧ (mx : Int) < 0) := by omega
      simp only [PGM.readLine, x2, hp.2.1, Bool.false_eq_true, if_false, if_true,
        Nat.cast_zero, sscanfDims_single mx 0 0 (by omega), hnp, Int.toNat_zero,
        List.replicate_zero]
    rw [runLines_next _ _ _ _ _ (s3 _)]
    rfl
  · intro m hm
    have hp := magic_props m (by rcases hm with h | h <;> simp [h])
    have hsave : PPM.Save { data := [], width := 0, height := 0, magicNumber := m, max := mx }
        = m ++ [10] ++ (formatInt ((0 : Nat) : Int) ++ [32] ++ formatInt ((0 : Nat) : Int) ++ [10])
          ++ (formatNat mx ++ [10]) ++ [] := by
      rcases hm with h | h <;> subst h <;> simp [PPM.Save, PPM.header, PPM.payload, magicP3,
        magicP6, writeSeparated, writeSeparatedFrom]
    rw [hsave]
    unfold ReadPPM
    rw [scanLines_header3 m [] 0 0 mx hp.1 (by norm_num) (by norm_num) h2,
      PPM_header_steps _ m 0 0 _ hp.2 (by norm_num) (by norm_num)]
    have s3 : ∀ fc, PPM.readLine fc
        ({ data := List.replicate 0 (List.replicate 0 { R := 0, G := 0, B := 0 }),
           width := ((0 : Nat) : Int), height := ((0 : Nat) : Int), magicNumber := m,
           max := 0 }, 0) (formatNat mx)
        = .next ({ data := [], width := (mx : Int), height := 0, magicNumber := m,
                   max := 0 }, 0) := by
      intro fc
      have hnp : ¬ ((0 : Int) < 0 ∨ (0 : Int) < 0 ∧ (mx : Int) < 0) := by omega
      simp only [PPM.readLine, x2, hp.2.1, Bool.false_eq_true, if_false, if_true,
        Nat.cast_zero, sscanfDims_single mx 0 0 (by omega), hnp, Int.toNat_zero,
        List.replicate_zero]
    rw [runLines_next _ _ _ _ _ (s3 _)]
    rfl

/-- The failing input of C4 with `max = 5`, in the four formats. -/
theorem empty_roundtrip_reads_max_as_width_witness :
    ReadPGM (PGM.Save { data := [], width := 0, height := 0, magicNumber := magicP2, max := 5 })
      = some { data := [], width := 5, height := 0, magicNumber := magicP2, max := 0 } ∧
    ReadPGM (PGM.Save { data := [], width := 0, height := 0, magicNumber := magicP5, max := 5 })
      = some { data := [], width := 5, height := 0, magicNumber := magicP5, max := 0 } ∧
    ReadPPM (PPM.Save { data := [], width := 0, height := 0, magicNumber := magicP3, max := 5 })
      = some { data := [], width := 5, height := 0, magicNumber := magicP3, max := 0 } ∧
    ReadPPM (PPM.Save { data := [], width := 0, height := 0, magicNumber := magicP6, max := 5 })
      = some { data := [], width := 5, height := 0, magicNumber := magicP6, max := 0 } :=
  ⟨(empty_roundtrip_reads_max_as_width 5 (by decide) (by decide)).1 magicP2 (Or.inl rfl),
    (empty_roundtrip_reads_max_as_width 5 (by decide) (by decide)).1 magicP5 (Or.inr rfl),
    (empty_roundtrip_reads_max_as_width 5 (by decide) (by decide)).2 magicP3 (Or.inl rfl),
    (empty_roundtrip_reads_max_as_width 5 (by decide) (by decide)).2 magicP6 (Or.inr rfl)⟩

/-! ## Binary round trips -/

/-- C2 fails on the code. The binary branch of a reader runs only when the line scanner
hands it a line of the pixel bytes that the header loop does not skip. The bytes of the 1 x 1
`P5` greymap with sample 35 are the line `#`, skipped as a comment: the sample read back is 0
(with sample 36 it is read back). The same happens to the 8 x 1 `P4` bitmap whose row packs
to `#`, or to a newline (an empty line), and to the 1 x 1 `P6` pixmap whose first byte is
`#`. -/
theorem binary_roundtrip_fails_on_hash :
    (hashGrey.WellFormed ∧ (∀ row ∈ hashGrey.data, ∀ v ∈ row, v ≤ hashGrey.max) ∧
      hashGrey.Save = [80, 53, 10, 49, 32, 49, 10, 50, 53, 53, 10, 35] ∧
      ReadPGM hashGrey.Save = some { hashGrey with data := [[0]] } ∧
      ReadPGM hashGrey.Save ≠ some hashGrey ∧
      ReadPGM (PGM.Save { hashGrey with data := [[36]] })
        = some { hashGrey with data := [[36]] }) ∧
    (hashBits.WellFormed ∧
      hashBits.Save = some [80, 52, 10, 56, 32, 49, 10, 35] ∧
      hashBits.Save.bind ReadPBM
        = some { hashBits with data := [List.replicate 8 false] } ∧
      hashBits.Save.bind ReadPBM ≠ some hashBits) ∧
    (newlineBits.WellFormed ∧
      newlineBits.Save = some [80, 52, 10, 56, 32, 49, 10, 10] ∧
      newlineBits.Save.bind ReadPBM
        = some { newlineBits with data := [List.replicate 8 false] } ∧
      newlineBits.Save.bind ReadPBM ≠ some newlineBits) ∧
    (hashPix.WellFormed ∧
      hashPix.Save = [80, 54, 10, 49, 32, 49, 10, 50, 53, 53, 10, 35, 0, 0] ∧
      ReadPPM hashPix.Save = some { hashPix with data := [[⟨0, 0, 0⟩]] } ∧
      ReadPPM hashPix.Save ≠ some hashPix) := by
  decide


/-! ## Conversions and depth -/

theorem cell_map_map {α β : Type} (f : α → β) (data : List (List α)) (r c : Nat) :
    cell (data.map (fun row => row.map f)) r c = (cell data r c).map f := by
  unfold cell
  rw [List.getElem?_map]
  cases data[r]? with
  | none => rfl
  | some row => simp only [Option.map_some', List.getElem?_map]

theorem subU8_le (c : Nat) : subU8 255 c ≤ 255 := by
  unfold subU8
  omega

/-- C18 (amended): `Invert` on a pixmap leaves `max` unchanged and every channel at most 255;
when `max` is 255 every channel is therefore still at most `max`. -/
theorem invert_depth (ppm : PPM) :
    ppm.Invert.max = ppm.max ∧
    (∀ row ∈ ppm.Invert.data, ∀ p ∈ row, p.R ≤ 255 ∧ p.G ≤ 255 ∧ p.B ≤ 255) ∧
    (ppm.max = 255 → ∀ row ∈ ppm.Invert.data, ∀ p ∈ row,
      p.R ≤ ppm.Invert.max ∧ p.G ≤ ppm.Invert.max ∧ p.B ≤ ppm.Invert.max) := by
  have key : ∀ row ∈ ppm.Invert.data, ∀ p ∈ row, p.R ≤ 255 ∧ p.G ≤ 255 ∧ p.B ≤ 255 := by
    intro row hrow p hp
    simp only [PPM.Invert, List.mem_map] at hrow
    obtain ⟨row0, hrow0, rfl⟩ := hrow
    obtain ⟨p0, hp0, rfl⟩ := List.mem_map.1 hp
    exact ⟨subU8_le _, subU8_le _, subU8_le _⟩
  refine ⟨rfl, key, fun hmax row hrow p hp => ?_⟩
  have hm : ppm.Invert.max = 255 := hmax
  rw [hm]
  exact key row hrow p hp

/-- Witness of C18 (amended) on a pixmap with `max = 255`. -/
theorem invert_depth_witness :
    samplePix.IsU8 ∧ samplePix.max = 255 ∧
    samplePix.Invert.data = [[⟨254, 253, 252⟩, ⟨251, 250, 249⟩],
      [⟨245, 235, 225⟩, ⟨215, 205, 0⟩]] ∧
    ∀ row ∈ samplePix.Invert.data, ∀ p ∈ row,
      p.R ≤ samplePix.Invert.max ∧ p.G ≤ samplePix.Invert.max ∧ p.B ≤ samplePix.Invert.max :=
  ⟨by decide, rfl, by decide, (invert_depth samplePix).2.2 rfl⟩

/-- C18 as stated fails: the 1 x 1 pixmap with `max = 100` and the pixel `(0, 0, 0)` keeps the
depth invariant, and after `Invert` its pixel is `(255, 255, 255)`, above `max`. -/
theorem invert_depth_counterexample :
    darkPix.WellFormed ∧ 1 ≤ darkPix.max ∧
    (∀ row ∈ darkPix.data, ∀ p ∈ row,
      p.R ≤ darkPix.max ∧ p.G ≤ darkPix.max ∧ p.B ≤ darkPix.max) ∧
    darkPix.Invert = { darkPix with data := [[⟨255, 255, 255⟩]] } ∧
    ¬ (∀ row ∈ darkPix.Invert.data, ∀ p ∈ row,
      p.R ≤ darkPix.Invert.max ∧ p.G ≤ darkPix.Invert.max ∧ p.B ≤ darkPix.Invert.max) := by
  decide

theorem mean_eq (p : Pixel) (h : p.R < 256 ∧ p.G < 256 ∧ p.B < 256) :
    p.mean = (p.R + p.G + p.B) / 3 := by
  unfold Pixel.mean
  omega

/-- C19: on a well-formed greymap `ToPBM` does not panic and gives a well-formed bitmap with
tag `P1`, the same width and height, whose pixel at `(x, y)` is set exactly when the sample at
`(x, y)` is strictly below `max / 2` (integer division); on a well-formed pixmap `ToPBM` gives
a well-formed bitmap with tag `P1`, the same width and height, whose pixel at `(x, y)` is set
exactly when `(R + G + B) / 3`, a sum that does not overflow, is strictly below `max / 2`. -/
theorem toPBM_threshold :
    (∀ pgm : PGM, pgm.WellFormed →
      ∃ pbm, pgm.ToPBM = some pbm ∧ pbm.WellFormed ∧ pbm.width = pgm.width ∧
        pbm.height = pgm.height ∧ pbm.magicNumber = magicP1 ∧
        ∀ x y : Nat, pbm.At x y = (pgm.At x y).map (fun v => decide (v < pgm.max / 2))) ∧
    (∀ ppm : PPM, ppm.WellFormed → ppm.IsU8 →
      ppm.ToPBM.WellFormed ∧ ppm.ToPBM.width = ppm.width ∧ ppm.ToPBM.height = ppm.height ∧
        ppm.ToPBM.magicNumber = magicP1 ∧
        ∀ x y : Nat, ∀ p, ppm.At x y = some p →
          ppm.ToPBM.At x y = some (decide ((p.R + p.G + p.B) / 3 < ppm.max / 2))) := by
  constructor
  · intro pgm hwf
    obtain ⟨h1, h0, h2⟩ := hwf
    have hrows : pgm.data.mapM (fun row =>
        if pgm.width < 0 ∨ pgm.width < (row.length : Int) then none
        else some (row.map (fun grayValue => decide (grayValue < pgm.max / 2)) ++
          List.replicate (pgm.width.toNat - row.length) false))
        = some (pgm.data.map (fun row =>
            row.map (fun grayValue => decide (grayValue < pgm.max / 2)))) := by
      apply mapM_map_some
      intro row hrow
      have := h2 row hrow
      rw [if_neg (by omega)]
      have e : pgm.width.toNat - row.length = 0 := by omega
      rw [e]
      simp
    refine ⟨{ magicNumber := magicP1, height := pgm.height, width := pgm.width,
              data := pgm.data.map (fun row =>
                row.map (fun grayValue => decide (grayValue < pgm.max / 2))) }, ?_, ?_, rfl,
      rfl, rfl, ?_⟩
    · unfold PGM.ToPBM
      rw [if_neg (by omega), hrows]
      have e : pgm.height.toNat - pgm.data.length = 0 := by omega
      simp only [Option.map_some', e, List.replicate_zero, List.append_nil]
    · refine ⟨by simpa using h1, h0, ?_⟩
      intro row hrow
      simp only [List.mem_map] at hrow
      obtain ⟨r0, hr0, rfl⟩ := hrow
      simpa using h2 r0 hr0
    · intro x y
      exact cell_map_map _ pgm.data y x
  · intro ppm hwf h8
    obtain ⟨h1, h0, h2⟩ := hwf
    refine ⟨⟨by simpa [PPM.ToPBM] using h1, h0, ?_⟩, rfl, rfl, rfl, ?_⟩
    · intro row hrow
      simp only [PPM.ToPBM, List.mem_map] at hrow
      obtain ⟨r0, hr0, rfl⟩ := hrow
      simpa using h2 r0 hr0
    · intro x y p hp
      have hc : PBM.At ppm.ToPBM x y
          = (cell ppm.data y x).map (fun p => decide (p.mean < ppm.max / 2)) :=
        cell_map_map _ ppm.data y x
      have hp' : cell ppm.data y x = some p := hp
      rw [hc, hp', Option.map_some']
      have hmem : ∃ row ∈ ppm.data, p ∈ row := by
        unfold cell at hp'
        cases hrow : ppm.data[y]? with
        | none => rw [hrow] at hp'; exact absurd hp' (by simp)
        | some row =>
          rw [hrow] at hp'
          exact ⟨row, List.getElem?_mem hrow, List.getElem?_mem hp'⟩
      obtain ⟨row, hrow, hpr⟩ := hmem
      rw [mean_eq p (h8.2 row hrow p hpr)]

/-- Witness of C19 on a greymap with `max = 9` and on a pixmap. -/
theorem toPBM_threshold_witness :
    (sampleGreyWide.WellFormed ∧
      sampleGreyWide.ToPBM
        = some ⟨[[true, true, true], [false, false, false]], 3, 2, magicP1⟩ ∧
      ∃ pbm, sampleGreyWide.ToPBM = some pbm ∧ pbm.WellFormed ∧
        pbm.width = sampleGreyWide.width ∧ pbm.height = sampleGreyWide.height ∧
        pbm.magicNumber = magicP1 ∧
        ∀ x y : Nat, pbm.At x y
          = (sampleGreyWide.At x y).map (fun v => decide (v < sampleGreyWide.max / 2))) ∧
    (samplePix.WellFormed ∧ samplePix.IsU8 ∧
      samplePix.ToPBM = ⟨[[true, true], [true, true]], 2, 2, magicP1⟩ ∧
      samplePix.ToPBM.WellFormed) :=
  ⟨⟨by decide, by decide, toPBM_threshold.1 sampleGreyWide (by decide)⟩,
    ⟨by decide, by decide, by decide,
      (toPBM_threshold.2 samplePix (by decide) (by decide)).1⟩⟩

/-- C20: on a well-formed pixmap `ToPGM` gives a well-formed greymap with tag `P2`, the same
width, height and `max`, whose sample at `(x, y)` is `(R + G + B) / 3` of the pixel at
`(x, y)`, a sum that does not overflow; so when every channel is at most `max`, every sample
is at most `max`. The pixmap is only read. -/
theorem toPGM_mean (ppm : PPM) (hwf : ppm.WellFormed) (h8 : ppm.IsU8) :
    ppm.ToPGM.WellFormed ∧ ppm.ToPGM.width = ppm.width ∧ ppm.ToPGM.height = ppm.height ∧
    ppm.ToPGM.max = ppm.max ∧ ppm.ToPGM.magicNumber = magicP2 ∧
    (∀ x y : Nat, ∀ p, ppm.At x y = some p →
      ppm.ToPGM.At x y = some ((p.R + p.G + p.B) / 3)) ∧
    ((∀ row ∈ ppm.data, ∀ p ∈ row, p.R ≤ ppm.max ∧ p.G ≤ ppm.max ∧ p.B ≤ ppm.max) →
      ∀ row ∈ ppm.ToPGM.data, ∀ v ∈ row, v ≤ ppm.ToPGM.max) := by
  obtain ⟨h1, h0, h2⟩ := hwf
  refine ⟨⟨by simpa [PPM.ToPGM] using h1, h0, ?_⟩, rfl, rfl, rfl, rfl, ?_, ?_⟩
  · intro row hrow
    simp only [PPM.ToPGM, List.mem_map] at hrow
    obtain ⟨r0, hr0, rfl⟩ := hrow
    simpa using h2 r0 hr0
  · intro x y p hp
    have hc : PGM.At ppm.ToPGM x y = (cell ppm.data y x).map Pixel.mean :=
      cell_map_map _ ppm.data y x
    have hp' : cell ppm.data y x = some p := hp
    rw [hc, hp', Option.map_some']
    have hmem : ∃ row ∈ ppm.data, p ∈ row := by
      unfold cell at hp'
      cases hrow : ppm.data[y]? with
      | none => rw [hrow] at hp'; exact absurd hp' (by simp)
      | some row =>
        rw [hrow] at hp'
        exact ⟨row, List.getElem?_mem hrow, List.getElem?_mem hp'⟩
    obtain ⟨row, hrow, hpr⟩ := hmem
    rw [mean_eq p (h8.2 row hrow p hpr)]
  · intro hle row hrow v hv
    simp only [PPM.ToPGM, List.mem_map] at hrow
    obtain ⟨r0, hr0, rfl⟩ := hrow
    obtain ⟨p, hp, rfl⟩ := List.mem_map.1 hv
    obtain ⟨a, b, c⟩ := hle r0 hr0 p hp
    rw [mean_eq p (h8.2 r0 hr0 p hp)]
    show (p.R + p.G + p.B) / 3 ≤ ppm.max
    omega

/-- Witness of C20 on a 2 x 2 pixmap. -/
theorem toPGM_mean_witness :
    samplePix.WellFormed ∧ samplePix.IsU8 ∧
    samplePix.ToPGM = ⟨[[2, 5], [20, 115]], 2, 2, magicP2, 255⟩ ∧
    samplePix.ToPGM.WellFormed ∧ samplePix.ToPGM.max = samplePix.max :=
  ⟨by decide, by decide, by decide, (toPGM_mean samplePix (by decide) (by decide)).1,
    (toPGM_mean samplePix (by decide) (by decide)).2.2.2.1⟩

/-! ## What every run of a reader keeps -/

/-- A property that every pass of the body keeps is kept by the loop over the lines. -/
theorem runLines_preserves {σ : Type} (P : σ → Prop) (body : σ → List Nat → Step σ)
    (hbody : ∀ s t s', P s → (body s t = .next s' ∨ body s t = .stop s') → P s')
    (lines : List (List Nat)) (s s' : σ) (hs : P s) (h : runLines body s lines = some s') :
    P s' := by
  induction lines generalizing s with
  | nil =>
    simp only [runLines, Option.some.injEq] at h
    rw [← h]; exact hs
  | cons t rest ih =>
    cases hb : body s t with
    | next s1 =>
      rw [runLines_next _ _ _ _ _ hb] at h
      exact ih s1 (hbody s t s1 hs (Or.inl hb)) h
    | stop s1 =>
      rw [runLines_stop _ _ _ _ _ hb] at h
      simp only [Option.some.injEq] at h
      rw [← h]
      exact hbody s t s1 hs (Or.inr hb)
    | panic =>
      simp only [runLines, hb] at h
      exact absurd h (by simp)

/-- A property that every pass of the body keeps is kept by a counted loop. -/
theorem forRange_preserves {σ : Type} (P : σ → Prop) (n : Nat) (body : Nat → σ → Option σ)
    (hbody : ∀ i s s', P s → body i s = some s' → P s') (s s' : σ) (hs : P s)
    (h : forRange n body s = some s') : P s' := by
  induction n generalizing s' with
  | zero =>
    rw [forRange_zero] at h
    simp only [Option.some.injEq] at h
    rw [← h]; exact hs
  | succ k ih =>
    rw [forRange_succ] at h
    cases hk : forRange k body s with
    | none => rw [hk] at h; exact absurd h (by simp)
    | some t =>
      rw [hk, Option.some_bind] at h
      exact hbody k t s' (ih t hk) h

theorem setAt_allCells {α : Type} (P : α → Prop) (d d' : List (List α)) (y x : Nat) (v : α)
    (hd : AllCells P d) (hv : P v) (h : setAt d y x v = some d') : AllCells P d' := by
  unfold setAt at h
  cases hrow : d[y]? with
  | none => rw [hrow] at h; exact absurd h (by simp)
  | some row =>
    rw [hrow] at h
    simp only at h
    split at h
    · simp only [Option.some.injEq] at h
      subst h
      intro r hr c hc
      rcases List.mem_or_eq_of_mem_set hr with hr | hr
      · exact hd r hr c hc
      · subst hr
        rcases List.mem_or_eq_of_mem_set hc with hc | hc
        · exact hd row (List.getElem?_mem hrow) c hc
        · rw [hc]; exact hv
    · exact absurd h (by simp)

theorem allCells_replicate {α : Type} (P : α → Prop) (h w : Nat) (v : α) (hv : P v) :
    AllCells P (List.replicate h (List.replicate w v)) := by
  intro row hrow c hc
  rw [(List.mem_replicate.1 hrow).2] at hc
  rw [(List.mem_replicate.1 hc).2]
  exact hv

theorem parseUint8Loop_le (ds : List Nat) (n : Nat) (hn : n ≤ 255) :
    parseUint8Loop ds n ≤ 255 := by
  induction ds generalizing n with
  | nil => exact hn
  | cons c t ih =>
    rw [parseUint8Loop]
    split
    · split
      · exact le_refl _
      · exact ih _ (by omega)
    · omega

theorem ParseUint8_lt (s : List Nat) : ParseUint8 s < 256 := by
  have := parseUint8Loop_le s 0 (by omega)
  unfold ParseUint8
  omega

theorem sscanfMax_lt (text : List Nat) (m : Nat) (hm : m < 256) : sscanfMax text m < 256 := by
  unfold sscanfMax
  cases h : scanUint8 text with
  | none => exact hm
  | some r =>
    obtain ⟨v, rest⟩ := r
    simp only
    unfold scanUint8 at h
    simp only at h
    split at h
    · exact absurd h (by simp)
    · split at h
      · simp only [Option.some.injEq, Prod.mk.injEq] at h
        omega
      · exact absurd h (by simp)

theorem readRowP2_allCells (width : Int) (line : Nat) (val : List (List Nat))
    (d d' : List (List Nat)) (hd : AllCells (fun v => v < 256) d)
    (h : PGM.readRowP2 width line val d = some d') : AllCells (fun v => v < 256) d' := by
  refine forRange_preserves (AllCells (fun v => v < 256)) _ _ ?_ d d' hd h
  intro i s s' hs hb
  cases hv : val[i]? with
  | none => simp only [hv] at hb; exact absurd hb (by simp)
  | some tok =>
    simp only [hv] at hb
    exact setAt_allCells _ s s' line i _ hs (ParseUint8_lt tok) hb

theorem unpackP5_allCells (width height : Int) (pixelData : List Nat)
    (hp : ∀ b ∈ pixelData, b < 256) (d : List (List Nat)) (r : List (List Nat) × Nat)
    (hd : AllCells (fun v => v < 256) d)
    (h : PGM.unpackP5 width height pixelData d = some r) : AllCells (fun v => v < 256) r.1 := by
  refine forRange_preserves (fun st : List (List Nat) × Nat => AllCells (fun v => v < 256) st.1)
    _ _ ?_ (d, 0) r hd h
  intro y s s' hs hb
  refine forRange_preserves (fun st : List (List Nat) × Nat => AllCells (fun v => v < 256) st.1)
    _ _ ?_ s s' hs hb
  intro x u u' hu hx
  cases hv : pixelData[u.2]? with
  | none => simp only [hv] at hx; exact absurd hx (by simp)
  | some b =>
    simp only [hv] at hx
    cases hset : setAt u.1 y x b with
    | none => rw [hset] at hx; exact absurd hx (by simp)
    | some d1 =>
      rw [hset] at hx
      simp only [Option.map_some', Option.some.injEq] at hx
      rw [← hx]
      exact setAt_allCells _ u.1 d1 y x b hu (hp b (List.getElem?_mem hv)) hset

theorem PGM_readLine_isU8 (fc : List Nat) (hfc : ∀ b ∈ fc, b < 256) (s : PGM × Nat)
    (t : List Nat) (s' : PGM × Nat) (hs : s.1.IsU8)
    (h : PGM.readLine fc s t = .next s' ∨ PGM.readLine fc s t = .stop s') : s'.1.IsU8 := by
  unfold PGM.readLine at h
  simp only at h
  split_ifs at h with h1 h2 h3 h4 h5 h6 h7 h8
  · rcases h with h | h
    · injection h with h; rw [← h]; exact hs
    · exact absurd h (by simp)
  · rcases h with h | h
    · injection h with h; rw [← h]; exact hs
    · exact absurd h (by simp)
  · rcases h with h | h <;> exact absurd h (by simp)
  · rcases h with h | h
    · injection h with h; rw [← h]
      exact ⟨hs.1, allCells_replicate _ _ _ 0 (by decide)⟩
    · exact absurd h (by simp)
  · rcases h with h | h
    · injection h with h; rw [← h]
      exact ⟨sscanfMax_lt t s.1.max hs.1, hs.2⟩
    · exact absurd h (by simp)
  · cases hr : PGM.readRowP2 s.1.width s.2 (Fields t) s.1.data with
    | none => rw [hr] at h; rcases h with h | h <;> exact absurd h (by simp)
    | some d =>
      rw [hr] at h
      rcases h with h | h
      · injection h with h; rw [← h]
        exact ⟨hs.1, readRowP2_allCells _ _ _ _ _ hs.2 hr⟩
      · exact absurd h (by simp)
  · rcases h with h | h <;> exact absurd h (by simp)
  · cases hr : PGM.unpackP5 s.1.width s.1.height
        (fc.drop (fc.length - (s.1.width * s.1.height).toNat)) s.1.data with
    | none => rw [hr] at h; rcases h with h | h <;> exact absurd h (by simp)
    | some r =>
      rw [hr] at h
      rcases h with h | h
      · exact absurd h (by simp)
      · injection h with h; rw [← h]
        exact ⟨hs.1, unpackP5_allCells _ _ _
          (fun b hb => hfc b (List.mem_of_mem_drop hb)) _ _ hs.2 hr⟩
  · rcases h with h | h
    · injection h with h; rw [← h]; exact hs
    · exact absurd h (by simp)


theorem readRowP3_allCells (width : Int) (line : Nat) (val : List (List Nat))
    (d d' : List (List Pixel))
    (hd : AllCells (fun p : Pixel => p.R < 256 ∧ p.G < 256 ∧ p.B < 256) d)
    (h : PPM.readRowP3 width line val d = some d') :
    AllCells (fun p : Pixel => p.R < 256 ∧ p.G < 256 ∧ p.B < 256) d' := by
  refine forRange_preserves (AllCells (fun p : Pixel => p.R < 256 ∧ p.G < 256 ∧ p.B < 256))
    _ _ ?_ d d' hd h
  intro i s s' hs hb
  simp only at hb
  split at hb
  · exact setAt_allCells _ s s' line i _ hs
      ⟨ParseUint8_lt _, ParseUint8_lt _, ParseUint8_lt _⟩ hb
  · exact absurd hb (by simp)

theorem unpackP6_allCells (width height : Int) (pixelData : List Nat)
    (hp : ∀ b ∈ pixelData, b < 256) (d : List (List Pixel)) (r : List (List Pixel) × Nat)
    (hd : AllCells (fun p : Pixel => p.R < 256 ∧ p.G < 256 ∧ p.B < 256) d)
    (h : PPM.unpackP6 width height pixelData d = some r) :
    AllCells (fun p : Pixel => p.R < 256 ∧ p.G < 256 ∧ p.B < 256) r.1 := by
  refine forRange_preserves (fun st : List (List Pixel) × Nat =>
    AllCells (fun p : Pixel => p.R < 256 ∧ p.G < 256 ∧ p.B < 256) st.1) _ _ ?_ (d, 0) r hd h
  intro y s s' hs hb
  refine forRange_preserves (fun st : List (List Pixel) × Nat =>
    AllCells (fun p : Pixel => p.R < 256 ∧ p.G < 256 ∧ p.B < 256) st.1) _ _ ?_ s s' hs hb
  intro x u u' hu hx
  simp only at hx
  split at hx
  · rename_i cr cg cb hr hg hb'
    cases hset : setAt u.1 y x ({ R := cr, G := cg, B := cb } : Pixel) with
    | none => rw [hset] at hx; exact absurd hx (by simp)
    | some d1 =>
      rw [hset] at hx
      simp only [Option.map_some', Option.some.injEq] at hx
      rw [← hx]
      exact setAt_allCells _ u.1 d1 y x _ hu
        ⟨hp cr (List.getElem?_mem hr), hp cg (List.getElem?_mem hg),
          hp cb (List.getElem?_mem hb')⟩ hset
  · exact absurd hx (by simp)

theorem PPM_readLine_isU8 (fc : List Nat) (hfc : ∀ b ∈ fc, b < 256) (s : PPM × Nat)
    (t : List Nat) (s' : PPM × Nat) (hs : s.1.IsU8)
    (h : PPM.readLine fc s t = .next s' ∨ PPM.readLine fc s t = .stop s') : s'.1.IsU8 := by
  unfold PPM.readLine at h
  simp only at h
  split_ifs at h with h1 h2 h3 h4 h5 h6 h7 h8
  · rcases h with h | h
    · injection h with h; rw [← h]; exact hs
    · exact absurd h (by simp)
  · rcases h with h | h
    · injection h with h; rw [← h]; exact hs
    · exact absurd h (by simp)
  · rcases h with h | h <;> exact absurd h (by simp)
  · rcases h with h | h
    · injection h with h; rw [← h]
      exact ⟨hs.1, allCells_replicate _ _ _ _ (by decide)⟩
    · exact absurd h (by simp)
  · rcases h with h | h
    · injection h with h; rw [← h]
      exact ⟨sscanfMax_lt t s.1.max hs.1, hs.2⟩
    · exact absurd h (by simp)
  · cases hr : PPM.readRowP3 s.1.width s.2 (Fields t) s.1.data with
    | none => rw [hr] at h; rcases h with h | h <;> exact absurd h (by simp)
    | some d =>
      rw [hr] at h
      rcases h with h | h
      · injection h with h; rw [← h]
        exact ⟨hs.1, readRowP3_allCells _ _ _ _ _ hs.2 hr⟩
      · exact absurd h (by simp)
  · rcases h with h | h <;> exact absurd h (by simp)
  · cases hr : PPM.unpackP6 s.1.width s.1.height
        (fc.drop (fc.length - (s.1.width * s.1.height * 3).toNat)) s.1.data with
    | none => rw [hr] at h; rcases h with h | h <;> exact absurd h (by simp)
    | some r =>
      rw [hr] at h
      rcases h with h | h
      · exact absurd h (by simp)
      · injection h with h; rw [← h]
        exact ⟨hs.1, unpackP6_allCells _ _ _
          (fun b hb => hfc b (List.mem_of_mem_drop hb)) _ _ hs.2 hr⟩
  · rcases h with h | h
    · injection h with h; rw [← h]; exact hs
    · exact absurd h (by simp)

theorem ReadPGM_isU8 (input : List Nat) (hin : ∀ b ∈ input, b < 256) (pgm : PGM)
    (h : ReadPGM input = some pgm) : pgm.IsU8 := by
  unfold ReadPGM at h
  cases hr : runLines (PGM.readLine input)
      ({ data := [], width := 0, height := 0, magicNumber := [], max := 0 }, 0)
      (scanLines input) with
  | none => rw [hr] at h; exact absurd h (by simp)
  | some st =>
    rw [hr] at h
    simp only [Option.map_some', Option.some.injEq] at h
    rw [← h]
    exact runLines_preserves (fun st : PGM × Nat => st.1.IsU8) _
      (PGM_readLine_isU8 input hin) _ _ st (by decide) hr

theorem ReadPPM_isU8 (input : List Nat) (hin : ∀ b ∈ input, b < 256) (ppm : PPM)
    (h : ReadPPM input = some ppm) : ppm.IsU8 := by
  unfold ReadPPM at h
  cases hr : runLines (PPM.readLine input)
      ({ data := [], width := 0, height := 0, magicNumber := [], max := 0 }, 0)
      (scanLines input) with
  | none => rw [hr] at h; exact absurd h (by simp)
  | some st =>
    rw [hr] at h
    simp only [Option.map_some', Option.some.injEq] at h
    rw [← h]
    exact runLines_preserves (fun st : PPM × Nat => st.1.IsU8) _
      (PPM_readLine_isU8 input hin) _ _ st (by decide) hr

/-- C17, counterexample: `ReadPGM` and `ReadPPM` return rasters whose declared `max` is 5 and
which hold the samples 9 (ASCII greymap), 200 (binary greymap) and 9, 255, 0 (pixmap, where
the text `300` was clamped to 255, not to `max`): a stored sample is above the stored
`max`, and nothing was rejected. -/
theorem read_depth_counterexample :
    ReadPGM overMaxP2 = some ⟨[[9]], 1, 1, magicP2, 5⟩ ∧
    ReadPGM overMaxP5 = some ⟨[[200]], 1, 1, magicP5, 5⟩ ∧
    ReadPPM overMaxP3 = some ⟨[[⟨9, 255, 0⟩]], 1, 1, magicP3, 5⟩ := by
  refine ⟨?_, ?_, ?_⟩ <;> decide

theorem parseDec_foldl_ge (ds : List Nat) (n : Nat) :
    n ≤ ds.foldl (fun acc c => acc * 10 + (c - 48)) n := by
  induction ds generalizing n with
  | nil => exact le_refl _
  | cons c t ih =>
    rw [List.foldl_cons]
    exact le_trans (by omega) (ih (n * 10 + (c - 48)))

theorem parseUint8Loop_min (ds : List Nat) (n : Nat) (hd : ∀ c ∈ ds, isDigit c = true)
    (hn : n ≤ 255) :
    parseUint8Loop ds n = min (ds.foldl (fun acc c => acc * 10 + (c - 48)) n) 255 := by
  induction ds generalizing n with
  | nil =>
    rw [parseUint8Loop, List.foldl_nil]
    omega
  | cons c t ih =>
    rw [parseUint8Loop, if_pos (hd c (List.mem_cons_self _ _)), List.foldl_cons]
    split_ifs with hgt
    · have := parseDec_foldl_ge t (n * 10 + (c - 48))
      omega
    · exact ih _ (fun x hx => hd x (List.mem_cons_of_mem _ hx)) (by omega)

/-- The decimal text of `v` is parsed to `v` when `v` fits a `uint8`, and to 255 when it does
not. -/
theorem ParseUint8_formatNat_min (v : Nat) : ParseUint8 (formatNat v) = min v 255 := by
  have h := parseDec_formatNat v
  unfold parseDec at h
  unfold ParseUint8
  rw [parseUint8Loop_min _ 0 (formatNat_digits v) (by omega), h]

/-- C17, amended: for every input of bytes on which `ReadPGM` or `ReadPPM` returns a raster,
the stored `max` and every stored sample (greymap value, or each of R, G, B) is at most 255,
the range of `uint8`, and when the stored `max` is 255 every stored sample is at most the
stored `max`. `strconv.ParseUint(tok, 10, 8)`, through which the decimal tokens go, gives at
most 255 for every token, and `min(v, 255)` for the decimal text of `v`, whatever the
declared `max`. -/
theorem read_depth (input : List Nat) (hin : ∀ b ∈ input, b < 256) :
    (∀ pgm, ReadPGM input = some pgm →
      pgm.max ≤ 255 ∧ (∀ row ∈ pgm.data, ∀ v ∈ row, v ≤ 255) ∧
      (pgm.max = 255 → ∀ row ∈ pgm.data, ∀ v ∈ row, v ≤ pgm.max)) ∧
    (∀ ppm, ReadPPM input = some ppm →
      ppm.max ≤ 255 ∧ (∀ row ∈ ppm.data, ∀ p ∈ row, p.R ≤ 255 ∧ p.G ≤ 255 ∧ p.B ≤ 255) ∧
      (ppm.max = 255 → ∀ row ∈ ppm.data, ∀ p ∈ row,
        p.R ≤ ppm.max ∧ p.G ≤ ppm.max ∧ p.B ≤ ppm.max)) ∧
    (∀ tok, ParseUint8 tok ≤ 255) ∧ (∀ v, ParseUint8 (formatNat v) = min v 255) := by
  refine ⟨?_, ?_, ?_, ParseUint8_formatNat_min⟩
  · intro pgm h
    have hu := ReadPGM_isU8 input hin pgm h
    have h2 : ∀ row ∈ pgm.data, ∀ v ∈ row, v ≤ 255 := fun row hr v hv =>
      Nat.le_of_lt_succ (hu.2 row hr v hv)
    refine ⟨Nat.le_of_lt_succ hu.1, h2, ?_⟩
    intro hm row hr v hv
    rw [hm]; exact h2 row hr v hv
  · intro ppm h
    have hu := ReadPPM_isU8 input hin ppm h
    have h2 : ∀ row ∈ ppm.data, ∀ p ∈ row, p.R ≤ 255 ∧ p.G ≤ 255 ∧ p.B ≤ 255 :=
      fun row hr p hp => by
        have := hu.2 row hr p hp
        omega
    refine ⟨Nat.le_of_lt_succ hu.1, h2, ?_⟩
    intro hm row hr p hp
    rw [hm]; exact h2 row hr p hp
  · intro tok
    exact Nat.le_of_lt_succ (ParseUint8_lt tok)

theorem read_depth_witness :
    (∀ b ∈ overMaxP2, b < 256) ∧ ReadPGM overMaxP2 = some ⟨[[9]], 1, 1, magicP2, 5⟩ ∧
    ((⟨[[9]], 1, 1, magicP2, 5⟩ : PGM).max ≤ 255 ∧
      (∀ row ∈ (⟨[[9]], 1, 1, magicP2, 5⟩ : PGM).data, ∀ v ∈ row, v ≤ 255) ∧
      ((⟨[[9]], 1, 1, magicP2, 5⟩ : PGM).max = 255 →
        ∀ row ∈ (⟨[[9]], 1, 1, magicP2, 5⟩ : PGM).data, ∀ v ∈ row,
          v ≤ (⟨[[9]], 1, 1, magicP2, 5⟩ : PGM).max)) :=
  ⟨by decide, by decide, (read_depth overMaxP2 (by decide)).1 _ (by decide)⟩


/-! ## A magic number that is none of the six -/

theorem runLines_append_same {σ : Type} (body : σ → List Nat → Step σ) (s : σ)
    (pre ls : List (List Nat)) (h : ∀ l ∈ pre, body s l = .next s) :
    runLines body s (pre ++ ls) = runLines body s ls := by
  induction pre with
  | nil => rfl
  | cons l pre ih =>
    rw [List.cons_append, runLines_next _ _ _ _ _ (h l (List.mem_cons_self _ _))]
    exact ih (fun l' hl' => h l' (List.mem_cons_of_mem _ hl'))

theorem TrimSpace_nil : TrimSpace [] = [] := by decide

theorem PBM_readLine_unknown (fc : List Nat) (m : List Nat) (hne : m ≠ [])
    (h1 : m ≠ magicP1) (h4 : m ≠ magicP4) (s : PBM × Nat) (t : List Nat) (s' : PBM × Nat)
    (hs : s.1.magicNumber = m ∧ AllCells (fun b => b = false) s.1.data)
    (h : PBM.readLine fc s t = .next s' ∨ PBM.readLine fc s t = .stop s') :
    s'.1.magicNumber = m ∧ AllCells (fun b => b = false) s'.1.data := by
  unfold PBM.readLine at h
  simp only at h
  have e1 : ¬ s.1.magicNumber = [] := by rw [hs.1]; exact hne
  have e2 : ¬ s.1.magicNumber = magicP1 := by rw [hs.1]; exact h1
  have e3 : ¬ s.1.magicNumber = magicP4 := by rw [hs.1]; exact h4
  simp only [e1, e2, e3, if_false] at h
  split_ifs at h with c1 c2 c3
  · rcases h with h | h
    · injection h with h; rw [← h]; exact hs
    · exact absurd h (by simp)
  · rcases h with h | h <;> exact absurd h (by simp)
  · rcases h with h | h
    · injection h with h; rw [← h]
      exact ⟨hs.1, allCells_replicate _ _ _ _ rfl⟩
    · exact absurd h (by simp)
  · rcases h with h | h
    · injection h with h; rw [← h]; exact hs
    · exact absurd h (by simp)

theorem PGM_readLine_unknown (fc : List Nat) (m : List Nat) (hne : m ≠ [])
    (h2 : m ≠ magicP2) (h5 : m ≠ magicP5) (s : PGM × Nat) (t : List Nat) (s' : PGM × Nat)
    (hs : s.1.magicNumber = m ∧ AllCells (fun v => v = 0) s.1.data)
    (h : PGM.readLine fc s t = .next s' ∨ PGM.readLine fc s t = .stop s') :
    s'.1.magicNumber = m ∧ AllCells (fun v => v = 0) s'.1.data := by
  unfold PGM.readLine at h
  simp only at h
  have e1 : ¬ s.1.magicNumber = [] := by rw [hs.1]; exact hne
  have e2 : ¬ s.1.magicNumber = magicP2 := by rw [hs.1]; exact h2
  have e3 : ¬ s.1.magicNumber = magicP5 := by rw [hs.1]; exact h5
  simp only [e1, e2, e3, if_false] at h
  split_ifs at h with c1 c2 c3 c4
  · rcases h with h | h
    · injection h with h; rw [← h]; exact hs
    · exact absurd h (by simp)
  · rcases h with h | h <;> exact absurd h (by simp)
  · rcases h with h | h
    · injection h with h; rw [← h]
      exact ⟨hs.1, allCells_replicate _ _ _ _ rfl⟩
    · exact absurd h (by simp)
  · rcases h with h | h
    · injection h with h; rw [← h]; exact hs
    · exact absurd h (by simp)
  · rcases h with h | h
    · injection h with h; rw [← h]; exact hs
    · exact absurd h (by simp)

theorem PPM_readLine_unknown (fc : List Nat) (m : List Nat) (hne : m ≠ [])
    (h3 : m ≠ magicP3) (h6 : m ≠ magicP6) (s : PPM × Nat) (t : List Nat) (s' : PPM × Nat)
    (hs : s.1.magicNumber = m ∧ AllCells (fun p => p = (⟨0, 0, 0⟩ : Pixel)) s.1.data)
    (h : PPM.readLine fc s t = .next s' ∨ PPM.readLine fc s t = .stop s') :
    s'.1.magicNumber = m ∧ AllCells (fun p => p = (⟨0, 0, 0⟩ : Pixel)) s'.1.data := by
  unfold PPM.readLine at h
  simp only at h
  have e1 : ¬ s.1.magicNumber = [] := by rw [hs.1]; exact hne
  have e2 : ¬ s.1.magicNumber = magicP3 := by rw [hs.1]; exact h3
  have e3 : ¬ s.1.magicNumber = magicP6 := by rw [hs.1]; exact h6
  simp only [e1, e2, e3, if_false] at h
  split_ifs at h with c1 c2 c3 c4
  · rcases h with h | h
    · injection h with h; rw [← h]; exact hs
    · exact absurd h (by simp)
  · rcases h with h | h <;> exact absurd h (by simp)
  · rcases h with h | h
    · injection h with h; rw [← h]
      exact ⟨hs.1, allCells_replicate _ _ _ _ rfl⟩
    · exact absurd h (by simp)
  · rcases h with h | h
    · injection h with h; rw [← h]; exact hs
    · exact absurd h (by simp)
  · rcases h with h | h
    · injection h with h; rw [← h]; exact hs
    · exact absurd h (by simp)

theorem PBM_readLine_blank (fc l : List Nat)
    (hl : startsWithHash l = true ∨ TrimSpace l = []) :
    PBM.readLine fc (⟨[], 0, 0, []⟩, 0) l = .next (⟨[], 0, 0, []⟩, 0) := by
  unfold PBM.readLine
  simp only
  split_ifs with c1
  · rfl
  · rcases hl with hl | hl
    · exact absurd (Or.inr hl) c1
    · rw [hl]

theorem PGM_readLine_blank (fc l : List Nat)
    (hl : startsWithHash l = true ∨ TrimSpace l = []) :
    PGM.readLine fc (⟨[], 0, 0, [], 0⟩, 0) l = .next (⟨[], 0, 0, [], 0⟩, 0) := by
  unfold PGM.readLine
  simp only
  split_ifs with c1
  · rfl
  · rcases hl with hl | hl
    · exact absurd hl c1
    · rw [hl]

theorem PPM_readLine_blank (fc l : List Nat)
    (hl : startsWithHash l = true ∨ TrimSpace l = []) :
    PPM.readLine fc (⟨[], 0, 0, [], 0⟩, 0) l = .next (⟨[], 0, 0, [], 0⟩, 0) := by
  unfold PPM.readLine
  simp only
  split_ifs with c1
  · rfl
  · rcases hl with hl | hl
    · exact absurd hl c1
    · rw [hl]

theorem PBM_readLine_magic (fc t : List Nat) (ht : startsWithHash t = false)
    (hne : TrimSpace t ≠ []) :
    PBM.readLine fc (⟨[], 0, 0, []⟩, 0) t = .next (⟨[], 0, 0, TrimSpace t⟩, 0) := by
  have h0 : t ≠ [] := fun e => hne (by rw [e]; exact TrimSpace_nil)
  unfold PBM.readLine
  simp only [h0, ht, Bool.false_eq_true, or_self, if_false, if_true]

theorem PGM_readLine_magic (fc t : List Nat) (ht : startsWithHash t = false) :
    PGM.readLine fc (⟨[], 0, 0, [], 0⟩, 0) t = .next (⟨[], 0, 0, TrimSpace t, 0⟩, 0) := by
  unfold PGM.readLine
  simp only [ht, Bool.false_eq_true, if_false, if_true]

theorem PPM_readLine_magic (fc t : List Nat) (ht : startsWithHash t = false) :
    PPM.readLine fc (⟨[], 0, 0, [], 0⟩, 0) t = .next (⟨[], 0, 0, TrimSpace t, 0⟩, 0) := by
  unfold PPM.readLine
  simp only [ht, Bool.false_eq_true, if_false, if_true]

/-- C15, counterexample: on a file whose magic number is `P9`, each of the three decoders
returns a raster (all pixels zero, magic number `P9`) and no error. -/
theorem unsupported_magic_counterexample :
    ReadPBM unknownMagic = some ⟨[[false, false], [false, false]], 2, 2, [80, 57]⟩ ∧
    ReadPGM unknownMagic = some ⟨[[0, 0], [0, 0]], 2, 2, [80, 57], 1⟩ ∧
    ReadPPM unknownMagic =
      some ⟨[[⟨0, 0, 0⟩, ⟨0, 0, 0⟩], [⟨0, 0, 0⟩, ⟨0, 0, 0⟩]], 2, 2, [80, 57], 1⟩ := by
  refine ⟨?_, ?_, ?_⟩ <;> decide

/-- C15, amended: an unsupported magic number is not rejected. Among the lines that the
scanner yields from the input (it stops at a line of 64 KiB or more), let `t` be the first
that is neither a comment nor blank, and let its text trimmed of white space be none of `P1`
.. `P6`. Then whatever raster `ReadPBM`, `ReadPGM` or `ReadPPM` returns has that trimmed
text as its magic number and holds only zero pixels: no decoder checks the magic number, and
no pixel data is read. -/
theorem unsupported_magic (input : List Nat) (pre rest : List (List Nat)) (t : List Nat)
    (hs : scanLines input = pre ++ t :: rest)
    (hpre : ∀ l ∈ pre, startsWithHash l = true ∨ TrimSpace l = [])
    (ht : startsWithHash t = false) (hne : TrimSpace t ≠ [])
    (hm : TrimSpace t ∉ [magicP1, magicP2, magicP3, magicP4, magicP5, magicP6]) :
    (∀ pbm, ReadPBM input = some pbm →
      pbm.magicNumber = TrimSpace t ∧ ∀ row ∈ pbm.data, ∀ b ∈ row, b = false) ∧
    (∀ pgm, ReadPGM input = some pgm →
      pgm.magicNumber = TrimSpace t ∧ ∀ row ∈ pgm.data, ∀ v ∈ row, v = 0) ∧
    (∀ ppm, ReadPPM input = some ppm →
      ppm.magicNumber = TrimSpace t ∧ ∀ row ∈ ppm.data, ∀ p ∈ row, p = (⟨0, 0, 0⟩ : Pixel)) := by
  have m1 : TrimSpace t ≠ magicP1 := fun e => hm (by rw [e]; decide)
  have m2 : TrimSpace t ≠ magicP2 := fun e => hm (by rw [e]; decide)
  have m3 : TrimSpace t ≠ magicP3 := fun e => hm (by rw [e]; decide)
  have m4 : TrimSpace t ≠ magicP4 := fun e => hm (by rw [e]; decide)
  have m5 : TrimSpace t ≠ magicP5 := fun e => hm (by rw [e]; decide)
  have m6 : TrimSpace t ≠ magicP6 := fun e => hm (by rw [e]; decide)
  refine ⟨?_, ?_, ?_⟩
  · intro pbm h
    unfold ReadPBM at h
    rw [hs, runLines_append_same _ _ _ _ (fun l hl => PBM_readLine_blank input l (hpre l hl)),
      runLines_next _ _ _ _ _ (PBM_readLine_magic input t ht hne)] at h
    cases hr : runLines (PBM.readLine input) (⟨[], 0, 0, TrimSpace t⟩, 0) rest with
    | none => rw [hr] at h; exact absurd h (by simp)
    | some st =>
      rw [hr] at h
      simp only [Option.map_some', Option.some.injEq] at h
      rw [← h]
      exact runLines_preserves
        (fun st : PBM × Nat =>
          st.1.magicNumber = TrimSpace t ∧ AllCells (fun b => b = false) st.1.data) _
        (PBM_readLine_unknown input (TrimSpace t) hne m1 m4) _ _ st
        ⟨rfl, fun row hrow => absurd hrow (List.not_mem_nil _)⟩ hr
  · intro pgm h
    unfold ReadPGM at h
    rw [hs, runLines_append_same _ _ _ _ (fun l hl => PGM_readLine_blank input l (hpre l hl)),
      runLines_next _ _ _ _ _ (PGM_readLine_magic input t ht)] at h
    cases hr : runLines (PGM.readLine input) (⟨[], 0, 0, TrimSpace t, 0⟩, 0) rest with
    | none => rw [hr] at h; exact absurd h (by simp)
    | some st =>
      rw [hr] at h
      simp only [Option.map_some', Option.some.injEq] at h
      rw [← h]
      exact runLines_preserves
        (fun st : PGM × Nat =>
          st.1.magicNumber = TrimSpace t ∧ AllCells (fun v => v = 0) st.1.data) _
        (PGM_readLine_unknown input (TrimSpace t) hne m2 m5) _ _ st
        ⟨rfl, fun row hrow => absurd hrow (List.not_mem_nil _)⟩ hr
  · intro ppm h
    unfold ReadPPM at h
    rw [hs, runLines_append_same _ _ _ _ (fun l hl => PPM_readLine_blank input l (hpre l hl)),
      runLines_next _ _ _ _ _ (PPM_readLine_magic input t ht)] at h
    cases hr : runLines (PPM.readLine input) (⟨[], 0, 0, TrimSpace t, 0⟩, 0) rest with
    | none => rw [hr] at h; exact absurd h (by simp)
    | some st =>
      rw [hr] at h
      simp only [Option.map_some', Option.some.injEq] at h
      rw [← h]
      exact runLines_preserves
        (fun st : PPM × Nat =>
          st.1.magicNumber = TrimSpace t ∧
            AllCells (fun p => p = (⟨0, 0, 0⟩ : Pixel)) st.1.data) _
        (PPM_readLine_unknown input (TrimSpace t) hne m3 m6) _ _ st
        ⟨rfl, fun row hrow => absurd hrow (List.not_mem_nil _)⟩ hr

theorem unsupported_magic_witness :
    scanLines unknownMagic = [] ++ [80, 57] :: [[50, 32, 50], [49, 32, 48], [48, 32, 49]] ∧
    ReadPBM unknownMagic = some ⟨[[false, false], [false, false]], 2, 2, [80, 57]⟩ ∧
    (⟨[[false, false], [false, false]], 2, 2, [80, 57]⟩ : PBM).magicNumber = TrimSpace [80, 57] ∧
    ∀ row ∈ (⟨[[false, false], [false, false]], 2, 2, [80, 57]⟩ : PBM).data,
      ∀ b ∈ row, b = false :=
  ⟨by decide, by decide,
    (unsupported_magic unknownMagic [] [[50, 32, 50], [49, 32, 48], [48, 32, 49]] [80, 57]
      (by decide) (by decide) (by decide) (by decide) (by decide)).1 _ (by decide)⟩


/-! ## Assignments to cells -/

theorem setAt_spec {α : Type} (w h : Nat) (d : List (List α)) (y x : Nat) (v : α)
    (hd : Shape w h d) (hy : y < h) (hx : x < w) :
    ∃ d', setAt d y x v = some d' ∧ Shape w h d' ∧
      ∀ r c, cell d' r c = if r = y ∧ c = x then some v else cell d r c := by
  obtain ⟨hl, hrows⟩ := hd
  have hy' : y < d.length := by omega
  have e : d[y]? = some d[y] := List.getElem?_eq_getElem hy'
  have hrl : d[y].length = w := hrows _ (List.getElem_mem hy')
  refine ⟨d.set y (d[y].set x v), ?_, ⟨?_, ?_⟩, ?_⟩
  · unfold setAt
    rw [e]
    simp only [hrl, hx, if_true]
  · rw [List.length_set]; exact hl
  · intro row hrow
    rcases List.mem_or_eq_of_mem_set hrow with h1 | h1
    · exact hrows row h1
    · rw [h1, List.length_set]; exact hrl
  · intro r c
    unfold cell
    by_cases hr : r = y
    · subst hr
      rw [List.getElem?_set_self hy', e]
      simp only
      by_cases hc : c = x
      · subst hc
        rw [List.getElem?_set_self (by omega)]
        simp only [and_self, if_true]
      · rw [List.getElem?_set_ne (fun e' => hc e'.symm)]
        simp only [hc, and_false, if_false]
    · rw [List.getElem?_set_ne (fun e' => hr e'.symm)]
      simp only [hr, false_and, if_false]

theorem setAtInt_spec {α : Type} (w h : Nat) (d : List (List α)) (y x : Int) (v : α)
    (hd : Shape w h d) (hy0 : 0 ≤ y) (hy : y < h) (hx0 : 0 ≤ x) (hx : x < w) :
    ∃ d', setAtInt d y x v = some d' ∧ Shape w h d' ∧
      ∀ r c : Nat, cell d' r c = if (r : Int) = y ∧ (c : Int) = x then some v else cell d r c := by
  obtain ⟨d', h1, h2, h3⟩ := setAt_spec w h d y.toNat x.toNat v hd (by omega) (by omega)
  refine ⟨d', ?_, h2, ?_⟩
  · unfold setAtInt
    rw [if_neg (by omega)]
    exact h1
  · intro r c
    rw [h3]
    have e : (r = y.toNat ∧ c = x.toNat) ↔ ((r : Int) = y ∧ (c : Int) = x) := by omega
    simp only [e]

theorem fillSpan_spec (w h : Nat) (d : List (List Pixel)) (y x1 x2 : Int) (color : Pixel)
    (hd : Shape w h d) (hy0 : 0 ≤ y) (hy : y < h) (hx1 : 0 ≤ x1) (hx2 : x2 < w) :
    ∃ d', fillSpan y x1 x2 color d = some d' ∧ Shape w h d' ∧
      ∀ r c : Nat, cell d' r c =
        if (r : Int) = y ∧ x1 ≤ (c : Int) ∧ (c : Int) ≤ x2 then some color else cell d r c := by
  obtain ⟨t, ht, hs, hc⟩ := forRange_inv
    (fun k (d' : List (List Pixel)) => Shape w h d' ∧
      ∀ r c : Nat, cell d' r c =
        if (r : Int) = y ∧ x1 ≤ (c : Int) ∧ (c : Int) < x1 + k then some color else cell d r c)
    (x2 - x1 + 1).toNat (fun k d => setAtInt d y (x1 + (k : Int)) color) d
    ⟨hd, fun r c => by
      rw [if_neg]
      omega⟩
    (fun k t hk hP => by
      obtain ⟨hs, hc⟩ := hP
      obtain ⟨d', h1, h2, h3⟩ := setAtInt_spec w h t y (x1 + k) color hs hy0 hy
        (by omega) (by omega)
      refine ⟨d', h1, h2, fun r c => ?_⟩
      rw [h3, hc]
      by_cases hr : (r : Int) = y
      · by_cases e1 : (c : Int) = x1 + k
        · rw [if_pos ⟨hr, e1⟩, if_pos]
          exact ⟨hr, by omega, by omega⟩
        · rw [if_neg (fun hh => e1 hh.2)]
          by_cases e2 : x1 ≤ (c : Int) ∧ (c : Int) < x1 + k
          · rw [if_pos ⟨hr, e2⟩, if_pos]
            exact ⟨hr, by omega, by omega⟩
          · rw [if_neg (fun hh => e2 hh.2), if_neg]
            intro hh
            have := hh.2
            push_cast at this
            omega
      · rw [if_neg (fun hh => hr hh.1), if_neg (fun hh => hr hh.1), if_neg (fun hh => hr hh.1)])
  refine ⟨t, ht, hs, fun r c => ?_⟩
  rw [hc]
  by_cases hx : x1 ≤ x2 + 1
  · have e : ((r : Int) = y ∧ x1 ≤ (c : Int) ∧ (c : Int) < x1 + ((x2 - x1 + 1).toNat : Int)) ↔
        ((r : Int) = y ∧ x1 ≤ (c : Int) ∧ (c : Int) ≤ x2) := by omega
    simp only [e]
  · have e : ((r : Int) = y ∧ x1 ≤ (c : Int) ∧ (c : Int) < x1 + ((x2 - x1 + 1).toNat : Int)) ↔
        ((r : Int) = y ∧ x1 ≤ (c : Int) ∧ (c : Int) ≤ x2) := by omega
    simp only [e]

/-! ## The filled square -/

set_option maxRecDepth 100000 in
theorem square_crossings :
    boundingBoxY square = (0, 3) ∧
    (findIntersections square ((0 : Int) + ((0 : Nat) : Int))).insertionSort
      (fun a b => a ≤ b) = [0, 3] ∧
    (findIntersections square ((0 : Int) + ((1 : Nat) : Int))).insertionSort
      (fun a b => a ≤ b) = [0, 3] ∧
    (findIntersections square ((0 : Int) + ((2 : Nat) : Int))).insertionSort
      (fun a b => a ≤ b) = [0, 3] ∧
    (findIntersections square ((0 : Int) + ((3 : Nat) : Int))).insertionSort
      (fun a b => a ≤ b) = [] := by
  decide

theorem fillPairs_one (y x1 x2 : Int) (color : Pixel) (d : List (List Pixel)) :
    fillPairs y [x1, x2] color d = fillSpan y x1 x2 color d := by
  unfold fillPairs
  have e : ([x1, x2].length + 1) / 2 = 0 + 1 := by
    simp only [List.length_cons, List.length_nil]
  rw [e, forRange_succ, forRange_zero]
  rfl

theorem fillPairs_nil (y : Int) (color : Pixel) (d : List (List Pixel)) :
    fillPairs y [] color d = some d := by
  unfold fillPairs
  have e : (([] : List Int).length + 1) / 2 = 0 := by decide
  rw [e, forRange_zero]

theorem fill_square_row (w h : Nat) (d : List (List Pixel)) (color : Pixel) (k : Nat)
    (hk : k < 3) (hd : Shape w h d) (hw : 4 ≤ w) (hh : 4 ≤ h) :
    ∃ d', fillPairs ((0 : Int) + (k : Int))
        ((findIntersections square ((0 : Int) + (k : Int))).insertionSort (fun a b => a ≤ b))
        color d = some d' ∧ Shape w h d' ∧
      ∀ r c : Nat, cell d' r c = if r = k ∧ c ≤ 3 then some color else cell d r c := by
  have hs : (findIntersections square ((0 : Int) + (k : Int))).insertionSort
      (fun a b => a ≤ b) = [0, 3] := by
    have := square_crossings
    interval_cases k
    · exact this.2.1
    · exact this.2.2.1
    · exact this.2.2.2.1
  rw [hs, fillPairs_one]
  obtain ⟨d', h1, h2, h3⟩ := fillSpan_spec w h d ((0 : Int) + (k : Int)) 0 3 color hd
    (by omega) (by omega) (by omega) (by omega)
  refine ⟨d', h1, h2, fun r c => ?_⟩
  rw [h3]
  have e : ((r : Int) = (0 : Int) + (k : Int) ∧ (0 : Int) ≤ (c : Int) ∧ (c : Int) ≤ 3) ↔
      (r = k ∧ c ≤ 3) := by omega
  simp only [e]

/-- C12, counterexample: on a 4 x 4 pixmap of black pixels, `DrawFilledPolygon` with the
square `[(0,0),(3,0),(3,3),(0,3)]` and the colour (9, 9, 9) returns with the four pixels of
row `y = 3` still black: 12 pixels are set, not 16. -/
theorem fill_square_counterexample :
    (blankCanvas 4 4).WellFormed ∧
    ∃ r, PPM.DrawFilledPolygon (blankCanvas 4 4) square ⟨9, 9, 9⟩ = some r ∧
      r.At 0 3 = some ⟨0, 0, 0⟩ ∧ r.At 1 3 = some ⟨0, 0, 0⟩ ∧
      r.At 2 3 = some ⟨0, 0, 0⟩ ∧ r.At 3 3 = some ⟨0, 0, 0⟩ ∧
      r.At 0 2 = some ⟨9, 9, 9⟩ := by
  refine ⟨by decide, ⟨List.replicate 3 (List.replicate 4 ⟨9, 9, 9⟩) ++
    [List.replicate 4 ⟨0, 0, 0⟩], 4, 4, magicP3, 255⟩, ?_, by decide, by decide, by decide,
    by decide, by decide⟩
  set_option maxRecDepth 100000 in decide

/-- C12, amended: on every well-formed pixmap of size at least 4 x 4,
`DrawFilledPolygon([(0,0),(3,0),(3,3),(0,3)], C)` returns and sets to `C` the 12 pixels
`(x, y)` with `0 <= x <= 3` and `0 <= y <= 2`; every other pixel, those of row `y = 3`
included, keeps its value, and width, height, magic number and `max` are unchanged. -/
theorem fill_square (ppm : PPM) (color : Pixel) (hwf : ppm.WellFormed)
    (hw : 4 ≤ ppm.width) (hh : 4 ≤ ppm.height) :
    ∃ r, PPM.DrawFilledPolygon ppm square color = some r ∧
      r.width = ppm.width ∧ r.height = ppm.height ∧ r.magicNumber = ppm.magicNumber ∧
      r.max = ppm.max ∧ r.WellFormed ∧
      ∀ x y : Nat, r.At x y = if x ≤ 3 ∧ y ≤ 2 then some color else ppm.At x y := by
  obtain ⟨hl, hw0, hrows⟩ := hwf
  have hd : Shape ppm.width.toNat ppm.height.toNat ppm.data :=
    ⟨by omega, fun row hrow => by have := hrows row hrow; omega⟩
  have hbb := square_crossings.1
  obtain ⟨t, ht, hs, hc⟩ := forRange_inv
    (fun k (d' : List (List Pixel)) => Shape ppm.width.toNat ppm.height.toNat d' ∧
      ∀ r c : Nat, cell d' r c =
        if (r < k ∧ r ≤ 2) ∧ c ≤ 3 then some color else cell ppm.data r c)
    4 (fun k d =>
      fillPairs ((0 : Int) + (k : Int))
        ((findIntersections square ((0 : Int) + (k : Int))).insertionSort (fun a b => a ≤ b))
        color d) ppm.data
    ⟨hd, fun r c => by
      rw [if_neg]
      omega⟩
    (fun k t hk hP => by
      obtain ⟨hs, hc⟩ := hP
      by_cases h3 : k < 3
      · obtain ⟨d', h1, h2, h3'⟩ := fill_square_row ppm.width.toNat ppm.height.toNat t color k
          h3 hs (by omega) (by omega)
        refine ⟨d', h1, h2, fun r c => ?_⟩
        rw [h3', hc]
        by_cases e1 : r = k ∧ c ≤ 3
        · rw [if_pos e1, if_pos]
          omega
        · rw [if_neg e1]
          by_cases e2 : (r < k ∧ r ≤ 2) ∧ c ≤ 3
          · rw [if_pos e2, if_pos]
            omega
          · rw [if_neg e2, if_neg]
            omega
      · have e : k = 3 := by omega
        subst e
        refine ⟨t, ?_, hs, fun r c => ?_⟩
        · simp only
          rw [square_crossings.2.2.2.2, fillPairs_nil]
        · rw [hc]
          have e : ((r < 3 ∧ r ≤ 2) ∧ c ≤ 3) ↔ ((r < 3 + 1 ∧ r ≤ 2) ∧ c ≤ 3) := by omega
          simp only [e])
  refine ⟨{ ppm with data := t }, ?_, rfl, rfl, rfl, rfl, ?_, ?_⟩
  · unfold PPM.DrawFilledPolygon
    have e0 : ¬ square.length < 3 := by decide
    rw [if_neg e0]
    simp only [hbb]
    have e4 : ((3 : Int) - 0 + 1).toNat = 4 := by decide
    rw [e4, ht]
    rfl
  · exact ⟨by have := hs.1; simp only; omega, hw0, fun row hrow => by
      have := hs.2 row hrow
      simp only at hrow ⊢
      omega⟩
  · intro x y
    unfold PPM.At
    simp only
    rw [hc]
    have e : ((y < 4 ∧ y ≤ 2) ∧ x ≤ 3) ↔ (x ≤ 3 ∧ y ≤ 2) := by omega
    simp only [e]

theorem fill_square_witness :
    (blankCanvas 5 4).WellFormed ∧
    ∃ r, PPM.DrawFilledPolygon (blankCanvas 5 4) square ⟨9, 9, 9⟩ = some r ∧
      r.width = (blankCanvas 5 4).width ∧ r.height = (blankCanvas 5 4).height ∧
      r.magicNumber = (blankCanvas 5 4).magicNumber ∧
      r.max = (blankCanvas 5 4).max ∧ r.WellFormed ∧
      ∀ x y : Nat, r.At x y =
        if x ≤ 3 ∧ y ≤ 2 then some ⟨9, 9, 9⟩ else (blankCanvas 5 4).At x y :=
  ⟨by decide, fill_square (blankCanvas 5 4) ⟨9, 9, 9⟩ (by decide) (by decide) (by decide)⟩


/-- C16: on the well-formed 2 x 2 pixmap of black pixels, `DrawFilledPolygon` with the
vertex list `[(0,0),(3,0),(3,3),(0,3)]` does not complete: the assignment
`ppm.data[0][2] = color` panics with an index out of range. `DrawLine` between the vertices
`(0,0)` and `(3,0)` of the same list does complete, and skips the pixels outside the canvas. -/
theorem fill_outside_canvas_panics :
    (blankCanvas 2 2).WellFormed ∧
    PPM.DrawFilledPolygon (blankCanvas 2 2) square ⟨9, 9, 9⟩ = none ∧
    PPM.DrawLine 4 (blankCanvas 2 2) ⟨0, 0⟩ ⟨3, 0⟩ ⟨9, 9, 9⟩ =
      .done ⟨[[⟨9, 9, 9⟩, ⟨9, 9, 9⟩], [⟨0, 0, 0⟩, ⟨0, 0, 0⟩]], 2, 2, magicP3, 255⟩ := by
  refine ⟨by decide, ?_, by decide⟩
  set_option maxRecDepth 100000 in decide


/-! ## Straight lines -/

theorem plot_spec (w h : Nat) (data : List (List Pixel)) (p : Point) (color : Pixel)
    (hd : Shape w h data) :
    ∃ d', (if isWithinBounds p.X p.Y (w : Int) (h : Int) = true
        then setAtInt data p.Y p.X color else some data) = some d' ∧ Shape w h d' ∧
      (∀ rr cc : Nat, rr < h → cc < w → (cc : Int) = p.X → (rr : Int) = p.Y →
        cell d' rr cc = some color) ∧
      (∀ rr cc : Nat, ¬ ((cc : Int) = p.X ∧ (rr : Int) = p.Y) → cell d' rr cc = cell data rr cc) := by
  by_cases hb : isWithinBounds p.X p.Y (w : Int) (h : Int) = true
  · rw [if_pos hb]
    simp only [isWithinBounds, Bool.and_eq_true, decide_eq_true_eq] at hb
    obtain ⟨d', h1, h2, h3⟩ := setAtInt_spec w h data p.Y p.X color hd
      (by omega) (by omega) (by omega) (by omega)
    refine ⟨d', h1, h2, fun rr cc _ _ e1 e2 => ?_, fun rr cc hne => ?_⟩
    · rw [h3, if_pos ⟨e2, e1⟩]
    · rw [h3, if_neg (fun hh => hne ⟨hh.2, hh.1⟩)]
  · rw [if_neg hb]
    refine ⟨data, rfl, hd, fun rr cc hr hc e1 e2 => ?_, fun rr cc _ => rfl⟩
    exfalso
    apply hb
    simp only [isWithinBounds, Bool.and_eq_true, decide_eq_true_eq]
    omega

theorem drawLineLoop_straight (w h : Nat) (p2 : Point) (dx dy sx sy : Int) (color : Pixel)
    (hdx : 0 ≤ dx) (hdy : 0 ≤ dy) (H : dy = 0 ∨ dx = 0 ∨ dx = dy)
    (hsx0 : dx = 0 → sx = 0) (hsx1 : 0 < dx → sx ≠ 0)
    (hsy0 : dy = 0 → sy = 0) (hsy1 : 0 < dy → sy ≠ 0) :
    ∀ (r fuel : Nat) (data : List (List Pixel)) (p : Point), r < fuel → Shape w h data →
      (0 < r → 0 < dx ∨ 0 < dy) →
      p2.X = p.X + (r : Int) * sx → p2.Y = p.Y + (r : Int) * sy →
      ∃ d', drawLineLoop (w : Int) (h : Int) p2 dx dy sx sy color fuel data p (dx - dy) =
          .done d' ∧ Shape w h d' ∧
        (∀ rr cc : Nat, rr < h → cc < w →
          (∃ k : Nat, k ≤ r ∧ (cc : Int) = p.X + (k : Int) * sx ∧
            (rr : Int) = p.Y + (k : Int) * sy) → cell d' rr cc = some color) ∧
        (∀ rr cc : Nat,
          ¬ (∃ k : Nat, k ≤ r ∧ (cc : Int) = p.X + (k : Int) * sx ∧
            (rr : Int) = p.Y + (k : Int) * sy) → cell d' rr cc = cell data rr cc) := by
  intro r
  induction r with
  | zero =>
    intro fuel data p hf hd _ hX hY
    obtain ⟨f, rfl⟩ : ∃ f, fuel = f + 1 := ⟨fuel - 1, by omega⟩
    obtain ⟨d', h1, h2, h3, h4⟩ := plot_spec w h data p color hd
    have eX : p.X = p2.X := by rw [hX]; simp
    have eY : p.Y = p2.Y := by rw [hY]; simp
    refine ⟨d', ?_, h2, ?_, ?_⟩
    · unfold drawLineLoop
      rw [h1]
      simp only [eX, eY, and_self, if_true]
    · rintro rr cc hr hc ⟨k, hk, e1, e2⟩
      have hk0 : k = 0 := by omega
      subst hk0
      exact h3 rr cc hr hc (by simpa using e1) (by simpa using e2)
    · intro rr cc hne
      apply h4
      intro hh
      exact hne ⟨0, le_refl _, by simpa using hh.1, by simpa using hh.2⟩
  | succ r ih =>
    intro fuel data p hf hd hpos hX hY
    obtain ⟨f, rfl⟩ : ∃ f, fuel = f + 1 := ⟨fuel - 1, by omega⟩
    obtain ⟨d', h1, h2, h3, h4⟩ := plot_spec w h data p color hd
    have hp := hpos (by omega)
    have hne : ¬ (p.X = p2.X ∧ p.Y = p2.Y) := by
      rintro ⟨e1, e2⟩
      rcases hp with hp | hp
      · have : ((r + 1 : Nat) : Int) * sx = 0 := by rw [hX] at e1; linarith
        rcases mul_eq_zero.1 this with h0 | h0
        · omega
        · exact hsx1 hp h0
      · have : ((r + 1 : Nat) : Int) * sy = 0 := by rw [hY] at e2; linarith
        rcases mul_eq_zero.1 this with h0 | h0
        · omega
        · exact hsy1 hp h0
    have ex : (if 2 * (dx - dy) > -dy then p.X + sx else p.X) = p.X + sx := by
      split_ifs with c
      · rfl
      · have : dx = 0 := by omega
        rw [hsx0 this]; simp
    have ey : (if 2 * (dx - dy) < dx then p.Y + sy else p.Y) = p.Y + sy := by
      split_ifs with c
      · rfl
      · have : dy = 0 := by omega
        rw [hsy0 this]; simp
    have ee : (if 2 * (dx - dy) < dx
        then (if 2 * (dx - dy) > -dy then dx - dy - dy else dx - dy) + dx
        else (if 2 * (dx - dy) > -dy then dx - dy - dy else dx - dy)) = dx - dy := by
      split_ifs <;> omega
    obtain ⟨d'', g1, g2, g3, g4⟩ := ih f d' ⟨p.X + sx, p.Y + sy⟩ (by omega) h2
      (fun hr => hp)
      (by rw [hX]; push_cast; ring) (by rw [hY]; push_cast; ring)
    refine ⟨d'', ?_, g2, ?_, ?_⟩
    · unfold drawLineLoop
      rw [h1]
      simp only [hne, if_false, ex, ey, ee]
      exact g1
    · rintro rr cc hr hc ⟨k, hk, e1, e2⟩
      by_cases hex : ∃ k : Nat, k ≤ r ∧ (cc : Int) = p.X + sx + (k : Int) * sx ∧
          (rr : Int) = p.Y + sy + (k : Int) * sy
      · exact g3 rr cc hr hc hex
      · rw [g4 rr cc hex]
        cases k with
        | zero => exact h3 rr cc hr hc (by simpa using e1) (by simpa using e2)
        | succ k' =>
          exfalso
          apply hex
          refine ⟨k', by omega, ?_, ?_⟩
          · rw [e1]; push_cast; ring
          · rw [e2]; push_cast; ring
    · intro rr cc hno
      have hex : ¬ ∃ k : Nat, k ≤ r ∧ (cc : Int) = p.X + sx + (k : Int) * sx ∧
          (rr : Int) = p.Y + sy + (k : Int) * sy := by
        rintro ⟨k, hk, e1, e2⟩
        apply hno
        refine ⟨k + 1, by omega, ?_, ?_⟩
        · rw [e1]; push_cast; ring
        · rw [e2]; push_cast; ring
      rw [g4 rr cc hex]
      apply h4
      intro hh
      exact hno ⟨0, by omega, by simpa using hh.1, by simpa using hh.2⟩

theorem abs_nonneg_int (d : Int) : 0 ≤ abs d := by
  unfold abs; split_ifs <;> omega

theorem abs_mul_sign (d : Int) : d = abs d * sign d := by
  unfold abs sign
  split_ifs <;> omega

theorem sign_of_abs_zero (d : Int) (h : abs d = 0) : sign d = 0 ∧ d = 0 := by
  unfold abs at h
  unfold sign
  split_ifs at h ⊢ <;> omega

theorem sign_of_abs_pos (d : Int) (h : 0 < abs d) : sign d ≠ 0 := by
  unfold abs at h
  unfold sign
  split_ifs at h ⊢ <;> omega


/-- Straight lines with the arithmetic of `int` taken in ℤ: for every well-formed pixmap and
all points `p1`, `p2` with `Δy = 0`, `Δx = 0` or `|Δx| = |Δy|`, the loop of `PPM.DrawLine` ends
after `max(|Δx|,|Δy|) + 1` passes, sets to `C` every in-bounds pixel
`p1 + k*(sign Δx, sign Δy)` with `0 <= k <= max(|Δx|,|Δy|)`, leaves every other pixel
unchanged, and keeps width, height, magic number, `max` and the shape of the grid. -/
theorem drawLine_straight_ideal (ppm : PPM) (p1 p2 : Point) (color : Pixel) (fuel : Nat)
    (hwf : ppm.WellFormed)
    (hdir : p2.Y - p1.Y = 0 ∨ p2.X - p1.X = 0 ∨ abs (p2.X - p1.X) = abs (p2.Y - p1.Y))
    (hfuel : max (abs (p2.X - p1.X)) (abs (p2.Y - p1.Y)) < (fuel : Int)) :
    ∃ r, PPM.DrawLine fuel ppm p1 p2 color = .done r ∧
      r.width = ppm.width ∧ r.height = ppm.height ∧ r.magicNumber = ppm.magicNumber ∧
      r.max = ppm.max ∧ r.WellFormed ∧
      (∀ x y : Nat, (x : Int) < ppm.width → (y : Int) < ppm.height →
        (∃ k : Nat, (k : Int) ≤ max (abs (p2.X - p1.X)) (abs (p2.Y - p1.Y)) ∧
          (x : Int) = p1.X + (k : Int) * sign (p2.X - p1.X) ∧
          (y : Int) = p1.Y + (k : Int) * sign (p2.Y - p1.Y)) → r.At x y = some color) ∧
      (∀ x y : Nat,
        ¬ (∃ k : Nat, (k : Int) ≤ max (abs (p2.X - p1.X)) (abs (p2.Y - p1.Y)) ∧
          (x : Int) = p1.X + (k : Int) * sign (p2.X - p1.X) ∧
          (y : Int) = p1.Y + (k : Int) * sign (p2.Y - p1.Y)) → r.At x y = ppm.At x y) := by
  obtain ⟨hl, hw0, hrows⟩ := hwf
  have hd : Shape ppm.width.toNat ppm.height.toNat ppm.data :=
    ⟨by omega, fun row hrow => by have := hrows row hrow; omega⟩
  have hh0 : 0 ≤ ppm.height := by omega
  have hdx := abs_nonneg_int (p2.X - p1.X)
  have hdy := abs_nonneg_int (p2.Y - p1.Y)
  have H : abs (p2.Y - p1.Y) = 0 ∨ abs (p2.X - p1.X) = 0 ∨
      abs (p2.X - p1.X) = abs (p2.Y - p1.Y) := by
    rcases hdir with h | h | h
    · left; rw [h]; rfl
    · right; left; rw [h]; rfl
    · right; right; exact h
  have hn : ((max (abs (p2.X - p1.X)) (abs (p2.Y - p1.Y))).toNat : Int) =
      max (abs (p2.X - p1.X)) (abs (p2.Y - p1.Y)) :=
    Int.toNat_of_nonneg (le_trans hdx (le_max_left _ _))
  have hX : p2.X = p1.X +
      ((max (abs (p2.X - p1.X)) (abs (p2.Y - p1.Y))).toNat : Int) * sign (p2.X - p1.X) := by
    rw [hn]
    rcases H with h | h | h
    · rw [h, max_eq_left hdx, ← abs_mul_sign]; ring
    · rw [(sign_of_abs_zero _ h).1]
      have := (sign_of_abs_zero _ h).2
      simp only [mul_zero, add_zero]
      omega
    · rw [h, max_self, ← h, ← abs_mul_sign]; ring
  have hY : p2.Y = p1.Y +
      ((max (abs (p2.X - p1.X)) (abs (p2.Y - p1.Y))).toNat : Int) * sign (p2.Y - p1.Y) := by
    rw [hn]
    rcases H with h | h | h
    · rw [(sign_of_abs_zero _ h).1]
      have := (sign_of_abs_zero _ h).2
      simp only [mul_zero, add_zero]
      omega
    · rw [h, max_eq_right hdy, ← abs_mul_sign]; ring
    · rw [h, max_self, ← abs_mul_sign]; ring
  obtain ⟨d', g1, g2, g3, g4⟩ := drawLineLoop_straight ppm.width.toNat ppm.height.toNat p2
    (abs (p2.X - p1.X)) (abs (p2.Y - p1.Y)) (sign (p2.X - p1.X)) (sign (p2.Y - p1.Y)) color
    hdx hdy H (fun h => (sign_of_abs_zero _ h).1) (sign_of_abs_pos _)
    (fun h => (sign_of_abs_zero _ h).1) (sign_of_abs_pos _)
    (max (abs (p2.X - p1.X)) (abs (p2.Y - p1.Y))).toNat fuel ppm.data p1 (by omega) hd
    (fun hr => by
      have h1 : 0 < max (abs (p2.X - p1.X)) (abs (p2.Y - p1.Y)) := by omega
      rcases lt_max_iff.1 h1 with h2 | h2
      · exact Or.inl h2
      · exact Or.inr h2)
    hX hY
  rw [Int.toNat_of_nonneg hw0, Int.toNat_of_nonneg hh0] at g1
  refine ⟨{ ppm with data := d' }, ?_, rfl, rfl, rfl, rfl, ?_, ?_, ?_⟩
  · unfold PPM.DrawLine
    simp only [g1]
  · exact ⟨by have := g2.1; simp only; omega, hw0, fun row hrow => by
      have := g2.2 row hrow
      simp only at hrow ⊢
      omega⟩
  · rintro x y hx hy ⟨k, hk, e1, e2⟩
    unfold PPM.At
    exact g3 y x (by omega) (by omega) ⟨k, by omega, e1, e2⟩
  · intro x y hno
    unfold PPM.At
    apply g4 y x
    rintro ⟨k, hk, e1, e2⟩
    exact hno ⟨k, by omega, e1, e2⟩

/-! ## Straight lines on 64 bits -/

theorem wrap64_id (x : Int) (h1 : -(2 : Int) ^ 63 ≤ x) (h2 : x < (2 : Int) ^ 63) :
    wrap64 x = x := by
  unfold wrap64
  omega

theorem abs64_eq (x : Int) (h1 : -(2 : Int) ^ 63 < x) (h2 : x < (2 : Int) ^ 63) :
    abs64 x = abs x := by
  unfold abs64 abs
  split_ifs
  · exact wrap64_id _ (by omega) (by omega)
  · rfl

theorem sign_cases (d : Int) : sign d = 0 ∨ sign d = 1 ∨ sign d = -1 := by
  unfold sign
  split_ifs <;> simp

/-- One step from `a` towards `b` stays between them. -/
theorem step_in_range (a b s : Int) (r : Nat) (hs : s = 0 ∨ s = 1 ∨ s = -1) (hr : 0 < r)
    (hb : b = a + (r : Int) * s) (ha : -(2 : Int) ^ 63 ≤ a ∧ a < 2 ^ 63)
    (hb2 : -(2 : Int) ^ 63 ≤ b ∧ b < 2 ^ 63) :
    -(2 : Int) ^ 63 ≤ a + s ∧ a + s < 2 ^ 63 := by
  have hr1 : (1 : Int) ≤ (r : Int) := by exact_mod_cast hr
  rcases hs with e | e | e
  · subst e
    omega
  · subst e
    rw [mul_one] at hb
    omega
  · subst e
    have : b = a - (r : Int) := by rw [hb]; ring
    omega

/-- The values that the loop of `DrawLine` computes from `err = dx - dy` on a straight line
fit 64 bits when `dx < 2^62` on a horizontal line, `dy <= 2^62` on a vertical line and
`dx = dy < 2^63` on a diagonal. -/
theorem straight_wraps (dx dy : Int) (hdx : 0 ≤ dx) (hdy : 0 ≤ dy)
    (H : (dy = 0 ∧ dx < 2 ^ 62) ∨ (dx = 0 ∧ dy ≤ 2 ^ 62) ∨ (dx = dy ∧ dx < 2 ^ 63)) :
    wrap64 (2 * (dx - dy)) = 2 * (dx - dy) ∧ wrap64 (-dy) = -dy ∧
    wrap64 (dx - dy - dy) = dx - dy - dy ∧ wrap64 (dx - dy - dy + dx) = dx - dy - dy + dx ∧
    wrap64 (dx - dy + dx) = dx - dy + dx := by
  rcases H with ⟨h1, h2⟩ | ⟨h1, h2⟩ | ⟨h1, h2⟩
  · subst h1
    refine ⟨?_, ?_, ?_, ?_, ?_⟩ <;> apply wrap64_id <;> omega
  · subst h1
    refine ⟨?_, ?_, ?_, ?_, ?_⟩ <;> apply wrap64_id <;> omega
  · subst h1
    refine ⟨?_, ?_, ?_, ?_, ?_⟩ <;> apply wrap64_id <;> omega

theorem straight_next (dx dy sx sy X Y : Int) (hdx : 0 ≤ dx) (hdy : 0 ≤ dy)
    (H : dy = 0 ∨ dx = 0 ∨ dx = dy) (hsx0 : dx = 0 → sx = 0) (hsy0 : dy = 0 → sy = 0) :
    (if 2 * (dx - dy) > -dy then X + sx else X) = X + sx ∧
    (if 2 * (dx - dy) < dx then Y + sy else Y) = Y + sy ∧
    (if 2 * (dx - dy) < dx
      then (if 2 * (dx - dy) > -dy then dx - dy - dy else dx - dy) + dx
      else (if 2 * (dx - dy) > -dy then dx - dy - dy else dx - dy)) = dx - dy := by
  refine ⟨?_, ?_, ?_⟩
  · split_ifs with c
    · rfl
    · have : dx = 0 := by omega
      rw [hsx0 this]; simp
  · split_ifs with c
    · rfl
    · have : dy = 0 := by omega
      rw [hsy0 this]; simp
  · split_ifs <;> omega

/-- On a horizontal line with `dx < 2^62`, a vertical line with `dy <= 2^62` and a diagonal
with `dx = dy < 2^63` no operation of the loop of `DrawLine` overflows: the loop on 64 bits
is the loop on ℤ. -/
theorem drawLineLoop64_straight (w h : Int) (p2 : Point) (dx dy sx sy : Int) (color : Pixel)
    (hdx : 0 ≤ dx) (hdy : 0 ≤ dy)
    (HB : (dy = 0 ∧ dx < 2 ^ 62) ∨ (dx = 0 ∧ dy ≤ 2 ^ 62) ∨ (dx = dy ∧ dx < 2 ^ 63))
    (hsx0 : dx = 0 → sx = 0) (hsy0 : dy = 0 → sy = 0)
    (hsx : sx = 0 ∨ sx = 1 ∨ sx = -1) (hsy : sy = 0 ∨ sy = 1 ∨ sy = -1)
    (h2X : -(2 : Int) ^ 63 ≤ p2.X ∧ p2.X < 2 ^ 63)
    (h2Y : -(2 : Int) ^ 63 ≤ p2.Y ∧ p2.Y < 2 ^ 63) :
    ∀ (fuel r : Nat) (data : List (List Pixel)) (p : Point),
      p2.X = p.X + (r : Int) * sx → p2.Y = p.Y + (r : Int) * sy →
      (-(2 : Int) ^ 63 ≤ p.X ∧ p.X < 2 ^ 63) → (-(2 : Int) ^ 63 ≤ p.Y ∧ p.Y < 2 ^ 63) →
      drawLineLoop64 w h p2 dx dy sx sy color fuel data p (dx - dy) =
        drawLineLoop w h p2 dx dy sx sy color fuel data p (dx - dy) := by
  obtain ⟨w1, w2, w3, w5a, w5b⟩ := straight_wraps dx dy hdx hdy HB
  have H : dy = 0 ∨ dx = 0 ∨ dx = dy := by
    rcases HB with h | h | h
    · exact Or.inl h.1
    · exact Or.inr (Or.inl h.1)
    · exact Or.inr (Or.inr h.1)
  intro fuel
  induction fuel with
  | zero =>
    intro r data p _ _ _ _
    rfl
  | succ f ih =>
    intro r data p hX hY hpX hpY
    unfold drawLineLoop64 drawLineLoop
    cases hplot : (if isWithinBounds p.X p.Y w h = true
        then setAtInt data p.Y p.X color else some data) with
    | none => rfl
    | some d' =>
      simp only
      by_cases hend : p.X = p2.X ∧ p.Y = p2.Y
      · rw [if_pos hend, if_pos hend]
      · rw [if_neg hend, if_neg hend]
        have hr : 0 < r := by
          rcases Nat.eq_zero_or_pos r with h0 | h0
          · exfalso
            apply hend
            subst h0
            simp only [Nat.cast_zero, zero_mul, add_zero] at hX hY
            exact ⟨hX.symm, hY.symm⟩
          · exact h0
        have rX := step_in_range p.X p2.X sx r hsx hr hX hpX h2X
        have rY := step_in_range p.Y p2.Y sy r hsy hr hY hpY h2Y
        have w4 : wrap64 (p.X + sx) = p.X + sx := wrap64_id _ rX.1 rX.2
        have w6 : wrap64 (p.Y + sy) = p.Y + sy := wrap64_id _ rY.1 rY.2
        obtain ⟨ex, ey, ee⟩ := straight_next dx dy sx sy p.X p.Y hdx hdy H hsx0 hsy0
        have ee64 : (if 2 * (dx - dy) < dx
            then wrap64 ((if 2 * (dx - dy) > -dy then dx - dy - dy else dx - dy) + dx)
            else (if 2 * (dx - dy) > -dy then dx - dy - dy else dx - dy)) = dx - dy := by
          refine Eq.trans ?_ ee
          split_ifs <;> first | rfl | exact w5a | exact w5b
        simp only [w1, w2, w3, w4, w6, ex, ey, ee, ee64]
        refine ih (r - 1) d' ⟨p.X + sx, p.Y + sy⟩ ?_ ?_ rX rY
        · simp only
          rw [hX, Nat.cast_sub hr]
          push_cast
          ring
        · simp only
          rw [hY, Nat.cast_sub hr]
          push_cast
          ring

theorem abs_lt_iff_int (d b : Int) (h : abs d < b) : -b < d ∧ d < b := by
  unfold abs at h
  split_ifs at h <;> omega

theorem drawLine64_straight_eq (ppm : PPM) (p1 p2 : Point) (color : Pixel) (fuel : Nat)
    (h1X : -(2 : Int) ^ 63 ≤ p1.X ∧ p1.X < 2 ^ 63)
    (h1Y : -(2 : Int) ^ 63 ≤ p1.Y ∧ p1.Y < 2 ^ 63)
    (h2X : -(2 : Int) ^ 63 ≤ p2.X ∧ p2.X < 2 ^ 63)
    (h2Y : -(2 : Int) ^ 63 ≤ p2.Y ∧ p2.Y < 2 ^ 63)
    (hdir : (p2.Y - p1.Y = 0 ∧ abs (p2.X - p1.X) < 2 ^ 62) ∨
      (p2.X - p1.X = 0 ∧ abs (p2.Y - p1.Y) ≤ 2 ^ 62) ∨
      (abs (p2.X - p1.X) = abs (p2.Y - p1.Y) ∧ abs (p2.X - p1.X) < 2 ^ 63)) :
    PPM.DrawLine64 fuel ppm p1 p2 color = PPM.DrawLine fuel ppm p1 p2 color := by
  have hdx0 := abs_nonneg_int (p2.X - p1.X)
  have hdy0 := abs_nonneg_int (p2.Y - p1.Y)
  have z : abs (0 : Int) = 0 := rfl
  have HB : (abs (p2.Y - p1.Y) = 0 ∧ abs (p2.X - p1.X) < 2 ^ 62) ∨
      (abs (p2.X - p1.X) = 0 ∧ abs (p2.Y - p1.Y) ≤ 2 ^ 62) ∨
      (abs (p2.X - p1.X) = abs (p2.Y - p1.Y) ∧ abs (p2.X - p1.X) < 2 ^ 63) := by
    rcases hdir with h | h | h
    · left; rw [h.1]; exact ⟨rfl, h.2⟩
    · right; left; rw [h.1]; exact ⟨rfl, h.2⟩
    · right; right; exact h
  have hdx : abs (p2.X - p1.X) < 2 ^ 63 := by
    rcases HB with h | h | h <;> omega
  have hdy : abs (p2.Y - p1.Y) < 2 ^ 63 := by
    rcases HB with h | h | h <;> omega
  have ax := abs_lt_iff_int _ _ hdx
  have ay := abs_lt_iff_int _ _ hdy
  have wx : wrap64 (p2.X - p1.X) = p2.X - p1.X := wrap64_id _ (by omega) (by omega)
  have wy : wrap64 (p2.Y - p1.Y) = p2.Y - p1.Y := wrap64_id _ (by omega) (by omega)
  have bx : abs64 (p2.X - p1.X) = abs (p2.X - p1.X) := abs64_eq _ (by omega) (by omega)
  have by1 : abs64 (p2.Y - p1.Y) = abs (p2.Y - p1.Y) := abs64_eq _ (by omega) (by omega)
  have we : wrap64 (abs (p2.X - p1.X) - abs (p2.Y - p1.Y)) =
      abs (p2.X - p1.X) - abs (p2.Y - p1.Y) := wrap64_id _ (by omega) (by omega)
  have H : abs (p2.Y - p1.Y) = 0 ∨ abs (p2.X - p1.X) = 0 ∨
      abs (p2.X - p1.X) = abs (p2.Y - p1.Y) := by
    rcases HB with h | h | h
    · exact Or.inl h.1
    · exact Or.inr (Or.inl h.1)
    · exact Or.inr (Or.inr h.1)
  have hn : ((max (abs (p2.X - p1.X)) (abs (p2.Y - p1.Y))).toNat : Int) =
      max (abs (p2.X - p1.X)) (abs (p2.Y - p1.Y)) :=
    Int.toNat_of_nonneg (le_trans hdx0 (le_max_left _ _))
  have hX : p2.X = p1.X +
      ((max (abs (p2.X - p1.X)) (abs (p2.Y - p1.Y))).toNat : Int) * sign (p2.X - p1.X) := by
    rw [hn]
    rcases H with h | h | h
    · rw [h, max_eq_left hdx0, ← abs_mul_sign]; ring
    · rw [(sign_of_abs_zero _ h).1]
      have := (sign_of_abs_zero _ h).2
      simp only [mul_zero, add_zero]
      omega
    · rw [h, max_self, ← h, ← abs_mul_sign]; ring
  have hY : p2.Y = p1.Y +
      ((max (abs (p2.X - p1.X)) (abs (p2.Y - p1.Y))).toNat : Int) * sign (p2.Y - p1.Y) := by
    rw [hn]
    rcases H with h | h | h
    · rw [(sign_of_abs_zero _ h).1]
      have := (sign_of_abs_zero _ h).2
      simp only [mul_zero, add_zero]
      omega
    · rw [h, max_eq_right hdy0, ← abs_mul_sign]; ring
    · rw [h, max_self, ← abs_mul_sign]; ring
  unfold PPM.DrawLine64 PPM.DrawLine
  simp only [wx, wy, bx, by1, we]
  rw [drawLineLoop64_straight ppm.width ppm.height p2 (abs (p2.X - p1.X)) (abs (p2.Y - p1.Y))
    (sign (p2.X - p1.X)) (sign (p2.Y - p1.Y)) color hdx0 hdy0 HB
    (fun h => (sign_of_abs_zero _ h).1) (fun h => (sign_of_abs_zero _ h).1)
    (sign_cases _) (sign_cases _) h2X h2Y fuel _ ppm.data p1 hX hY h1X h1Y]

/-- C11, amended: for every well-formed pixmap and all points `p1`, `p2` whose coordinates
are 64-bit `int`s, with `Δy = 0` and `|Δx| < 2^62`, or `Δx = 0` and `|Δy| <= 2^62`, or
`|Δx| = |Δy| < 2^63`, `DrawLine(p1, p2, C)` with its arithmetic on 64 bits ends (the loop
takes `max(|Δx|,|Δy|) + 1` passes, so any larger `fuel` is enough), sets to `C` every
in-bounds pixel `p1 + k*(sign Δx, sign Δy)` with `0 <= k <= max(|Δx|,|Δy|)`, leaves every
other pixel unchanged, and keeps width, height, magic number, `max` and the shape of the
grid. -/
theorem drawLine_straight (ppm : PPM) (p1 p2 : Point) (color : Pixel) (fuel : Nat)
    (hwf : ppm.WellFormed)
    (h1X : -(2 : Int) ^ 63 ≤ p1.X ∧ p1.X < 2 ^ 63)
    (h1Y : -(2 : Int) ^ 63 ≤ p1.Y ∧ p1.Y < 2 ^ 63)
    (h2X : -(2 : Int) ^ 63 ≤ p2.X ∧ p2.X < 2 ^ 63)
    (h2Y : -(2 : Int) ^ 63 ≤ p2.Y ∧ p2.Y < 2 ^ 63)
    (hdir : (p2.Y - p1.Y = 0 ∧ abs (p2.X - p1.X) < 2 ^ 62) ∨
      (p2.X - p1.X = 0 ∧ abs (p2.Y - p1.Y) ≤ 2 ^ 62) ∨
      (abs (p2.X - p1.X) = abs (p2.Y - p1.Y) ∧ abs (p2.X - p1.X) < 2 ^ 63))
    (hfuel : max (abs (p2.X - p1.X)) (abs (p2.Y - p1.Y)) < (fuel : Int)) :
    ∃ r, PPM.DrawLine64 fuel ppm p1 p2 color = .done r ∧
      r.width = ppm.width ∧ r.height = ppm.height ∧ r.magicNumber = ppm.magicNumber ∧
      r.max = ppm.max ∧ r.WellFormed ∧
      (∀ x y : Nat, (x : Int) < ppm.width → (y : Int) < ppm.height →
        (∃ k : Nat, (k : Int) ≤ max (abs (p2.X - p1.X)) (abs (p2.Y - p1.Y)) ∧
          (x : Int) = p1.X + (k : Int) * sign (p2.X - p1.X) ∧
          (y : Int) = p1.Y + (k : Int) * sign (p2.Y - p1.Y)) → r.At x y = some color) ∧
      (∀ x y : Nat,
        ¬ (∃ k : Nat, (k : Int) ≤ max (abs (p2.X - p1.X)) (abs (p2.Y - p1.Y)) ∧
          (x : Int) = p1.X + (k : Int) * sign (p2.X - p1.X) ∧
          (y : Int) = p1.Y + (k : Int) * sign (p2.Y - p1.Y)) → r.At x y = ppm.At x y) := by
  rw [drawLine64_straight_eq ppm p1 p2 color fuel h1X h1Y h2X h2Y hdir]
  refine drawLine_straight_ideal ppm p1 p2 color fuel hwf ?_ hfuel
  rcases hdir with h | h | h
  · exact Or.inl h.1
  · exact Or.inr (Or.inl h.1)
  · exact Or.inr (Or.inr h.1)

set_option maxRecDepth 100000 in
theorem drawLine_straight_witness :
    (blankCanvas 4 4).WellFormed ∧
    PPM.DrawLine64 4 (blankCanvas 4 4) ⟨0, 0⟩ ⟨3, 0⟩ ⟨9, 9, 9⟩ =
      .done ⟨[[⟨9, 9, 9⟩, ⟨9, 9, 9⟩, ⟨9, 9, 9⟩, ⟨9, 9, 9⟩], List.replicate 4 ⟨0, 0, 0⟩,
        List.replicate 4 ⟨0, 0, 0⟩, List.replicate 4 ⟨0, 0, 0⟩], 4, 4, magicP3, 255⟩ ∧
    PPM.DrawLine64 3 (blankCanvas 4 4) ⟨0, 0⟩ ⟨2, 2⟩ ⟨9, 9, 9⟩ =
      .done ⟨[[⟨9, 9, 9⟩, ⟨0, 0, 0⟩, ⟨0, 0, 0⟩, ⟨0, 0, 0⟩],
        [⟨0, 0, 0⟩, ⟨9, 9, 9⟩, ⟨0, 0, 0⟩, ⟨0, 0, 0⟩],
        [⟨0, 0, 0⟩, ⟨0, 0, 0⟩, ⟨9, 9, 9⟩, ⟨0, 0, 0⟩],
        List.replicate 4 ⟨0, 0, 0⟩], 4, 4, magicP3, 255⟩ ∧
    ∃ r, PPM.DrawLine64 4 (blankCanvas 4 4) ⟨0, 0⟩ ⟨3, 0⟩ ⟨9, 9, 9⟩ = .done r ∧
      r.width = (blankCanvas 4 4).width ∧ r.height = (blankCanvas 4 4).height ∧
      r.magicNumber = (blankCanvas 4 4).magicNumber ∧
      r.max = (blankCanvas 4 4).max ∧ r.WellFormed ∧
      (∀ x y : Nat, (x : Int) < (blankCanvas 4 4).width → (y : Int) < (blankCanvas 4 4).height →
        (∃ k : Nat, (k : Int) ≤ max (abs ((3 : Int) - 0)) (abs ((0 : Int) - 0)) ∧
          (x : Int) = (0 : Int) + (k : Int) * sign ((3 : Int) - 0) ∧
          (y : Int) = (0 : Int) + (k : Int) * sign ((0 : Int) - 0)) →
        r.At x y = some ⟨9, 9, 9⟩) ∧
      (∀ x y : Nat,
        ¬ (∃ k : Nat, (k : Int) ≤ max (abs ((3 : Int) - 0)) (abs ((0 : Int) - 0)) ∧
          (x : Int) = (0 : Int) + (k : Int) * sign ((3 : Int) - 0) ∧
          (y : Int) = (0 : Int) + (k : Int) * sign ((0 : Int) - 0)) →
        r.At x y = (blankCanvas 4 4).At x y) :=
  ⟨by decide, by decide, by decide,
    drawLine_straight (blankCanvas 4 4) ⟨0, 0⟩ ⟨3, 0⟩ ⟨9, 9, 9⟩ 4 (by decide)
      (by decide) (by decide) (by decide) (by decide)
      (Or.inl ⟨by decide, by decide⟩) (by decide)⟩

set_option maxRecDepth 100000 in
/-- C11, the overflow: from `(-2^63, 0)` to `(2^63 - 1, 0)` the line is horizontal and the
pixel `(0, 0)` of a 4x4 canvas lies on it, `2^63` steps from `p1`; on 64 bits `Δx` wraps to
`-1`, the first step takes `p1.X` around to `2^63 - 1`, and the loop ends after two passes
with no pixel set. -/
theorem drawLine_straight_counterexample :
    (blankCanvas 4 4).WellFormed ∧
    (0 : Int) - 0 = 0 ∧
    ((2 ^ 63 : Nat) : Int) ≤ max (abs (((2 : Int) ^ 63 - 1) - (-(2 : Int) ^ 63)))
      (abs ((0 : Int) - 0)) ∧
    ((0 : Nat) : Int) = -(2 : Int) ^ 63 +
      ((2 ^ 63 : Nat) : Int) * sign (((2 : Int) ^ 63 - 1) - (-(2 : Int) ^ 63)) ∧
    ((0 : Nat) : Int) = (0 : Int) + ((2 ^ 63 : Nat) : Int) * sign ((0 : Int) - 0) ∧
    PPM.DrawLine64 2 (blankCanvas 4 4) ⟨-(2 : Int) ^ 63, 0⟩ ⟨(2 : Int) ^ 63 - 1, 0⟩ ⟨9, 9, 9⟩ =
      .done (blankCanvas 4 4) ∧
    (blankCanvas 4 4).At 0 0 = some ⟨0, 0, 0⟩ := by
  refine ⟨?_, ?_, ?_, ?_, ?_, ?_, ?_⟩ <;> decide

/-! ## Exact results of the `float64` model -/

theorem floorLog2Aux_spec : ∀ (fuel n : Nat), 0 < n → n ≤ fuel →
    2 ^ floorLog2Aux fuel n ≤ n ∧ n < 2 ^ (floorLog2Aux fuel n + 1) := by
  intro fuel
  induction fuel with
  | zero => intro n h1 h2; omega
  | succ f ih =>
    intro n h1 h2
    unfold floorLog2Aux
    split_ifs with c
    · have : n = 1 := by omega
      subst this
      decide
    · obtain ⟨a, b⟩ := ih (n / 2) (by omega) (by omega)
      rw [pow_succ] at b ⊢
      constructor
      · omega
      · rw [pow_succ]; omega

theorem floorLog2_spec (n : Nat) (hn : 0 < n) :
    2 ^ floorLog2 n ≤ n ∧ n < 2 ^ (floorLog2 n + 1) :=
  floorLog2Aux_spec n n hn (le_refl n)

theorem floorLog2_unique (n k : Nat) (h1 : 2 ^ k ≤ n) (h2 : n < 2 ^ (k + 1)) :
    floorLog2 n = k := by
  have hn : 0 < n := lt_of_lt_of_le (by positivity) h1
  obtain ⟨a, b⟩ := floorLog2_spec n hn
  have c1 : floorLog2 n < k + 1 :=
    (Nat.pow_lt_pow_iff_right (by omega : 1 < 2)).1 (lt_of_le_of_lt a h2)
  have c2 : k < floorLog2 n + 1 :=
    (Nat.pow_lt_pow_iff_right (by omega : 1 < 2)).1 (lt_of_le_of_lt h1 b)
  omega

theorem pow_pair_le (a b : Nat) (z : Int) :
    (a * 2 ^ z.toNat ≤ b * 2 ^ (-z).toNat) ↔ ((a : ℚ) * 2 ^ z ≤ (b : ℚ)) := by
  rcases le_total 0 z with hz | hz
  · obtain ⟨m, rfl⟩ : ∃ m : ℕ, z = m := ⟨z.toNat, by omega⟩
    have e1 : ((m : ℤ)).toNat = m := by omega
    have e2 : (-(m : ℤ)).toNat = 0 := by omega
    rw [e1, e2, pow_zero, mul_one, zpow_natCast]
    norm_cast
  · obtain ⟨m, rfl⟩ : ∃ m : ℕ, z = -(m : ℤ) := ⟨(-z).toNat, by omega⟩
    have e1 : (-(m : ℤ)).toNat = 0 := by omega
    have e2 : (- -(m : ℤ)).toNat = m := by omega
    rw [e1, e2, pow_zero, mul_one, zpow_neg, zpow_natCast, ← div_eq_mul_inv,
      div_le_iff₀ (by positivity)]
    norm_cast

theorem pow_pair_eq (a b : Nat) (z : Int) :
    (a * 2 ^ z.toNat = b * 2 ^ (-z).toNat) ↔ ((a : ℚ) * 2 ^ z = (b : ℚ)) := by
  rcases le_total 0 z with hz | hz
  · obtain ⟨m, rfl⟩ : ∃ m : ℕ, z = m := ⟨z.toNat, by omega⟩
    have e1 : ((m : ℤ)).toNat = m := by omega
    have e2 : (-(m : ℤ)).toNat = 0 := by omega
    rw [e1, e2, pow_zero, mul_one, zpow_natCast]
    norm_cast
  · obtain ⟨m, rfl⟩ : ∃ m : ℕ, z = -(m : ℤ) := ⟨(-z).toNat, by omega⟩
    have e1 : (-(m : ℤ)).toNat = 0 := by omega
    have e2 : (- -(m : ℤ)).toNat = m := by omega
    rw [e1, e2, pow_zero, mul_one, zpow_neg, zpow_natCast, ← div_eq_mul_inv,
      div_eq_iff (by positivity)]
    norm_cast

theorem zpow_two_lt_of_mul (a b : Int) (d n : ℚ) (hd : 0 < d)
    (h1 : (2 : ℚ) ^ a * d ≤ n) (h2 : n < (2 : ℚ) ^ b * d) : a < b := by
  have : (2 : ℚ) ^ a * d < (2 : ℚ) ^ b * d := lt_of_le_of_lt h1 h2
  have := lt_of_mul_lt_mul_right this (le_of_lt hd)
  exact (zpow_lt_zpow_iff_right₀ (by norm_num : (1 : ℚ) < 2)).1 this

theorem zpow_two_lt_of_mul_lt (a b : Int) (d n : ℚ) (hd : 0 < d)
    (h1 : (2 : ℚ) ^ a * d < n) (h2 : n < (2 : ℚ) ^ b * d) : a < b := by
  have : (2 : ℚ) ^ a * d < (2 : ℚ) ^ b * d := lt_trans h1 h2
  have := lt_of_mul_lt_mul_right this (le_of_lt hd)
  exact (zpow_lt_zpow_iff_right₀ (by norm_num : (1 : ℚ) < 2)).1 this

/-- The exponent `roundF64` chooses is that of the leading bit of the quotient. -/
theorem quotient_exponent (n d k : Nat) (e : Int) (hn : 0 < n) (hd : 0 < d)
    (hk1 : 2 ^ 52 ≤ k) (hk2 : k < 2 ^ 53)
    (h : n * 2 ^ (-e).toNat = k * (d * 2 ^ e.toNat)) :
    (if d * 2 ^ ((floorLog2 n : Int) - (floorLog2 d : Int)).toNat ≤
        n * 2 ^ (-((floorLog2 n : Int) - (floorLog2 d : Int))).toNat
      then (floorLog2 n : Int) - (floorLog2 d : Int)
      else (floorLog2 n : Int) - (floorLog2 d : Int) - 1) = e + 52 := by
  obtain ⟨n1, n2⟩ := floorLog2_spec n hn
  obtain ⟨d1, d2⟩ := floorLog2_spec d hd
  have hdq : (0 : ℚ) < (d : ℚ) := by exact_mod_cast hd
  have two : (2 : ℚ) ≠ 0 := by norm_num
  -- the value of the quotient
  have hq : (n : ℚ) = (k : ℚ) * 2 ^ e * d := by
    have h' : n * 2 ^ (-e).toNat = (k * d) * 2 ^ (- -e).toNat := by
      rw [neg_neg, h]; ring
    have := (pow_pair_eq n (k * d) (-e)).1 h'
    have e2 : (2 : ℚ) ^ (-e) * 2 ^ e = 1 := by
      rw [← zpow_add₀ two]; simp
    calc (n : ℚ) = (n : ℚ) * (2 ^ (-e) * 2 ^ e) := by rw [e2, mul_one]
      _ = ((n : ℚ) * 2 ^ (-e)) * 2 ^ e := by ring
      _ = ((k * d : ℕ) : ℚ) * 2 ^ e := by rw [this]
      _ = (k : ℚ) * 2 ^ e * d := by push_cast; ring
  have hk1' : (2 : ℚ) ^ (52 : ℤ) ≤ (k : ℚ) := by
    have e52 : (2 : ℚ) ^ (52 : ℤ) = ((2 ^ 52 : ℕ) : ℚ) := by norm_num
    rw [e52]
    exact_mod_cast hk1
  have hk2' : (k : ℚ) < (2 : ℚ) ^ (53 : ℤ) := by
    have e53 : (2 : ℚ) ^ (53 : ℤ) = ((2 ^ 53 : ℕ) : ℚ) := by norm_num
    rw [e53]
    exact_mod_cast hk2
  have pe : (0 : ℚ) < 2 ^ e := zpow_pos (by norm_num) e
  have lo : (2 : ℚ) ^ (e + 52) * d ≤ n := by
    rw [hq, zpow_add₀ two, mul_comm ((2 : ℚ) ^ e)]
    exact mul_le_mul_of_nonneg_right (mul_le_mul_of_nonneg_right hk1' (le_of_lt pe))
      (le_of_lt hdq)
  have hi : (n : ℚ) < (2 : ℚ) ^ (e + 53) * d := by
    rw [hq, zpow_add₀ two, mul_comm ((2 : ℚ) ^ e)]
    exact mul_lt_mul_of_pos_right (mul_lt_mul_of_pos_right hk2' pe) hdq
  -- the bounds from the leading bits of `n` and `d`
  have n1' : (2 : ℚ) ^ (floorLog2 n : ℤ) ≤ (n : ℚ) := by
    rw [zpow_natCast]; exact_mod_cast n1
  have n2' : (n : ℚ) < (2 : ℚ) ^ ((floorLog2 n : ℤ) + 1) := by
    have : (n : ℚ) < (2 : ℚ) ^ (floorLog2 n + 1) := by exact_mod_cast n2
    rw [← zpow_natCast] at this
    simpa using this
  have d1' : (2 : ℚ) ^ (floorLog2 d : ℤ) ≤ (d : ℚ) := by
    rw [zpow_natCast]; exact_mod_cast d1
  have d2' : (d : ℚ) < (2 : ℚ) ^ ((floorLog2 d : ℤ) + 1) := by
    have : (d : ℚ) < (2 : ℚ) ^ (floorLog2 d + 1) := by exact_mod_cast d2
    rw [← zpow_natCast] at this
    simpa using this
  have up : (n : ℚ) < (2 : ℚ) ^ ((floorLog2 n : ℤ) - (floorLog2 d : ℤ) + 1) * d := by
    have e1 : (2 : ℚ) ^ ((floorLog2 n : ℤ) + 1) =
        (2 : ℚ) ^ ((floorLog2 n : ℤ) - (floorLog2 d : ℤ) + 1) * 2 ^ (floorLog2 d : ℤ) := by
      rw [← zpow_add₀ two]; congr 1; ring
    calc (n : ℚ) < (2 : ℚ) ^ ((floorLog2 n : ℤ) + 1) := n2'
      _ = (2 : ℚ) ^ ((floorLog2 n : ℤ) - (floorLog2 d : ℤ) + 1) * 2 ^ (floorLog2 d : ℤ) := e1
      _ ≤ (2 : ℚ) ^ ((floorLog2 n : ℤ) - (floorLog2 d : ℤ) + 1) * d :=
        mul_le_mul_of_nonneg_left d1' (le_of_lt (zpow_pos (by norm_num) _))
  have dn : (2 : ℚ) ^ ((floorLog2 n : ℤ) - (floorLog2 d : ℤ) - 1) * d < (n : ℚ) := by
    have e1 : (2 : ℚ) ^ (floorLog2 n : ℤ) =
        (2 : ℚ) ^ ((floorLog2 n : ℤ) - (floorLog2 d : ℤ) - 1) *
          2 ^ ((floorLog2 d : ℤ) + 1) := by
      rw [← zpow_add₀ two]; congr 1; ring
    calc (2 : ℚ) ^ ((floorLog2 n : ℤ) - (floorLog2 d : ℤ) - 1) * d
        < (2 : ℚ) ^ ((floorLog2 n : ℤ) - (floorLog2 d : ℤ) - 1) *
          2 ^ ((floorLog2 d : ℤ) + 1) :=
          mul_lt_mul_of_pos_left d2' (zpow_pos (by norm_num) _)
      _ = (2 : ℚ) ^ (floorLog2 n : ℤ) := e1.symm
      _ ≤ (n : ℚ) := n1'
  have c1 := zpow_two_lt_of_mul _ _ _ _ hdq lo up
  have c2 := zpow_two_lt_of_mul_lt _ _ _ _ hdq dn hi
  split_ifs with t
  · have t' := (pow_pair_le d n _).1 t
    rw [mul_comm] at t'
    have c3 := zpow_two_lt_of_mul _ _ _ _ hdq t' hi
    omega
  · have t' : (n : ℚ) < (2 : ℚ) ^ ((floorLog2 n : ℤ) - (floorLog2 d : ℤ)) * d := by
      by_contra hc
      apply t
      apply (pow_pair_le d n _).2
      rw [mul_comm]
      exact not_lt.1 hc
    have c3 := zpow_two_lt_of_mul _ _ _ _ hdq lo t'
    omega

/-- A quotient that is a `float64` value is not changed by the rounding: if `n / d` is
`k * 2 ^ e` with a significand `k` of exactly 53 bits, `roundF64` returns that value. -/
theorem roundF64_exact (n d k : Nat) (e : Int) (hn : 0 < n) (hd : 0 < d)
    (hk1 : 2 ^ 52 ≤ k) (hk2 : k < 2 ^ 53)
    (h : n * 2 ^ (-e).toNat = k * (d * 2 ^ e.toNat)) :
    roundF64 (n : Int) d = ⟨(k : Int), e⟩ := by
  have key := quotient_exponent n d k e hn hd hk1 hk2 h
  have hden : 0 < d * 2 ^ e.toNat := by positivity
  unfold roundF64
  have c0 : ¬ ((n : Int) = 0 ∨ d = 0) := by omega
  rw [if_neg c0]
  simp only [Int.natAbs_ofNat, key, add_sub_cancel_right, h]
  rw [Nat.mul_div_cancel _ hden, Nat.mul_mod_left]
  have c1 : 2 * 0 < d * 2 ^ e.toNat := by omega
  have c2 : ¬ ((n : Int) < 0) := by omega
  simp only [c1, if_true, c2, if_false]


theorem floorLog2_le_of_lt (x b : Nat) (hx : 0 < x) (hb : x < 2 ^ (b + 1)) :
    floorLog2 x ≤ b := by
  have h1 := (floorLog2_spec x hx).1
  have := (Nat.pow_lt_pow_iff_right (by omega : 1 < 2)).1 (lt_of_le_of_lt h1 hb)
  omega

theorem ofInt_pos (x : Nat) (hx : 0 < x) (hx2 : x < 2 ^ 53) :
    F64.ofInt (x : Int) =
      ⟨((x * 2 ^ (52 - floorLog2 x) : Nat) : Int), (floorLog2 x : Int) - 52⟩ := by
  obtain ⟨s1, s2⟩ := floorLog2_spec x hx
  have hl : floorLog2 x ≤ 52 := floorLog2_le_of_lt x 52 hx hx2
  obtain ⟨j, hj⟩ : ∃ j, 52 = floorLog2 x + j := ⟨52 - floorLog2 x, by omega⟩
  have ej : 52 - floorLog2 x = j := by omega
  unfold F64.ofInt
  apply roundF64_exact x 1 _ _ hx Nat.one_pos
  · rw [ej]
    calc 2 ^ 52 = 2 ^ (floorLog2 x + j) := by rw [← hj]
      _ = 2 ^ floorLog2 x * 2 ^ j := pow_add _ _ _
      _ ≤ x * 2 ^ j := Nat.mul_le_mul_right _ s1
  · rw [ej]
    calc x * 2 ^ j < 2 ^ (floorLog2 x + 1) * 2 ^ j :=
          Nat.mul_lt_mul_of_pos_right s2 (by positivity)
      _ = 2 ^ (floorLog2 x + j + 1) := by rw [← pow_add]; congr 1; omega
      _ = 2 ^ 53 := by rw [← hj]
  · have e1 : (-((floorLog2 x : Int) - 52)).toNat = 52 - floorLog2 x := by omega
    have e2 : ((floorLog2 x : Int) - 52).toNat = 0 := by omega
    rw [e1, e2, pow_zero, mul_one, mul_one]

theorem ofInt_zero : F64.ofInt 0 = ⟨0, 0⟩ := by decide

/-- The scale factor of a doubling is one half: `float64(w) / float64(2*w)` is `2^52 * 2^-53`. -/
theorem half_scale (w : Nat) (hw : 0 < w) (h2 : 2 * w < 2 ^ 53) :
    F64.div (F64.ofInt (w : Int)) (F64.ofInt ((2 * w : Nat) : Int)) = ⟨2 ^ 52, -53⟩ := by
  obtain ⟨s1, s2⟩ := floorLog2_spec w hw
  have hl2 : floorLog2 (2 * w) = floorLog2 w + 1 :=
    floorLog2_unique (2 * w) (floorLog2 w + 1) (by rw [pow_succ]; omega)
      (by rw [pow_succ]; omega)
  have hl : floorLog2 w ≤ 51 := by
    have := floorLog2_le_of_lt (2 * w) 52 (by omega) h2
    omega
  obtain ⟨j, hj⟩ : ∃ j, 51 = floorLog2 w + j := ⟨51 - floorLog2 w, by omega⟩
  have ej1 : 52 - floorLog2 w = j + 1 := by omega
  have ej2 : 52 - (floorLog2 w + 1) = j := by omega
  rw [ofInt_pos w hw (by omega), ofInt_pos (2 * w) (by omega) h2, hl2, ej1, ej2]
  unfold F64.div
  have c1 : ¬ ((floorLog2 w : Int) - 52 ≥ ((floorLog2 w + 1 : Nat) : Int) - 52) := by
    push_cast; omega
  have c2 : ¬ (((2 * w * 2 ^ j : Nat) : Int) < 0) := by omega
  simp only [c1, if_false, c2, mul_one, Int.natAbs_ofNat]
  have e1 : (((floorLog2 w + 1 : Nat) : Int) - 52 - ((floorLog2 w : Int) - 52)).toNat = 1 := by
    omega
  rw [e1]
  have hM : 2 ^ 52 ≤ w * 2 ^ (j + 1) ∧ w * 2 ^ (j + 1) < 2 ^ 53 := by
    constructor
    · calc 2 ^ 52 = 2 ^ (floorLog2 w + (j + 1)) := by congr 1; omega
        _ = 2 ^ floorLog2 w * 2 ^ (j + 1) := pow_add _ _ _
        _ ≤ w * 2 ^ (j + 1) := Nat.mul_le_mul_right _ s1
    · calc w * 2 ^ (j + 1) < 2 ^ (floorLog2 w + 1) * 2 ^ (j + 1) :=
            Nat.mul_lt_mul_of_pos_right s2 (by positivity)
        _ = 2 ^ (floorLog2 w + 1 + (j + 1)) := (pow_add _ _ _).symm
        _ = 2 ^ 53 := by congr 1; omega
  have r := roundF64_exact (w * 2 ^ (j + 1)) (2 * w * 2 ^ j * 2 ^ 1) (2 ^ 52) (-53)
    (by positivity) (by positivity) (le_refl _) (by norm_num)
    (by
      have e3 : (-(-53 : Int)).toNat = 53 := by decide
      have e4 : ((-53 : Int)).toNat = 0 := by decide
      rw [e3, e4]
      ring)
  rw [r]
  norm_num

/-- The index the resampling of a doubling takes: `int(float64(x) * 0.5)` is `x / 2`. -/
theorem scaled_index (x : Nat) (hx : x < 2 ^ 53) :
    F64.toInt (F64.mul (F64.ofInt (x : Int)) ⟨2 ^ 52, -53⟩) = ((x / 2 : Nat) : Int) := by
  rcases Nat.eq_zero_or_pos x with h0 | hpos
  · subst h0
    decide
  · obtain ⟨s1, s2⟩ := floorLog2_spec x hpos
    have hl : floorLog2 x ≤ 52 := floorLog2_le_of_lt x 52 hpos hx
    obtain ⟨j, hj⟩ : ∃ j, 52 = floorLog2 x + j := ⟨52 - floorLog2 x, by omega⟩
    have ej : 52 - floorLog2 x = j := by omega
    rw [ofInt_pos x hpos hx, ej]
    unfold F64.mul
    have c1 : ¬ ((floorLog2 x : Int) - 52 + -53 ≥ 0) := by omega
    simp only [c1, if_false]
    have e1 : (-((floorLog2 x : Int) - 52 + -53)).toNat = j + 53 := by omega
    rw [e1]
    have e2 : ((x * 2 ^ j : Nat) : Int) * 2 ^ 52 = ((x * 2 ^ j * 2 ^ 52 : Nat) : Int) := by
      push_cast; ring
    rw [e2]
    have hM : 2 ^ 52 ≤ x * 2 ^ j ∧ x * 2 ^ j < 2 ^ 53 := by
      constructor
      · calc 2 ^ 52 = 2 ^ (floorLog2 x + j) := by rw [← hj]
          _ = 2 ^ floorLog2 x * 2 ^ j := pow_add _ _ _
          _ ≤ x * 2 ^ j := Nat.mul_le_mul_right _ s1
      · calc x * 2 ^ j < 2 ^ (floorLog2 x + 1) * 2 ^ j :=
              Nat.mul_lt_mul_of_pos_right s2 (by positivity)
          _ = 2 ^ (floorLog2 x + 1 + j) := (pow_add _ _ _).symm
          _ = 2 ^ 53 := by congr 1; omega
    have r := roundF64_exact (x * 2 ^ j * 2 ^ 52) (2 ^ (j + 53)) (x * 2 ^ j)
      ((floorLog2 x : Int) - 53) (by positivity) (by positivity) hM.1 hM.2
      (by
        have e3 : (-((floorLog2 x : Int) - 53)).toNat = j + 1 := by omega
        have e4 : ((floorLog2 x : Int) - 53).toNat = 0 := by omega
        rw [e3, e4]
        ring)
    rw [r]
    unfold F64.toInt
    have c2 : ¬ ((floorLog2 x : Int) - 53 ≥ 0) := by omega
    simp only [c2, if_false]
    have e5 : (-((floorLog2 x : Int) - 53)).toNat = j + 1 := by omega
    rw [e5]
    have e6 : ((2 : Int) ^ (j + 1)) = ((2 ^ (j + 1) : Nat) : Int) := by push_cast; rfl
    rw [e6, Int.tdiv_eq_ediv (by positivity) (by positivity)]
    norm_cast
    rw [pow_succ, mul_comm (2 ^ j) 2]
    exact Nat.mul_div_mul_right x 2 (by positivity : 0 < 2 ^ j)


theorem cell_of_shape {α : Type} (w h : Nat) (d : List (List α)) (r c : Nat)
    (hd : Shape w h d) (hr : r < h) (hc : c < w) : ∃ v, cell d r c = some v := by
  have hr' : r < d.length := by rw [hd.1]; exact hr
  have e : d[r]? = some d[r] := List.getElem?_eq_getElem hr'
  have hl : d[r].length = w := hd.2 _ (List.getElem_mem hr')
  refine ⟨d[r][c], ?_⟩
  unfold cell
  rw [e]
  exact List.getElem?_eq_getElem (by omega)

theorem nearest_of_double (ppm : PPM) (w h x y : Nat)
    (hw : ppm.width = (w : Int)) (hh : ppm.height = (h : Int))
    (hw2 : 2 * w < 2 ^ 53) (hh2 : 2 * h < 2 ^ 53) (hx : x < 2 * w) (hy : y < 2 * h) :
    ppm.getNearestNeighbor
        (F64.toInt (F64.mul (F64.ofInt (x : Int))
          (F64.div (F64.ofInt ppm.width) (F64.ofInt (2 * ppm.width)))))
        (F64.toInt (F64.mul (F64.ofInt (y : Int))
          (F64.div (F64.ofInt ppm.height) (F64.ofInt (2 * ppm.height))))) =
      cell ppm.data (y / 2) (x / 2) := by
  have e1 : (2 : Int) * (w : Int) = ((2 * w : Nat) : Int) := by push_cast; rfl
  have e2 : (2 : Int) * (h : Int) = ((2 * h : Nat) : Int) := by push_cast; rfl
  rw [hw, hh, e1, e2, half_scale w (by omega) hw2, half_scale h (by omega) hh2,
    scaled_index x (by omega), scaled_index y (by omega)]
  unfold PPM.getNearestNeighbor clamp
  rw [hw, hh]
  have c1 : ¬ (((x / 2 : Nat) : Int) < 0) := by omega
  have c2 : ¬ (((x / 2 : Nat) : Int) > (w : Int) - 1) := by omega
  have c3 : ¬ (((y / 2 : Nat) : Int) < 0) := by omega
  have c4 : ¬ (((y / 2 : Nat) : Int) > (h : Int) - 1) := by omega
  simp only [c1, c2, c3, c4, if_false, or_self, Int.toNat_ofNat]

/-- C13: for every well-formed `width` x `height` pixmap (with `2*width` and `2*height`
below `2^53`, the range in which `float64` holds every integer),
`KNearestNeighbors(2*width, 2*height)` produces a raster with stored width `2*width`, stored
height `2*height`, exactly `2*height` rows of `2*width` pixels, whose pixel at `(x, y)` is the
source pixel at `(x div 2, y div 2)`. -/
theorem knn_double (ppm : PPM) (hwf : ppm.WellFormed)
    (hw2 : 2 * ppm.width < 2 ^ 53) (hh2 : 2 * ppm.height < 2 ^ 53) :
    ∃ r, PPM.KNearestNeighbors ppm (2 * ppm.width) (2 * ppm.height) = some r ∧
      r.width = 2 * ppm.width ∧ r.height = 2 * ppm.height ∧
      r.magicNumber = ppm.magicNumber ∧ r.max = ppm.max ∧ r.WellFormed ∧
      ∀ x y : Nat, (x : Int) < 2 * ppm.width → (y : Int) < 2 * ppm.height →
        r.At x y = ppm.At (x / 2) (y / 2) ∧ ∃ p, ppm.At (x / 2) (y / 2) = some p := by
  obtain ⟨hl, hw0, hrows⟩ := hwf
  have hh0 : 0 ≤ ppm.height := by omega
  obtain ⟨w, hw⟩ : ∃ w : Nat, ppm.width = (w : Int) := ⟨ppm.width.toNat, by omega⟩
  obtain ⟨h, hh⟩ : ∃ h : Nat, ppm.height = (h : Int) := ⟨ppm.height.toNat, by omega⟩
  have hd : Shape w h ppm.data :=
    ⟨by omega, fun row hrow => by have := hrows row hrow; omega⟩
  have hw2' : 2 * w < 2 ^ 53 := by
    have : ((2 * w : Nat) : Int) < ((2 ^ 53 : Nat) : Int) := by push_cast; omega
    exact_mod_cast this
  have hh2' : 2 * h < 2 ^ 53 := by
    have : ((2 * h : Nat) : Int) < ((2 ^ 53 : Nat) : Int) := by push_cast; omega
    exact_mod_cast this
  have n1 : (2 * ppm.width).toNat = 2 * w := by omega
  have n2 : (2 * ppm.height).toNat = 2 * h := by omega
  have hrow : ∀ y, y < 2 * h →
      ∃ l, (List.range (2 * w)).mapM (fun (x : Nat) =>
          ppm.getNearestNeighbor
            (F64.toInt (F64.mul (F64.ofInt (x : Int))
              (F64.div (F64.ofInt ppm.width) (F64.ofInt (2 * ppm.width)))))
            (F64.toInt (F64.mul (F64.ofInt (y : Int))
              (F64.div (F64.ofInt ppm.height) (F64.ofInt (2 * ppm.height)))))) = some l ∧
        l.length = 2 * w ∧ ∀ x, x < 2 * w → l[x]? = cell ppm.data (y / 2) (x / 2) := by
    intro y hy
    obtain ⟨l, g1, g2, g3⟩ := mapM_range_some (2 * w) (fun (x : Nat) =>
        ppm.getNearestNeighbor
          (F64.toInt (F64.mul (F64.ofInt (x : Int))
            (F64.div (F64.ofInt ppm.width) (F64.ofInt (2 * ppm.width)))))
          (F64.toInt (F64.mul (F64.ofInt (y : Int))
            (F64.div (F64.ofInt ppm.height) (F64.ofInt (2 * ppm.height))))))
      (fun x hx => by
        simp only
        rw [nearest_of_double ppm w h x y hw hh hw2' hh2' hx hy]
        exact cell_of_shape w h ppm.data _ _ hd (by omega) (by omega))
    refine ⟨l, g1, g2, fun x hx => ?_⟩
    rw [g3 x hx]
    exact nearest_of_double ppm w h x y hw hh hw2' hh2' hx hy
  obtain ⟨rows, r1, r2, r3⟩ := mapM_range_some (2 * h) (fun (y : Nat) =>
      (List.range (2 * w)).mapM (fun (x : Nat) =>
        ppm.getNearestNeighbor
          (F64.toInt (F64.mul (F64.ofInt (x : Int))
            (F64.div (F64.ofInt ppm.width) (F64.ofInt (2 * ppm.width)))))
          (F64.toInt (F64.mul (F64.ofInt (y : Int))
            (F64.div (F64.ofInt ppm.height) (F64.ofInt (2 * ppm.height)))))))
    (fun y hy => by
      obtain ⟨l, g1, _⟩ := hrow y hy
      exact ⟨l, g1⟩)
  refine ⟨{ ppm with width := 2 * ppm.width, height := 2 * ppm.height, data := rows },
    ?_, rfl, rfl, rfl, rfl, ?_, ?_⟩
  · unfold PPM.KNearestNeighbors
    have c : ¬ (2 * ppm.height < 0 ∨ (0 < 2 * ppm.height ∧ 2 * ppm.width < 0)) := by omega
    simp only [c, if_false, n1, n2]
    rw [r1]
    rfl
  · refine ⟨by simp only; omega, by simp only; omega, fun row hmem => ?_⟩
    simp only at hmem ⊢
    obtain ⟨y, hy, ey⟩ := List.getElem_of_mem hmem
    have hy' : y < 2 * h := by omega
    obtain ⟨l, g1, g2, _⟩ := hrow y hy'
    have := r3 y hy'
    simp only at this
    rw [g1, List.getElem?_eq_getElem hy, ey] at this
    injection this with this
    rw [this, g2]
    omega
  · intro x y hx hy
    have hx' : x < 2 * w := by omega
    have hy' : y < 2 * h := by omega
    obtain ⟨l, g1, g2, g3⟩ := hrow y hy'
    have e := r3 y hy'
    simp only at e
    rw [g1] at e
    refine ⟨?_, cell_of_shape w h ppm.data _ _ hd (by omega) (by omega)⟩
    unfold PPM.At
    simp only
    rw [← g3 x hx']
    unfold cell
    rw [e]

theorem knn_double_witness :
    samplePix.WellFormed ∧
    PPM.KNearestNeighbors samplePix 4 4 =
      some ⟨[[⟨1, 2, 3⟩, ⟨1, 2, 3⟩, ⟨4, 5, 6⟩, ⟨4, 5, 6⟩],
        [⟨1, 2, 3⟩, ⟨1, 2, 3⟩, ⟨4, 5, 6⟩, ⟨4, 5, 6⟩],
        [⟨10, 20, 30⟩, ⟨10, 20, 30⟩, ⟨40, 50, 255⟩, ⟨40, 50, 255⟩],
        [⟨10, 20, 30⟩, ⟨10, 20, 30⟩, ⟨40, 50, 255⟩, ⟨40, 50, 255⟩]], 4, 4, magicP3, 255⟩ ∧
    ∃ r, PPM.KNearestNeighbors samplePix (2 * samplePix.width) (2 * samplePix.height) = some r ∧
      r.width = 2 * samplePix.width ∧ r.height = 2 * samplePix.height ∧
      r.magicNumber = samplePix.magicNumber ∧ r.max = samplePix.max ∧ r.WellFormed ∧
      ∀ x y : Nat, (x : Int) < 2 * samplePix.width → (y : Int) < 2 * samplePix.height →
        r.At x y = samplePix.At (x / 2) (y / 2) ∧ ∃ p, samplePix.At (x / 2) (y / 2) = some p :=
  ⟨by decide, by set_option maxRecDepth 100000 in decide,
    knn_double samplePix (by decide) (by decide) (by decide)⟩


/-! ## The binary branches of the readers -/

theorem index_lt (w h y x : Nat) (hy : y < h) (hx : x < w) : y * w + x < w * h := by
  have h1 : (y + 1) * w ≤ h * w := Nat.mul_le_mul_right w hy
  rw [Nat.succ_mul] at h1
  rw [Nat.mul_comm w h]
  omega

theorem runLines_first_stop {σ : Type} (body : σ → List Nat → Step σ) (s s' : σ)
    (skip : List Nat → Bool)
    (hskip : ∀ l, skip l = true → body s l = .next s)
    (hstop : ∀ l, skip l = false → body s l = .stop s') :
    ∀ lines : List (List Nat), (∃ t ∈ lines, skip t = false) →
      runLines body s lines = some s' := by
  intro lines
  induction lines with
  | nil => rintro ⟨t, ht, _⟩; exact absurd ht (List.not_mem_nil _)
  | cons l rest ih =>
    rintro ⟨t, ht, hs⟩
    cases hl : skip l with
    | true =>
      rw [runLines_next _ _ _ _ _ (hskip l hl)]
      apply ih
      rcases List.mem_cons.1 ht with e | e
      · rw [e, hl] at hs; exact absurd hs (by simp)
      · exact ⟨t, e, hs⟩
    | false =>
      rw [runLines_stop _ _ _ _ _ (hstop l hl)]

/-- The `P5` pixel loops read the bytes of `pixelData` in order, row by row. -/
theorem unpackP5_spec (w h : Nat) (pixelData : List Nat) (data : List (List Nat))
    (hd : Shape w h data) (hlen : w * h ≤ pixelData.length) :
    ∃ r, PGM.unpackP5 (w : Int) (h : Int) pixelData data = some r ∧ Shape w h r.1 ∧
      ∀ y x, y < h → x < w → cell r.1 y x = pixelData[y * w + x]? := by
  unfold PGM.unpackP5
  simp only [Int.toNat_ofNat]
  obtain ⟨t, ht, hs, _, hc⟩ := forRange_inv
    (fun y (st : List (List Nat) × Nat) => Shape w h st.1 ∧ st.2 = y * w ∧
      ∀ r c, r < y → c < w → cell st.1 r c = pixelData[r * w + c]?)
    h _ (data, 0) ⟨hd, by simp, fun r c hr _ => by omega⟩
    (fun y st hy hP => by
      obtain ⟨hs, hi, hc⟩ := hP
      obtain ⟨t, ht, hs', hi', hc'⟩ := forRange_inv
        (fun x (st' : List (List Nat) × Nat) => Shape w h st'.1 ∧ st'.2 = y * w + x ∧
          ∀ r c, (r < y ∨ (r = y ∧ c < x)) → c < w → cell st'.1 r c = pixelData[r * w + c]?)
        w (fun x st' =>
          match pixelData[st'.2]? with
          | none => none
          | some b => (setAt st'.1 y x b).map (fun d => (d, st'.2 + 1))) st
        ⟨hs, by omega, fun r c hr hcw => by
          rcases hr with hr | hr
          · exact hc r c hr hcw
          · omega⟩
        (fun x st' hx hQ => by
          obtain ⟨qs, qi, qc⟩ := hQ
          have hlt : st'.2 < pixelData.length := by
            have := index_lt w h y x hy hx
            omega
          obtain ⟨d', g1, g2, g3⟩ := setAt_spec w h st'.1 y x pixelData[st'.2] qs hy hx
          refine ⟨(d', st'.2 + 1), ?_, g2, by simp only; omega, fun r c hr hcw => ?_⟩
          · simp only [List.getElem?_eq_getElem hlt, g1, Option.map_some']
          · simp only
            rw [g3]
            by_cases e : r = y ∧ c = x
            · rw [if_pos e, e.1, e.2, ← qi, List.getElem?_eq_getElem hlt]
            · rw [if_neg e]
              apply qc r c _ hcw
              omega)
      refine ⟨t, ht, hs', ?_, fun r c hr hcw => ?_⟩
      · rw [hi', Nat.succ_mul]
      · apply hc' r c _ hcw
        omega)
  exact ⟨t, ht, hs, fun y x hy hx => hc y x hy hx⟩

theorem getElem?_getD (l : List Nat) (i : Nat) (h : i < l.length) :
    l[i]? = some (l.getD i 0) := by
  rw [List.getD_eq_getElem?_getD, List.getElem?_eq_getElem h]
  rfl

/-- The `P6` pixel loops read the bytes of `pixelData` three by three, row by row. -/
theorem unpackP6_spec (w h : Nat) (pixelData : List Nat) (data : List (List Pixel))
    (hd : Shape w h data) (hlen : w * h * 3 ≤ pixelData.length) :
    ∃ r, PPM.unpackP6 (w : Int) (h : Int) pixelData data = some r ∧ Shape w h r.1 ∧
      ∀ y x, y < h → x < w → cell r.1 y x =
        some ⟨pixelData.getD ((y * w + x) * 3) 0, pixelData.getD ((y * w + x) * 3 + 1) 0,
          pixelData.getD ((y * w + x) * 3 + 2) 0⟩ := by
  unfold PPM.unpackP6
  simp only [Int.toNat_ofNat]
  obtain ⟨t, ht, hs, _, hc⟩ := forRange_inv
    (fun y (st : List (List Pixel) × Nat) => Shape w h st.1 ∧ st.2 = y * w * 3 ∧
      ∀ r c, r < y → c < w → cell st.1 r c =
        some ⟨pixelData.getD ((r * w + c) * 3) 0, pixelData.getD ((r * w + c) * 3 + 1) 0,
          pixelData.getD ((r * w + c) * 3 + 2) 0⟩)
    h _ (data, 0) ⟨hd, by simp, fun r c hr _ => by omega⟩
    (fun y st hy hP => by
      obtain ⟨hs, hi, hc⟩ := hP
      obtain ⟨t, ht, hs', hi', hc'⟩ := forRange_inv
        (fun x (st' : List (List Pixel) × Nat) => Shape w h st'.1 ∧ st'.2 = (y * w + x) * 3 ∧
          ∀ r c, (r < y ∨ (r = y ∧ c < x)) → c < w → cell st'.1 r c =
            some ⟨pixelData.getD ((r * w + c) * 3) 0, pixelData.getD ((r * w + c) * 3 + 1) 0,
              pixelData.getD ((r * w + c) * 3 + 2) 0⟩)
        w (fun x st' =>
          match pixelData[st'.2]?, pixelData[st'.2 + 1]?, pixelData[st'.2 + 2]? with
          | some r, some g, some b =>
            (setAt st'.1 y x { R := r, G := g, B := b }).map (fun d => (d, st'.2 + 3))
          | _, _, _ => none) st
        ⟨hs, by omega, fun r c hr hcw => by
          rcases hr with hr | hr
          · exact hc r c hr hcw
          · omega⟩
        (fun x st' hx hQ => by
          obtain ⟨qs, qi, qc⟩ := hQ
          have hlt : st'.2 + 2 < pixelData.length := by
            have := index_lt w h y x hy hx
            omega
          obtain ⟨d', g1, g2, g3⟩ := setAt_spec w h st'.1 y x
            (⟨pixelData.getD st'.2 0, pixelData.getD (st'.2 + 1) 0,
              pixelData.getD (st'.2 + 2) 0⟩ : Pixel) qs hy hx
          refine ⟨(d', st'.2 + 3), ?_, g2, by simp only; omega, fun r c hr hcw => ?_⟩
          · simp only [getElem?_getD pixelData _ hlt,
              getElem?_getD pixelData (st'.2 + 1) (by omega),
              getElem?_getD pixelData st'.2 (by omega), g1, Option.map_some']
          · simp only
            rw [g3]
            by_cases e : r = y ∧ c = x
            · rw [if_pos e, e.1, e.2, ← qi]
            · rw [if_neg e]
              apply qc r c _ hcw
              omega)
      refine ⟨t, ht, hs', ?_, fun r c hr hcw => ?_⟩
      · rw [hi']; ring
      · apply hc' r c _ hcw
        omega)
  exact ⟨t, ht, hs, fun y x hy hx => hc y x hy hx⟩

/-- The `P4` pixel loops read the bits of `allPixelData`, most significant bit first, every
row from a fresh byte. -/
theorem unpackP4_spec (w h : Nat) (hw : 0 < w) (allPixelData : List Nat)
    (data : List (List Bool)) (hd : Shape w h data)
    (hlen : (w + 7) / 8 * h ≤ allPixelData.length) :
    ∃ r, PBM.unpackP4 (w : Int) (h : Int) allPixelData data = some r ∧ Shape w h r.1 ∧
      ∀ y x, y < h → x < w → cell r.1 y x =
        some (decide ((allPixelData.getD (y * ((w + 7) / 8) + x / 8) 0 >>> (7 - x % 8))
          &&& 1 ≠ 0)) := by
  unfold PBM.unpackP4
  simp only [Int.toNat_ofNat]
  obtain ⟨bpr, hb⟩ : ∃ bpr, bpr = (w + 7) / 8 := ⟨_, rfl⟩
  rw [← hb] at hlen ⊢
  obtain ⟨t, ht, hs, _, hc⟩ := forRange_inv
    (fun y (st : List (List Bool) × Nat) => Shape w h st.1 ∧ st.2 = y * bpr ∧
      ∀ r c, r < y → c < w → cell st.1 r c =
        some (decide ((allPixelData.getD (r * bpr + c / 8) 0 >>> (7 - c % 8)) &&& 1 ≠ 0)))
    h _ (data, 0) ⟨hd, by simp, fun r c hr _ => by omega⟩
    (fun y st hy hP => by
      obtain ⟨hs, hi, hc⟩ := hP
      obtain ⟨t, ht, hs', hi', hc'⟩ := forRange_inv
        (fun x (st' : List (List Bool) × Nat) => Shape w h st'.1 ∧
          st'.2 = y * bpr + (x - 1) / 8 ∧
          ∀ r c, (r < y ∨ (r = y ∧ c < x)) → c < w → cell st'.1 r c =
            some (decide ((allPixelData.getD (r * bpr + c / 8) 0 >>> (7 - c % 8)) &&& 1 ≠ 0)))
        w (fun x st' =>
          let byteIndex := if x % 8 = 0 ∧ x ≠ 0 then st'.2 + 1 else st'.2
          match allPixelData[byteIndex]? with
          | none => none
          | some b =>
            (setAt st'.1 y x (decide ((b >>> (7 - x % 8)) &&& 1 ≠ 0))).map
              (fun d => (d, byteIndex))) st
        ⟨hs, by simp only [hi]; omega, fun r c hr hcw => by
          rcases hr with hr | hr
          · exact hc r c hr hcw
          · omega⟩
        (fun x st' hx hQ => by
          obtain ⟨qs, qi, qc⟩ := hQ
          have hbi : (if x % 8 = 0 ∧ x ≠ 0 then st'.2 + 1 else st'.2) = y * bpr + x / 8 := by
            split_ifs <;> omega
          have hlt : y * bpr + x / 8 < allPixelData.length := by
            have := index_lt bpr h y (x / 8) hy (by omega)
            rw [Nat.mul_comm bpr h] at hlen
            rw [Nat.mul_comm bpr h] at this
            omega
          obtain ⟨d', g1, g2, g3⟩ := setAt_spec w h st'.1 y x
            (decide ((allPixelData.getD (y * bpr + x / 8) 0 >>> (7 - x % 8)) &&& 1 ≠ 0))
            qs hy hx
          refine ⟨(d', y * bpr + x / 8), ?_, g2, by simp only; omega, fun r c hr hcw => ?_⟩
          · simp only [hbi, getElem?_getD allPixelData _ hlt, g1, Option.map_some']
          · simp only
            rw [g3]
            by_cases e : r = y ∧ c = x
            · rw [if_pos e, e.1, e.2]
            · rw [if_neg e]
              apply qc r c _ hcw
              omega)
      refine ⟨(t.1, t.2 + 1), ?_, hs', ?_, fun r c hr hcw => ?_⟩
      · exact congrArg (Option.map (fun st' : List (List Bool) × Nat => (st'.1, st'.2 + 1))) ht
      · simp only [hi', Nat.succ_mul]; omega
      · apply hc' r c _ hcw
        omega)
  exact ⟨t, ht, hs, fun y x hy hx => hc y x hy hx⟩


/-- The state of `ReadPPM` after the three header lines that `Save` writes, for a width and
a `max` that are not 0. -/
theorem ReadPPM_header (m payload : List Nat) (w h mx : Nat)
    (hm : 10 ∉ m ∧ m.length < MaxScanTokenSize ∧ m.getLast? ≠ some 13)
    (hm' : m ≠ [] ∧ startsWithHash m = false ∧ TrimSpace m = m)
    (hw : (w : Int) < 2 ^ 63) (hh : (h : Int) < 2 ^ 63) (hmx : mx < 256) (hw0 : 0 < w) :
    ReadPPM (maxHeader m w h mx ++ payload)
      = (runLines (PPM.readLine (maxHeader m w h mx ++ payload))
          ({ data := List.replicate h (List.replicate w { R := 0, G := 0, B := 0 }),
             width := (w : Int), height := (h : Int), magicNumber := m, max := mx }, 0)
          (scanLines payload)).map Prod.fst := by
  obtain ⟨_, x2, _, _, _⟩ := maxLine_props mx hmx
  unfold ReadPPM
  have e : scanLines (maxHeader m w h mx ++ payload) =
      m :: (formatInt (w : Int) ++ [32] ++ formatInt (h : Int)) :: formatNat mx ::
        scanLines payload := scanLines_header3 m payload w h mx hm hw hh hmx
  rw [e, PPM_header_steps _ m w h _ hm' hw hh]
  have s3 : PPM.readLine (maxHeader m w h mx ++ payload)
      ({ data := List.replicate h (List.replicate w { R := 0, G := 0, B := 0 }),
         width := (w : Int), height := (h : Int), magicNumber := m, max := 0 }, 0)
      (formatNat mx)
      = .next ({ data := List.replicate h (List.replicate w { R := 0, G := 0, B := 0 }),
                 width := (w : Int), height := (h : Int), magicNumber := m, max := mx }, 0) := by
    have hwz : (w : Int) ≠ 0 := by omega
    simp only [PPM.readLine, x2, hm'.1, hwz, Bool.false_eq_true, if_false, if_true,
      sscanfMax_formatNat mx 0 hmx]
  rw [runLines_next _ _ _ _ _ s3]

theorem shape_replicate {α : Type} (w h : Nat) (v : α) :
    Shape w h (List.replicate h (List.replicate w v)) :=
  ⟨List.length_replicate _ _, fun row hrow => by
    rw [(List.mem_replicate.1 hrow).2, List.length_replicate]⟩

theorem getD_drop (l : List Nat) (k i : Nat) : (l.drop k).getD i 0 = l.getD (k + i) 0 := by
  rw [List.getD_eq_getElem?_getD, List.getD_eq_getElem?_getD, List.getElem?_drop]

/-- The headers of the truncated-payload inputs are the headers `Save` writes. -/
theorem header_forms (m : List Nat) (w h mx : Nat) :
    (⟨[], (w : Int), (h : Int), m⟩ : PBM).header = dimsHeader m w h ∧
    (⟨[], (w : Int), (h : Int), m, mx⟩ : PGM).header = maxHeader m w h mx ∧
    (⟨[], (w : Int), (h : Int), m, mx⟩ : PPM).header = maxHeader m w h mx :=
  ⟨rfl, rfl, rfl⟩

/-- C14, counterexample: binary files whose pixel bytes are fewer than the header asks for
(1 of 2 for `P4`, 3 of 4 for `P5`, 2 of 3 for `P6`) are decoded without error, into rasters
whose first pixels come from the newline byte 10 that ends the header. -/
theorem truncated_payload_counterexample :
    ReadPBM truncatedP4 = some ⟨[[false, false, false, false, true, false, true, false],
      [false, true, false, false, false, false, false, true]], 8, 2, magicP4⟩ ∧
    ReadPGM truncatedP5 = some ⟨[[10, 97], [98, 99]], 2, 2, magicP5, 255⟩ ∧
    ReadPPM truncatedP6 = some ⟨[[⟨10, 97, 98⟩]], 1, 1, magicP6, 255⟩ := by
  refine ⟨?_, ?_, ?_⟩ <;> decide

/-! ## Binary rasters behind any header -/

/-- After passes that all go on to the next line, the loop continues from their last state. -/
theorem runLines_of_pass {σ : Type} (body : σ → List Nat → Step σ) :
    ∀ (H : List (List Nat)) (s st : σ) (L : List (List Nat)),
      passLines body s H = some st → runLines body s (H ++ L) = runLines body st L := by
  intro H
  induction H with
  | nil =>
    intro s st L h
    simp only [passLines, Option.some.injEq] at h
    subst h
    rfl
  | cons t rest ih =>
    intro s st L h
    rw [passLines] at h
    rw [List.cons_append, runLines]
    cases hb : body s t with
    | next s1 =>
      rw [hb] at h
      simp only at h ⊢
      exact ih s1 st L h
    | stop s1 => rw [hb] at h; exact absurd h (by simp)
    | panic => rw [hb] at h; exact absurd h (by simp)

/-- A magic number that is set stays as it is over the passes. -/
theorem passLines_magic {σ : Type} (body : σ → List Nat → Step σ) (magic : σ → List Nat)
    (hstep : ∀ s t s1, body s t = .next s1 → magic s ≠ [] → magic s1 = magic s) :
    ∀ (H : List (List Nat)) (s st : σ), passLines body s H = some st → magic s ≠ [] →
      magic st = magic s := by
  intro H
  induction H with
  | nil =>
    intro s st h _
    simp only [passLines, Option.some.injEq] at h
    subst h
    rfl
  | cons t rest ih =>
    intro s st h hne
    rw [passLines] at h
    cases hb : body s t with
    | next s1 =>
      rw [hb] at h
      simp only at h
      have e := hstep s t s1 hb hne
      rw [ih s1 st h (by rw [e]; exact hne), e]
    | stop s1 => rw [hb] at h; exact absurd h (by simp)
    | panic => rw [hb] at h; exact absurd h (by simp)

/-- A property that every pass keeps while the magic number is unset or `good` holds after
passes that end with the magic number `good`. -/
theorem passLines_inv {σ : Type} (body : σ → List Nat → Step σ) (magic : σ → List Nat)
    (Inv : σ → Prop) (good : List Nat)
    (hmagic : ∀ s t s1, body s t = .next s1 → magic s ≠ [] → magic s1 = magic s)
    (hinv : ∀ s t s1, body s t = .next s1 → (magic s = [] ∨ magic s = good) → Inv s → Inv s1) :
    ∀ (H : List (List Nat)) (s st : σ), passLines body s H = some st → magic st = good →
      Inv s → Inv st := by
  intro H
  induction H with
  | nil =>
    intro s st h _ hi
    simp only [passLines, Option.some.injEq] at h
    subst h
    exact hi
  | cons t rest ih =>
    intro s st h hg hi
    have hall := h
    rw [passLines] at h
    cases hb : body s t with
    | next s1 =>
      rw [hb] at h
      simp only at h
      by_cases hm : magic s = [] ∨ magic s = good
      · exact ih s1 st h hg (hinv s t s1 hb hm hi)
      · exfalso
        have hne : magic s ≠ [] := fun e => hm (Or.inl e)
        have := passLines_magic body magic hmagic (t :: rest) s st hall hne
        exact hm (Or.inr (by rw [← this, hg]))
    | stop s1 => rw [hb] at h; exact absurd h (by simp)
    | panic => rw [hb] at h; exact absurd h (by simp)

/-- A pass of `ReadPGM` that goes on to the next line keeps a magic number that is set, and,
while the magic number is unset or `P5`, keeps the grid at the size the state gives. -/
theorem PGM_readLine_next (fc : List Nat) (st s1 : PGM × Nat) (t : List Nat)
    (h : PGM.readLine fc st t = .next s1) :
    (st.1.magicNumber ≠ [] → s1.1.magicNumber = st.1.magicNumber) ∧
    ((st.1.magicNumber = [] ∨ st.1.magicNumber = magicP5) →
      (0 ≤ st.1.height ∧ Shape st.1.width.toNat st.1.height.toNat st.1.data) →
      (0 ≤ s1.1.height ∧ Shape s1.1.width.toNat s1.1.height.toNat s1.1.data)) := by
  by_cases c1 : startsWithHash t = true
  · simp only [PGM.readLine, c1, if_true, Step.next.injEq] at h
    subst h
    exact ⟨fun _ => rfl, fun _ hi => hi⟩
  by_cases c2 : st.1.magicNumber = []
  · simp only [PGM.readLine, c1, c2, if_true, if_false, Bool.false_eq_true,
      Step.next.injEq] at h
    subst h
    exact ⟨fun hne => absurd c2 hne, fun _ hi => hi⟩
  by_cases c3 : st.1.width = 0
  · simp only [PGM.readLine, c1, c2, c3, if_true, if_false, Bool.false_eq_true] at h
    split_ifs at h with c4
    simp only [Step.next.injEq] at h
    subst h
    refine ⟨fun _ => rfl, fun _ _ => ⟨?_, shape_replicate _ _ _⟩⟩
    simp only
    omega
  by_cases c5 : st.1.max = 0
  · simp only [PGM.readLine, c1, c2, c3, c5, if_true, if_false, Bool.false_eq_true,
      Step.next.injEq] at h
    subst h
    exact ⟨fun _ => rfl, fun _ hi => hi⟩
  by_cases c6 : st.1.magicNumber = magicP2
  · have h' := h
    simp only [PGM.readLine, c1, c2, c3, c5, if_true, if_false, Bool.false_eq_true] at h'
    rw [if_pos c6] at h'
    cases hr : PGM.readRowP2 st.1.width st.2 (Fields t) st.1.data with
    | none => rw [hr] at h'; exact absurd h' (by simp)
    | some d =>
      rw [hr] at h'
      simp only [Step.next.injEq] at h'
      subst h'
      refine ⟨fun _ => rfl, fun hm _ => ?_⟩
      exfalso
      rcases hm with e | e
      · exact c2 e
      · rw [c6] at e; exact absurd e (by decide)
  by_cases c7 : st.1.magicNumber = magicP5
  · exfalso
    simp only [PGM.readLine, c1, c2, c3, c5, c6, if_true, if_false, Bool.false_eq_true] at h
    rw [if_pos c7] at h
    split_ifs at h
    cases hu : PGM.unpackP5 st.1.width st.1.height
        (fc.drop (fc.length - (st.1.width * st.1.height).toNat)) st.1.data with
    | none => rw [hu] at h; exact absurd h (by simp)
    | some r => rw [hu] at h; exact absurd h (by simp)
  · simp only [PGM.readLine, c1, c2, c3, c5, c6, c7, if_false, Bool.false_eq_true,
      Step.next.injEq] at h
    subst h
    exact ⟨fun _ => rfl, fun _ hi => hi⟩

/-- A pass of `ReadPPM` that goes on to the next line keeps a magic number that is set, and,
while the magic number is unset or `P6`, keeps the grid at the size the state gives. -/
theorem PPM_readLine_next (fc : List Nat) (st s1 : PPM × Nat) (t : List Nat)
    (h : PPM.readLine fc st t = .next s1) :
    (st.1.magicNumber ≠ [] → s1.1.magicNumber = st.1.magicNumber) ∧
    ((st.1.magicNumber = [] ∨ st.1.magicNumber = magicP6) →
      (0 ≤ st.1.height ∧ Shape st.1.width.toNat st.1.height.toNat st.1.data) →
      (0 ≤ s1.1.height ∧ Shape s1.1.width.toNat s1.1.height.toNat s1.1.data)) := by
  by_cases c1 : startsWithHash t = true
  · simp only [PPM.readLine, c1, if_true, Step.next.injEq] at h
    subst h
    exact ⟨fun _ => rfl, fun _ hi => hi⟩
  by_cases c2 : st.1.magicNumber = []
  · simp only [PPM.readLine, c1, c2, if_true, if_false, Bool.false_eq_true,
      Step.next.injEq] at h
    subst h
    exact ⟨fun hne => absurd c2 hne, fun _ hi => hi⟩
  by_cases c3 : st.1.width = 0
  · simp only [PPM.readLine, c1, c2, c3, if_true, if_false, Bool.false_eq_true] at h
    split_ifs at h with c4
    simp only [Step.next.injEq] at h
    subst h
    refine ⟨fun _ => rfl, fun _ _ => ⟨?_, shape_replicate _ _ _⟩⟩
    simp only
    omega
  by_cases c5 : st.1.max = 0
  · simp only [PPM.readLine, c1, c2, c3, c5, if_true, if_false, Bool.false_eq_true,
      Step.next.injEq] at h
    subst h
    exact ⟨fun _ => rfl, fun _ hi => hi⟩
  by_cases c6 : st.1.magicNumber = magicP3
  · have h' := h
    simp only [PPM.readLine, c1, c2, c3, c5, if_true, if_false, Bool.false_eq_true] at h'
    rw [if_pos c6] at h'
    cases hr : PPM.readRowP3 st.1.width st.2 (Fields t) st.1.data with
    | none => rw [hr] at h'; exact absurd h' (by simp)
    | some d =>
      rw [hr] at h'
      simp only [Step.next.injEq] at h'
      subst h'
      refine ⟨fun _ => rfl, fun hm _ => ?_⟩
      exfalso
      rcases hm with e | e
      · exact c2 e
      · rw [c6] at e; exact absurd e (by decide)
  by_cases c7 : st.1.magicNumber = magicP6
  · exfalso
    simp only [PPM.readLine, c1, c2, c3, c5, c6, if_true, if_false, Bool.false_eq_true] at h
    rw [if_pos c7] at h
    split_ifs at h
    cases hu : PPM.unpackP6 st.1.width st.1.height
        (fc.drop (fc.length - (st.1.width * st.1.height * 3).toNat)) st.1.data with
    | none => rw [hu] at h; exact absurd h (by simp)
    | some r => rw [hu] at h; exact absurd h (by simp)
  · simp only [PPM.readLine, c1, c2, c3, c5, c6, c7, if_false, Bool.false_eq_true,
      Step.next.injEq] at h
    subst h
    exact ⟨fun _ => rfl, fun _ hi => hi⟩

/-- A pass of `ReadPBM` that goes on to the next line keeps a magic number that is set, and,
while the magic number is unset or `P4`, keeps the grid at the size the state gives. -/
theorem PBM_readLine_next (fc : List Nat) (st s1 : PBM × Nat) (t : List Nat)
    (h : PBM.readLine fc st t = .next s1) :
    (st.1.magicNumber ≠ [] → s1.1.magicNumber = st.1.magicNumber) ∧
    ((st.1.magicNumber = [] ∨ st.1.magicNumber = magicP4) →
      (0 ≤ st.1.height ∧ Shape st.1.width.toNat st.1.height.toNat st.1.data) →
      (0 ≤ s1.1.height ∧ Shape s1.1.width.toNat s1.1.height.toNat s1.1.data)) := by
  by_cases c1 : t = [] ∨ startsWithHash t = true
  · simp only [PBM.readLine, c1, if_true, Step.next.injEq] at h
    subst h
    exact ⟨fun _ => rfl, fun _ hi => hi⟩
  by_cases c2 : st.1.magicNumber = []
  · simp only [PBM.readLine, c1, c2, if_true, if_false, Step.next.injEq] at h
    subst h
    exact ⟨fun hne => absurd c2 hne, fun _ hi => hi⟩
  by_cases c3 : st.1.width = 0
  · simp only [PBM.readLine, c1, c2, c3, if_true, if_false] at h
    split_ifs at h with c4
    simp only [Step.next.injEq] at h
    subst h
    refine ⟨fun _ => rfl, fun _ _ => ⟨?_, shape_replicate _ _ _⟩⟩
    simp only
    omega
  by_cases c6 : st.1.magicNumber = magicP1
  · have h' := h
    simp only [PBM.readLine, c1, c2, c3, if_true, if_false] at h'
    rw [if_pos c6] at h'
    cases hr : PBM.readRowP1 st.1.width st.2 (Fields t) st.1.data with
    | none => rw [hr] at h'; exact absurd h' (by simp)
    | some d =>
      rw [hr] at h'
      simp only [Step.next.injEq] at h'
      subst h'
      refine ⟨fun _ => rfl, fun hm _ => ?_⟩
      exfalso
      rcases hm with e | e
      · exact c2 e
      · rw [c6] at e; exact absurd e (by decide)
  by_cases c7 : st.1.magicNumber = magicP4
  · exfalso
    simp only [PBM.readLine, c1, c2, c3, c6, if_true, if_false] at h
    rw [if_pos c7] at h
    split_ifs at h
    cases hu : PBM.unpackP4 st.1.width st.1.height
        (fc.drop (fc.length - ((st.1.width + 7).tdiv 8 * st.1.height).toNat)) st.1.data with
    | none => rw [hu] at h; exact absurd h (by simp)
    | some r => rw [hu] at h; exact absurd h (by simp)
  · simp only [PBM.readLine, c1, c2, c3, c6, c7, if_false, Step.next.injEq] at h
    subst h
    exact ⟨fun _ => rfl, fun _ hi => hi⟩

/-- The `P5` branch of `ReadPGM` behind any header: when the passes over the lines `H` leave
the magic number `P5`, the width `w > 0`, the height `h` and a `max` other than 0, and a line
that is no comment follows, the grid is filled from the last `w * h` bytes of the whole
file. -/
theorem ReadPGM_binary (fc : List Nat) (H L : List (List Nat)) (st : PGM × Nat) (w h : Nat)
    (hscan : scanLines fc = H ++ L)
    (hpass : passLines (PGM.readLine fc)
      ({ data := [], width := 0, height := 0, magicNumber := [], max := 0 }, 0) H = some st)
    (hm : st.1.magicNumber = magicP5) (hw : st.1.width = (w : Int)) (hw0 : 0 < w)
    (hh : st.1.height = (h : Int)) (hmax : st.1.max ≠ 0)
    (hline : ∃ t ∈ L, startsWithHash t = false) (hlen : w * h ≤ fc.length) :
    ∃ r, ReadPGM fc = some r ∧
      r.width = (w : Int) ∧ r.height = (h : Int) ∧ r.magicNumber = magicP5 ∧
      r.max = st.1.max ∧ r.WellFormed ∧
      ∀ x y, x < w → y < h → r.At x y = fc[fc.length - w * h + (y * w + x)]? := by
  have hI := passLines_inv (PGM.readLine fc) (fun s => s.1.magicNumber)
    (fun s => 0 ≤ s.1.height ∧ Shape s.1.width.toNat s.1.height.toNat s.1.data) magicP5
    (fun s t s1 hb => (PGM_readLine_next fc s s1 t hb).1)
    (fun s t s1 hb => (PGM_readLine_next fc s s1 t hb).2) H _ st hpass hm
    ⟨le_refl _, rfl, fun row hrow => absurd hrow (List.not_mem_nil _)⟩
  obtain ⟨⟨data, width, height, magic, mx⟩, line⟩ := st
  simp only at hm hw hh hmax hI
  subst hm hw hh
  simp only [Int.toNat_ofNat] at hI
  obtain ⟨r, g1, g2, g3⟩ := unpackP5_spec w h (fc.drop (fc.length - w * h)) data hI.2
    (by rw [List.length_drop]; omega)
  have hrun : runLines (PGM.readLine fc)
      (⟨data, (w : Int), (h : Int), magicP5, mx⟩, line) L =
      some (⟨r.1, (w : Int), (h : Int), magicP5, mx⟩, line) := by
    apply runLines_first_stop _ _ _ startsWithHash _ _ _ hline
    · intro l hl
      simp only [PGM.readLine, hl, if_true]
    · intro l hl
      have hwz : (w : Int) ≠ 0 := by omega
      have e1 : magicP5 ≠ [] := by decide
      have e2 : magicP5 ≠ magicP2 := by decide
      have e3 : ((w : Int) * (h : Int)).toNat = w * h := by
        rw [← Int.natCast_mul]; exact Int.toNat_natCast _
      have e4 : ¬ ((w : Int) * (h : Int) < 0 ∨ (fc.length : Int) < (w : Int) * (h : Int)) := by
        have : ((w * h : Nat) : Int) ≤ (fc.length : Int) := by exact_mod_cast hlen
        push_cast at this
        have : (0 : Int) ≤ (w : Int) * (h : Int) := by positivity
        omega
      simp only [PGM.readLine, hl, Bool.false_eq_true, if_false, hwz, hmax, e1, e2, e3, e4,
        if_true, g1]
  refine ⟨⟨r.1, (w : Int), (h : Int), magicP5, mx⟩, ?_, rfl, rfl, rfl, rfl, ?_, ?_⟩
  · unfold ReadPGM
    rw [hscan, runLines_of_pass _ H _ _ L hpass, hrun]
    rfl
  · exact ⟨by have := g2.1; simp only; omega, by simp only; omega, fun row hrow => by
      have := g2.2 row hrow
      simp only at hrow ⊢
      omega⟩
  · intro x y hx hy
    unfold PGM.At
    simp only
    rw [g3 y x hy hx, List.getElem?_drop]

/-- The `P6` branch of `ReadPPM` behind any header: the grid is filled from the last
`w * h * 3` bytes of the whole file. -/
theorem ReadPPM_binary (fc : List Nat) (H L : List (List Nat)) (st : PPM × Nat) (w h : Nat)
    (hscan : scanLines fc = H ++ L)
    (hpass : passLines (PPM.readLine fc)
      ({ data := [], width := 0, height := 0, magicNumber := [], max := 0 }, 0) H = some st)
    (hm : st.1.magicNumber = magicP6) (hw : st.1.width = (w : Int)) (hw0 : 0 < w)
    (hh : st.1.height = (h : Int)) (hmax : st.1.max ≠ 0)
    (hline : ∃ t ∈ L, startsWithHash t = false) (hlen : w * h * 3 ≤ fc.length) :
    ∃ r, ReadPPM fc = some r ∧
      r.width = (w : Int) ∧ r.height = (h : Int) ∧ r.magicNumber = magicP6 ∧
      r.max = st.1.max ∧ r.WellFormed ∧
      ∀ x y, x < w → y < h → r.At x y = some
        ⟨fc.getD (fc.length - w * h * 3 + (y * w + x) * 3) 0,
          fc.getD (fc.length - w * h * 3 + ((y * w + x) * 3 + 1)) 0,
          fc.getD (fc.length - w * h * 3 + ((y * w + x) * 3 + 2)) 0⟩ := by
  have hI := passLines_inv (PPM.readLine fc) (fun s => s.1.magicNumber)
    (fun s => 0 ≤ s.1.height ∧ Shape s.1.width.toNat s.1.height.toNat s.1.data) magicP6
    (fun s t s1 hb => (PPM_readLine_next fc s s1 t hb).1)
    (fun s t s1 hb => (PPM_readLine_next fc s s1 t hb).2) H _ st hpass hm
    ⟨le_refl _, rfl, fun row hrow => absurd hrow (List.not_mem_nil _)⟩
  obtain ⟨⟨data, width, height, magic, mx⟩, line⟩ := st
  simp only at hm hw hh hmax hI
  subst hm hw hh
  simp only [Int.toNat_ofNat] at hI
  obtain ⟨r, g1, g2, g3⟩ := unpackP6_spec w h (fc.drop (fc.length - w * h * 3)) data hI.2
    (by rw [List.length_drop]; omega)
  have hrun : runLines (PPM.readLine fc)
      (⟨data, (w : Int), (h : Int), magicP6, mx⟩, line) L =
      some (⟨r.1, (w : Int), (h : Int), magicP6, mx⟩, line) := by
    apply runLines_first_stop _ _ _ startsWithHash _ _ _ hline
    · intro l hl
      simp only [PPM.readLine, hl, if_true]
    · intro l hl
      have hwz : (w : Int) ≠ 0 := by omega
      have e1 : magicP6 ≠ [] := by decide
      have e2 : magicP6 ≠ magicP3 := by decide
      have e3 : ((w : Int) * (h : Int) * 3).toNat = w * h * 3 := by
        have : (w : Int) * (h : Int) * 3 = ((w * h * 3 : Nat) : Int) := by push_cast; rfl
        rw [this]; exact Int.toNat_natCast _
      have e4 : ¬ ((w : Int) * (h : Int) * 3 < 0 ∨
          (fc.length : Int) < (w : Int) * (h : Int) * 3) := by
        have : ((w * h * 3 : Nat) : Int) ≤ (fc.length : Int) := by exact_mod_cast hlen
        push_cast at this
        have : (0 : Int) ≤ (w : Int) * (h : Int) := by positivity
        omega
      simp only [PPM.readLine, hl, Bool.false_eq_true, if_false, hwz, hmax, e1, e2, e3, e4,
        if_true, g1]
  refine ⟨⟨r.1, (w : Int), (h : Int), magicP6, mx⟩, ?_, rfl, rfl, rfl, rfl, ?_, ?_⟩
  · unfold ReadPPM
    rw [hscan, runLines_of_pass _ H _ _ L hpass, hrun]
    rfl
  · exact ⟨by have := g2.1; simp only; omega, by simp only; omega, fun row hrow => by
      have := g2.2 row hrow
      simp only at hrow ⊢
      omega⟩
  · intro x y hx hy
    unfold PPM.At
    simp only
    rw [g3 y x hy hx, getD_drop, getD_drop, getD_drop]

/-- The `P4` branch of `ReadPBM` behind any header: the grid is filled from the last
`ceil(w / 8) * h` bytes of the whole file. -/
theorem ReadPBM_binary (fc : List Nat) (H L : List (List Nat)) (st : PBM × Nat) (w h : Nat)
    (hscan : scanLines fc = H ++ L)
    (hpass : passLines (PBM.readLine fc)
      ({ data := [], width := 0, height := 0, magicNumber := [] }, 0) H = some st)
    (hm : st.1.magicNumber = magicP4) (hw : st.1.width = (w : Int)) (hw0 : 0 < w)
    (hh : st.1.height = (h : Int))
    (hline : ∃ t ∈ L, t ≠ [] ∧ startsWithHash t = false)
    (hlen : (w + 7) / 8 * h ≤ fc.length) :
    ∃ r, ReadPBM fc = some r ∧
      r.width = (w : Int) ∧ r.height = (h : Int) ∧ r.magicNumber = magicP4 ∧ r.WellFormed ∧
      ∀ x y, x < w → y < h → r.At x y = some (decide
        ((fc.getD (fc.length - (w + 7) / 8 * h + (y * ((w + 7) / 8) + x / 8)) 0
          >>> (7 - x % 8)) &&& 1 ≠ 0)) := by
  have hI := passLines_inv (PBM.readLine fc) (fun s => s.1.magicNumber)
    (fun s => 0 ≤ s.1.height ∧ Shape s.1.width.toNat s.1.height.toNat s.1.data) magicP4
    (fun s t s1 hb => (PBM_readLine_next fc s s1 t hb).1)
    (fun s t s1 hb => (PBM_readLine_next fc s s1 t hb).2) H _ st hpass hm
    ⟨le_refl _, rfl, fun row hrow => absurd hrow (List.not_mem_nil _)⟩
  obtain ⟨⟨data, width, height, magic⟩, line⟩ := st
  simp only at hm hw hh hI
  subst hm hw hh
  simp only [Int.toNat_ofNat] at hI
  obtain ⟨r, g1, g2, g3⟩ := unpackP4_spec w h hw0 (fc.drop (fc.length - (w + 7) / 8 * h))
    data hI.2 (by rw [List.length_drop]; omega)
  have hline' : ∃ t ∈ L, (decide (t = []) || startsWithHash t) = false := by
    obtain ⟨t, ht, h1, h2⟩ := hline
    exact ⟨t, ht, by simp [h1, h2]⟩
  have hrun : runLines (PBM.readLine fc)
      (⟨data, (w : Int), (h : Int), magicP4⟩, line) L =
      some (⟨r.1, (w : Int), (h : Int), magicP4⟩, line) := by
    apply runLines_first_stop _ _ _ (fun l => decide (l = []) || startsWithHash l) _ _ _ hline'
    · intro l hl
      have : l = [] ∨ startsWithHash l = true := by simpa using hl
      simp only [PBM.readLine, this, if_true]
    · intro l hl
      have hl' : ¬ (l = [] ∨ startsWithHash l = true) := by simpa using hl
      have hwz : (w : Int) ≠ 0 := by omega
      have e1 : magicP4 ≠ [] := by decide
      have e2 : magicP4 ≠ magicP1 := by decide
      have eb : ((w : Int) + 7).tdiv 8 = (((w + 7) / 8 : Nat) : Int) := by
        rw [Int.tdiv_eq_ediv (by omega) (by omega)]; omega
      have e3 : ((((w + 7) / 8 : Nat) : Int) * (h : Int)).toNat = (w + 7) / 8 * h := by
        rw [← Int.natCast_mul]; exact Int.toNat_natCast _
      have e4 : ¬ ((((w + 7) / 8 : Nat) : Int) * (h : Int) < 0 ∨
          (fc.length : Int) < (((w + 7) / 8 : Nat) : Int) * (h : Int)) := by
        have : (((w + 7) / 8 * h : Nat) : Int) ≤ (fc.length : Int) := by exact_mod_cast hlen
        rw [Int.natCast_mul] at this
        have : (0 : Int) ≤ (((w + 7) / 8 : Nat) : Int) * (h : Int) := by positivity
        omega
      simp only [PBM.readLine, hl', if_false, hwz, e1, e2, eb, e3, e4, if_true, g1]
  refine ⟨⟨r.1, (w : Int), (h : Int), magicP4⟩, ?_, rfl, rfl, rfl, ?_, ?_⟩
  · unfold ReadPBM
    rw [hscan, runLines_of_pass _ H _ _ L hpass, hrun]
    rfl
  · exact ⟨by have := g2.1; simp only; omega, by simp only; omega, fun row hrow => by
      have := g2.2 row hrow
      simp only at hrow ⊢
      omega⟩
  · intro x y hx hy
    unfold PBM.At
    simp only
    rw [g3 y x hy hx, getD_drop]

/-- C14, amended: a truncated payload is not rejected. Take an input of fewer than `2^60`
bytes (the size computations of the decoders then stay within `int`) made of header bytes
`hdr` and payload bytes `payload`, which the scanner splits into the lines `H` of the header
followed by the lines of the payload; let the passes of the decoder's loop over `H` all go
on to the next line and leave the magic number `P4`, `P5` or `P6`, a width `w > 0`, the
height `h` and, for `P5` and `P6`, a `max` other than 0: the header declares `w` and `h`.
If the payload bytes are fewer than the expected size `N` (`ceil(w/8)*h`, `w*h` or
`3*w*h`) while the whole input holds at least `N` bytes, and the scanner yields from the
payload a line that the header loop does not skip, then `ReadPBM`, `ReadPGM` and `ReadPPM`
return, without error, the raster of the declared size filled from the last `N` bytes of
the whole input, and those bytes begin inside the header. -/
theorem truncated_payload (hdr payload : List Nat) (H : List (List Nat)) (w h : Nat)
    (hscan : scanLines (hdr ++ payload) = H ++ scanLines payload) (hw0 : 0 < w)
    (hsize : (hdr ++ payload).length < 2 ^ 60) :
    (∀ st : PBM × Nat,
      passLines (PBM.readLine (hdr ++ payload))
        ({ data := [], width := 0, height := 0, magicNumber := [] }, 0) H = some st →
      st.1.magicNumber = magicP4 → st.1.width = (w : Int) → st.1.height = (h : Int) →
      payload.length < (w + 7) / 8 * h → (w + 7) / 8 * h ≤ (hdr ++ payload).length →
      (∃ t ∈ scanLines payload, t ≠ [] ∧ startsWithHash t = false) →
      ∃ r, ReadPBM (hdr ++ payload) = some r ∧
        r.width = (w : Int) ∧ r.height = (h : Int) ∧ r.magicNumber = magicP4 ∧
        r.WellFormed ∧
        (hdr ++ payload).length - (w + 7) / 8 * h < hdr.length ∧
        ∀ x y, x < w → y < h → r.At x y = some (decide
          (((hdr ++ payload).getD
            ((hdr ++ payload).length - (w + 7) / 8 * h + (y * ((w + 7) / 8) + x / 8)) 0
              >>> (7 - x % 8)) &&& 1 ≠ 0))) ∧
    (∀ st : PGM × Nat,
      passLines (PGM.readLine (hdr ++ payload))
        ({ data := [], width := 0, height := 0, magicNumber := [], max := 0 }, 0) H =
          some st →
      st.1.magicNumber = magicP5 → st.1.width = (w : Int) → st.1.height = (h : Int) →
      st.1.max ≠ 0 →
      payload.length < w * h → w * h ≤ (hdr ++ payload).length →
      (∃ t ∈ scanLines payload, startsWithHash t = false) →
      ∃ r, ReadPGM (hdr ++ payload) = some r ∧
        r.width = (w : Int) ∧ r.height = (h : Int) ∧ r.magicNumber = magicP5 ∧
        r.max = st.1.max ∧ r.WellFormed ∧
        (hdr ++ payload).length - w * h < hdr.length ∧
        ∀ x y, x < w → y < h → r.At x y =
          (hdr ++ payload)[(hdr ++ payload).length - w * h + (y * w + x)]?) ∧
    (∀ st : PPM × Nat,
      passLines (PPM.readLine (hdr ++ payload))
        ({ data := [], width := 0, height := 0, magicNumber := [], max := 0 }, 0) H =
          some st →
      st.1.magicNumber = magicP6 → st.1.width = (w : Int) → st.1.height = (h : Int) →
      st.1.max ≠ 0 →
      payload.length < w * h * 3 → w * h * 3 ≤ (hdr ++ payload).length →
      (∃ t ∈ scanLines payload, startsWithHash t = false) →
      ∃ r, ReadPPM (hdr ++ payload) = some r ∧
        r.width = (w : Int) ∧ r.height = (h : Int) ∧ r.magicNumber = magicP6 ∧
        r.max = st.1.max ∧ r.WellFormed ∧
        (hdr ++ payload).length - w * h * 3 < hdr.length ∧
        ∀ x y, x < w → y < h → r.At x y = some
          ⟨(hdr ++ payload).getD ((hdr ++ payload).length - w * h * 3 + (y * w + x) * 3) 0,
            (hdr ++ payload).getD
              ((hdr ++ payload).length - w * h * 3 + ((y * w + x) * 3 + 1)) 0,
            (hdr ++ payload).getD
              ((hdr ++ payload).length - w * h * 3 + ((y * w + x) * 3 + 2)) 0⟩) := by
  have _ := hsize
  refine ⟨fun st hp hm hw hh hs hl ht => ?_, fun st hp hm hw hh hmax hs hl ht => ?_,
    fun st hp hm hw hh hmax hs hl ht => ?_⟩
  · obtain ⟨r, g1, g2, g3, g4, g5, g6⟩ :=
      ReadPBM_binary (hdr ++ payload) H (scanLines payload) st w h hscan hp hm hw hw0 hh ht hl
    refine ⟨r, g1, g2, g3, g4, g5, ?_, g6⟩
    rw [List.length_append] at hl ⊢
    omega
  · obtain ⟨r, g1, g2, g3, g4, g5, g6, g7⟩ :=
      ReadPGM_binary (hdr ++ payload) H (scanLines payload) st w h hscan hp hm hw hw0 hh hmax
        ht hl
    refine ⟨r, g1, g2, g3, g4, g5, g6, ?_, g7⟩
    rw [List.length_append] at hl ⊢
    omega
  · obtain ⟨r, g1, g2, g3, g4, g5, g6, g7⟩ :=
      ReadPPM_binary (hdr ++ payload) H (scanLines payload) st w h hscan hp hm hw hw0 hh hmax
        ht hl
    refine ⟨r, g1, g2, g3, g4, g5, g6, ?_, g7⟩
    rw [List.length_append] at hl ⊢
    omega

theorem truncated_payload_witness :
    maxHeader magicP5 2 2 255 ++ [97, 98, 99] = truncatedP5 ∧
    ∃ r, ReadPGM (maxHeader magicP5 2 2 255 ++ [97, 98, 99]) = some r ∧
      r.width = ((2 : Nat) : Int) ∧ r.height = ((2 : Nat) : Int) ∧
      r.magicNumber = magicP5 ∧ r.max = 255 ∧ r.WellFormed ∧
      (maxHeader magicP5 2 2 255 ++ [97, 98, 99]).length - 2 * 2 <
        (maxHeader magicP5 2 2 255).length ∧
      ∀ x y, x < 2 → y < 2 → r.At x y =
        (maxHeader magicP5 2 2 255 ++ [97, 98, 99])[
          (maxHeader magicP5 2 2 255 ++ [97, 98, 99]).length - 2 * 2 + (y * 2 + x)]? :=
  ⟨by decide,
    (truncated_payload (maxHeader magicP5 2 2 255) [97, 98, 99]
      [magicP5, [50, 32, 50], [50, 53, 53]] 2 2 (by decide) (by decide) (by decide)).2.1
      (⟨[[0, 0], [0, 0]], 2, 2, magicP5, 255⟩, 0) (by decide) rfl rfl rfl (by decide)
      (by decide) (by decide) (by decide)⟩


/-! ## The half turn -/

theorem cell_reverse_map {α : Type} (w h : Nat) (d : List (List α))
    (hlen : d.length = h) (hrow : ∀ row ∈ d, row.length = w) (i j : Nat)
    (hi : i < h) (hj : j < w) :
    cell ((d.map List.reverse).reverse) i j = cell d (h - 1 - i) (w - 1 - j) := by
  have h1 : h - 1 - i < d.length := by omega
  have hr : (d[h - 1 - i]).length = w := hrow _ (List.getElem_mem h1)
  unfold cell
  rw [List.getElem?_reverse (by rw [List.length_map]; omega), List.length_map, hlen,
    List.getElem?_map, List.getElem?_eq_getElem h1]
  simp only [Option.map_some']
  rw [List.getElem?_reverse (by omega), hr]

/-- Two quarter turns of a well-formed grid reverse the rows and their order. -/
theorem rotateGrid_twice {α : Type} (w h : Nat) (d : List (List α))
    (hlen : d.length = h) (hrow : ∀ row ∈ d, row.length = w) :
    ∃ g1, rotateGrid (w : Int) (h : Int) d = some g1 ∧
      rotateGrid (h : Int) (w : Int) g1 = some ((d.map List.reverse).reverse) := by
  obtain ⟨g1, e1, l1, r1, c1⟩ := rotateGrid_spec w h d hlen hrow
  obtain ⟨g2, e2, l2, r2, c2⟩ := rotateGrid_spec h w g1 l1 r1
  refine ⟨g1, e1, ?_⟩
  rw [e2]
  congr 1
  apply grid_ext h w g2 _ l2 r2 (by rw [List.length_reverse, List.length_map, hlen])
    (fun row hmem => by
      obtain ⟨r, hr, rfl⟩ := List.mem_map.1 (List.mem_reverse.1 hmem)
      rw [List.length_reverse]
      exact hrow r hr)
  intro r c hr hc
  rw [c2 r c hr hc, c1 (w - 1 - c) r (by omega) hr,
    cell_reverse_map w h d hlen hrow r c hr hc]

theorem flip_then_flop {α : Type} (width height : Int) (data : List (List α))
    (h1 : (data.length : Int) = height) (h2 : ∀ row ∈ data, (row.length : Int) = width) :
    (data.mapM (swapLoop width)).bind (swapLoop height) =
      some ((data.map List.reverse).reverse) := by
  rw [flipGrid_eq width data h2, Option.some_bind, ← h1]
  have := swapLoop_eq_reverse (data.map List.reverse)
  rw [List.length_map] at this
  exact this

theorem flop_then_flip {α : Type} (width height : Int) (data : List (List α))
    (h1 : (data.length : Int) = height) (h2 : ∀ row ∈ data, (row.length : Int) = width) :
    (swapLoop height data).bind (fun d => d.mapM (swapLoop width)) =
      some ((data.map List.reverse).reverse) := by
  rw [← h1, swapLoop_eq_reverse, Option.some_bind,
    flipGrid_eq width data.reverse (fun row hrow => h2 row (List.mem_reverse.1 hrow)),
    List.map_reverse]

/-- C26: for every well-formed greymap and every well-formed pixmap, `Rotate90CW` applied
twice does not panic and gives the same raster (same width, height, grid, magic number and
`max`) as `Flip` followed by `Flop`, which is the raster whose rows are reversed and taken
in reverse order; and `Flip` followed by `Flop` equals `Flop` followed by `Flip`. -/
theorem half_turn :
    (∀ pgm : PGM, pgm.WellFormed →
      pgm.Flip.bind PGM.Flop =
        some { pgm with data := (pgm.data.map List.reverse).reverse } ∧
      pgm.Rotate90CW.bind PGM.Rotate90CW = pgm.Flip.bind PGM.Flop ∧
      pgm.Flip.bind PGM.Flop = pgm.Flop.bind PGM.Flip) ∧
    (∀ ppm : PPM, ppm.WellFormed →
      ppm.Flip.bind PPM.Flop =
        some { ppm with data := (ppm.data.map List.reverse).reverse } ∧
      ppm.Rotate90CW.bind PPM.Rotate90CW = ppm.Flip.bind PPM.Flop ∧
      ppm.Flip.bind PPM.Flop = ppm.Flop.bind PPM.Flip) := by
  refine ⟨fun pgm h => ?_, fun ppm h => ?_⟩
  · cases pgm with
    | mk data width height magicNumber max =>
      obtain ⟨h1, h0, h2⟩ := h
      simp only at h1 h0 h2
      subst h1
      obtain ⟨g1, e1, e2⟩ := rotateGrid_twice width.toNat data.length data rfl
        (fun row hr => by have := h2 row hr; omega)
      rw [Int.toNat_of_nonneg h0] at e1 e2
      have a1 : (PGM.Flip ⟨data, width, data.length, magicNumber, max⟩).bind PGM.Flop =
          some ⟨(data.map List.reverse).reverse, width, data.length, magicNumber, max⟩ := by
        simp only [PGM.Flip, PGM.Flop, flipGrid_eq width data h2, Option.map_some',
          Option.some_bind]
        have := swapLoop_eq_reverse (data.map List.reverse)
        rw [List.length_map] at this
        rw [this]
        rfl
      have a2 : (PGM.Flop ⟨data, width, data.length, magicNumber, max⟩).bind PGM.Flip =
          some ⟨(data.map List.reverse).reverse, width, data.length, magicNumber, max⟩ := by
        simp only [PGM.Flip, PGM.Flop, swapLoop_eq_reverse, Option.map_some',
          Option.some_bind]
        rw [flipGrid_eq width data.reverse
          (fun row hrow => h2 row (List.mem_reverse.1 hrow)), List.map_reverse]
        rfl
      refine ⟨a1, ?_, ?_⟩
      · rw [a1]
        simp only [PGM.Rotate90CW, e1, e2, Option.map_some', Option.some_bind]
      · rw [a1, a2]
  · cases ppm with
    | mk data width height magicNumber max =>
      obtain ⟨h1, h0, h2⟩ := h
      simp only at h1 h0 h2
      subst h1
      obtain ⟨g1, e1, e2⟩ := rotateGrid_twice width.toNat data.length data rfl
        (fun row hr => by have := h2 row hr; omega)
      rw [Int.toNat_of_nonneg h0] at e1 e2
      have a1 : (PPM.Flip ⟨data, width, data.length, magicNumber, max⟩).bind PPM.Flop =
          some ⟨(data.map List.reverse).reverse, width, data.length, magicNumber, max⟩ := by
        simp only [PPM.Flip, PPM.Flop, flipGrid_eq width data h2, Option.map_some',
          Option.some_bind]
        have := swapLoop_eq_reverse (data.map List.reverse)
        rw [List.length_map] at this
        rw [this]
        rfl
      have a2 : (PPM.Flop ⟨data, width, data.length, magicNumber, max⟩).bind PPM.Flip =
          some ⟨(data.map List.reverse).reverse, width, data.length, magicNumber, max⟩ := by
        simp only [PPM.Flip, PPM.Flop, swapLoop_eq_reverse, Option.map_some',
          Option.some_bind]
        rw [flipGrid_eq width data.reverse
          (fun row hrow => h2 row (List.mem_reverse.1 hrow)), List.map_reverse]
        rfl
      refine ⟨a1, ?_, ?_⟩
      · rw [a1]
        simp only [PPM.Rotate90CW, e1, e2, Option.map_some', Option.some_bind]
      · rw [a1, a2]

theorem half_turn_witness :
    (sampleGreyWide.WellFormed ∧
      sampleGreyWide.Rotate90CW.bind PGM.Rotate90CW =
        some { sampleGreyWide with data := [[6, 5, 4], [3, 2, 1]] } ∧
      sampleGreyWide.Rotate90CW.bind PGM.Rotate90CW = sampleGreyWide.Flip.bind PGM.Flop ∧
      sampleGreyWide.Flip.bind PGM.Flop = sampleGreyWide.Flop.bind PGM.Flip) ∧
    (samplePix.WellFormed ∧
      samplePix.Rotate90CW.bind PPM.Rotate90CW = samplePix.Flip.bind PPM.Flop ∧
      samplePix.Flip.bind PPM.Flop = samplePix.Flop.bind PPM.Flip) :=
  ⟨⟨by decide, by decide, (half_turn.1 sampleGreyWide (by decide)).2⟩,
    ⟨by decide, (half_turn.2 samplePix (by decide)).2⟩⟩


/-! ## Rescaling the depth of a greymap -/

/-- With a `max` that is not 0, `SetMaxValue` on a greymap does not panic: every sample `v`
becomes `(v * 5 mod 256) / max` and the stored `max` becomes the new one. -/
theorem PGM_SetMaxValue_eq (pgm : PGM) (maxValue : Nat) (hm : 1 ≤ pgm.max) :
    pgm.SetMaxValue maxValue = some { pgm with
      data := pgm.data.map (fun row => row.map (fun v => (v * 5 % 256) / pgm.max))
      max := maxValue } := by
  unfold PGM.SetMaxValue
  have hz : pgm.max ≠ 0 := by omega
  rw [mapM_map_some _ (fun row => row.map (fun v => (v * 5 % 256) / pgm.max)) pgm.data
    (fun row _ => mapM_map_some _ (fun v => (v * 5 % 256) / pgm.max) row
      (fun v _ => by unfold rescaleU8; rw [if_neg hz]))]
  rfl

/-- A sample below 52 is rescaled as the integers say. -/
theorem rescaleU8_small (v max : Nat) (hv : v ≤ 51) (hm : 1 ≤ max) :
    rescaleU8 v max = some (v * 5 / max) := by
  unfold rescaleU8
  rw [if_neg (by omega), Nat.mod_eq_of_lt (by omega)]

/-- C21: on the well-formed 1 x 3 greymap with `max = 255` and the samples 51, 52 and 255,
`SetMaxValue(100)` stores the new `max` and the samples 1, 0 and 0, whereas
`floor(v*5 / 255)` is 1, 1 and 5: for a sample above 51 the product `v * 5` does not fit a
`uint8` and wraps around before the division. -/
theorem greymap_rescale_wraps :
    brightGrey.WellFormed ∧ brightGrey.max = 255 ∧
    brightGrey.SetMaxValue 100 = some ⟨[[1, 0, 0]], 3, 1, magicP2, 100⟩ ∧
    51 * 5 / 255 = 1 ∧ 52 * 5 / 255 = 1 ∧ 255 * 5 / 255 = 5 := by
  decide


/-! ## The number of crossings of a scan line -/

/-- Along a sequence of booleans the number of changes has the parity of the change between
its two ends. -/
theorem length_filterMap_changes {β : Type} (f : Nat → Option β) (b : Nat → Bool) (k : Nat)
    (h : ∀ i, i < k → (f i).isSome = (b i != b (i + 1))) :
    ((List.range k).filterMap f).length % 2 = if b 0 = b k then 0 else 1 := by
  induction k with
  | zero => simp
  | succ k ih =>
    have ih' := ih (fun i hi => h i (by omega))
    have hk := h k (by omega)
    rw [List.range_succ, List.filterMap_append, List.length_append]
    cases hf : f k with
    | none =>
      rw [hf] at hk
      have e : b k = b (k + 1) := by
        cases h1 : b k <;> cases h2 : b (k + 1) <;> simp [h1, h2] at hk ⊢
      simp only [List.filterMap_cons, hf, List.filterMap_nil, List.length_nil, add_zero]
      rw [ih', e]
    | some v =>
      rw [hf] at hk
      have e : b k ≠ b (k + 1) := by
        cases h1 : b k <;> cases h2 : b (k + 1) <;> simp [h1, h2] at hk ⊢
      simp only [List.filterMap_cons, hf, List.filterMap_nil, List.length_cons,
        List.length_nil]
      cases h0 : b 0 <;> cases h1 : b k <;> cases h2 : b (k + 1) <;>
        simp [h0, h1, h2] at ih' e ⊢ <;> omega

theorem getElem?_getD_of_lt {α : Type} (l : List α) (d : α) (i : Nat) (h : i < l.length) :
    l[i]? = some (l.getD i d) := by
  rw [List.getD_eq_getElem?_getD, List.getElem?_eq_getElem h]
  rfl

/-- An edge of the vertex cycle gives a crossing exactly when its two ends lie on different
sides of the scan line, the side of a vertex being whether its `Y` is at most `y`. -/
theorem crossing_isSome (points : List Point) (y : Int) (i j : Nat)
    (hi : i < points.length) (hj : j < points.length) :
    (match points[i]?, points[j]? with
      | some pi, some pj =>
        if (pi.Y ≤ y ∧ y < pj.Y) ∨ (pj.Y ≤ y ∧ y < pi.Y) then
          some (interceptX y pi.Y pj.Y pi.X pj.X)
        else none
      | _, _ => none).isSome =
      (decide ((points.getD i ⟨0, 0⟩).Y ≤ y) != decide ((points.getD j ⟨0, 0⟩).Y ≤ y)) := by
  rw [getElem?_getD_of_lt points ⟨0, 0⟩ i hi, getElem?_getD_of_lt points ⟨0, 0⟩ j hj]
  generalize points.getD i ⟨0, 0⟩ = pi
  generalize points.getD j ⟨0, 0⟩ = pj
  simp only
  by_cases h1 : pi.Y ≤ y <;> by_cases h2 : pj.Y ≤ y
  · have c : ¬ ((pi.Y ≤ y ∧ y < pj.Y) ∨ (pj.Y ≤ y ∧ y < pi.Y)) := by omega
    rw [if_neg c, decide_eq_true h1, decide_eq_true h2]
    rfl
  · have c : (pi.Y ≤ y ∧ y < pj.Y) ∨ (pj.Y ≤ y ∧ y < pi.Y) := by omega
    rw [if_pos c, decide_eq_true h1, decide_eq_false h2]
    rfl
  · have c : (pi.Y ≤ y ∧ y < pj.Y) ∨ (pj.Y ≤ y ∧ y < pi.Y) := by omega
    rw [if_pos c, decide_eq_false h1, decide_eq_true h2]
    rfl
  · have c : ¬ ((pi.Y ≤ y ∧ y < pj.Y) ∨ (pj.Y ≤ y ∧ y < pi.Y)) := by omega
    rw [if_neg c, decide_eq_false h1, decide_eq_false h2]
    rfl

theorem bne_eq_of_false (x y : Bool) (h : false = (x != y)) : x = y := by
  cases x <;> cases y <;> first | rfl | exact absurd h (by decide)

theorem bne_ne_of_true (x y : Bool) (h : true = (x != y)) : x ≠ y := by
  cases x <;> cases y <;> first | exact absurd h (by decide) | decide

theorem parity_same (L : Nat) (b0 bm : Bool) (h : L % 2 = if b0 = bm then 0 else 1)
    (e : bm = b0) : L % 2 = 0 := by
  rw [h, if_pos e.symm]

theorem parity_diff (L : Nat) (b0 bm : Bool) (h : L % 2 = if b0 = bm then 0 else 1)
    (e : bm ≠ b0) : (L + 1) % 2 = 0 := by
  rw [if_neg (fun e' => e e'.symm)] at h
  omega


/-- C25: for every vertex list and every scan line `y`, `findIntersections(points, y)`
returns a list of even length, so in the pairing loop of `DrawFilledPolygon`, which runs
over the sorted list for `i = 0, 2, 4, ...` below its length, both `intersections[i]` and
`intersections[i+1]` exist. -/
theorem crossings_even (points : List Point) (y : Int) :
    (findIntersections points y).length % 2 = 0 ∧
    ∀ k, k < (((findIntersections points y).insertionSort (fun a b => a ≤ b)).length + 1) / 2 →
      ∃ x1 x2,
        ((findIntersections points y).insertionSort (fun a b => a ≤ b))[2 * k]? = some x1 ∧
        ((findIntersections points y).insertionSort (fun a b => a ≤ b))[2 * k + 1]? =
          some x2 := by
  have hev : (findIntersections points y).length % 2 = 0 := by
    unfold findIntersections
    cases hn : points.length with
    | zero => simp
    | succ m =>
      have hpath := length_filterMap_changes
        (fun (i : Nat) =>
          match points[i]?, points[(i + 1) % (m + 1)]? with
          | some pi, some pj =>
            if (pi.Y ≤ y ∧ y < pj.Y) ∨ (pj.Y ≤ y ∧ y < pi.Y) then
              some (interceptX y pi.Y pj.Y pi.X pj.X)
            else none
          | _, _ => none)
        (fun i => decide ((points.getD i ⟨0, 0⟩).Y ≤ y)) m
        (fun i hi => by
          have e : (i + 1) % (m + 1) = i + 1 := Nat.mod_eq_of_lt (by omega)
          simp only [e]
          exact crossing_isSome points y i (i + 1) (by omega) (by omega))
      have hlast := crossing_isSome points y m 0 (by omega) (by omega)
      have e0 : (m + 1) % (m + 1) = 0 := Nat.mod_self _
      rw [List.range_succ, List.filterMap_append, List.length_append]
      simp only [List.filterMap_cons, List.filterMap_nil, e0]
      cases hf : (match points[m]?, points[0]? with
        | some pi, some pj =>
          if (pi.Y ≤ y ∧ y < pj.Y) ∨ (pj.Y ≤ y ∧ y < pi.Y) then
            some (interceptX y pi.Y pj.Y pi.X pj.X)
          else none
        | _, _ => none) with
      | none =>
        rw [hf] at hlast
        simp only [List.length_nil, add_zero]
        exact parity_same _ _ _ hpath (bne_eq_of_false _ _ hlast)
      | some v =>
        rw [hf] at hlast
        simp only [List.length_cons, List.length_nil, zero_add]
        exact parity_diff _ _ _ hpath (bne_ne_of_true _ _ hlast)
  refine ⟨hev, fun k hk => ?_⟩
  have hl : ((findIntersections points y).insertionSort (fun a b => a ≤ b)).length =
      (findIntersections points y).length := List.length_insertionSort _ _
  rw [hl] at hk
  have h1 : 2 * k < ((findIntersections points y).insertionSort (fun a b => a ≤ b)).length := by
    omega
  have h2 : 2 * k + 1 <
      ((findIntersections points y).insertionSort (fun a b => a ≤ b)).length := by
    omega
  exact ⟨_, _, List.getElem?_eq_getElem h1, List.getElem?_eq_getElem h2⟩


/-! ## Rescaling the depth of a pixmap -/

theorem log_quot_lower (n d : Nat) (hn : 0 < n) (hd : 0 < d) :
    (2 : ℚ) ^ ((floorLog2 n : ℤ) - (floorLog2 d : ℤ) - 1) * d < (n : ℚ) := by
  obtain ⟨n1, _⟩ := floorLog2_spec n hn
  obtain ⟨_, d2⟩ := floorLog2_spec d hd
  have two : (2 : ℚ) ≠ 0 := by norm_num
  have n1' : (2 : ℚ) ^ (floorLog2 n : ℤ) ≤ (n : ℚ) := by
    rw [zpow_natCast]; exact_mod_cast n1
  have d2' : (d : ℚ) < (2 : ℚ) ^ ((floorLog2 d : ℤ) + 1) := by
    have : (d : ℚ) < (2 : ℚ) ^ (floorLog2 d + 1) := by exact_mod_cast d2
    rw [← zpow_natCast] at this
    simpa using this
  have e1 : (2 : ℚ) ^ (floorLog2 n : ℤ) =
      (2 : ℚ) ^ ((floorLog2 n : ℤ) - (floorLog2 d : ℤ) - 1) *
        2 ^ ((floorLog2 d : ℤ) + 1) := by
    rw [← zpow_add₀ two]; congr 1; ring
  calc (2 : ℚ) ^ ((floorLog2 n : ℤ) - (floorLog2 d : ℤ) - 1) * d
      < (2 : ℚ) ^ ((floorLog2 n : ℤ) - (floorLog2 d : ℤ) - 1) *
        2 ^ ((floorLog2 d : ℤ) + 1) :=
        mul_lt_mul_of_pos_left d2' (zpow_pos (by norm_num) _)
    _ = (2 : ℚ) ^ (floorLog2 n : ℤ) := e1.symm
    _ ≤ (n : ℚ) := n1'

/-- The exponent `roundF64` chooses for a quotient below `2 ^ 26` is at most 25. -/
theorem quotient_exponent_le (N D A B : Nat) (hN : 0 < N) (hD : 0 < D) (hB : 0 < B)
    (h : N * B = A * D) (hA : A < 2 ^ 26) :
    (if D * 2 ^ ((floorLog2 N : Int) - (floorLog2 D : Int)).toNat ≤
        N * 2 ^ (-((floorLog2 N : Int) - (floorLog2 D : Int))).toNat
      then (floorLog2 N : Int) - (floorLog2 D : Int)
      else (floorLog2 N : Int) - (floorLog2 D : Int) - 1) ≤ 25 := by
  have hDq : (0 : ℚ) < (D : ℚ) := by exact_mod_cast hD
  have hBq : (1 : ℚ) ≤ (B : ℚ) := by exact_mod_cast hB
  have hAq : (A : ℚ) < (2 : ℚ) ^ (26 : ℤ) := by
    have e26 : (2 : ℚ) ^ (26 : ℤ) = ((2 ^ 26 : ℕ) : ℚ) := by norm_num
    rw [e26]
    exact_mod_cast hA
  have hq : (N : ℚ) * B = A * D := by exact_mod_cast h
  have hi : (N : ℚ) < (2 : ℚ) ^ (26 : ℤ) * D := by
    have h1 : (N : ℚ) ≤ (N : ℚ) * B := by
      have : (0 : ℚ) ≤ (N : ℚ) := by positivity
      nlinarith
    have h2 : (A : ℚ) * D < (2 : ℚ) ^ (26 : ℤ) * D := mul_lt_mul_of_pos_right hAq hDq
    linarith
  split_ifs with t
  · have t' := (pow_pair_le D N _).1 t
    rw [mul_comm] at t'
    have := zpow_two_lt_of_mul _ _ _ _ hDq t' hi
    omega
  · have := zpow_two_lt_of_mul_lt _ _ _ _ hDq (log_quot_lower N D hN hD) hi
    omega

theorem succ_div_of_lt (q P : Nat) (h : q % P + 1 < P) : (q + 1) / P = q / P := by
  have hP : 0 < P := by omega
  have e := Nat.div_add_mod q P
  apply Nat.div_eq_of_lt_le
  · calc q / P * P = P * (q / P) := Nat.mul_comm _ _
      _ ≤ q + 1 := by omega
  · calc q + 1 = P * (q / P) + (q % P + 1) := by omega
      _ < P * (q / P) + P := by omega
      _ = (q / P + 1) * P := by ring

/-- Rounding up never reaches the next integer: if `2 * r ≥ D` in the division of `N * P` by
`D`, where `N / D = A / B` with `B < P`, the quotient is not the last one before a multiple
of `P`. -/
theorem round_up_stays (N D A B P q r : Nat) (hD : 0 < D) (hB : 0 < B)
    (h : N * B = A * D) (hBP : 2 * B ≤ 2 * P) (hqr : N * P = D * q + r) (hr : r < D)
    (hup : D ≤ 2 * r) : q % P + 1 < P := by
  by_contra hc
  have hP : 0 < P := by omega
  have hmod : q % P < P := Nat.mod_lt _ hP
  have hq : q = P * (q / P) + (P - 1) := by
    have := Nat.div_add_mod q P
    omega
  -- in the integers
  have hqZ : (q : Int) = (P : Int) * ((q / P : Nat) : Int) + ((P : Int) - 1) := by
    have : ((P - 1 : Nat) : Int) = (P : Int) - 1 := by omega
    rw [← this]
    exact_mod_cast hq
  have hqrZ : (N : Int) * P = D * q + r := by exact_mod_cast hqr
  have hZ : (N : Int) * B = A * D := by exact_mod_cast h
  have hDZ : (0 : Int) < D := by exact_mod_cast hD
  have hBZ : (0 : Int) < B := by exact_mod_cast hB
  have hPZ : (0 : Int) < P := by exact_mod_cast hP
  have hrZ : (r : Int) < D := by exact_mod_cast hr
  have hupZ : (D : Int) ≤ 2 * r := by exact_mod_cast hup
  have hBPZ : (B : Int) ≤ P := by
    have : B ≤ P := by omega
    exact_mod_cast this
  obtain ⟨F, hF⟩ : ∃ F : Int, F = ((q / P : Nat) : Int) := ⟨_, rfl⟩
  rw [← hF] at hqZ
  -- z = D * F + D - N
  have hz : (P : Int) * ((D : Int) * F + D - N) = D - r := by
    rw [hqZ] at hqrZ
    linear_combination -hqrZ
  have hzpos : (0 : Int) < (D : Int) * F + D - N := by
    by_contra hneg
    have : (P : Int) * ((D : Int) * F + D - N) ≤ 0 :=
      mul_nonpos_of_nonneg_of_nonpos (le_of_lt hPZ) (not_lt.1 hneg)
    omega
  -- u = B * (F + 1) - A
  have hu : (B : Int) * ((D : Int) * F + D - N) = D * ((B : Int) * (F + 1) - A) := by
    linear_combination -hZ
  have hupos : (0 : Int) < (B : Int) * (F + 1) - A := by
    by_contra hneg
    have h1 : (D : Int) * ((B : Int) * (F + 1) - A) ≤ 0 :=
      mul_nonpos_of_nonneg_of_nonpos (le_of_lt hDZ) (not_lt.1 hneg)
    have h2 : (0 : Int) < (B : Int) * ((D : Int) * F + D - N) := mul_pos hBZ hzpos
    omega
  -- 2 * P * z ≤ D, so 2 * P * D * u ≤ D * B
  have h2 : 2 * ((P : Int) * ((D : Int) * F + D - N)) ≤ D := by rw [hz]; omega
  have h3 : 2 * (P : Int) * ((B : Int) * ((D : Int) * F + D - N)) ≤ D * B := by
    have := mul_le_mul_of_nonneg_right h2 (le_of_lt hBZ)
    linarith
  rw [hu] at h3
  have h4 : 2 * (P : Int) * ((B : Int) * (F + 1) - A) ≤ B := by
    have h5 : (D : Int) * (2 * (P : Int) * ((B : Int) * (F + 1) - A)) ≤ D * B := by linarith
    exact le_of_mul_le_mul_left h5 hDZ
  have h6 : 2 * (P : Int) * 1 ≤ 2 * (P : Int) * ((B : Int) * (F + 1) - A) :=
    mul_le_mul_of_nonneg_left (by omega) (by omega)
  omega


theorem toInt_roundF64 (N D A B : Nat) (hN : 0 < N) (hD : 0 < D) (hB : 0 < B)
    (h : N * B = A * D) (hA : A < 2 ^ 26) (hB2 : B < 2 ^ 26) :
    F64.toInt (roundF64 (N : Int) D) = ((A / B : Nat) : Int) := by
  obtain ⟨fl, hfe, hfl⟩ : ∃ fl : Int,
      (if D * 2 ^ ((floorLog2 N : Int) - (floorLog2 D : Int)).toNat ≤
          N * 2 ^ (-((floorLog2 N : Int) - (floorLog2 D : Int))).toNat
        then (floorLog2 N : Int) - (floorLog2 D : Int)
        else (floorLog2 N : Int) - (floorLog2 D : Int) - 1) = fl ∧ fl ≤ 25 :=
    ⟨_, rfl, quotient_exponent_le N D A B hN hD hB h hA⟩
  obtain ⟨k, hk⟩ : ∃ k : Nat, (k : Int) = -(fl - 52) := ⟨(-(fl - 52)).toNat, by omega⟩
  have hk1 : (-(fl - 52)).toNat = k := by omega
  have hk0 : (fl - 52).toNat = 0 := by omega
  have hk27 : 27 ≤ k := by omega
  have hP : 2 ^ 26 ≤ 2 ^ k := Nat.pow_le_pow_right (by omega) (by omega)
  have hPpos : 0 < 2 ^ k := by positivity
  unfold roundF64
  have c0 : ¬ ((N : Int) = 0 ∨ D = 0) := by omega
  have c2 : ¬ ((N : Int) < 0) := by omega
  rw [if_neg c0]
  simp only [Int.natAbs_ofNat, hfe, hk1, hk0, pow_zero, mul_one, c2, if_false]
  generalize hq' : (if 2 * (N * 2 ^ k % D) < D then N * 2 ^ k / D
    else if D < 2 * (N * 2 ^ k % D) then N * 2 ^ k / D + 1
    else if N * 2 ^ k / D % 2 = 0 then N * 2 ^ k / D else N * 2 ^ k / D + 1) = q'
  have hcase : q' = N * 2 ^ k / D ∨
      (q' = N * 2 ^ k / D + 1 ∧ D ≤ 2 * (N * 2 ^ k % D)) := by
    rw [← hq']
    split_ifs with t1 t2 t3
    · exact Or.inl rfl
    · exact Or.inr ⟨rfl, by omega⟩
    · exact Or.inl rfl
    · exact Or.inr ⟨rfl, by omega⟩
  have hND : N / D = A / B := by
    rw [← Nat.mul_div_mul_right N D hB, h, Nat.mul_comm D B, Nat.mul_div_mul_right A B hD]
  have hq : N * 2 ^ k / D / 2 ^ k = N / D := by
    rw [Nat.div_div_eq_div_mul, Nat.mul_div_mul_right N D hPpos]
  have hdiv : q' / 2 ^ k = A / B := by
    rcases hcase with e | ⟨e, hup⟩
    · rw [e, hq, hND]
    · have := round_up_stays N D A B (2 ^ k) (N * 2 ^ k / D) (N * 2 ^ k % D) hD hB h
        (by omega) (Nat.div_add_mod _ _).symm (Nat.mod_lt _ hD) hup
      rw [e, succ_div_of_lt _ _ this, hq, hND]
  unfold F64.toInt
  have c3 : ¬ (fl - 52 ≥ 0) := by omega
  simp only [c3, if_false, hk1]
  have e6 : ((2 : Int) ^ k) = ((2 ^ k : Nat) : Int) := by push_cast; rfl
  rw [e6, Int.tdiv_eq_ediv (by positivity) (by positivity), ← hdiv]
  norm_cast

theorem exists_mantissa (x : Nat) (hx : 0 < x) (hx2 : x < 2 ^ 53) :
    ∃ j, 2 ^ 52 ≤ x * 2 ^ j ∧ x * 2 ^ j < 2 ^ 53 := by
  obtain ⟨s1, s2⟩ := floorLog2_spec x hx
  have hl : floorLog2 x ≤ 52 := floorLog2_le_of_lt x 52 hx hx2
  obtain ⟨j, hj⟩ : ∃ j, 52 = floorLog2 x + j := ⟨52 - floorLog2 x, by omega⟩
  refine ⟨j, ?_, ?_⟩
  · calc 2 ^ 52 = 2 ^ (floorLog2 x + j) := by rw [← hj]
      _ = 2 ^ floorLog2 x * 2 ^ j := pow_add _ _ _
      _ ≤ x * 2 ^ j := Nat.mul_le_mul_right _ s1
  · calc x * 2 ^ j < 2 ^ (floorLog2 x + 1) * 2 ^ j :=
          Nat.mul_lt_mul_of_pos_right s2 (by positivity)
      _ = 2 ^ (floorLog2 x + j + 1) := by rw [← pow_add]; congr 1; omega
      _ = 2 ^ 53 := by rw [← hj]

/-- The `float64` of an integer whose scaled value `x * 2 ^ j` has exactly 53 bits. -/
theorem ofInt_mantissa (x j : Nat) (h1 : 2 ^ 52 ≤ x * 2 ^ j) (h2 : x * 2 ^ j < 2 ^ 53) :
    F64.ofInt (x : Int) = ⟨((x * 2 ^ j : Nat) : Int), -(j : Int)⟩ := by
  have hx : 0 < x := by
    rcases Nat.eq_zero_or_pos x with e | e
    · rw [e, Nat.zero_mul] at h1
      exact absurd h1 (by norm_num)
    · exact e
  unfold F64.ofInt
  apply roundF64_exact x 1 _ _ hx Nat.one_pos h1 h2
  have e1 : (-(-(j : Int))).toNat = j := by omega
  have e2 : (-(j : Int)).toNat = 0 := by omega
  rw [e1, e2, pow_zero, mul_one, mul_one]

/-- The product of the `float64`s of two integers is the `float64` of their product, as long
as that is below `2 ^ 53`. -/
theorem mul_ofInt (c n : Nat) (hc : 0 < c) (hn : 0 < n) (h : c * n < 2 ^ 53) :
    F64.mul (F64.ofInt (c : Int)) (F64.ofInt (n : Int)) = F64.ofInt ((c * n : Nat) : Int) := by
  have hc2 : c < 2 ^ 53 := lt_of_le_of_lt (Nat.le_mul_of_pos_right c hn) h
  have hn2 : n < 2 ^ 53 := lt_of_le_of_lt (Nat.le_mul_of_pos_left n hc) h
  obtain ⟨jc, a1, a2⟩ := exists_mantissa c hc hc2
  obtain ⟨jn, b1, b2⟩ := exists_mantissa n hn hn2
  obtain ⟨j, d1, d2⟩ := exists_mantissa (c * n) (Nat.mul_pos hc hn) h
  rw [ofInt_mantissa c jc a1 a2, ofInt_mantissa n jn b1 b2, ofInt_mantissa (c * n) j d1 d2]
  have hj : 0 < jc + jn := by
    by_contra hz
    have z1 : jc = 0 := by omega
    have z2 : jn = 0 := by omega
    rw [z1, pow_zero, mul_one] at a1
    rw [z2, pow_zero, mul_one] at b1
    have : 2 ^ 52 * 2 ^ 52 ≤ c * n := Nat.mul_le_mul a1 b1
    have e : (2 : Nat) ^ 52 * 2 ^ 52 = 2 ^ 53 * 2 ^ 51 := by norm_num
    have : 2 ^ 53 ≤ c * n := by
      calc 2 ^ 53 ≤ 2 ^ 53 * 2 ^ 51 := Nat.le_mul_of_pos_right _ (by positivity)
        _ = 2 ^ 52 * 2 ^ 52 := e.symm
        _ ≤ c * n := this
    omega
  unfold F64.mul
  have c3 : ¬ (-(jc : Int) + -(jn : Int) ≥ 0) := by omega
  simp only [c3, if_false]
  have e1 : (-(-(jc : Int) + -(jn : Int))).toNat = jc + jn := by omega
  have e2 : ((c * 2 ^ jc : Nat) : Int) * ((n * 2 ^ jn : Nat) : Int) =
      ((c * 2 ^ jc * (n * 2 ^ jn) : Nat) : Int) := by push_cast; rfl
  rw [e1, e2]
  apply roundF64_exact _ _ _ _ (by positivity) (by positivity) d1 d2
  have e3 : (-(-(j : Int))).toNat = j := by omega
  have e4 : (-(j : Int)).toNat = 0 := by omega
  rw [e3, e4, pow_add]
  ring

/-- The quotient of the `float64`s of two small integers, converted to `int`, is their
integer quotient. -/
theorem div_ofInt_toInt (P m : Nat) (hP : 0 < P) (hm : 0 < m) (hP2 : P < 2 ^ 26)
    (hm2 : m < 2 ^ 26) :
    F64.toInt (F64.div (F64.ofInt (P : Int)) (F64.ofInt (m : Int))) = ((P / m : Nat) : Int) := by
  obtain ⟨jp, a1, a2⟩ := exists_mantissa P hP (lt_trans hP2 (by norm_num))
  obtain ⟨jm, b1, b2⟩ := exists_mantissa m hm (lt_trans hm2 (by norm_num))
  rw [ofInt_mantissa P jp a1 a2, ofInt_mantissa m jm b1 b2]
  unfold F64.div
  have cm : ¬ (((m * 2 ^ jm : Nat) : Int) < 0) := by omega
  simp only [cm, if_false, mul_one, Int.natAbs_ofNat]
  by_cases hc : -(jp : Int) ≥ -(jm : Int)
  · obtain ⟨t, ht⟩ : ∃ t, jm = jp + t := ⟨jm - jp, by omega⟩
    have e1 : (-(jp : Int) - -(jm : Int)).toNat = t := by omega
    have e2 : ((P * 2 ^ jp : Nat) : Int) * 2 ^ t = ((P * 2 ^ jp * 2 ^ t : Nat) : Int) := by
      push_cast; rfl
    rw [if_pos hc, e1, e2]
    apply toInt_roundF64 _ _ P m (by positivity) (by positivity) hm _ hP2 hm2
    rw [ht, pow_add]
    ring
  · obtain ⟨t, ht⟩ : ∃ t, jp = jm + t := ⟨jp - jm, by omega⟩
    have e1 : (-(jm : Int) - -(jp : Int)).toNat = t := by omega
    rw [if_neg hc, e1]
    apply toInt_roundF64 _ _ P m (by positivity) (by positivity) hm _ hP2 hm2
    rw [ht, pow_add]
    ring

theorem F64_mul_zero_left (b : F64) : F64.mul ⟨0, 0⟩ b = ⟨0, 0⟩ := by
  unfold F64.mul
  split_ifs <;> simp [roundF64]

theorem F64_mul_zero_right (a : F64) : F64.mul a ⟨0, 0⟩ = ⟨0, 0⟩ := by
  unfold F64.mul
  split_ifs <;> simp [roundF64]

theorem F64_div_zero_left (b : F64) : F64.div ⟨0, 0⟩ b = ⟨0, 0⟩ := by
  unfold F64.div
  split_ifs <;> simp [roundF64]

/-- The rescaling of one channel: for a channel `c` at most `max`, the `float64` expression
of `SetMaxValue` gives `floor(c * maxValue / max)`. -/
theorem rescaleF64_eq (c n m : Nat) (hm : 1 ≤ m) (hm2 : m ≤ 255) (hn : n ≤ 255)
    (hc : c ≤ m) : rescaleF64 c n m = c * n / m := by
  have hle : c * n / m ≤ 255 := by
    have : c * n / m ≤ n := Nat.div_le_of_le_mul (Nat.mul_le_mul_right n hc)
    omega
  unfold rescaleF64 F64.toUint8
  rcases Nat.eq_zero_or_pos c with hc0 | hc0
  · subst hc0
    rw [Nat.cast_zero, ofInt_zero, F64_mul_zero_left, F64_div_zero_left, Nat.zero_mul,
      Nat.zero_div]
    rfl
  · rcases Nat.eq_zero_or_pos n with hn0 | hn0
    · subst hn0
      rw [Nat.cast_zero, ofInt_zero, F64_mul_zero_right, F64_div_zero_left, Nat.mul_zero,
        Nat.zero_div]
      rfl
    · have hcn : c * n ≤ 255 * 255 := Nat.mul_le_mul (by omega) hn
      rw [mul_ofInt c n hc0 hn0 (lt_of_le_of_lt hcn (by norm_num)),
        div_ofInt_toInt (c * n) m (Nat.mul_pos hc0 hn0) (by omega)
          (lt_of_le_of_lt hcn (by norm_num)) (by omega)]
      generalize c * n / m = v at hle ⊢
      omega

/-- C22: for every pixmap with old `max` `m` between 1 and 255 whose channels are all at
most `m`, and every new `max` of a `uint8`, after `SetMaxValue(newMax)` every channel `c` has
become `floor(c * newMax / m)`, the stored `max` equals `newMax`, every channel is at most
`newMax`, the shape of a well-formed grid is kept, and `SetMaxValue(m)` with the unchanged
`max` leaves the pixmap unchanged. -/
theorem pixmap_rescale (ppm : PPM) (newMax : Nat) (hm : 1 ≤ ppm.max) (hm2 : ppm.max ≤ 255)
    (hn : newMax ≤ 255)
    (hc : ∀ row ∈ ppm.data, ∀ p ∈ row, p.R ≤ ppm.max ∧ p.G ≤ ppm.max ∧ p.B ≤ ppm.max) :
    ppm.SetMaxValue newMax = { ppm with
      data := ppm.data.map (fun row => row.map (fun p =>
        ⟨p.R * newMax / ppm.max, p.G * newMax / ppm.max, p.B * newMax / ppm.max⟩))
      max := newMax } ∧
    (ppm.SetMaxValue newMax).max = newMax ∧
    (∀ row ∈ (ppm.SetMaxValue newMax).data, ∀ p ∈ row,
      p.R ≤ newMax ∧ p.G ≤ newMax ∧ p.B ≤ newMax) ∧
    (ppm.WellFormed → (ppm.SetMaxValue newMax).WellFormed) ∧
    ppm.SetMaxValue ppm.max = ppm := by
  have hdata : ∀ n, n ≤ 255 → (ppm.SetMaxValue n).data =
      ppm.data.map (fun row => row.map (fun p =>
        (⟨p.R * n / ppm.max, p.G * n / ppm.max, p.B * n / ppm.max⟩ : Pixel))) := by
    intro n hn'
    unfold PPM.SetMaxValue
    simp only
    apply List.map_congr_left
    intro row hrow
    apply List.map_congr_left
    intro p hp
    obtain ⟨h1, h2, h3⟩ := hc row hrow p hp
    rw [rescaleF64_eq p.R n ppm.max hm hm2 hn' h1, rescaleF64_eq p.G n ppm.max hm hm2 hn' h2,
      rescaleF64_eq p.B n ppm.max hm hm2 hn' h3]
  have hle : ∀ c, c ≤ ppm.max → c * newMax / ppm.max ≤ newMax := fun c hcm =>
    Nat.div_le_of_le_mul (Nat.mul_le_mul_right newMax hcm)
  refine ⟨?_, rfl, ?_, ?_, ?_⟩
  · have := hdata newMax hn
    cases ppm with
    | mk data width height magicNumber max =>
      simp only [PPM.SetMaxValue] at this ⊢
      rw [this]
  · intro row hrow p hp
    rw [hdata newMax hn] at hrow
    obtain ⟨row0, hrow0, rfl⟩ := List.mem_map.1 hrow
    obtain ⟨p0, hp0, rfl⟩ := List.mem_map.1 hp
    obtain ⟨h1, h2, h3⟩ := hc row0 hrow0 p0 hp0
    exact ⟨hle _ h1, hle _ h2, hle _ h3⟩
  · rintro ⟨w1, w2, w3⟩
    refine ⟨?_, w2, ?_⟩
    · rw [hdata newMax hn, List.length_map]
      exact w1
    · intro row hrow
      rw [hdata newMax hn] at hrow
      obtain ⟨row0, hrow0, rfl⟩ := List.mem_map.1 hrow
      rw [List.length_map]
      exact w3 row0 hrow0
  · have := hdata ppm.max hm2
    cases ppm with
    | mk data width height magicNumber max =>
      simp only [PPM.SetMaxValue] at this ⊢
      rw [this]
      congr 1
      have hpos : 0 < max := hm
      calc data.map (fun row => row.map (fun p =>
            (⟨p.R * max / max, p.G * max / max, p.B * max / max⟩ : Pixel)))
          = data.map (fun row => row.map (fun p => p)) := by
            apply List.map_congr_left
            intro row _
            apply List.map_congr_left
            intro p _
            rw [Nat.mul_div_cancel _ hpos, Nat.mul_div_cancel _ hpos,
              Nat.mul_div_cancel _ hpos]
        _ = data := by simp

theorem pixmap_rescale_witness :
    samplePix.SetMaxValue 100 =
      { samplePix with
        data := [[⟨0, 0, 1⟩, ⟨1, 1, 2⟩], [⟨3, 7, 11⟩, ⟨15, 19, 100⟩]], max := 100 } ∧
    samplePix.SetMaxValue 255 = samplePix :=
  ⟨((pixmap_rescale samplePix 100 (by decide) (by decide) (by decide) (by decide)).1).trans
      (by decide),
    (pixmap_rescale samplePix samplePix.max (by decide) (by decide) (by decide)
      (by decide)).2.2.2.2⟩


/-! ## Every line ends -/

/-- The loop of `DrawLine` on any line: with `a` steps along `x` and `b` steps along `y` still
to go, the error term is `dx - dy + a*dy - b*dx`, every pass makes one of the steps that are
still to go, and the loop breaks at `p2` within `a + b + 1` passes. -/
theorem drawLineLoop_total (w h : Nat) (p2 : Point) (dx dy : Nat) (sx sy : Int)
    (color : Pixel) (hsx : 0 < dx → sx ≠ 0) (hsy : 0 < dy → sy ≠ 0) :
    ∀ (r fuel : Nat) (data : List (List Pixel)) (p : Point) (a b : Nat),
      a + b ≤ r → r < fuel → a ≤ dx → b ≤ dy → Shape w h data →
      p2.X = p.X + (a : Int) * sx → p2.Y = p.Y + (b : Int) * sy →
      ∃ d', drawLineLoop (w : Int) (h : Int) p2 (dx : Int) (dy : Int) sx sy color fuel data p
          ((dx : Int) - (dy : Int) + (a : Int) * (dy : Int) - (b : Int) * (dx : Int)) =
            .done d' ∧ Shape w h d' ∧
        (∀ rr cc : Nat, cell d' rr cc = some color ∨ cell d' rr cc = cell data rr cc) ∧
        (∀ rr cc : Nat, rr < h → cc < w → (cc : Int) = p.X → (rr : Int) = p.Y →
          cell d' rr cc = some color) ∧
        (∀ rr cc : Nat, rr < h → cc < w → (cc : Int) = p2.X → (rr : Int) = p2.Y →
          cell d' rr cc = some color) := by
  intro r
  induction r with
  | zero =>
    intro fuel data p a b hab hf ha hb hd hX hY
    obtain ⟨f, rfl⟩ : ∃ f, fuel = f + 1 := ⟨fuel - 1, by omega⟩
    have a0 : a = 0 := by omega
    have b0 : b = 0 := by omega
    subst a0 b0
    obtain ⟨d', h1, h2, h3, h4⟩ := plot_spec w h data p color hd
    have eX : p.X = p2.X := by rw [hX]; simp
    have eY : p.Y = p2.Y := by rw [hY]; simp
    refine ⟨d', ?_, h2, ?_, h3, ?_⟩
    · unfold drawLineLoop
      rw [h1]
      simp only [eX, eY, and_self, if_true]
    · intro rr cc
      by_cases e : (cc : Int) = p.X ∧ (rr : Int) = p.Y
      · by_cases hin : rr < h ∧ cc < w
        · exact Or.inl (h3 rr cc hin.1 hin.2 e.1 e.2)
        · right
          have n1 : cell d' rr cc = none := by
            unfold cell
            by_cases hr : rr < h
            · have hc : ¬ cc < w := fun hc => hin ⟨hr, hc⟩
              have hr' : rr < d'.length := by rw [h2.1]; exact hr
              rw [List.getElem?_eq_getElem hr']
              simp only
              exact List.getElem?_eq_none
                (by rw [h2.2 _ (List.getElem_mem hr')]; omega)
            · rw [List.getElem?_eq_none (by rw [h2.1]; omega)]
          have n2 : cell data rr cc = none := by
            unfold cell
            by_cases hr : rr < h
            · have hc : ¬ cc < w := fun hc => hin ⟨hr, hc⟩
              have hr' : rr < data.length := by rw [hd.1]; exact hr
              rw [List.getElem?_eq_getElem hr']
              simp only
              exact List.getElem?_eq_none
                (by rw [hd.2 _ (List.getElem_mem hr')]; omega)
            · rw [List.getElem?_eq_none (by rw [hd.1]; omega)]
          rw [n1, n2]
      · exact Or.inr (h4 rr cc e)
    · intro rr cc hr hc e1 e2
      exact h3 rr cc hr hc (by omega) (by omega)
  | succ r ih =>
    intro fuel data p a b hab hf ha hb hd hX hY
    obtain ⟨f, rfl⟩ : ∃ f, fuel = f + 1 := ⟨fuel - 1, by omega⟩
    obtain ⟨d1, h1, h2, h3, h4⟩ := plot_spec w h data p color hd
    have hmono : ∀ rr cc : Nat, cell d1 rr cc = some color ∨ cell d1 rr cc = cell data rr cc := by
      intro rr cc
      by_cases e : (cc : Int) = p.X ∧ (rr : Int) = p.Y
      · by_cases hin : rr < h ∧ cc < w
        · exact Or.inl (h3 rr cc hin.1 hin.2 e.1 e.2)
        · right
          have n1 : cell d1 rr cc = none := by
            unfold cell
            by_cases hr : rr < h
            · have hc : ¬ cc < w := fun hc => hin ⟨hr, hc⟩
              have hr' : rr < d1.length := by rw [h2.1]; exact hr
              rw [List.getElem?_eq_getElem hr']
              simp only
              exact List.getElem?_eq_none
                (by rw [h2.2 _ (List.getElem_mem hr')]; omega)
            · rw [List.getElem?_eq_none (by rw [h2.1]; omega)]
          have n2 : cell data rr cc = none := by
            unfold cell
            by_cases hr : rr < h
            · have hc : ¬ cc < w := fun hc => hin ⟨hr, hc⟩
              have hr' : rr < data.length := by rw [hd.1]; exact hr
              rw [List.getElem?_eq_getElem hr']
              simp only
              exact List.getElem?_eq_none
                (by rw [hd.2 _ (List.getElem_mem hr')]; omega)
            · rw [List.getElem?_eq_none (by rw [hd.1]; omega)]
          rw [n1, n2]
      · exact Or.inr (h4 rr cc e)
    by_cases hend : a = 0 ∧ b = 0
    · obtain ⟨a0, b0⟩ := hend
      subst a0 b0
      have eX : p.X = p2.X := by rw [hX]; simp
      have eY : p.Y = p2.Y := by rw [hY]; simp
      refine ⟨d1, ?_, h2, hmono, h3, ?_⟩
      · unfold drawLineLoop
        rw [h1]
        simp only [eX, eY, and_self, if_true]
      · intro rr cc hr hc e1 e2
        exact h3 rr cc hr hc (by omega) (by omega)
    · have hne : ¬ (p.X = p2.X ∧ p.Y = p2.Y) := by
        rintro ⟨e1, e2⟩
        by_cases ha0 : a = 0
        · have hb0 : 0 < b := by omega
          have : (b : Int) * sy = 0 := by rw [hY] at e2; linarith
          rcases mul_eq_zero.1 this with h0 | h0
          · omega
          · exact hsy (by omega) h0
        · have : (a : Int) * sx = 0 := by rw [hX] at e1; linarith
          rcases mul_eq_zero.1 this with h0 | h0
          · omega
          · exact hsx (by omega) h0
      -- the products in the error term
      have pa : (0 : Int) ≤ (a : Int) * (dy : Int) := by positivity
      have pb : (0 : Int) ≤ (b : Int) * (dx : Int) := by positivity
      have pa1 : 0 < a → (dy : Int) ≤ (a : Int) * (dy : Int) := fun h0 => by
        have : (1 : Int) ≤ (a : Int) := by omega
        nlinarith
      have pb1 : 0 < b → (dx : Int) ≤ (b : Int) * (dx : Int) := fun h0 => by
        have : (1 : Int) ≤ (b : Int) := by omega
        nlinarith
      have pa0 : a = 0 → (a : Int) * (dy : Int) = 0 := fun h0 => by rw [h0]; simp
      have pb0 : b = 0 → (b : Int) * (dx : Int) = 0 := fun h0 => by rw [h0]; simp
      generalize hA : (a : Int) * (dy : Int) = A at pa pa1 pa0
      generalize hB : (b : Int) * (dx : Int) = B at pb pb1 pb0
      -- which steps are made
      have stepx : 2 * ((dx : Int) - (dy : Int) + A - B) > -(dy : Int) → 0 < a := by
        intro c
        by_contra h0
        have a0 : a = 0 := by omega
        have := pa0 a0
        have hb0 : 0 < b := by omega
        have := pb1 hb0
        omega
      have stepy : 2 * ((dx : Int) - (dy : Int) + A - B) < (dx : Int) → 0 < b := by
        intro c
        by_contra h0
        have b0 : b = 0 := by omega
        have := pb0 b0
        have ha0 : 0 < a := by omega
        have := pa1 ha0
        omega
      have progress : 2 * ((dx : Int) - (dy : Int) + A - B) > -(dy : Int) ∨
          2 * ((dx : Int) - (dy : Int) + A - B) < (dx : Int) := by
        by_contra hc
        have c1 : ¬ 2 * ((dx : Int) - (dy : Int) + A - B) > -(dy : Int) := fun c => hc (Or.inl c)
        have c2 : ¬ 2 * ((dx : Int) - (dy : Int) + A - B) < (dx : Int) := fun c => hc (Or.inr c)
        omega
      by_cases cx : 2 * ((dx : Int) - (dy : Int) + A - B) > -(dy : Int)
      · obtain ⟨a', ha'⟩ : ∃ a', a = a' + 1 := ⟨a - 1, by have := stepx cx; omega⟩
        by_cases cy : 2 * ((dx : Int) - (dy : Int) + A - B) < (dx : Int)
        · obtain ⟨b', hb'⟩ : ∃ b', b = b' + 1 := ⟨b - 1, by have := stepy cy; omega⟩
          obtain ⟨d', g1, g2, g3, g4, g5⟩ := ih f d1 ⟨p.X + sx, p.Y + sy⟩ a' b'
            (by omega) (by omega) (by omega) (by omega) h2
            (by rw [hX, ha']; push_cast; ring) (by rw [hY, hb']; push_cast; ring)
          have ee : (dx : Int) - (dy : Int) + A - B - (dy : Int) + (dx : Int) =
              (dx : Int) - (dy : Int) + (a' : Int) * (dy : Int) - (b' : Int) * (dx : Int) := by
            rw [← hA, ← hB, ha', hb']; push_cast; ring
          refine ⟨d', ?_, g2, ?_, ?_, g5⟩
          · unfold drawLineLoop
            rw [h1]
            simp only [hne, if_false, cx, cy, if_true, ee]
            exact g1
          · intro rr cc
            rcases g3 rr cc with e | e
            · exact Or.inl e
            · rw [e]; exact hmono rr cc
          · intro rr cc hr hc e1 e2
            rcases g3 rr cc with e | e
            · exact e
            · rw [e]; exact h3 rr cc hr hc e1 e2
        · obtain ⟨d', g1, g2, g3, g4, g5⟩ := ih f d1 ⟨p.X + sx, p.Y⟩ a' b
            (by omega) (by omega) (by omega) (by omega) h2
            (by rw [hX, ha']; push_cast; ring) hY
          have ee : (dx : Int) - (dy : Int) + A - B - (dy : Int) =
              (dx : Int) - (dy : Int) + (a' : Int) * (dy : Int) - (b : Int) * (dx : Int) := by
            rw [← hA, ← hB, ha']; push_cast; ring
          refine ⟨d', ?_, g2, ?_, ?_, g5⟩
          · unfold drawLineLoop
            rw [h1]
            simp only [hne, if_false, cx, cy, if_true, ee]
            exact g1
          · intro rr cc
            rcases g3 rr cc with e | e
            · exact Or.inl e
            · rw [e]; exact hmono rr cc
          · intro rr cc hr hc e1 e2
            rcases g3 rr cc with e | e
            · exact e
            · rw [e]; exact h3 rr cc hr hc e1 e2
      · have cy : 2 * ((dx : Int) - (dy : Int) + A - B) < (dx : Int) := by
          rcases progress with c | c
          · exact absurd c cx
          · exact c
        obtain ⟨b', hb'⟩ : ∃ b', b = b' + 1 := ⟨b - 1, by have := stepy cy; omega⟩
        obtain ⟨d', g1, g2, g3, g4, g5⟩ := ih f d1 ⟨p.X, p.Y + sy⟩ a b'
          (by omega) (by omega) (by omega) (by omega) h2
          hX (by rw [hY, hb']; push_cast; ring)
        have ee : (dx : Int) - (dy : Int) + A - B + (dx : Int) =
            (dx : Int) - (dy : Int) + (a : Int) * (dy : Int) - (b' : Int) * (dx : Int) := by
          rw [← hA, ← hB, hb']; push_cast; ring
        refine ⟨d', ?_, g2, ?_, ?_, g5⟩
        · unfold drawLineLoop
          rw [h1]
          simp only [hne, if_false, cx, cy, if_true, ee]
          exact g1
        · intro rr cc
          rcases g3 rr cc with e | e
          · exact Or.inl e
          · rw [e]; exact hmono rr cc
        · intro rr cc hr hc e1 e2
          rcases g3 rr cc with e | e
          · exact e
          · rw [e]; exact h3 rr cc hr hc e1 e2

/-- C24: for every well-formed pixmap and every pair of points `p1`, `p2`, the loop of
`DrawLine` ends with `p1 == p2` after at most `|Δx| + |Δy|` passes that move the point (so
`|Δx| + |Δy| + 1` passes are enough `fuel`), without a panic: it never indexes outside the
grid. Both end points are coloured when they are in bounds, every pixel is either coloured or
unchanged, and width, height, magic number, `max` and the shape of the grid are kept. -/
theorem drawLine_total (ppm : PPM) (p1 p2 : Point) (color : Pixel) (fuel : Nat)
    (hwf : ppm.WellFormed)
    (hfuel : abs (p2.X - p1.X) + abs (p2.Y - p1.Y) < (fuel : Int)) :
    ∃ r, PPM.DrawLine fuel ppm p1 p2 color = .done r ∧
      r.width = ppm.width ∧ r.height = ppm.height ∧ r.magicNumber = ppm.magicNumber ∧
      r.max = ppm.max ∧ r.WellFormed ∧
      (isWithinBounds p1.X p1.Y ppm.width ppm.height = true →
        r.At p1.X.toNat p1.Y.toNat = some color) ∧
      (isWithinBounds p2.X p2.Y ppm.width ppm.height = true →
        r.At p2.X.toNat p2.Y.toNat = some color) ∧
      (∀ x y : Nat, r.At x y = some color ∨ r.At x y = ppm.At x y) := by
  obtain ⟨hl, hw0, hrows⟩ := hwf
  have hd : Shape ppm.width.toNat ppm.height.toNat ppm.data :=
    ⟨by omega, fun row hrow => by have := hrows row hrow; omega⟩
  have hh0 : 0 ≤ ppm.height := by omega
  have hdx := abs_nonneg_int (p2.X - p1.X)
  have hdy := abs_nonneg_int (p2.Y - p1.Y)
  obtain ⟨dx, edx⟩ : ∃ dx : Nat, abs (p2.X - p1.X) = (dx : Int) :=
    ⟨(abs (p2.X - p1.X)).toNat, by omega⟩
  obtain ⟨dy, edy⟩ : ∃ dy : Nat, abs (p2.Y - p1.Y) = (dy : Int) :=
    ⟨(abs (p2.Y - p1.Y)).toNat, by omega⟩
  have hX : p2.X = p1.X + (dx : Int) * sign (p2.X - p1.X) := by
    rw [← edx, ← abs_mul_sign]; ring
  have hY : p2.Y = p1.Y + (dy : Int) * sign (p2.Y - p1.Y) := by
    rw [← edy, ← abs_mul_sign]; ring
  obtain ⟨d', g1, g2, g3, g4, g5⟩ := drawLineLoop_total ppm.width.toNat ppm.height.toNat p2
    dx dy (sign (p2.X - p1.X)) (sign (p2.Y - p1.Y)) color
    (fun h0 => sign_of_abs_pos _ (by omega)) (fun h0 => sign_of_abs_pos _ (by omega))
    (dx + dy) fuel ppm.data p1 dx dy (le_refl _) (by omega) (le_refl _) (le_refl _) hd hX hY
  have eerr : (dx : Int) - (dy : Int) + (dx : Int) * (dy : Int) - (dy : Int) * (dx : Int) =
      (dx : Int) - (dy : Int) := by ring
  rw [Int.toNat_of_nonneg hw0, Int.toNat_of_nonneg hh0, eerr] at g1
  refine ⟨{ ppm with data := d' }, ?_, rfl, rfl, rfl, rfl, ?_, ?_, ?_, ?_⟩
  · unfold PPM.DrawLine
    simp only [edx, edy, g1]
  · exact ⟨by have := g2.1; simp only; omega, hw0, fun row hrow => by
      have := g2.2 row hrow
      simp only at hrow ⊢
      omega⟩
  · intro hb
    simp only [isWithinBounds, Bool.and_eq_true, decide_eq_true_eq] at hb
    unfold PPM.At
    exact g4 p1.Y.toNat p1.X.toNat (by omega) (by omega) (by omega) (by omega)
  · intro hb
    simp only [isWithinBounds, Bool.and_eq_true, decide_eq_true_eq] at hb
    unfold PPM.At
    exact g5 p2.Y.toNat p2.X.toNat (by omega) (by omega) (by omega) (by omega)
  · intro x y
    unfold PPM.At
    exact g3 y x

theorem drawLine_total_witness :
    (blankCanvas 4 4).WellFormed ∧
    PPM.DrawLine 5 (blankCanvas 4 4) ⟨0, 0⟩ ⟨3, 1⟩ ⟨9, 9, 9⟩ =
      .done ⟨[[⟨9, 9, 9⟩, ⟨9, 9, 9⟩, ⟨0, 0, 0⟩, ⟨0, 0, 0⟩],
        [⟨0, 0, 0⟩, ⟨0, 0, 0⟩, ⟨9, 9, 9⟩, ⟨9, 9, 9⟩],
        List.replicate 4 ⟨0, 0, 0⟩, List.replicate 4 ⟨0, 0, 0⟩], 4, 4, magicP3, 255⟩ ∧
    ∃ r, PPM.DrawLine 6 (blankCanvas 4 4) ⟨-2, 1⟩ ⟨1, 3⟩ ⟨9, 9, 9⟩ = .done r ∧
      r.width = (blankCanvas 4 4).width ∧ r.height = (blankCanvas 4 4).height ∧
      r.magicNumber = (blankCanvas 4 4).magicNumber ∧
      r.max = (blankCanvas 4 4).max ∧ r.WellFormed ∧
      (isWithinBounds (-2) 1 (blankCanvas 4 4).width (blankCanvas 4 4).height = true →
        r.At ((-2 : Int)).toNat ((1 : Int)).toNat = some ⟨9, 9, 9⟩) ∧
      (isWithinBounds 1 3 (blankCanvas 4 4).width (blankCanvas 4 4).height = true →
        r.At ((1 : Int)).toNat ((3 : Int)).toNat = some ⟨9, 9, 9⟩) ∧
      (∀ x y : Nat, r.At x y = some ⟨9, 9, 9⟩ ∨ r.At x y = (blankCanvas 4 4).At x y) :=
  ⟨by decide, by decide,
    drawLine_total (blankCanvas 4 4) ⟨-2, 1⟩ ⟨1, 3⟩ ⟨9, 9, 9⟩ 6 (by decide) (by decide)⟩


/-! ## Comment lines in the header -/

theorem scanLines_line_gen (l rest : List Nat) (h : 10 ∉ l) :
    scanLines (l ++ 10 :: rest) =
      if l.length < MaxScanTokenSize then dropCR l :: scanLines rest else [] := by
  unfold scanLines
  rw [scanLinesAux_line l rest [] h]
  simp only [List.nil_append]

theorem joinLines_cons (l : List Nat) (ls : List (List Nat)) (x : List Nat) :
    joinLines (l :: ls) ++ x = l ++ 10 :: (joinLines ls ++ x) := by
  unfold joinLines
  simp

/-- The lines before a line boundary are scanned the same way whatever follows, unless the
scanner has stopped at one of them. -/
theorem scanLines_joinLines (ls : List (List Nat)) (hls : ∀ l ∈ ls, 10 ∉ l) :
    ∃ L, (∀ x, scanLines (joinLines ls ++ x) = L ++ scanLines x) ∨
      (∀ x, scanLines (joinLines ls ++ x) = L) := by
  induction ls with
  | nil => exact ⟨[], Or.inl (fun x => by simp [joinLines])⟩
  | cons l t ih =>
    obtain ⟨L, hL⟩ := ih (fun l' hl' => hls l' (List.mem_cons_of_mem _ hl'))
    have h10 := hls l (List.mem_cons_self _ _)
    by_cases hlen : l.length < MaxScanTokenSize
    · rcases hL with hL | hL
      · refine ⟨dropCR l :: L, Or.inl (fun x => ?_)⟩
        rw [joinLines_cons, scanLines_line_gen _ _ h10, if_pos hlen, hL]
        rfl
      · refine ⟨dropCR l :: L, Or.inr (fun x => ?_)⟩
        rw [joinLines_cons, scanLines_line_gen _ _ h10, if_pos hlen, hL]
    · refine ⟨[], Or.inr (fun x => ?_)⟩
      rw [joinLines_cons, scanLines_line_gen _ _ h10, if_neg hlen]

theorem startsWithHash_dropCR (c : List Nat) (h : startsWithHash c = true) :
    startsWithHash (dropCR c) = true := by
  cases c with
  | nil => exact absurd h (by decide)
  | cons a t =>
    have ha : a = 35 := by simpa [startsWithHash] using h
    subst ha
    unfold dropCR
    split_ifs with hc
    · cases t with
      | nil => exact absurd hc (by decide)
      | cons b u => rfl
    · rfl

theorem runLines_insert_skipped {σ : Type} (body : σ → List Nat → Step σ) (c : List Nat)
    (hc : ∀ s, body s c = .next s) (L M : List (List Nat)) :
    ∀ s, runLines body s (L ++ c :: M) = runLines body s (L ++ M) := by
  induction L with
  | nil =>
    intro s
    rw [List.nil_append, List.nil_append, runLines_next _ _ _ _ _ (hc s)]
  | cons l t ih =>
    intro s
    rw [List.cons_append, List.cons_append]
    cases hb : body s l with
    | next s1 =>
      rw [runLines_next _ _ _ _ _ hb, runLines_next _ _ _ _ _ hb]
      exact ih s1
    | stop s1 => rw [runLines_stop _ _ _ _ _ hb, runLines_stop _ _ _ _ _ hb]
    | panic => simp only [runLines, hb]

/-- A run of the line loop is also a run of a second body that agrees with the first on every
pass that goes on, and on a pass that stops when the state it stops with satisfies `C`. -/
theorem runLines_transfer {σ : Type} (body body' : σ → List Nat → Step σ) (C : σ → Prop)
    (hnext : ∀ s t s1, body s t = .next s1 → body' s t = .next s1)
    (hstop : ∀ s t s1, body s t = .stop s1 → C s1 → body' s t = .stop s1) :
    ∀ (lines : List (List Nat)) (s res : σ), runLines body s lines = some res → C res →
      runLines body' s lines = some res := by
  intro lines
  induction lines with
  | nil =>
    intro s res h _
    simp only [runLines] at h ⊢
    exact h
  | cons t rest ih =>
    intro s res h hC
    cases hb : body s t with
    | next s1 =>
      rw [runLines_next _ _ _ _ _ hb] at h
      rw [runLines_next _ _ _ _ _ (hnext s t s1 hb)]
      exact ih s1 res h hC
    | stop s1 =>
      rw [runLines_stop _ _ _ _ _ hb] at h
      simp only [Option.some.injEq] at h
      subst h
      rw [runLines_stop _ _ _ _ _ (hstop s t s1 hb hC)]
    | panic =>
      simp only [runLines, hb] at h
      exact absurd h (by simp)

theorem tail_drop (A post : List Nat) (N : Nat) (h : N ≤ post.length) :
    (A ++ post).drop ((A ++ post).length - N) = post.drop (post.length - N) := by
  have e : (A ++ post).length - N = A.length + (post.length - N) := by
    rw [List.length_append]; omega
  rw [e, List.drop_append]

/-- The body of `ReadPGM` looks at the file only in its `P5` branch, and there only at the
last `width * height` bytes. -/
theorem PGM_readLine_suffix (A A' post : List Nat) (st : PGM × Nat) (t : List Nat) :
    (∀ s1, PGM.readLine (A ++ post) st t = .next s1 →
      PGM.readLine (A' ++ post) st t = .next s1) ∧
    (∀ s1, PGM.readLine (A ++ post) st t = .stop s1 →
      (s1.1.magicNumber = magicP5 → s1.1.width * s1.1.height ≤ (post.length : Int)) →
      PGM.readLine (A' ++ post) st t = .stop s1) := by
  by_cases hbin : startsWithHash t = false ∧ st.1.magicNumber ≠ [] ∧ st.1.width ≠ 0 ∧
      st.1.max ≠ 0 ∧ st.1.magicNumber ≠ magicP2 ∧ st.1.magicNumber = magicP5
  · obtain ⟨b1, b2, b3, b4, b5, b6⟩ := hbin
    have e1 : magicP5 ≠ [] := by decide
    have e2 : magicP5 ≠ magicP2 := by decide
    constructor
    · intro s1 hn
      simp only [PGM.readLine, b1, b3, b4, b6, e1, e2, Bool.false_eq_true, if_false,
        if_true] at hn
      split_ifs at hn
      cases hu : PGM.unpackP5 st.1.width st.1.height
          ((A ++ post).drop ((A ++ post).length - (st.1.width * st.1.height).toNat))
          st.1.data with
      | none => rw [hu] at hn; exact absurd hn (by simp)
      | some r => rw [hu] at hn; exact absurd hn (by simp)
    · intro s1 hstop hcond
      simp only [PGM.readLine, b1, b3, b4, b6, e1, e2, Bool.false_eq_true, if_false,
        if_true] at hstop ⊢
      split_ifs at hstop with hp
      cases hu : PGM.unpackP5 st.1.width st.1.height
          ((A ++ post).drop ((A ++ post).length - (st.1.width * st.1.height).toNat))
          st.1.data with
      | none => rw [hu] at hstop; exact absurd hstop (by simp)
      | some r =>
        rw [hu] at hstop
        simp only [Step.stop.injEq] at hstop
        subst hstop
        have hN := hcond rfl
        simp only at hN
        have hN' : (st.1.width * st.1.height).toNat ≤ post.length := by omega
        have hp' : ¬ (st.1.width * st.1.height < 0 ∨
            ((A' ++ post).length : Int) < st.1.width * st.1.height) := by
          rw [List.length_append]; push_cast; omega
        rw [if_neg hp', tail_drop A' post _ hN', ← tail_drop A post _ hN', hu]
  · have key : PGM.readLine (A ++ post) st t = PGM.readLine (A' ++ post) st t := by
      unfold PGM.readLine
      simp only
      split_ifs <;> first
        | rfl
        | exact absurd (by
            refine ⟨?_, ?_, ?_, ?_, ?_, ?_⟩ <;> first | assumption | simpa using ‹¬ startsWithHash t = true›) hbin
    rw [← key]
    exact ⟨fun s1 h => h, fun s1 h _ => h⟩


/-- The body of `ReadPPM` looks at the file only in its `P6` branch, and there only at the
last `width * height * 3` bytes. -/
theorem PPM_readLine_suffix (A A' post : List Nat) (st : PPM × Nat) (t : List Nat) :
    (∀ s1, PPM.readLine (A ++ post) st t = .next s1 →
      PPM.readLine (A' ++ post) st t = .next s1) ∧
    (∀ s1, PPM.readLine (A ++ post) st t = .stop s1 →
      (s1.1.magicNumber = magicP6 → s1.1.width * s1.1.height * 3 ≤ (post.length : Int)) →
      PPM.readLine (A' ++ post) st t = .stop s1) := by
  by_cases hbin : startsWithHash t = false ∧ st.1.magicNumber ≠ [] ∧ st.1.width ≠ 0 ∧
      st.1.max ≠ 0 ∧ st.1.magicNumber ≠ magicP3 ∧ st.1.magicNumber = magicP6
  · obtain ⟨b1, b2, b3, b4, b5, b6⟩ := hbin
    have e1 : magicP6 ≠ [] := by decide
    have e2 : magicP6 ≠ magicP3 := by decide
    constructor
    · intro s1 hn
      simp only [PPM.readLine, b1, b3, b4, b6, e1, e2, Bool.false_eq_true, if_false,
        if_true] at hn
      split_ifs at hn
      cases hu : PPM.unpackP6 st.1.width st.1.height
          ((A ++ post).drop ((A ++ post).length - (st.1.width * st.1.height * 3).toNat))
          st.1.data with
      | none => rw [hu] at hn; exact absurd hn (by simp)
      | some r => rw [hu] at hn; exact absurd hn (by simp)
    · intro s1 hstop hcond
      simp only [PPM.readLine, b1, b3, b4, b6, e1, e2, Bool.false_eq_true, if_false,
        if_true] at hstop ⊢
      split_ifs at hstop with hp
      cases hu : PPM.unpackP6 st.1.width st.1.height
          ((A ++ post).drop ((A ++ post).length - (st.1.width * st.1.height * 3).toNat))
          st.1.data with
      | none => rw [hu] at hstop; exact absurd hstop (by simp)
      | some r =>
        rw [hu] at hstop
        simp only [Step.stop.injEq] at hstop
        subst hstop
        have hN := hcond rfl
        simp only at hN
        have hN' : (st.1.width * st.1.height * 3).toNat ≤ post.length := by omega
        have hp' : ¬ (st.1.width * st.1.height * 3 < 0 ∨
            ((A' ++ post).length : Int) < st.1.width * st.1.height * 3) := by
          rw [List.length_append]; push_cast; omega
        rw [if_neg hp', tail_drop A' post _ hN', ← tail_drop A post _ hN', hu]
  · have key : PPM.readLine (A ++ post) st t = PPM.readLine (A' ++ post) st t := by
      unfold PPM.readLine
      simp only
      split_ifs <;> first
        | rfl
        | exact absurd (by
            refine ⟨?_, ?_, ?_, ?_, ?_, ?_⟩ <;> first | assumption | simpa using ‹¬ startsWithHash t = true›) hbin
    rw [← key]
    exact ⟨fun s1 h => h, fun s1 h _ => h⟩

/-- The body of `ReadPBM` looks at the file only in its `P4` branch, and there only at the
last `ceil(width / 8) * height` bytes. -/
theorem PBM_readLine_suffix (A A' post : List Nat) (st : PBM × Nat) (t : List Nat) :
    (∀ s1, PBM.readLine (A ++ post) st t = .next s1 →
      PBM.readLine (A' ++ post) st t = .next s1) ∧
    (∀ s1, PBM.readLine (A ++ post) st t = .stop s1 →
      (s1.1.magicNumber = magicP4 →
        (s1.1.width + 7).tdiv 8 * s1.1.height ≤ (post.length : Int)) →
      PBM.readLine (A' ++ post) st t = .stop s1) := by
  by_cases hbin : ¬ (t = [] ∨ startsWithHash t = true) ∧ st.1.magicNumber ≠ [] ∧
      st.1.width ≠ 0 ∧ st.1.magicNumber ≠ magicP1 ∧ st.1.magicNumber = magicP4
  · obtain ⟨b1, b2, b3, b5, b6⟩ := hbin
    have e1 : magicP4 ≠ [] := by decide
    have e2 : magicP4 ≠ magicP1 := by decide
    constructor
    · intro s1 hn
      simp only [PBM.readLine, b1, b3, b6, e1, e2, if_false, if_true] at hn
      split_ifs at hn
      cases hu : PBM.unpackP4 st.1.width st.1.height
          ((A ++ post).drop
            ((A ++ post).length - ((st.1.width + 7).tdiv 8 * st.1.height).toNat))
          st.1.data with
      | none => rw [hu] at hn; exact absurd hn (by simp)
      | some r => rw [hu] at hn; exact absurd hn (by simp)
    · intro s1 hstop hcond
      simp only [PBM.readLine, b1, b3, b6, e1, e2, if_false, if_true] at hstop ⊢
      split_ifs at hstop with hp
      cases hu : PBM.unpackP4 st.1.width st.1.height
          ((A ++ post).drop
            ((A ++ post).length - ((st.1.width + 7).tdiv 8 * st.1.height).toNat))
          st.1.data with
      | none => rw [hu] at hstop; exact absurd hstop (by simp)
      | some r =>
        rw [hu] at hstop
        simp only [Step.stop.injEq] at hstop
        subst hstop
        have hN := hcond rfl
        simp only at hN
        have hN' : ((st.1.width + 7).tdiv 8 * st.1.height).toNat ≤ post.length := by omega
        have hp' : ¬ ((st.1.width + 7).tdiv 8 * st.1.height < 0 ∨
            ((A' ++ post).length : Int) < (st.1.width + 7).tdiv 8 * st.1.height) := by
          rw [List.length_append]; push_cast; omega
        rw [if_neg hp', tail_drop A' post _ hN', ← tail_drop A post _ hN', hu]
  · have key : PBM.readLine (A ++ post) st t = PBM.readLine (A' ++ post) st t := by
      unfold PBM.readLine
      simp only
      split_ifs <;> first
        | rfl
        | exact absurd (by
            refine ⟨?_, ?_, ?_, ?_, ?_⟩ <;> assumption) hbin
    rw [← key]
    exact ⟨fun s1 h => h, fun s1 h _ => h⟩

theorem append_comment (A c post : List Nat) :
    A ++ (c ++ [10]) ++ post = A ++ (c ++ 10 :: post) := by
  simp

/-- A comment line of less than 64 KiB at a line boundary does not change what `ReadPGM`
returns, if a `P5` raster gets its bytes from behind the comment. -/
theorem ReadPGM_comment (ls : List (List Nat)) (c post : List Nat)
    (hls : ∀ l ∈ ls, 10 ∉ l) (hc : startsWithHash c = true) (hc10 : 10 ∉ c)
    (hlen : c.length < MaxScanTokenSize) (r : PGM)
    (h : ReadPGM (joinLines ls ++ post) = some r)
    (hN : r.magicNumber = magicP5 → r.width * r.height ≤ (post.length : Int)) :
    ReadPGM (joinLines ls ++ (c ++ [10]) ++ post) = some r := by
  unfold ReadPGM at h ⊢
  cases hr : runLines (PGM.readLine (joinLines ls ++ post))
      ({ data := [], width := 0, height := 0, magicNumber := [], max := 0 }, 0)
      (scanLines (joinLines ls ++ post)) with
  | none => rw [hr] at h; exact absurd h (by simp)
  | some st =>
    rw [hr] at h
    simp only [Option.map_some', Option.some.injEq] at h
    subst h
    have hT := runLines_transfer (PGM.readLine (joinLines ls ++ post))
      (PGM.readLine (joinLines ls ++ (c ++ [10]) ++ post))
      (fun s => s.1.magicNumber = magicP5 → s.1.width * s.1.height ≤ (post.length : Int))
      (fun s t s1 => (PGM_readLine_suffix (joinLines ls) (joinLines ls ++ (c ++ [10])) post
        s t).1 s1)
      (fun s t s1 => (PGM_readLine_suffix (joinLines ls) (joinLines ls ++ (c ++ [10])) post
        s t).2 s1)
      _ _ st hr hN
    have hskip : ∀ s, PGM.readLine (joinLines ls ++ (c ++ [10]) ++ post) s (dropCR c) =
        .next s := by
      intro s
      simp only [PGM.readLine, startsWithHash_dropCR c hc, if_true]
    obtain ⟨L, hL⟩ := scanLines_joinLines ls hls
    rcases hL with hL | hL
    · rw [hL] at hT
      rw [append_comment, hL, scanLines_line_gen c post hc10, if_pos hlen,
        ← append_comment, runLines_insert_skipped _ _ hskip, hT]
      rfl
    · rw [hL] at hT
      rw [append_comment, hL, ← append_comment, hT]
      rfl

/-- A comment line of less than 64 KiB at a line boundary does not change what `ReadPPM`
returns, if a `P6` raster gets its bytes from behind the comment. -/
theorem ReadPPM_comment (ls : List (List Nat)) (c post : List Nat)
    (hls : ∀ l ∈ ls, 10 ∉ l) (hc : startsWithHash c = true) (hc10 : 10 ∉ c)
    (hlen : c.length < MaxScanTokenSize) (r : PPM)
    (h : ReadPPM (joinLines ls ++ post) = some r)
    (hN : r.magicNumber = magicP6 → r.width * r.height * 3 ≤ (post.length : Int)) :
    ReadPPM (joinLines ls ++ (c ++ [10]) ++ post) = some r := by
  unfold ReadPPM at h ⊢
  cases hr : runLines (PPM.readLine (joinLines ls ++ post))
      ({ data := [], width := 0, height := 0, magicNumber := [], max := 0 }, 0)
      (scanLines (joinLines ls ++ post)) with
  | none => rw [hr] at h; exact absurd h (by simp)
  | some st =>
    rw [hr] at h
    simp only [Option.map_some', Option.some.injEq] at h
    subst h
    have hT := runLines_transfer (PPM.readLine (joinLines ls ++ post))
      (PPM.readLine (joinLines ls ++ (c ++ [10]) ++ post))
      (fun s => s.1.magicNumber = magicP6 →
        s.1.width * s.1.height * 3 ≤ (post.length : Int))
      (fun s t s1 => (PPM_readLine_suffix (joinLines ls) (joinLines ls ++ (c ++ [10])) post
        s t).1 s1)
      (fun s t s1 => (PPM_readLine_suffix (joinLines ls) (joinLines ls ++ (c ++ [10])) post
        s t).2 s1)
      _ _ st hr hN
    have hskip : ∀ s, PPM.readLine (joinLines ls ++ (c ++ [10]) ++ post) s (dropCR c) =
        .next s := by
      intro s
      simp only [PPM.readLine, startsWithHash_dropCR c hc, if_true]
    obtain ⟨L, hL⟩ := scanLines_joinLines ls hls
    rcases hL with hL | hL
    · rw [hL] at hT
      rw [append_comment, hL, scanLines_line_gen c post hc10, if_pos hlen,
        ← append_comment, runLines_insert_skipped _ _ hskip, hT]
      rfl
    · rw [hL] at hT
      rw [append_comment, hL, ← append_comment, hT]
      rfl

/-- A comment line of less than 64 KiB at a line boundary does not change what `ReadPBM`
returns, if a `P4` raster gets its bytes from behind the comment. -/
theorem ReadPBM_comment (ls : List (List Nat)) (c post : List Nat)
    (hls : ∀ l ∈ ls, 10 ∉ l) (hc : startsWithHash c = true) (hc10 : 10 ∉ c)
    (hlen : c.length < MaxScanTokenSize) (r : PBM)
    (h : ReadPBM (joinLines ls ++ post) = some r)
    (hN : r.magicNumber = magicP4 →
      (r.width + 7).tdiv 8 * r.height ≤ (post.length : Int)) :
    ReadPBM (joinLines ls ++ (c ++ [10]) ++ post) = some r := by
  unfold ReadPBM at h ⊢
  cases hr : runLines (PBM.readLine (joinLines ls ++ post))
      ({ data := [], width := 0, height := 0, magicNumber := [] }, 0)
      (scanLines (joinLines ls ++ post)) with
  | none => rw [hr] at h; exact absurd h (by simp)
  | some st =>
    rw [hr] at h
    simp only [Option.map_some', Option.some.injEq] at h
    subst h
    have hT := runLines_transfer (PBM.readLine (joinLines ls ++ post))
      (PBM.readLine (joinLines ls ++ (c ++ [10]) ++ post))
      (fun s => s.1.magicNumber = magicP4 →
        (s.1.width + 7).tdiv 8 * s.1.height ≤ (post.length : Int))
      (fun s t s1 => (PBM_readLine_suffix (joinLines ls) (joinLines ls ++ (c ++ [10])) post
        s t).1 s1)
      (fun s t s1 => (PBM_readLine_suffix (joinLines ls) (joinLines ls ++ (c ++ [10])) post
        s t).2 s1)
      _ _ st hr hN
    have hskip : ∀ s, PBM.readLine (joinLines ls ++ (c ++ [10]) ++ post) s (dropCR c) =
        .next s := by
      intro s
      simp only [PBM.readLine, startsWithHash_dropCR c hc, or_true, if_true]
    obtain ⟨L, hL⟩ := scanLines_joinLines ls hls
    rcases hL with hL | hL
    · rw [hL] at hT
      rw [append_comment, hL, scanLines_line_gen c post hc10, if_pos hlen,
        ← append_comment, runLines_insert_skipped _ _ hskip, hT]
      rfl
    · rw [hL] at hT
      rw [append_comment, hL, ← append_comment, hT]
      rfl


/-- C23, counterexample: a comment line does change what is decoded in two cases. A comment
line of 64 KiB put before the magic line of the file `P1`, `1 1`, `1` stops the scanner:
`ReadPBM` then returns an empty raster, not the 1 x 1 bitmap. And in a `P5` file whose
pixel bytes are fewer than `width * height`, the comment line `#c` put between the
dimensions line and the `max` line ends up among the last `width * height` bytes of the
file, which change from ` 2\n255\na` to `#c\n255\na`, and with them the raster. -/
theorem comment_skipped_counterexample :
    (startsWithHash longComment = true ∧ 10 ∉ longComment ∧
      ReadPBM tinyP1 = some ⟨[[true]], 1, 1, magicP1⟩ ∧
      ReadPBM (longComment ++ [10] ++ tinyP1) = some ⟨[], 0, 0, []⟩) ∧
    (ReadPGM shortP5 = some ⟨[[32, 50, 10, 50], [53, 53, 10, 97]], 4, 2, magicP5, 255⟩ ∧
      ReadPGM shortP5Commented =
        some ⟨[[35, 99, 10, 50], [53, 53, 10, 97]], 4, 2, magicP5, 255⟩) := by
  have h10 : 10 ∉ longComment := by
    intro hmem
    unfold longComment at hmem
    rcases List.mem_cons.1 hmem with e | e
    · exact absurd e (by decide)
    · exact absurd (List.mem_replicate.1 e).2 (by decide)
  have hl : ¬ longComment.length < MaxScanTokenSize := by
    unfold longComment MaxScanTokenSize
    rw [List.length_cons, List.length_replicate]
    omega
  refine ⟨⟨rfl, h10, by decide, ?_⟩, by decide, by decide⟩
  have e : longComment ++ [10] ++ tinyP1 = longComment ++ 10 :: tinyP1 := by
    rw [List.append_assoc]; rfl
  unfold ReadPBM
  rw [e, scanLines_line_gen _ _ h10, if_neg hl]
  rfl

/-- C23, amended: take an input cut at a line boundary into the lines `ls` (each ended by a
newline) and the rest `post`, and a comment line `c` that begins with `#`, holds no newline
and is shorter than 64 KiB. If a decoder returns a raster for the input, it returns exactly
the same raster (magic, width, height, `max` and pixels) for the input with the comment
line inserted at the boundary, provided that a binary raster (`P4`, `P5`, `P6`) is no
larger than `post`: its `ceil(width/8) * height`, `width * height` or `3 * width * height`
bytes, which the decoder takes from the end of the file, then all come after the comment. -/
theorem comment_skipped (ls : List (List Nat)) (c post : List Nat)
    (hls : ∀ l ∈ ls, 10 ∉ l) (hc : startsWithHash c = true) (hc10 : 10 ∉ c)
    (hlen : c.length < MaxScanTokenSize) :
    (∀ r : PBM, ReadPBM (joinLines ls ++ post) = some r →
      (r.magicNumber = magicP4 → (r.width + 7).tdiv 8 * r.height ≤ (post.length : Int)) →
      ReadPBM (joinLines ls ++ (c ++ [10]) ++ post) = some r) ∧
    (∀ r : PGM, ReadPGM (joinLines ls ++ post) = some r →
      (r.magicNumber = magicP5 → r.width * r.height ≤ (post.length : Int)) →
      ReadPGM (joinLines ls ++ (c ++ [10]) ++ post) = some r) ∧
    (∀ r : PPM, ReadPPM (joinLines ls ++ post) = some r →
      (r.magicNumber = magicP6 → r.width * r.height * 3 ≤ (post.length : Int)) →
      ReadPPM (joinLines ls ++ (c ++ [10]) ++ post) = some r) :=
  ⟨fun r h hN => ReadPBM_comment ls c post hls hc hc10 hlen r h hN,
    fun r h hN => ReadPGM_comment ls c post hls hc hc10 hlen r h hN,
    fun r h hN => ReadPPM_comment ls c post hls hc hc10 hlen r h hN⟩

theorem comment_skipped_witness :
    joinLines [[80, 49]] ++ [49, 32, 49, 10, 49] = tinyP1 ∧
    ReadPBM (joinLines [[80, 49]] ++ ([35, 99] ++ [10]) ++ [49, 32, 49, 10, 49]) =
      some ⟨[[true]], 1, 1, magicP1⟩ ∧
    ReadPGM (joinLines [[80, 53], [49, 32, 49]] ++ ([35, 99] ++ [10]) ++
      [50, 53, 53, 10, 97]) = some ⟨[[97]], 1, 1, magicP5, 255⟩ :=
  ⟨by decide,
    (comment_skipped [[80, 49]] [35, 99] [49, 32, 49, 10, 49] (by decide) (by decide)
      (by decide) (by decide)).1 ⟨[[true]], 1, 1, magicP1⟩ (by decide) (by decide),
    (comment_skipped [[80, 53], [49, 32, 49]] [35, 99] [50, 53, 53, 10, 97] (by decide)
      (by decide) (by decide) (by decide)).2.1 ⟨[[97]], 1, 1, magicP5, 255⟩ (by decide)
      (by decide)⟩


theorem crossings_even_witness :
    (findIntersections square 1).length % 2 = 0 ∧
    ∃ x1 x2,
      ((findIntersections square 1).insertionSort (fun a b => a ≤ b))[2 * 0]? = some x1 ∧
      ((findIntersections square 1).insertionSort (fun a b => a ≤ b))[2 * 0 + 1]? = some x2 :=
  ⟨(crossings_even square 1).1,
    (crossings_even square 1).2 0 (by set_option maxRecDepth 100000 in decide)⟩

end Netpbm
